import Mathlib

/-!
# Swirly matching engine: shallow embedding of `swirly/lob/Serv.cpp`

The service functions (`createOrder`, `reviseOrder`, `cancelOrder`, `matchOrders`, `newMatch`,
`commitMatches`, ...) are transcribed from `src/swirly/lob/Serv.cpp`.  The classes they call
(`Order`, `Exec`, `Posn`, `MarketSide`, `Market`, `Accnt`, `Response`) have no header under `src/`;
each of their members is modelled from the specification and marked as such.

Conventions of the embedding.

* `Lots`, `Ticks`, `Cost`, `Time` and `JDay` are signed machine integers in the source.  They are
  embedded as `Int`; signed overflow is undefined behaviour in C++ and is not modelled.  Ids are
  embedded as `Nat`.
* A C++ exception is a value of `Thrown`.  An operation returns the state it leaves behind together
  with `Option Thrown`, because a `throw` does not undo the writes made before it.
* The C++ shares one `Order` object between the account's index and the market side.  The embedding
  keeps a copy in each container and applies every write to each copy, located by `(marketId, id)`.
* An `Accnt&` parameter is embedded as the account's symbol, a `Posn` pointer as the key of the
  position inside its account.
* The message queue `mq_` is a function telling whether a batch is accepted; the batches it has
  accepted are recorded in `Serv.journ`.

The definitions come first, the theorems follow; the claims of the specification are the theorems
whose comment starts with the claim's number.
-/

namespace Swirly

abbrev Symbol := String
abbrev Id64 := Nat
abbrev JDay := Int
abbrev Lots := Int
abbrev Ticks := Int
abbrev Cost := Int
abbrev Time := Int

inductive Side where
  | Buy
  | Sell
deriving DecidableEq, Repr

inductive State where
  | None
  | New
  | Revise
  | Cancel
  | Trade
  | Pending
deriving DecidableEq, Repr

inductive LiqInd where
  | None
  | Maker
  | Taker
deriving DecidableEq, Repr

inductive Direct where
  | Paid
  | Given
deriving DecidableEq, Repr

/-- Exception classes thrown by the service (`swirly/fin/Exception.hpp` names). -/
inductive ErrKind where
  | InvalidLots
  | Invalid
  | RefAlreadyExists
  | MarketClosed
  | MarketNotFound
  | OrderNotFound
  | TradeNotFound
  | TooLate
  | AlreadyExists
  | Journal
deriving DecidableEq, Repr

/-- What a `throw` expression raises: `throw E{..}` raises the exception object, `throw new E{..}`
raises a pointer to a heap-allocated exception, which no `catch (const E&)` handler receives.
`assertFailed` stands for a failed `assert`, which aborts the operation. -/
inductive Thrown where
  | value (e : ErrKind)
  | pointer (e : ErrKind)
  | assertFailed
deriving DecidableEq, Repr

/-- The order `Symbol::operator<` of the symbol sets: lexicographic on the characters. -/
def symbolLess (a b : Symbol) : Bool := decide (a.data < b.data)

/-- Modelled from the spec: `cost(lots, ticks) = lots * ticks`. -/
def cost (lots : Lots) (ticks : Ticks) : Cost := lots * ticks

/-! ## Order -/

/-- Modelled from the spec: the fields of an `Order` (§3); `Order.hpp` is not under `src/`. -/
structure Order where
  accnt : Symbol
  marketId : Id64
  instr : Symbol
  settlDay : JDay
  id : Id64
  ref : String
  state : State
  side : Side
  lots : Lots
  ticks : Ticks
  resdLots : Lots
  execLots : Lots
  execCost : Cost
  lastLots : Lots
  lastTicks : Ticks
  minLots : Lots
  created : Time
  modified : Time
deriving DecidableEq, Repr

namespace Order

/-- Modelled from the spec: `Order::make`, a new order has state `New`, its whole quantity
residual and nothing executed. -/
def make (accnt : Symbol) (marketId : Id64) (instr : Symbol) (settlDay : JDay) (id : Id64)
    (ref : String) (side : Side) (lots : Lots) (ticks : Ticks) (minLots : Lots)
    (created : Time) : Order :=
  { accnt := accnt, marketId := marketId, instr := instr, settlDay := settlDay, id := id,
    ref := ref, state := State.New, side := side, lots := lots, ticks := ticks,
    resdLots := lots, execLots := 0, execCost := 0, lastLots := 0, lastTicks := 0,
    minLots := minLots, created := created, modified := created }

/-- Modelled from the spec: `Order::done`, an order is done once nothing is left to fill (it is
fully filled, or cancelled, which zeroes the residual). -/
def done (o : Order) : Bool := o.resdLots == 0

/-- Modelled from the spec: `Order::trade(sumLots, sumCost, lastLots, lastTicks, now)`, which
books a fill on the order (§4.2 step 4, and the invariant `lots = resdLots + execLots`). -/
def trade (o : Order) (sumLots : Lots) (sumCost : Cost) (lastLots : Lots) (lastTicks : Ticks)
    (now : Time) : Order :=
  { o with state := State.Trade, resdLots := o.resdLots - sumLots,
           execLots := o.execLots + sumLots, execCost := o.execCost + sumCost,
           lastLots := lastLots, lastTicks := lastTicks, modified := now }

/-- Modelled from the spec: the order write of `reviseOrder(o, newLots, now)` (§4.1):
`delta = o.lots - newLots; o.lots = newLots; o.resdLots -= delta; o.modified = now`. -/
def revise (o : Order) (lots : Lots) (now : Time) : Order :=
  { o with state := State.Revise, lots := lots, resdLots := o.resdLots - (o.lots - lots),
           modified := now }

/-- Modelled from the spec: the order write of `cancelOrder(o, now)` (§4.1):
`o.state = Cancel, o.resdLots = 0, o.modified = now`. -/
def cancel (o : Order) (now : Time) : Order :=
  { o with state := State.Cancel, resdLots := 0, modified := now }

/-- Modelled from the spec: orders are identified by `(marketId, id)` (§3, §4.6). -/
def sameKey (o : Order) (marketId : Id64) (id : Id64) : Bool :=
  o.marketId == marketId && o.id == id

end Order

/-! ## Exec -/

/-- Modelled from the spec: the fields of an `Exec` (§3); `Exec.hpp` is not under `src/`. -/
structure Exec where
  accnt : Symbol
  marketId : Id64
  instr : Symbol
  settlDay : JDay
  id : Id64
  orderId : Id64
  ref : String
  state : State
  side : Side
  lots : Lots
  ticks : Ticks
  resdLots : Lots
  execLots : Lots
  execCost : Cost
  lastLots : Lots
  lastTicks : Ticks
  minLots : Lots
  matchId : Id64
  posnLots : Lots
  posnCost : Cost
  liqInd : LiqInd
  cpty : Symbol
  created : Time
deriving DecidableEq, Repr

namespace Exec

/-- Modelled from the spec: `Exec::revise(lots)`, the post-operation snapshot of a revised
order. -/
def revise (e : Exec) (lots : Lots) : Exec :=
  { e with state := State.Revise, lots := lots, resdLots := e.resdLots - (e.lots - lots) }

/-- Modelled from the spec: `Exec::cancel()`, the post-operation snapshot of a cancelled order. -/
def cancel (e : Exec) : Exec :=
  { e with state := State.Cancel, resdLots := 0 }

/-- Modelled from the spec: `Exec::trade(sumLots, sumCost, lastLots, lastTicks, matchId, liqInd,
cpty)`, the post-operation snapshot of a filled order together with the trade's own fields. -/
def trade (e : Exec) (sumLots : Lots) (sumCost : Cost) (lastLots : Lots) (lastTicks : Ticks)
    (matchId : Id64) (liqInd : LiqInd) (cpty : Symbol) : Exec :=
  { e with state := State.Trade, resdLots := e.resdLots - sumLots,
           execLots := e.execLots + sumLots, execCost := e.execCost + sumCost,
           lastLots := lastLots, lastTicks := lastTicks, matchId := matchId,
           liqInd := liqInd, cpty := cpty }

/-- Modelled from the spec: `Exec::trade(lastLots, lastTicks, matchId, liqInd, cpty)`, a single
fill of `lastLots` at `lastTicks`. -/
def tradeLast (e : Exec) (lastLots : Lots) (lastTicks : Ticks) (matchId : Id64)
    (liqInd : LiqInd) (cpty : Symbol) : Exec :=
  e.trade lastLots (cost lastLots lastTicks) lastLots lastTicks matchId liqInd cpty

/-- Modelled from the spec: `Exec::posn(posnLots, posnCost)`, which stores the position snapshot. -/
def posn (e : Exec) (posnLots : Lots) (posnCost : Cost) : Exec :=
  { e with posnLots := posnLots, posnCost := posnCost }

end Exec

/-- `Serv::Impl::newExec` (Serv.cpp:478). -/
def newExec (order : Order) (id : Id64) (created : Time) : Exec :=
  { accnt := order.accnt, marketId := order.marketId, instr := order.instr,
    settlDay := order.settlDay, id := id, orderId := order.id, ref := order.ref,
    state := order.state, side := order.side, lots := order.lots, ticks := order.ticks,
    resdLots := order.resdLots, execLots := order.execLots, execCost := order.execCost,
    lastLots := order.lastLots, lastTicks := order.lastTicks, minLots := order.minLots,
    matchId := 0, posnLots := 0, posnCost := 0, liqInd := LiqInd.None, cpty := "",
    created := created }

/-- The anonymous-namespace `spread` (Serv.cpp:42). -/
def spread (takerOrder makerOrder : Order) (direct : Direct) : Ticks :=
  if direct = Direct.Paid then makerOrder.ticks - takerOrder.ticks
  else takerOrder.ticks - makerOrder.ticks

/-! ## Posn -/

/-- Modelled from the spec: a position (§3), keyed by `(marketId, instr, settlDay)` inside its
account; `Posn.hpp` is not under `src/`. -/
structure Posn where
  accnt : Symbol
  marketId : Id64
  instr : Symbol
  settlDay : JDay
  netLots : Lots
  netCost : Cost
deriving DecidableEq, Repr

namespace Posn

/-- Modelled from the spec: positions are keyed by `(marketId, instr, settlDay)` (§3). -/
def sameKey (p : Posn) (marketId : Id64) (instr : Symbol) (settlDay : JDay) : Bool :=
  p.marketId == marketId && p.instr == instr && p.settlDay == settlDay

/-- Modelled from the spec: `addTrade(side, lastLots, lastTicks)` adds `+lots, +cost` for a Buy
and subtracts them for a Sell. -/
def addTrade (p : Posn) (side : Side) (lastLots : Lots) (lastTicks : Ticks) : Posn :=
  match side with
  | Side.Buy => { p with netLots := p.netLots + lastLots,
                         netCost := p.netCost + cost lastLots lastTicks }
  | Side.Sell => { p with netLots := p.netLots - lastLots,
                          netCost := p.netCost - cost lastLots lastTicks }

end Posn

/-! ## MarketSide -/

/-- Modelled from the spec: a price level (§3, §4.1) with its aggregate `lots` and `count` and
the FIFO queue of the orders resting at that price. -/
structure Level where
  ticks : Ticks
  lots : Lots
  count : Nat
  queue : List Order
deriving DecidableEq, Repr

/-- Modelled from the spec: one side of the book (§3, §4.1), the levels in price priority. -/
structure MarketSide where
  side : Side
  levels : List Level
deriving DecidableEq, Repr

/-- Modelled from the spec: price priority between levels, bids descending, offers ascending. -/
def priceBefore (side : Side) (a b : Ticks) : Bool :=
  match side with
  | Side.Buy => decide (b < a)
  | Side.Sell => decide (a < b)

namespace MarketSide

/-- Modelled from the spec: `side.orders()`, the resting orders in price-then-arrival order, which
is the order in which `matchOrders` visits them. -/
def orders (s : MarketSide) : List Order :=
  s.levels.flatMap (fun l => l.queue)

/-- Modelled from the spec: the level walk of `insertOrder(o)`: find or allocate the level for
`o.ticks`, append `o` to its FIFO, `level.lots += o.resdLots`, `level.count += 1`. -/
def insertLevels (side : Side) (o : Order) : List Level → List Level
  | [] => [{ ticks := o.ticks, lots := o.resdLots, count := 1, queue := [o] }]
  | l :: ls =>
    if l.ticks = o.ticks then
      { l with lots := l.lots + o.resdLots, count := l.count + 1, queue := l.queue ++ [o] } :: ls
    else if priceBefore side o.ticks l.ticks then
      { ticks := o.ticks, lots := o.resdLots, count := 1, queue := [o] } :: l :: ls
    else l :: insertLevels side o ls

/-- Modelled from the spec: `MarketSide::insertOrder(o)` (§4.1). -/
def insertOrder (s : MarketSide) (o : Order) : MarketSide :=
  { s with levels := insertLevels s.side o s.levels }

/-- Modelled from the spec: the level walk of `removeOrder(o)`: splice `o` out of its level's
FIFO, `level.lots -= o.resdLots`, `level.count -= 1`, and remove the level if it became empty.
The order is located by its id in the level of its price. -/
def removeLevels (o : Order) : List Level → List Level
  | [] => []
  | l :: ls =>
    if l.ticks = o.ticks then
      if l.queue.any (fun x => x.id == o.id) then
        if l.count - 1 = 0 then ls
        else { l with lots := l.lots - o.resdLots, count := l.count - 1,
                      queue := l.queue.filter (fun x => !(x.id == o.id)) } :: ls
      else l :: ls
    else l :: removeLevels o ls

/-- Modelled from the spec: `MarketSide::removeOrder(o)` (§4.1). -/
def removeOrder (s : MarketSide) (o : Order) : MarketSide :=
  { s with levels := removeLevels o s.levels }

/-- Apply a write to the copy of order `id` kept in a FIFO queue. -/
def writeQueue (id : Id64) (f : Order → Order) (q : List Order) : List Order :=
  q.map (fun x => if x.id = id then f x else x)

/-- Modelled from the spec: the level walk of `takeOrder(o, lots, now)`: `o.resdLots -= lots`,
`level.lots -= lots`, and if `o.resdLots == 0` remove `o` and drop the level if empty.  The fill
is booked on the order with `Order.trade` at the order's own price, which keeps
`lots = resdLots + execLots` (§3) and makes a filled maker reach state `Trade` (§8 scenario 1). -/
def takeLevels (o : Order) (lots : Lots) (now : Time) : List Level → List Level
  | [] => []
  | l :: ls =>
    if l.ticks = o.ticks then
      if l.queue.any (fun x => x.id == o.id) then
        if o.resdLots - lots = 0 then
          if l.count - 1 = 0 then ls
          else { l with lots := l.lots - lots, count := l.count - 1,
                        queue := l.queue.filter (fun x => !(x.id == o.id)) } :: ls
        else { l with lots := l.lots - lots,
                      queue := writeQueue o.id
                        (fun x => x.trade lots (cost lots x.ticks) lots x.ticks now) l.queue } :: ls
      else l :: ls
    else l :: takeLevels o lots now ls

/-- Modelled from the spec: `MarketSide::takeOrder(o, lots, now)` (§4.1). -/
def takeOrder (s : MarketSide) (o : Order) (lots : Lots) (now : Time) : MarketSide :=
  { s with levels := takeLevels o lots now s.levels }

/-- Modelled from the spec: the level walk of `reviseOrder(o, newLots, now)`:
`delta = o.lots - newLots; o.lots = newLots; o.resdLots -= delta; level.lots -= delta`. -/
def reviseLevels (o : Order) (lots : Lots) (now : Time) : List Level → List Level
  | [] => []
  | l :: ls =>
    if l.ticks = o.ticks then
      if l.queue.any (fun x => x.id == o.id) then
        { l with lots := l.lots - (o.lots - lots),
                 queue := writeQueue o.id (fun x => x.revise lots now) l.queue } :: ls
      else l :: ls
    else l :: reviseLevels o lots now ls

/-- Modelled from the spec: `MarketSide::reviseOrder(o, newLots, now)` (§4.1). -/
def reviseOrder (s : MarketSide) (o : Order) (lots : Lots) (now : Time) : MarketSide :=
  { s with levels := reviseLevels o lots now s.levels }

/-- Modelled from the spec: `MarketSide::cancelOrder(o, now)` (§4.1), the same as remove, with
the order itself becoming `Order.cancel`; a cancelled order is no longer kept in the side. -/
def cancelOrder (s : MarketSide) (o : Order) (_now : Time) : MarketSide :=
  s.removeOrder o

end MarketSide

/-! ## Market -/

/-- Modelled from the spec: a market (§3): its metadata, the monotonic exec id counter and the
two sides of the book; `Market.hpp` is not under `src/`. -/
structure Market where
  id : Id64
  instr : Symbol
  settlDay : JDay
  state : Nat
  execSeq : Id64
  bidSide : MarketSide
  offerSide : MarketSide
deriving DecidableEq, Repr

namespace Market

/-- Modelled from the spec: `Market::make`, an empty book with its counter at zero. -/
def make (id : Id64) (instr : Symbol) (settlDay : JDay) (state : Nat) : Market :=
  { id := id, instr := instr, settlDay := settlDay, state := state, execSeq := 0,
    bidSide := { side := Side.Buy, levels := [] },
    offerSide := { side := Side.Sell, levels := [] } }

/-- Modelled from the spec: `market.allocId()` returns `++execSeq` (§4.5). -/
def allocId (m : Market) : Id64 × Market :=
  (m.execSeq + 1, { m with execSeq := m.execSeq + 1 })

/-- Modelled from the spec: `Market::insertOrder`, a Buy rests on the bid side and a Sell on the
offer side (§3 invariant 2). -/
def insertOrder (m : Market) (o : Order) : Market :=
  match o.side with
  | Side.Buy => { m with bidSide := m.bidSide.insertOrder o }
  | Side.Sell => { m with offerSide := m.offerSide.insertOrder o }

/-- Modelled from the spec: `Market::removeOrder`, on the side the order rests on. -/
def removeOrder (m : Market) (o : Order) : Market :=
  match o.side with
  | Side.Buy => { m with bidSide := m.bidSide.removeOrder o }
  | Side.Sell => { m with offerSide := m.offerSide.removeOrder o }

/-- Modelled from the spec: `Market::takeOrder`, on the side the order rests on. -/
def takeOrder (m : Market) (o : Order) (lots : Lots) (now : Time) : Market :=
  match o.side with
  | Side.Buy => { m with bidSide := m.bidSide.takeOrder o lots now }
  | Side.Sell => { m with offerSide := m.offerSide.takeOrder o lots now }

/-- Modelled from the spec: `Market::reviseOrder`, on the side the order rests on. -/
def reviseOrder (m : Market) (o : Order) (lots : Lots) (now : Time) : Market :=
  match o.side with
  | Side.Buy => { m with bidSide := m.bidSide.reviseOrder o lots now }
  | Side.Sell => { m with offerSide := m.offerSide.reviseOrder o lots now }

/-- Modelled from the spec: `Market::cancelOrder`, on the side the order rests on. -/
def cancelOrder (m : Market) (o : Order) (now : Time) : Market :=
  match o.side with
  | Side.Buy => { m with bidSide := m.bidSide.cancelOrder o now }
  | Side.Sell => { m with offerSide := m.offerSide.cancelOrder o now }

end Market

/-! ## Accnt -/

/-- Modelled from the spec: an account (§3, §4.6) with its four indices: live orders keyed by
`(marketId, id)` and by `ref`, the exec ring (front = newest, at most `maxExecs`), the trades and
the positions; `Accnt.hpp` is not under `src/`. -/
structure Accnt where
  symbol : Symbol
  maxExecs : Nat
  orders : List Order
  refIdx : List Order
  execs : List Exec
  trades : List Exec
  posns : List Posn
deriving DecidableEq, Repr

namespace Accnt

/-- Modelled from the spec: `Accnt::make(symbol, maxExecs)`, an empty account. -/
def make (symbol : Symbol) (maxExecs : Nat) : Accnt :=
  { symbol := symbol, maxExecs := maxExecs, orders := [], refIdx := [], execs := [],
    trades := [], posns := [] }

/-- Modelled from the spec: `accnt.exists(ref)`, whether a live order is registered under `ref`
in the ref index. -/
def existsRef (a : Accnt) (ref : String) : Bool :=
  a.refIdx.any (fun o => o.ref == ref)

/-- Modelled from the spec: `accnt.order(marketId, id)`, the live order under that key, or
`OrderNotFound` on a lookup miss (§7). -/
def order (a : Accnt) (marketId : Id64) (id : Id64) : Except Thrown Order :=
  match a.orders.find? (fun o => o.sameKey marketId id) with
  | some o => Except.ok o
  | none => Except.error (Thrown.value ErrKind.OrderNotFound)

/-- Modelled from the spec: `accnt.order(ref)`, the live order registered under `ref`, or
`OrderNotFound` on a lookup miss (§7). -/
def orderByRef (a : Accnt) (ref : String) : Except Thrown Order :=
  match a.refIdx.find? (fun o => o.ref == ref) with
  | some o => Except.ok o
  | none => Except.error (Thrown.value ErrKind.OrderNotFound)

/-- Modelled from the spec: insertion into the index keyed by `(marketId, id)` (§4.6); a key is
held at most once, as in the sets of `Set.hpp` and in `OrderRefSet::insert`. -/
def insertById (o : Order) (os : List Order) : List Order :=
  if os.any (fun x => x.sameKey o.marketId o.id) then os else os ++ [o]

/-- `OrderRefSet::insert` (Order.cpp:123): the order is linked only if no order with the same
ref is in the set. -/
def insertByRef (o : Order) (os : List Order) : List Order :=
  if os.any (fun x => x.ref == o.ref) then os else os ++ [o]

/-- Modelled from the spec: `accnt.insertOrder(order)`: the order enters the index by id, and
the ref index unless its ref is empty (§8: an empty ref does not register in the ref index). -/
def insertOrder (a : Accnt) (o : Order) : Accnt :=
  { a with orders := insertById o a.orders,
           refIdx := if o.ref.isEmpty then a.refIdx else insertByRef o a.refIdx }

/-- Modelled from the spec: `accnt.removeOrder(order)`: the order leaves both indices (an order
with an empty ref is in the index by id only). -/
def removeOrder (a : Accnt) (o : Order) : Accnt :=
  { a with orders := a.orders.filter (fun x => !(x.sameKey o.marketId o.id)),
           refIdx := a.refIdx.filter (fun x => !(x.sameKey o.marketId o.id)) }

/-- A write through an `Order&` that is also held by the account: it is applied to the copies
under the order's key in both indices. -/
def writeOrder (a : Accnt) (marketId : Id64) (id : Id64) (f : Order → Order) : Accnt :=
  { a with orders := a.orders.map (fun x => if x.sameKey marketId id then f x else x),
           refIdx := a.refIdx.map (fun x => if x.sameKey marketId id then f x else x) }

/-- Modelled from the spec: `pushExecFront` puts the exec at the front of the ring and evicts
from the back when the ring is full (§4.6). -/
def pushExecFront (a : Accnt) (e : Exec) : Accnt :=
  { a with execs := (e :: a.execs).take a.maxExecs }

/-- Modelled from the spec: `accnt.insertTrade(exec)`, the trade index keyed by
`(marketId, id)`. -/
def insertTrade (a : Accnt) (e : Exec) : Accnt :=
  { a with trades :=
      if a.trades.any (fun x => x.marketId == e.marketId && x.id == e.id) then a.trades
      else a.trades ++ [e] }

/-- Modelled from the spec: `accnt.posn(marketId, instr, settlDay)` creates the position lazily,
with zero net lots and cost, when the key is not yet present (§4.6). -/
def posn (a : Accnt) (marketId : Id64) (instr : Symbol) (settlDay : JDay) : Accnt :=
  if a.posns.any (fun p => p.sameKey marketId instr settlDay) then a
  else { a with posns := a.posns ++ [{ accnt := a.symbol, marketId := marketId, instr := instr,
                                       settlDay := settlDay, netLots := 0, netCost := 0 }] }

/-- Read through a `Posn` pointer: the position under the key. -/
def findPosn (a : Accnt) (marketId : Id64) (instr : Symbol) (settlDay : JDay) : Option Posn :=
  a.posns.find? (fun p => p.sameKey marketId instr settlDay)

/-- Write through a `Posn` pointer: `posn->addTrade(side, lastLots, lastTicks)`. -/
def addTrade (a : Accnt) (marketId : Id64) (instr : Symbol) (settlDay : JDay) (side : Side)
    (lastLots : Lots) (lastTicks : Ticks) : Accnt :=
  { a with posns := a.posns.map (fun p =>
      if p.sameKey marketId instr settlDay then p.addTrade side lastLots lastTicks else p) }

end Accnt

/-! ## Match, Response, Serv -/

/-- Modelled from the spec: the `Match` record `{lots, makerOrder, makerExec, makerPosn,
takerExec}` (§4.2 step 5); `Match.hxx` is not under `src/`.  The maker's position pointer is the
position of `makerOrder.accnt` under the market's key. -/
structure Match where
  lots : Lots
  makerOrder : Order
  makerTrade : Exec
  takerTrade : Exec
deriving DecidableEq, Repr

/-- Modelled from the spec: the response handed back to the caller: the market, the orders and
execs the operation touched and the caller's position; `Response.hpp` is not under `src/`. -/
structure Response where
  market : Option Id64
  orders : List Order
  execs : List Exec
  posn : Option (Id64 × Symbol × JDay)
deriving DecidableEq, Repr

namespace Response

/-- Modelled from the spec: a fresh response. -/
def empty : Response := { market := none, orders := [], execs := [], posn := none }

/-- Modelled from the spec: `resp.insertOrder(order)` appends to the response's order list. -/
def insertOrder (r : Response) (o : Order) : Response := { r with orders := r.orders ++ [o] }

/-- Modelled from the spec: `resp.insertExec(exec)` appends to the response's exec list. -/
def insertExec (r : Response) (e : Exec) : Response := { r with execs := r.execs ++ [e] }

/-- Modelled from the spec: `resp.setMarket(&market)`; the pointer is the market's id. -/
def setMarket (r : Response) (id : Id64) : Response := { r with market := some id }

/-- Modelled from the spec: `resp.setPosn(posn)`; the pointer is the position's key. -/
def setPosn (r : Response) (k : Id64 × Symbol × JDay) : Response := { r with posn := some k }

end Response

/-- The members of `Serv::Impl` (Serv.cpp:704): the set of markets, the set of accounts and the
two scratch buffers `matches_` and `execs_`.  `journ` records the batches the message queue `mq_` has accepted. -/
structure Serv where
  maxExecs : Nat
  markets : List Market
  accnts : List Accnt
  matches_ : List Match
  execs_ : List Exec
  journ : List (List Exec)
deriving DecidableEq, Repr

/-- The message queue `mq_`: whether it accepts a batch of execs (`true`) or `createExec` throws. -/
abbrev MsgQueue := List Exec → Bool

namespace Serv

/-- The lookup `accnts_.find(symbol)` (`SymbolSet::find`, Set.hpp:189): the account with that
symbol, if any. -/
def findAccnt (s : Serv) (symbol : Symbol) : Option Accnt :=
  s.accnts.find? (fun a => a.symbol == symbol)

/-- A write through an `Accnt&`: it is applied to the account with that symbol. -/
def writeAccnt (s : Serv) (symbol : Symbol) (f : Accnt → Accnt) : Serv :=
  { s with accnts := s.accnts.map (fun a => if a.symbol = symbol then f a else a) }

/-- `SymbolSet::findHint` followed by `insertHint` (Set.hpp:194, 223), as `Serv::Impl::accnt`
uses them on the set kept in symbol order: `lower_bound` skips the accounts whose symbol is less
than `symbol`; the account it stops at is the one looked for unless `symbol` is less than its
symbol, in which case, as at the end of the set, a new empty account is linked at that place. -/
def accntInsert (symbol : Symbol) (maxExecs : Nat) : List Accnt → List Accnt
  | [] => [Accnt.make symbol maxExecs]
  | a :: l =>
    if symbolLess a.symbol symbol then a :: accntInsert symbol maxExecs l
    else if symbolLess symbol a.symbol then Accnt.make symbol maxExecs :: a :: l
    else a :: l

/-- `Serv::Impl::accnt(symbol)` (Serv.cpp:140): a missing account is created empty. -/
def accnt (s : Serv) (symbol : Symbol) : Serv :=
  { s with accnts := accntInsert symbol s.maxExecs s.accnts }

/-- `Serv::Impl::market(id)` (Serv.cpp:129), with `IdSet::find` (Set.hpp:86) returning the market
with that id, if any. -/
def market (s : Serv) (id : Id64) : Except Thrown Market :=
  match s.markets.find? (fun m => m.id == id) with
  | some m => Except.ok m
  | none => Except.error (Thrown.value ErrKind.MarketNotFound)

end Serv

/-- What an operation of the service leaves behind: the service members, the market it was given
by reference, the response, and the exception it raised, if any. -/
structure Outcome where
  serv : Serv
  market : Market
  resp : Response
  thrown : Option Thrown
deriving DecidableEq, Repr

/-! ## Matching -/

/-- `Serv::Impl::newMatch` (Serv.cpp:516).  Two exec ids are allocated, the maker's position is
created if missing, and the pair of trade execs is built; the result is the `Match` together with
the service and the market as the call leaves them.  `accnts_.find` is asserted to succeed; the
write through it changes nothing when the maker's account is missing. -/
def newMatch (s : Serv) (market : Market) (takerOrder makerOrder : Order) (lots sumLots : Lots)
    (sumCost : Cost) (created : Time) : Match × Serv × Market :=
  let a1 := market.allocId
  let makerId := a1.1
  let a2 := a1.2.allocId
  let takerId := a2.1
  let market2 := a2.2
  let s2 := s.writeAccnt makerOrder.accnt
    (fun a => a.posn market2.id market2.instr market2.settlDay)
  let ticks := makerOrder.ticks
  let makerTrade := (newExec makerOrder makerId created).tradeLast lots ticks takerId
    LiqInd.Maker takerOrder.accnt
  let takerTrade := (newExec takerOrder takerId created).trade sumLots sumCost lots ticks makerId
    LiqInd.Taker makerOrder.accnt
  ({ lots := lots, makerOrder := makerOrder, makerTrade := makerTrade,
     takerTrade := takerTrade }, s2, market2)

/-- The variables live across the `for` loop of `matchOrders`. -/
structure MatchLoop where
  serv : Serv
  market : Market
  resp : Response
  sumLots : Lots
  sumCost : Cost
  lastLots : Lots
  lastTicks : Ticks
deriving DecidableEq, Repr

/-- The body of the `for` loop of `matchOrders` (Serv.cpp:557-578) for one maker, after the two
`break` tests. -/
def matchStep (takerAccnt : Symbol) (takerOrder : Order) (now : Time) (makerOrder : Order)
    (st : MatchLoop) : MatchLoop :=
  let lots := min (takerOrder.resdLots - st.sumLots) makerOrder.resdLots
  let ticks := makerOrder.ticks
  let sumLots := st.sumLots + lots
  let sumCost := st.sumCost + cost lots ticks
  let nm := newMatch st.serv st.market takerOrder makerOrder lots sumLots sumCost now
  let m := nm.1
  -- Insert order if trade crossed with self.
  let resp1 :=
    if makerOrder.accnt = takerAccnt then
      (st.resp.insertOrder makerOrder).insertExec m.makerTrade
    else st.resp
  let resp2 := resp1.insertExec m.takerTrade
  let s2 := { nm.2.1 with matches_ := nm.2.1.matches_ ++ [m],
                          execs_ := nm.2.1.execs_ ++ [m.makerTrade, m.takerTrade] }
  { serv := s2, market := nm.2.2, resp := resp2, sumLots := sumLots, sumCost := sumCost,
    lastLots := lots, lastTicks := ticks }

/-- The `for (auto& makerOrder : side.orders())` loop of `matchOrders` (Serv.cpp:547), over the
makers still to visit. -/
def matchLoop (takerAccnt : Symbol) (takerOrder : Order) (direct : Direct) (now : Time) :
    List Order → MatchLoop → MatchLoop
  | [], st => st
  | makerOrder :: rest, st =>
    -- Break if order is fully filled.
    if st.sumLots = takerOrder.resdLots then st
    -- Only consider orders while prices cross.
    else if spread takerOrder makerOrder direct > 0 then st
    else matchLoop takerAccnt takerOrder direct now rest
      (matchStep takerAccnt takerOrder now makerOrder st)

/-- What `matchOrders` leaves behind: the service, the market, the response and the taker order,
which is written when there was a match. -/
structure Matched where
  serv : Serv
  market : Market
  resp : Response
  takerOrder : Order
deriving DecidableEq, Repr

/-- `Serv::Impl::matchOrders` on a given side (Serv.cpp:539). -/
def matchOrdersSide (s : Serv) (takerAccnt : Symbol) (market : Market) (takerOrder : Order)
    (side : MarketSide) (direct : Direct) (now : Time) (resp : Response) : Matched :=
  let st := matchLoop takerAccnt takerOrder direct now side.orders
    { serv := s, market := market, resp := resp, sumLots := 0, sumCost := 0, lastLots := 0,
      lastTicks := 0 }
  let takerOrder2 :=
    if !st.serv.matches_.isEmpty then
      takerOrder.trade st.sumLots st.sumCost st.lastLots st.lastTicks now
    else takerOrder
  { serv := st.serv, market := st.market, resp := st.resp, takerOrder := takerOrder2 }

/-- `Serv::Impl::matchOrders` (Serv.cpp:586): a Buy taker lifts the offers, a Sell taker hits the
bids. -/
def matchOrders (s : Serv) (takerAccnt : Symbol) (market : Market) (takerOrder : Order)
    (now : Time) (resp : Response) : Matched :=
  if takerOrder.side = Side.Buy then
    matchOrdersSide s takerAccnt market takerOrder market.offerSide Direct.Paid now resp
  else
    matchOrdersSide s takerAccnt market takerOrder market.bidSide Direct.Given now resp

/-! ## createOrder -/

namespace Response

/-- A write through an `Order` pointer held by the response. -/
def writeOrder (r : Response) (marketId : Id64) (id : Id64) (f : Order → Order) : Response :=
  { r with orders := r.orders.map (fun x => if x.sameKey marketId id then f x else x) }

/-- A write through an `Exec` pointer held by the response. -/
def writeExec (r : Response) (marketId : Id64) (id : Id64) (f : Exec → Exec) : Response :=
  { r with execs := r.execs.map (fun x => if x.marketId = marketId ∧ x.id = id then f x else x) }

end Response

namespace Serv

/-- A read through an `Accnt&`; callers obtain the reference from `Serv.accnt`, which creates a
missing account empty. -/
def getAccnt (s : Serv) (symbol : Symbol) : Accnt :=
  (s.findAccnt symbol).getD (Accnt.make symbol s.maxExecs)

/-- Net lots read through a `Posn` pointer into account `symbol` (`posn->netLots()`). -/
def posnLots (s : Serv) (symbol : Symbol) (market : Market) : Lots :=
  match (s.getAccnt symbol).findPosn market.id market.instr market.settlDay with
  | some p => p.netLots
  | none => 0

/-- Net cost read through a `Posn` pointer into account `symbol` (`posn->netCost()`). -/
def posnCost (s : Serv) (symbol : Symbol) (market : Market) : Cost :=
  match (s.getAccnt symbol).findPosn market.id market.instr market.settlDay with
  | some p => p.netCost
  | none => 0

end Serv

/-- What `commitMatches` leaves behind; the response is carried along because it holds pointers to
the orders and execs that the commit writes. -/
structure Committed where
  serv : Serv
  market : Market
  resp : Response
deriving DecidableEq, Repr

/-- The body of the loop of `commitMatches` (Serv.cpp:609) for one match. -/
def commitMatch (takerAccnt : Symbol) (now : Time) (m : Match) (c : Committed) : Committed :=
  let makerOrder := m.makerOrder
  -- Reduce maker.
  let market1 := c.market.takeOrder makerOrder m.lots now
  let fill : Order → Order := fun x => x.trade m.lots (cost m.lots x.ticks) m.lots x.ticks now
  let makerAfter := fill makerOrder
  let resp1 := c.resp.writeOrder makerOrder.marketId makerOrder.id fill
  let s1 := c.serv.writeAccnt makerOrder.accnt
    (fun a => a.writeOrder makerOrder.marketId makerOrder.id fill)
  -- Update maker position.
  let makerTrade := m.makerTrade.posn (s1.posnLots makerOrder.accnt market1)
    (s1.posnCost makerOrder.accnt market1)
  let resp2 := resp1.writeExec makerTrade.marketId makerTrade.id (fun _ => makerTrade)
  let s2 := s1.writeAccnt makerOrder.accnt
    (fun a => a.addTrade market1.id market1.instr market1.settlDay makerTrade.side
      makerTrade.lastLots makerTrade.lastTicks)
  -- Update maker account.
  let s3 := s2.writeAccnt makerOrder.accnt
    (fun a => (a.pushExecFront makerTrade).insertTrade makerTrade)
  let s4 := if makerAfter.done then s3.writeAccnt makerOrder.accnt
    (fun a => a.removeOrder makerAfter) else s3
  -- Update taker position.
  let takerTrade := m.takerTrade.posn (s4.posnLots takerAccnt market1)
    (s4.posnCost takerAccnt market1)
  let resp3 := resp2.writeExec takerTrade.marketId takerTrade.id (fun _ => takerTrade)
  let s5 := s4.writeAccnt takerAccnt
    (fun a => a.addTrade market1.id market1.instr market1.settlDay takerTrade.side
      takerTrade.lastLots takerTrade.lastTicks)
  -- Update taker account.
  let s6 := s5.writeAccnt takerAccnt
    (fun a => (a.pushExecFront takerTrade).insertTrade takerTrade)
  { serv := s6, market := market1, resp := resp3 }

/-- `Serv::Impl::commitMatches` (Serv.cpp:607): the loop over `matches_`. -/
def commitMatches (takerAccnt : Symbol) (now : Time) : List Match → Committed → Committed
  | [], c => c
  | m :: ms, c => commitMatches takerAccnt now ms (commitMatch takerAccnt now m c)

/-- The state of `createOrder` when it reaches the journal call. -/
structure Reserved where
  serv : Serv
  market : Market
  resp : Response
  order : Order
  exec : Exec
deriving DecidableEq, Repr

/-- The reserve phase of `createOrder` (Serv.cpp:201-233), from the id allocation to the
insertion of the incomplete order in the market. -/
def createOrderReserve (s : Serv) (accnt : Symbol) (market : Market) (ref : String)
    (side : Side) (lots : Lots) (ticks : Ticks) (minLots : Lots) (now : Time)
    (resp : Response) : Reserved :=
  let al := market.allocId
  let id := al.1
  let market1 := al.2
  let order := Order.make accnt market1.id market1.instr market1.settlDay id ref side lots
    ticks minLots now
  let exec := newExec order id now
  let resp1 := (resp.insertOrder order).insertExec exec
  let s1 := { s with execs_ := s.execs_ ++ [exec] }
  -- Order fields are updated on match.
  let mo := matchOrders s1 accnt market1 order now resp1
  let order2 := mo.takerOrder
  let resp2 := (mo.resp.writeOrder order.marketId order.id (fun _ => order2)).setMarket
    mo.market.id
  let matched := !mo.serv.matches_.isEmpty
  -- N.B. before commit phase, because this may fail.
  let s2 := if matched then
      mo.serv.writeAccnt accnt
        (fun a => a.posn mo.market.id mo.market.instr mo.market.settlDay)
    else mo.serv
  let resp3 := if matched then
      resp2.setPosn (mo.market.id, mo.market.instr, mo.market.settlDay)
    else resp2
  -- Place incomplete order in market.
  let market2 := if !order2.done then mo.market.insertOrder order2 else mo.market
  { serv := s2, market := market2, resp := resp3, order := order2, exec := exec }

/-- The commit phase of `createOrder` (Serv.cpp:251-262), after the journal accepted the batch. -/
def createOrderCommit (accnt : Symbol) (now : Time) (r : Reserved) : Committed :=
  let s3 := { r.serv with journ := r.serv.journ ++ [r.serv.execs_] }
  let s4 := if !r.order.done then s3.writeAccnt accnt (fun a => a.insertOrder r.order) else s3
  let s5 := s4.writeAccnt accnt (fun a => a.pushExecFront r.exec)
  -- Commit matches.
  if !r.serv.matches_.isEmpty then
    commitMatches accnt now s5.matches_ { serv := s5, market := r.market, resp := r.resp }
  else { serv := s5, market := r.market, resp := r.resp }

/-- `Serv::Impl::createOrder` (Serv.cpp:183).  `busDay` is the member `busDay_`, whose class
`BusinessDay` is not under `src/`; `mq` is the message queue `mq_`.  The scoped guard clears
`matches_` and `execs_` on every exit after it is set up. -/
def createOrder (mq : MsgQueue) (busDay : Time → JDay) (s : Serv) (accnt : Symbol)
    (market : Market) (ref : String) (side : Side) (lots : Lots) (ticks : Ticks)
    (minLots : Lots) (now : Time) (resp : Response) : Outcome :=
  if !ref.isEmpty && (s.getAccnt accnt).existsRef ref then
    { serv := s, market := market, resp := resp,
      thrown := some (Thrown.value ErrKind.RefAlreadyExists) }
  else if market.settlDay ≠ 0 ∧ market.settlDay < busDay now then
    { serv := s, market := market, resp := resp,
      thrown := some (Thrown.value ErrKind.MarketClosed) }
  else if lots = 0 ∨ lots < minLots then
    { serv := s, market := market, resp := resp,
      thrown := some (Thrown.value ErrKind.InvalidLots) }
  else
    let r := createOrderReserve s accnt market ref side lots ticks minLots now resp
    if mq r.serv.execs_ then
      let cm := createOrderCommit accnt now r
      { serv := { cm.serv with matches_ := [], execs_ := [] }, market := cm.market,
        resp := cm.resp, thrown := none }
    else
      -- Undo market insertion.
      let market3 := if !r.order.done then r.market.removeOrder r.order else r.market
      { serv := { r.serv with matches_ := [], execs_ := [] }, market := market3,
        resp := r.resp, thrown := some (Thrown.value ErrKind.Journal) }

/-! ## reviseOrder and cancelOrder -/

/-- `Serv::Impl::doReviseOrder` (Serv.cpp:650). -/
def doReviseOrder (mq : MsgQueue) (s : Serv) (accnt : Symbol) (market : Market) (order : Order)
    (lots : Lots) (now : Time) (resp : Response) : Outcome :=
  -- Revised lots must not be:
  -- 1. greater than original lots;
  -- 2. less than executed lots;
  -- 3. less than min lots.
  if lots = 0 ∨ lots > order.lots ∨ lots < order.execLots ∨ lots < order.minLots then
    { serv := s, market := market, resp := resp,
      thrown := some (Thrown.pointer ErrKind.InvalidLots) }
  else
    let al := market.allocId
    let exec := (newExec order al.1 now).revise lots
    let resp1 := (((resp.setMarket al.2.id).insertOrder order).insertExec exec)
    if mq [exec] then
      let s1 := { s with journ := s.journ ++ [[exec]] }
      -- Commit phase.
      let market1 := al.2.reviseOrder order lots now
      let s2 := s1.writeAccnt accnt
        (fun a => a.writeOrder order.marketId order.id (fun x => x.revise lots now))
      let resp2 := resp1.writeOrder order.marketId order.id (fun x => x.revise lots now)
      let s3 := s2.writeAccnt accnt (fun a => a.pushExecFront exec)
      { serv := s3, market := market1, resp := resp2, thrown := none }
    else
      { serv := s, market := al.2, resp := resp1,
        thrown := some (Thrown.value ErrKind.Journal) }

/-- `Serv::Impl::doCancelOrder` (Serv.cpp:677). -/
def doCancelOrder (mq : MsgQueue) (s : Serv) (accnt : Symbol) (market : Market) (order : Order)
    (now : Time) (resp : Response) : Outcome :=
  let al := market.allocId
  let exec := (newExec order al.1 now).cancel
  let resp1 := (((resp.setMarket al.2.id).insertOrder order).insertExec exec)
  if mq [exec] then
    let s1 := { s with journ := s.journ ++ [[exec]] }
    -- Commit phase.
    let market1 := al.2.cancelOrder order now
    let resp2 := resp1.writeOrder order.marketId order.id (fun x => x.cancel now)
    let s2 := s1.writeAccnt accnt (fun a => a.removeOrder order)
    let s3 := s2.writeAccnt accnt (fun a => a.pushExecFront exec)
    { serv := s3, market := market1, resp := resp2, thrown := none }
  else
    { serv := s, market := al.2, resp := resp1, thrown := some (Thrown.value ErrKind.Journal) }

/-- `Serv::Impl::reviseOrder(accnt, market, Order& order, lots, now, resp)` (Serv.cpp:265). -/
def reviseOrder (mq : MsgQueue) (s : Serv) (accnt : Symbol) (market : Market) (order : Order)
    (lots : Lots) (now : Time) (resp : Response) : Outcome :=
  if order.done then
    { serv := s, market := market, resp := resp, thrown := some (Thrown.value ErrKind.TooLate) }
  else doReviseOrder mq s accnt market order lots now resp

/-- `Serv::Impl::reviseOrder(accnt, market, Id64 id, lots, now, resp)` (Serv.cpp:274). -/
def reviseOrderById (mq : MsgQueue) (s : Serv) (accnt : Symbol) (market : Market) (id : Id64)
    (lots : Lots) (now : Time) (resp : Response) : Outcome :=
  match (s.getAccnt accnt).order market.id id with
  | Except.error e => { serv := s, market := market, resp := resp, thrown := some e }
  | Except.ok order =>
    if order.done then
      { serv := s, market := market, resp := resp,
        thrown := some (Thrown.value ErrKind.TooLate) }
    else doReviseOrder mq s accnt market order lots now resp

/-- `Serv::Impl::reviseOrder(accnt, market, string_view ref, lots, now, resp)` (Serv.cpp:283). -/
def reviseOrderByRef (mq : MsgQueue) (s : Serv) (accnt : Symbol) (market : Market)
    (ref : String) (lots : Lots) (now : Time) (resp : Response) : Outcome :=
  match (s.getAccnt accnt).orderByRef ref with
  | Except.error e => { serv := s, market := market, resp := resp, thrown := some e }
  | Except.ok order =>
    if order.done then
      { serv := s, market := market, resp := resp,
        thrown := some (Thrown.value ErrKind.TooLate) }
    else doReviseOrder mq s accnt market order lots now resp

/-- The first loop of the batch `reviseOrder` (Serv.cpp:297-318): each id is looked up and
checked, and its `Revise` exec is added to the response. -/
def reviseReserveLoop (s : Serv) (accnt : Symbol) (lots : Lots) (now : Time) :
    List Id64 → Market → Response → Outcome
  | [], market, resp => { serv := s, market := market, resp := resp, thrown := none }
  | id :: ids, market, resp =>
    match (s.getAccnt accnt).order market.id id with
    | Except.error e => { serv := s, market := market, resp := resp, thrown := some e }
    | Except.ok order =>
      if order.done then
        { serv := s, market := market, resp := resp,
          thrown := some (Thrown.value ErrKind.TooLate) }
      else if lots = 0 ∨ lots > order.lots ∨ lots < order.execLots ∨ lots < order.minLots then
        { serv := s, market := market, resp := resp,
          thrown := some (Thrown.pointer ErrKind.InvalidLots) }
      else
        let al := market.allocId
        let exec := (newExec order al.1 now).revise lots
        reviseReserveLoop s accnt lots now ids al.2 ((resp.insertOrder order).insertExec exec)

/-- The commit loop of the batch `reviseOrder` (Serv.cpp:324-329). -/
def reviseCommitLoop (accnt : Symbol) (lots : Lots) (now : Time) :
    List Exec → Serv → Market → Response → Outcome
  | [], s, market, resp => { serv := s, market := market, resp := resp, thrown := none }
  | exec :: execs, s, market, resp =>
    match (s.getAccnt accnt).orders.find? (fun o => o.sameKey market.id exec.orderId) with
    | none => { serv := s, market := market, resp := resp, thrown := some Thrown.assertFailed }
    | some order =>
      let market1 := market.reviseOrder order lots now
      let s1 := s.writeAccnt accnt
        (fun a => a.writeOrder order.marketId order.id (fun x => x.revise lots now))
      let resp1 := resp.writeOrder order.marketId order.id (fun x => x.revise lots now)
      let s2 := s1.writeAccnt accnt (fun a => a.pushExecFront exec)
      reviseCommitLoop accnt lots now execs s2 market1 resp1

/-- `Serv::Impl::reviseOrder(accnt, market, ArrayView<Id64> ids, lots, now, resp)`
(Serv.cpp:293). -/
def reviseOrderBatch (mq : MsgQueue) (s : Serv) (accnt : Symbol) (market : Market)
    (ids : List Id64) (lots : Lots) (now : Time) (resp : Response) : Outcome :=
  let r := reviseReserveLoop s accnt lots now ids market (resp.setMarket market.id)
  match r.thrown with
  | some e => { r with thrown := some e }
  | none =>
    if mq r.resp.execs then
      -- Commit phase.
      reviseCommitLoop accnt lots now r.resp.execs
        { s with journ := s.journ ++ [r.resp.execs] } r.market r.resp
    else { r with thrown := some (Thrown.value ErrKind.Journal) }

/-- `Serv::Impl::cancelOrder(accnt, market, Order& order, now, resp)` (Serv.cpp:332). -/
def cancelOrder (mq : MsgQueue) (s : Serv) (accnt : Symbol) (market : Market) (order : Order)
    (now : Time) (resp : Response) : Outcome :=
  if order.done then
    { serv := s, market := market, resp := resp, thrown := some (Thrown.value ErrKind.TooLate) }
  else doCancelOrder mq s accnt market order now resp

/-- `Serv::Impl::cancelOrder(accnt, market, Id64 id, now, resp)` (Serv.cpp:340). -/
def cancelOrderById (mq : MsgQueue) (s : Serv) (accnt : Symbol) (market : Market) (id : Id64)
    (now : Time) (resp : Response) : Outcome :=
  match (s.getAccnt accnt).order market.id id with
  | Except.error e => { serv := s, market := market, resp := resp, thrown := some e }
  | Except.ok order =>
    if order.done then
      { serv := s, market := market, resp := resp,
        thrown := some (Thrown.value ErrKind.TooLate) }
    else doCancelOrder mq s accnt market order now resp

/-- `Serv::Impl::cancelOrder(accnt, market, string_view ref, now, resp)` (Serv.cpp:349). -/
def cancelOrderByRef (mq : MsgQueue) (s : Serv) (accnt : Symbol) (market : Market)
    (ref : String) (now : Time) (resp : Response) : Outcome :=
  match (s.getAccnt accnt).orderByRef ref with
  | Except.error e => { serv := s, market := market, resp := resp, thrown := some e }
  | Except.ok order =>
    if order.done then
      { serv := s, market := market, resp := resp,
        thrown := some (Thrown.value ErrKind.TooLate) }
    else doCancelOrder mq s accnt market order now resp

/-- The first loop of the batch `cancelOrder` (Serv.cpp:361-372). -/
def cancelReserveLoop (s : Serv) (accnt : Symbol) (now : Time) :
    List Id64 → Market → Response → Outcome
  | [], market, resp => { serv := s, market := market, resp := resp, thrown := none }
  | id :: ids, market, resp =>
    match (s.getAccnt accnt).order market.id id with
    | Except.error e => { serv := s, market := market, resp := resp, thrown := some e }
    | Except.ok order =>
      if order.done then
        { serv := s, market := market, resp := resp,
          thrown := some (Thrown.value ErrKind.TooLate) }
      else
        let al := market.allocId
        let exec := (newExec order al.1 now).cancel
        cancelReserveLoop s accnt now ids al.2 ((resp.insertOrder order).insertExec exec)

/-- The commit loop of the batch `cancelOrder` (Serv.cpp:378-384). -/
def cancelCommitLoop (accnt : Symbol) (now : Time) :
    List Exec → Serv → Market → Response → Outcome
  | [], s, market, resp => { serv := s, market := market, resp := resp, thrown := none }
  | exec :: execs, s, market, resp =>
    match (s.getAccnt accnt).orders.find? (fun o => o.sameKey market.id exec.orderId) with
    | none => { serv := s, market := market, resp := resp, thrown := some Thrown.assertFailed }
    | some order =>
      let market1 := market.cancelOrder order now
      let resp1 := resp.writeOrder order.marketId order.id (fun x => x.cancel now)
      let s1 := s.writeAccnt accnt (fun a => a.removeOrder order)
      let s2 := s1.writeAccnt accnt (fun a => a.pushExecFront exec)
      cancelCommitLoop accnt now execs s2 market1 resp1

/-- `Serv::Impl::cancelOrder(accnt, market, ArrayView<Id64> ids, now, resp)` (Serv.cpp:358). -/
def cancelOrderBatch (mq : MsgQueue) (s : Serv) (accnt : Symbol) (market : Market)
    (ids : List Id64) (now : Time) (resp : Response) : Outcome :=
  let r := cancelReserveLoop s accnt now ids market (resp.setMarket market.id)
  match r.thrown with
  | some e => { r with thrown := some e }
  | none =>
    if mq r.resp.execs then
      -- Commit phase.
      cancelCommitLoop accnt now r.resp.execs
        { s with journ := s.journ ++ [r.resp.execs] } r.market r.resp
    else { r with thrown := some (Thrown.value ErrKind.Journal) }

/-! ## The matches of one call, as a list

`matchList` is the list of `Match` records the loop of `matchOrders` appends to `matches_`; it is
only a proof device, shown equal to what `matchLoop` produces in `matchLoop_matches`. -/

/-- The `Match` built by `newMatch` when the market's counter stands at `seq`. -/
def mkMatch (seq : Id64) (takerOrder makerOrder : Order) (lots sumLots : Lots) (sumCost : Cost)
    (created : Time) : Match :=
  { lots := lots, makerOrder := makerOrder,
    makerTrade := (newExec makerOrder (seq + 1) created).tradeLast lots makerOrder.ticks
      (seq + 1 + 1) LiqInd.Maker takerOrder.accnt,
    takerTrade := (newExec takerOrder (seq + 1 + 1) created).trade sumLots sumCost lots
      makerOrder.ticks (seq + 1) LiqInd.Taker makerOrder.accnt }

/-- The matches the loop of `matchOrders` appends, when the counter stands at `seq` and
`sumLots`, `sumCost` have been accumulated so far. -/
def matchList (takerOrder : Order) (direct : Direct) (now : Time) :
    List Order → Id64 → Lots → Cost → List Match
  | [], _, _, _ => []
  | makerOrder :: rest, seq, sumLots, sumCost =>
    if sumLots = takerOrder.resdLots then []
    else if spread takerOrder makerOrder direct > 0 then []
    else
      let lots := min (takerOrder.resdLots - sumLots) makerOrder.resdLots
      mkMatch seq takerOrder makerOrder lots (sumLots + lots)
          (sumCost + cost lots makerOrder.ticks) now ::
        matchList takerOrder direct now rest (seq + 2) (sumLots + lots)
          (sumCost + cost lots makerOrder.ticks)

/-! ## Example states

A spot market `EURUSD` (id 7) and two accounts `A` and `B`, used to instantiate the theorems. -/

/-- A message queue that accepts every batch. -/
def exMq : MsgQueue := fun _ => true

/-- A message queue that rejects every batch. -/
def exMqFail : MsgQueue := fun _ => false

/-- A business day function: every time falls on Julian day 2459000. -/
def exBusDay : Time → JDay := fun _ => 2459000

/-- The empty spot market `EURUSD`, id 7. -/
def exMarket0 : Market := Market.make 7 "EURUSD" 0 0

/-- A service with the accounts `A` and `B`, both empty. -/
def exServ0 : Serv :=
  { maxExecs := 4, markets := [exMarket0], accnts := [Accnt.make "A" 4, Accnt.make "B" 4],
    matches_ := [], execs_ := [], journ := [] }

/-- Account `A` posts Sell 5 @ 100. -/
def exOut1 : Outcome :=
  createOrder exMq exBusDay exServ0 "A" exMarket0 "" Side.Sell 5 100 0 1 Response.empty

/-- Account `A` then posts Sell 5 @ 120. -/
def exOut2 : Outcome :=
  createOrder exMq exBusDay exOut1.serv "A" exOut1.market "" Side.Sell 5 120 0 2 Response.empty

/-- The market of `exOut2` once the id of the next order has been allocated. -/
def exMarket2 : Market := (exOut2.market.allocId).2

/-- The best resting offer of `A`. -/
def exMaker : Order := Order.make "A" 7 "EURUSD" 0 1 "" Side.Sell 5 100 0 1

/-- The order of `B`, Buy 10 @ 110, as `createOrder` builds it before matching. -/
def exTaker : Order := Order.make "B" 7 "EURUSD" 0 3 "r1" Side.Buy 10 110 0 3

/-- The match of `exTaker` against `exMaker`. -/
def exMatch : Match := mkMatch 3 exTaker exMaker 5 5 500 3

/-! ## Well-formedness of a book, and the footprint of a failed `createOrder` -/

/-- Every level of the side holds at least one order (`count ≠ 0`), and every resting order has
an id that the market's counter has already handed out. -/
def MarketSide.Fresh (s : MarketSide) (execSeq : Id64) : Prop :=
  ∀ l ∈ s.levels, l.count ≠ 0 ∧ ∀ x ∈ l.queue, x.id ≤ execSeq

/-- Both sides of the market are `Fresh` with respect to the market's own counter. -/
def Market.Fresh (m : Market) : Prop :=
  m.bidSide.Fresh m.execSeq ∧ m.offerSide.Fresh m.execSeq

instance (s : MarketSide) (n : Id64) : Decidable (s.Fresh n) := by
  unfold MarketSide.Fresh; infer_instance

instance (m : Market) : Decidable m.Fresh := by
  unfold Market.Fresh; infer_instance

/-- The zero position `accnt.posn(marketId, instr, settlDay)` creates. -/
def zeroPosn (accnt : Symbol) (marketId : Id64) (instr : Symbol) (settlDay : JDay) : Posn :=
  { accnt := accnt, marketId := marketId, instr := instr, settlDay := settlDay, netLots := 0,
    netCost := 0 }

/-- Account `b` is account `a`, except that it may have gained the zero position under the key
`(marketId, instr, settlDay)`. -/
def SameButZeroPosn (marketId : Id64) (instr : Symbol) (settlDay : JDay) (a b : Accnt) : Prop :=
  b.symbol = a.symbol ∧ b.maxExecs = a.maxExecs ∧ b.orders = a.orders ∧ b.refIdx = a.refIdx
  ∧ b.execs = a.execs ∧ b.trades = a.trades
  ∧ (b.posns = a.posns
     ∨ ((a.posns.any (fun p => p.sameKey marketId instr settlDay)) = false
        ∧ b.posns = a.posns ++ [zeroPosn a.symbol marketId instr settlDay]))

/-- A market whose settlement day 2458999 lies before the business day of `exBusDay`. -/
def exMarketOld : Market := Market.make 8 "EURUSD" 2458999 0

/-- Account `A` posts Sell 3 @ 100 in the empty market. -/
def exOutA : Outcome :=
  createOrder exMq exBusDay exServ0 "A" exMarket0 "" Side.Sell 3 100 0 1 Response.empty

/-- Account `B` then posts Buy 10 @ 100: 3 lots trade and the order (id 2) rests with
`lots = 10`, `execLots = 3`, `resdLots = 7`. -/
def exOutB : Outcome :=
  createOrder exMq exBusDay exOutA.serv "B" exOutA.market "r1" Side.Buy 10 100 0 2
    Response.empty

/-- Account `B` then revises order 2 down to its executed quantity, 3 lots. -/
def exOutC : Outcome :=
  reviseOrderById exMq exOutB.serv "B" exOutB.market 2 3 3 Response.empty

/-- Account `B` then posts Buy 4 @ 90, which rests as order 6. -/
def exOutD : Outcome :=
  createOrder exMq exBusDay exOutC.serv "B" exOutC.market "r2" Side.Buy 4 90 0 4 Response.empty

/-- The order 2 of `B` as it stands after `exOutC`: revised down to its executed quantity, so
done, yet still held in the live-order index. -/
def exDone : Order :=
  { accnt := "B", marketId := 7, instr := "EURUSD", settlDay := 0, id := 2, ref := "r1",
    state := State.Revise, side := Side.Buy, lots := 3, ticks := 100, resdLots := 0,
    execLots := 3, execCost := 300, lastLots := 3, lastTicks := 100, minLots := 0,
    created := 2, modified := 3 }

/-- Scenario 1 of the specification: account `A` posts Sell 10 @ 12345 (order 1) ... -/
def exFill1 : Outcome :=
  createOrder exMq exBusDay exServ0 "A" exMarket0 "ra" Side.Sell 10 12345 0 1 Response.empty

/-- ... and account `B` posts Buy 10 @ 12345 (order 2), which fills both orders completely. -/
def exFill2 : Outcome :=
  createOrder exMq exBusDay exFill1.serv "B" exFill1.market "rb" Side.Buy 10 12345 0 2
    Response.empty

/-! ## Sequences of requests -/

/-- A request to the service: `createOrder`, or one of the overloads of `reviseOrder` and
`cancelOrder` (taking the order, an id, a ref, or a batch of ids). -/
inductive Op where
  | create (accnt : Symbol) (marketId : Id64) (ref : String) (side : Side) (lots : Lots)
      (ticks : Ticks) (minLots : Lots) (now : Time)
  | revise (accnt : Symbol) (marketId : Id64) (order : Order) (lots : Lots) (now : Time)
  | reviseById (accnt : Symbol) (marketId : Id64) (id : Id64) (lots : Lots) (now : Time)
  | reviseByRef (accnt : Symbol) (marketId : Id64) (ref : String) (lots : Lots) (now : Time)
  | reviseBatch (accnt : Symbol) (marketId : Id64) (ids : List Id64) (lots : Lots) (now : Time)
  | cancel (accnt : Symbol) (marketId : Id64) (order : Order) (now : Time)
  | cancelById (accnt : Symbol) (marketId : Id64) (id : Id64) (now : Time)
  | cancelByRef (accnt : Symbol) (marketId : Id64) (ref : String) (now : Time)
  | cancelBatch (accnt : Symbol) (marketId : Id64) (ids : List Id64) (now : Time)
deriving DecidableEq, Repr

namespace Op

/-- The account a request is made for. -/
def accnt : Op → Symbol
  | create a _ _ _ _ _ _ _ => a
  | revise a _ _ _ _ => a
  | reviseById a _ _ _ _ => a
  | reviseByRef a _ _ _ _ => a
  | reviseBatch a _ _ _ _ => a
  | cancel a _ _ _ => a
  | cancelById a _ _ _ => a
  | cancelByRef a _ _ _ => a
  | cancelBatch a _ _ _ => a

/-- The market a request is made on. -/
def marketId : Op → Id64
  | create _ m _ _ _ _ _ _ => m
  | revise _ m _ _ _ => m
  | reviseById _ m _ _ _ => m
  | reviseByRef _ m _ _ _ => m
  | reviseBatch _ m _ _ _ => m
  | cancel _ m _ _ => m
  | cancelById _ m _ _ => m
  | cancelByRef _ m _ _ => m
  | cancelBatch _ m _ _ => m

/-- The service call a request stands for, on the market and account it names. -/
def run (mq : MsgQueue) (busDay : Time → JDay) (s : Serv) (market : Market) : Op → Outcome
  | create a _ ref side lots ticks minLots now =>
    createOrder mq busDay s a market ref side lots ticks minLots now Response.empty
  | revise a _ order lots now => reviseOrder mq s a market order lots now Response.empty
  | reviseById a _ id lots now => reviseOrderById mq s a market id lots now Response.empty
  | reviseByRef a _ ref lots now => reviseOrderByRef mq s a market ref lots now Response.empty
  | reviseBatch a _ ids lots now => reviseOrderBatch mq s a market ids lots now Response.empty
  | cancel a _ order now => cancelOrder mq s a market order now Response.empty
  | cancelById a _ id now => cancelOrderById mq s a market id now Response.empty
  | cancelByRef a _ ref now => cancelOrderByRef mq s a market ref now Response.empty
  | cancelBatch a _ ids now => cancelOrderBatch mq s a market ids now Response.empty

end Op

namespace Serv

/-- The market an operation was given by reference is a member of `markets_`: what the operation
leaves in it is what the set holds afterwards. -/
def storeMarket (s : Serv) (m : Market) : Serv :=
  { s with markets := s.markets.map (fun x => if x.id = m.id then m else x) }

/-- One request as a caller makes it: the market is looked up with `Serv::market(id)`, the
account is obtained with `Serv::accnt(symbol)`, and the operation runs on them.  A request for a
market that does not exist changes nothing. -/
def apply (mq : MsgQueue) (busDay : Time → JDay) (s : Serv) (op : Op) : Serv :=
  match s.market op.marketId with
  | Except.error _ => s
  | Except.ok market =>
    let out := op.run mq busDay (s.accnt op.accnt) market
    out.serv.storeMarket out.market

end Serv

/-- The states the service reaches from an engine without accounts by any sequence of requests,
each with a message queue that may accept or reject. -/
inductive Reachable (busDay : Time → JDay) : Serv → Prop where
  | init (maxExecs : Nat) (markets : List Market) :
      Reachable busDay { maxExecs := maxExecs, markets := markets, accnts := [], matches_ := [],
                         execs_ := [], journ := [] }
  | step (s : Serv) (mq : MsgQueue) (op : Op) :
      Reachable busDay s → Reachable busDay (s.apply mq busDay op)

/-- The ref index of an account is consistent with its live orders: it holds exactly the live
orders with a non-empty ref, and no two of them share a ref. -/
def Accnt.RefOk (a : Accnt) : Prop :=
  a.refIdx = a.orders.filter (fun o => !o.ref.isEmpty)
  ∧ (a.refIdx.map (fun o => o.ref)).Nodup

/-- The account's ref index is consistent and each of its live orders satisfies `P`. -/
def Accnt.Good (P : Order → Prop) (a : Accnt) : Prop :=
  a.RefOk ∧ ∀ o ∈ a.orders, P o

/-- The predicate `P` on orders depends on the key `(marketId, id)` only. -/
def KeyPred (P : Order → Prop) : Prop :=
  ∀ o o2 : Order, o.marketId = o2.marketId → o.id = o2.id → P o → P o2

/-- The id of the order was handed out by the counter of its market, for every market of `ms`
with the order's market id. -/
def Order.Allocated (ms : List Market) (o : Order) : Prop :=
  ∀ m ∈ ms, m.id = o.marketId → o.id ≤ m.execSeq

/-- The invariant behind the uniqueness of refs: the accounts are in strict symbol order, every
ref index is consistent with its live orders, and every live order's id was handed out by its
market. -/
def Serv.RefInv (s : Serv) : Prop :=
  (s.accnts.map (fun a => a.symbol)).Pairwise (fun a b => symbolLess a b = true)
  ∧ ∀ a ∈ s.accnts, a.Good (Order.Allocated s.markets)

/-- A write to an account that keeps its symbol and any property `Good P` of its live orders
and ref index, for `P` depending on order keys only. -/
def Accnt.Neutral (f : Accnt → Accnt) : Prop :=
  ∀ a, (f a).symbol = a.symbol ∧ ∀ P, KeyPred P → a.Good P → (f a).Good P

/-- The service has the accounts `syms` (by symbol, in order) and the markets `ms`, and each of
its accounts is `Good P`. -/
def Serv.Good (P : Order → Prop) (syms : List Symbol) (ms : List Market) (s : Serv) : Prop :=
  s.accnts.map (fun a => a.symbol) = syms ∧ s.markets = ms ∧ ∀ a ∈ s.accnts, a.Good P

/-- An engine with the market `EURUSD` and no account. -/
def exEngine0 : Serv :=
  { maxExecs := 4, markets := [exMarket0], accnts := [], matches_ := [], execs_ := [],
    journ := [] }

/-- The engine after `A` posts Sell 10 @ 100 with ref `ra` and then Sell 5 @ 101 without a
ref. -/
def exEngine2 : Serv :=
  (exEngine0.apply exMq exBusDay (Op.create "A" 7 "ra" Side.Sell 10 100 0 1)).apply exMq
    exBusDay (Op.create "A" 7 "" Side.Sell 5 101 0 2)

/-! ## Market id -/

abbrev Id32 := Nat

/-- Modelled from the spec: `toMarketId(instrId, settlDay)` in the words of §6 ("Market id
encoding"): `marketId = (instrId << 24) | (settlDay & 0x00FFFFFF)`.  The header `MarketId.hpp`
is not under `src/`; only the caller (Serv.cpp:160) and the unit test `MarketId.ut.cpp` are.
The mask keeps the low 24 bits of the day, which for a day held in two's complement is the day
modulo `2 ^ 24`. -/
def toMarketId (instrId : Id32) (settlDay : JDay) : Id64 :=
  (instrId <<< 24) ||| (settlDay % 16777216).toNat

/-- `BOOST_AUTO_TEST_CASE(toMarketIdCase)` (MarketId.ut.cpp:25-29) as a property of an
implementation `f` of `toMarketId`: the test passes when `f(171, 2492719) == 0xabcdef`. -/
def toMarketIdCase (f : Id32 → JDay → Id64) : Prop := f 171 2492719 = 0xabcdef

instance (f : Id32 → JDay → Id64) : Decidable (toMarketIdCase f) := by
  unfold toMarketIdCase; infer_instance

/-- An example of an encoding that passes `toMarketIdCase`: the instrument id above bit 16 and
the day counted from Julian day 2440000 in the low 16 bits.  It is one of many: the single
vector of the test does not determine the encoding. -/
def exPacking16 (instrId : Id32) (settlDay : JDay) : Id64 :=
  (instrId <<< 16) ||| ((settlDay - 2440000) % 65536).toNat

/-! ## Well-formed books -/

/-- The walk shared by `removeLevels`, `takeLevels` and `reviseLevels`: the level at the order's
price is located and, if its queue holds the order's id, the level is dropped (`f` gives `none`)
or rewritten (`f` gives the new level).  A proof device, shown equal to each of the three walks. -/
def MarketSide.walkLevels (o : Order) (f : Level → Option Level) : List Level → List Level
  | [] => []
  | l :: ls =>
    if l.ticks = o.ticks then
      if l.queue.any (fun x => x.id == o.id) then
        match f l with
        | none => ls
        | some l2 => l2 :: ls
      else l :: ls
    else l :: walkLevels o f ls

/-- What `removeLevels` does to the level that holds the order. -/
def MarketSide.dropLevel (o : Order) (l : Level) : Option Level :=
  if l.count - 1 = 0 then none
  else some { l with lots := l.lots - o.resdLots, count := l.count - 1,
                     queue := l.queue.filter (fun x => !(x.id == o.id)) }

/-- What `takeLevels` does to the level that holds the order. -/
def MarketSide.takeLevel (o : Order) (lots : Lots) (now : Time) (l : Level) : Option Level :=
  if o.resdLots - lots = 0 then
    if l.count - 1 = 0 then none
    else some { l with lots := l.lots - lots, count := l.count - 1,
                       queue := l.queue.filter (fun x => !(x.id == o.id)) }
  else some { l with lots := l.lots - lots,
                     queue := MarketSide.writeQueue o.id
                       (fun x => x.trade lots (cost lots x.ticks) lots x.ticks now) l.queue }

/-- What `reviseLevels` does to the level that holds the order. -/
def MarketSide.reviseLevel (o : Order) (lots : Lots) (now : Time) (l : Level) : Option Level :=
  some { l with lots := l.lots - (o.lots - lots),
                queue := MarketSide.writeQueue o.id (fun x => x.revise lots now) l.queue }

/-- The invariant of one price level of a side (§3 invariant 3): the level is not empty, its
`count` is the number of queued orders and its `lots` the sum of their residuals, the queued
orders carry the level's price and the side's side, and they are in arrival order, that is in
the order of the ids the market's counter gave them. -/
def Level.Ok (side : Side) (l : Level) : Prop :=
  l.queue ≠ [] ∧ l.count = l.queue.length
  ∧ l.lots = (l.queue.map (fun o => o.resdLots)).sum
  ∧ (∀ x ∈ l.queue, x.ticks = l.ticks ∧ x.side = side)
  ∧ l.queue.Pairwise (fun x y => x.id < y.id)

/-- The invariant of a side of the book: the levels are in strict price priority (bids
descending, offers ascending) and each of them is `Level.Ok`. -/
def MarketSide.Ok (s : MarketSide) : Prop :=
  s.levels.Pairwise (fun a b => priceBefore s.side a.ticks b.ticks = true)
  ∧ ∀ l ∈ s.levels, l.Ok s.side

/-- The resting orders of a market, bids first. -/
def Market.orders (m : Market) : List Order := m.bidSide.orders ++ m.offerSide.orders

/-- The invariant of a market's book: the bid side holds Buy orders and the offer side Sell
orders, both sides are `MarketSide.Ok`, an id names at most one resting order, and every resting
order carries the market's id, instrument and settlement day and an id the market's counter has
handed out. -/
def Market.Ok (m : Market) : Prop :=
  m.bidSide.side = Side.Buy ∧ m.offerSide.side = Side.Sell
  ∧ m.bidSide.Ok ∧ m.offerSide.Ok
  ∧ (∀ x ∈ m.orders, ∀ y ∈ m.orders, x.id = y.id → x = y)
  ∧ ∀ x ∈ m.orders, x.id ≤ m.execSeq ∧ x.marketId = m.id ∧ x.instr = m.instr
      ∧ x.settlDay = m.settlDay

/-- A rewrite of the levels of the side named by `side`; what the operations of `Market` do on
the side an order rests on.  A proof device. -/
def Market.mapSide (m : Market) (side : Side) (G : List Level → List Level) : Market :=
  match side with
  | Side.Buy => { m with bidSide := { m.bidSide with levels := G m.bidSide.levels } }
  | Side.Sell => { m with offerSide := { m.offerSide with levels := G m.offerSide.levels } }

/-- Coherence of the accounts with the book of the market `m` an operation works on: the book is
well formed, every live order of an account names that account, a live order of this market is
the very order resting in its book (or one of the orders `ex` that have just left the book and
are about to leave the account), and a live order of another market satisfies `Q`. -/
def BookInv (Q : Order → Prop) (ex : List Order) (accnts : List Accnt) (m : Market) : Prop :=
  m.Ok ∧ ∀ a ∈ accnts, ∀ o ∈ a.orders,
    o.accnt = a.symbol ∧ (o.marketId = m.id → o ∈ m.orders ∨ o ∈ ex)
    ∧ (o.marketId ≠ m.id → Q o)

/-- Whether a request names an order of the market it is made on: an `Order&` is one of the
account's live orders and belongs to the market, and a ref resolves to an order of the market.
The overloads taking ids look the order up under the market's id themselves. -/
def Op.valid (s : Serv) (marketId : Id64) : Op → Bool
  | Op.revise a _ order _ _ =>
    decide (order ∈ (s.getAccnt a).orders) && order.marketId == marketId
  | Op.cancel a _ order _ =>
    decide (order ∈ (s.getAccnt a).orders) && order.marketId == marketId
  | Op.reviseByRef a _ ref _ _ =>
    match (s.getAccnt a).orderByRef ref with
    | Except.ok o => o.marketId == marketId
    | Except.error _ => true
  | Op.cancelByRef a _ ref _ =>
    match (s.getAccnt a).orderByRef ref with
    | Except.ok o => o.marketId == marketId
    | Except.error _ => true
  | _ => true

/-! ## createTrade -/

/-- Modelled from the spec: `opposite(side)`, the mirrored side. -/
def Side.opposite : Side → Side
  | Side.Buy => Side.Sell
  | Side.Sell => Side.Buy

/-- Modelled from the spec: `Exec::opposite(id)` (§4.7), the exec of the counter-party of a
manual trade: the mirrored side and the id given; it belongs to the counter-party, whose
counter-party is the account of the original exec. -/
def Exec.opposite (e : Exec) (id : Id64) : Exec :=
  { e with accnt := e.cpty, id := id, side := e.side.opposite, cpty := e.accnt }

/-- `Serv::Impl::newManual` (Serv.cpp:490), the factory of manual trades. -/
def newManual (marketId : Id64) (instr : Symbol) (settlDay : JDay) (id : Id64) (accnt : Symbol)
    (ref : String) (side : Side) (lots : Lots) (ticks : Ticks) (posnLots : Lots)
    (posnCost : Cost) (liqInd : LiqInd) (cpty : Symbol) (created : Time) : Exec :=
  { accnt := accnt, marketId := marketId, instr := instr, settlDay := settlDay, id := id,
    orderId := 0, ref := ref, state := State.Trade, side := side, lots := lots, ticks := ticks,
    resdLots := 0, execLots := lots, execCost := cost lots ticks, lastLots := lots,
    lastTicks := ticks, minLots := 1, matchId := 0, posnLots := posnLots,
    posnCost := posnCost, liqInd := liqInd, cpty := cpty, created := created }

/-- What `createTrade` leaves behind: the service members, the market, the `TradePair` it
returns (the counter-party trade is absent without a counter-party) and the exception raised, if
any. -/
structure TradeOutcome where
  serv : Serv
  market : Market
  trade : Exec
  cptyTrade : Option Exec
  thrown : Option Thrown
deriving DecidableEq, Repr

/-- `Serv::Impl::createTrade` (Serv.cpp:397). -/
def createTrade (mq : MsgQueue) (s : Serv) (accnt : Symbol) (market : Market) (ref : String)
    (side : Side) (lots : Lots) (ticks : Ticks) (liqInd : LiqInd) (cpty : Symbol)
    (created : Time) : TradeOutcome :=
  let s1 := s.writeAccnt accnt (fun a => a.posn market.id market.instr market.settlDay)
  let al := market.allocId
  let trade := newManual market.id market.instr market.settlDay al.1 accnt ref side lots ticks
    (s1.posnLots accnt market) (s1.posnCost accnt market) liqInd cpty created
  if !cpty.isEmpty then
    -- Create back-to-back trade if counter-party is specified.
    let s2 := (s1.accnt cpty).writeAccnt cpty
      (fun a => a.posn market.id market.instr market.settlDay)
    let al2 := al.2.allocId
    let cptyTrade := trade.opposite al2.1
    if mq [trade, cptyTrade] then
      let s3 := { s2 with journ := s2.journ ++ [[trade, cptyTrade]] }
      -- Commit phase.
      let s4 := s3.writeAccnt cpty (fun a => (a.pushExecFront cptyTrade).insertTrade cptyTrade)
      let s5 := s4.writeAccnt cpty
        (fun a => a.addTrade market.id market.instr market.settlDay cptyTrade.side
          cptyTrade.lastLots cptyTrade.lastTicks)
      let s6 := s5.writeAccnt accnt (fun a => (a.pushExecFront trade).insertTrade trade)
      let s7 := s6.writeAccnt accnt
        (fun a => a.addTrade market.id market.instr market.settlDay trade.side trade.lastLots
          trade.lastTicks)
      { serv := s7, market := al2.2, trade := trade, cptyTrade := some cptyTrade,
        thrown := none }
    else
      { serv := s2, market := al2.2, trade := trade, cptyTrade := some cptyTrade,
        thrown := some (Thrown.value ErrKind.Journal) }
  else
    if mq [trade] then
      let s3 := { s1 with journ := s1.journ ++ [[trade]] }
      -- Commit phase.
      let s6 := s3.writeAccnt accnt (fun a => (a.pushExecFront trade).insertTrade trade)
      let s7 := s6.writeAccnt accnt
        (fun a => a.addTrade market.id market.instr market.settlDay trade.side trade.lastLots
          trade.lastTicks)
      { serv := s7, market := al.2, trade := trade, cptyTrade := none, thrown := none }
    else
      { serv := s1, market := al.2, trade := trade, cptyTrade := none,
        thrown := some (Thrown.value ErrKind.Journal) }

/-! ## load -/

/-- Modelled from the spec: `pushExecBack` appends the exec at the back of the ring, whose
capacity is `maxExecs` (§3, §4.6); a full ring evicts at the other end, as `pushExecFront`
does. -/
def Accnt.pushExecBack (a : Accnt) (e : Exec) : Accnt :=
  { a with execs := (a.execs ++ [e]).drop ((a.execs ++ [e]).length - a.maxExecs) }

/-- Modelled from the spec: `accnt.insertPosn(posn)`, the position index keyed by
`(marketId, instr, settlDay)` (§4.6). -/
def Accnt.insertPosn (a : Accnt) (p : Posn) : Accnt :=
  { a with posns :=
      if a.posns.any (fun x => x.sameKey p.marketId p.instr p.settlDay) then a.posns
      else a.posns ++ [p] }

/-- The persisted state `load` reads: the class `Model` is not under `src/`; each `read`
function hands its entities to the callback one by one, in the order of these lists.
`readExec since` are the execs the model gives for the time `since`, `readPosn busDay` the
positions it gives for the business day.  Assets and instruments are reference data that no
operation embedded here reads. -/
structure Model where
  readMarket : List Market
  readOrder : List Order
  readExec : Time → List Exec
  readTrade : List Exec
  readPosn : JDay → List Posn

/-- `IdSet::insert` (Set.hpp:102) on the set of markets, kept in id order: the market is linked
unless a market with its id is present. -/
def marketInsert (m : Market) : List Market → List Market
  | [] => [m]
  | x :: l =>
    if x.id < m.id then x :: marketInsert m l
    else if m.id < x.id then m :: x :: l
    else x :: l

/-- The callback of `readOrder` in `load` (Serv.cpp:75): the order is linked in its account and
in its market, which is asserted to exist. -/
def loadOrder (s : Serv) (o : Order) : Serv × Option Thrown :=
  let s1 := (s.accnt o.accnt).writeAccnt o.accnt (fun a => a.insertOrder o)
  match s1.markets.find? (fun m => m.id == o.marketId) with
  | none => (s1, some Thrown.assertFailed)
  | some m => (s1.storeMarket (m.insertOrder o), none)

/-- The orders of the model, one callback each, until an assertion fails. -/
def loadOrders : List Order → Serv → Serv × Option Thrown
  | [], s => (s, none)
  | o :: os, s =>
    match loadOrder s o with
    | (s1, none) => loadOrders os s1
    | (s1, some e) => (s1, some e)

/-- `Serv::Impl::load` (Serv.cpp:69): markets, live orders, the execs since one week before
`now` (`now - 604800000ms`), trades, and the positions of the business day. -/
def load (busDay : Time → JDay) (model : Model) (now : Time) (s : Serv) :
    Serv × Option Thrown :=
  let s1 := { s with markets := model.readMarket.foldl (fun l m => marketInsert m l) s.markets }
  match loadOrders model.readOrder s1 with
  | (s2, some e) => (s2, some e)
  | (s2, none) =>
    -- One week ago.
    let s3 := (model.readExec (now - 604800000)).foldl
      (fun t e => (t.accnt e.accnt).writeAccnt e.accnt (fun a => a.pushExecBack e)) s2
    let s4 := model.readTrade.foldl
      (fun t e => (t.accnt e.accnt).writeAccnt e.accnt (fun a => a.insertTrade e)) s3
    let s5 := (model.readPosn (busDay now)).foldl
      (fun t p => (t.accnt p.accnt).writeAccnt p.accnt (fun a => a.insertPosn p)) s4
    (s5, none)

/-! ## Requests, and the states they reach -/

/-- A call of the service: one of the order requests `Op`, `createTrade`, or `load`. -/
inductive Request where
  | op (o : Op)
  | trade (accnt : Symbol) (marketId : Id64) (ref : String) (side : Side) (lots : Lots)
      (ticks : Ticks) (liqInd : LiqInd) (cpty : Symbol) (created : Time)
  | load (model : Model) (now : Time)

/-- One call as a caller makes it.  For `createTrade`, as for the order requests, the market is
looked up with `Serv::market(id)` and the account obtained with `Serv::accnt(symbol)`. -/
def Serv.request (mq : MsgQueue) (busDay : Time → JDay) (s : Serv) : Request → Serv
  | Request.op o => s.apply mq busDay o
  | Request.trade a mid ref side lots ticks liqInd cpty created =>
    match s.market mid with
    | Except.error _ => s
    | Except.ok market =>
      let out := createTrade mq (s.accnt a) a market ref side lots ticks liqInd cpty created
      out.serv.storeMarket out.market
  | Request.load model now => (load busDay model now s).1

/-- The states reached from a state satisfying `I` by any sequence of calls, each satisfying `V`
in the state it is made in, each with a message queue that may accept or reject. -/
inductive ReachBy (busDay : Time → JDay) (I : Serv → Prop) (V : Serv → Request → Prop) :
    Serv → Prop where
  | init (s : Serv) : I s → ReachBy busDay I V s
  | step (s : Serv) (mq : MsgQueue) (r : Request) :
      ReachBy busDay I V s → V s r → ReachBy busDay I V (s.request mq busDay r)

/-- A market whose book is empty. -/
def Market.Empty (m : Market) : Prop :=
  m.bidSide = { side := Side.Buy, levels := [] }
  ∧ m.offerSide = { side := Side.Sell, levels := [] }

/-- An engine before any request: markets with empty books, no account, nothing journalled. -/
def Serv.Initial (s : Serv) : Prop :=
  s.accnts = [] ∧ s.matches_ = [] ∧ s.execs_ = [] ∧ s.journ = [] ∧ ∀ m ∈ s.markets, m.Empty

/-- The requests of an engine in operation: the order requests that name an order of their
market (`Op.valid`, in the state where the account has been obtained) and `createTrade`. -/
def Request.valid (s : Serv) : Request → Bool
  | Request.op o => o.valid (s.accnt o.accnt) o.marketId
  | Request.trade _ _ _ _ _ _ _ _ _ => true
  | Request.load _ _ => false

/-- The states an engine in operation reaches from its initial state. -/
def Operating (busDay : Time → JDay) (s : Serv) : Prop :=
  ReachBy busDay Serv.Initial (fun t r => r.valid t = true) s

/-- A property of accounts that a new account has and that every write an operation makes to an
account keeps. -/
def Accnt.Stable (Q : Accnt → Prop) : Prop :=
  (∀ sym n, Q (Accnt.make sym n))
  ∧ ∀ a, Q a →
      (∀ i n d, Q (a.posn i n d)) ∧ (∀ i n d sd l t, Q (a.addTrade i n d sd l t))
      ∧ (∀ e, Q (a.pushExecFront e)) ∧ (∀ e, Q (a.pushExecBack e))
      ∧ (∀ e, Q (a.insertTrade e)) ∧ (∀ p, Q (a.insertPosn p))
      ∧ (∀ o, Q (a.insertOrder o)) ∧ (∀ o, Q (a.removeOrder o))
      ∧ (∀ i j f, Q (a.writeOrder i j f))

/-- Every account of the service satisfies `Q`. -/
def Serv.All (Q : Accnt → Prop) (s : Serv) : Prop := ∀ a ∈ s.accnts, Q a

/-! ## Exec ring -/

/-- The exec ring of the account holds no more execs than its capacity. -/
def Accnt.RingOk (a : Accnt) : Prop := a.execs.length ≤ a.maxExecs

/-- A service as constructed: no account yet. -/
def Serv.NoAccnts (s : Serv) : Prop := s.accnts = []

/-- Any call of the service is allowed, in any state. -/
def anyRequest (_ : Serv) (_ : Request) : Prop := True

/-! ## Cancelling a live order -/

/-- The side of the book that holds the orders of side `sd`. -/
def Market.side (m : Market) (sd : Side) : MarketSide :=
  match sd with
  | Side.Buy => m.bidSide
  | Side.Sell => m.offerSide

/-- The engine after `B` posts Sell 4 @ 100 and `A` posts Buy 10 @ 100: 4 lots trade and the
rest of the order of `A` is resting. -/
def exCross : Serv :=
  (exEngine0.apply exMq exBusDay (Op.create "B" 7 "" Side.Sell 4 100 0 1)).apply exMq
    exBusDay (Op.create "A" 7 "" Side.Buy 10 100 0 2)

/-- The market of `exCross`. -/
def exCrossMarket : Market := exCross.markets.headD exMarket0

/-- The order of `A` in `exCross`: Buy 10 @ 100 with 4 lots traded. -/
def exLive : Order := (exCross.getAccnt "A").orders.headD exTaker

/-! ## Self-cross -/

/-- The engine after `A` posts Sell 3 @ 100. -/
def exSelf1 : Serv := exEngine0.apply exMq exBusDay (Op.create "A" 7 "" Side.Sell 3 100 0 1)

/-- The engine after `A` then posts Buy 5 @ 100, which crosses with the order of `A` itself. -/
def exSelf2 : Serv := exSelf1.apply exMq exBusDay (Op.create "A" 7 "" Side.Buy 5 100 0 2)

/-- The market of `exSelf1`. -/
def exSelfMarket1 : Market := exSelf1.markets.headD exMarket0

/-- The market of `exSelf2`. -/
def exSelfMarket2 : Market := exSelf2.markets.headD exMarket0

/-- The resting Sell 3 @ 100 of `A`. -/
def exSelfMaker : Order := Order.make "A" 7 "EURUSD" 0 1 "" Side.Sell 3 100 0 1

/-- The Buy 5 @ 100 of `A` as `createOrder` builds it before matching. -/
def exSelfTaker : Order := Order.make "A" 7 "EURUSD" 0 2 "" Side.Buy 5 100 0 2

/-- The `Match` that `matchStep` builds for the maker `mk` (Serv.cpp:557-562). -/
def stepMatch (takerOrder : Order) (now : Time) (mk : Order) (st : MatchLoop) : Match :=
  (newMatch st.serv st.market takerOrder mk
    (min (takerOrder.resdLots - st.sumLots) mk.resdLots)
    (st.sumLots + min (takerOrder.resdLots - st.sumLots) mk.resdLots)
    (st.sumCost + cost (min (takerOrder.resdLots - st.sumLots) mk.resdLots) mk.ticks) now).1

/-- The loop variables of `matchOrders` when the order `exSelfTaker` starts matching. -/
def exSelfLoop : MatchLoop :=
  { serv := exSelf1, market := (exSelfMarket1.allocId).2, resp := Response.empty, sumLots := 0,
    sumCost := 0, lastLots := 0, lastTicks := 0 }

/-- The state `commitMatches` starts from in the example. -/
def exSelfCommit : Committed :=
  { serv := exSelf1, market := (exSelfMarket1.allocId).2, resp := Response.empty }

/-! ## createOrder followed by cancelOrder -/

/-- Account `B` cancels the order it created in `exOutB`, of which 7 lots were resting. -/
def exOutCancel : Outcome :=
  cancelOrder exMq exOutB.serv "B" exOutB.market
    ((exOutB.serv.getAccnt "B").orders.headD exTaker) 5 Response.empty

/-- Account `B` posts Buy 4 @ 90 in the market of `exOut1`, below the resting offer of `A`. -/
def exOutBid : Outcome :=
  createOrder exMq exBusDay exOut1.serv "B" exOut1.market "" Side.Buy 4 90 0 2 Response.empty

/-! ## The books of a service -/

/-- What an operation leaves of the service members it does not work on: the set of markets and
the capacity are the same, the scratch buffer `matches_` is clear if it was, and the market
keeps its id. -/
def Outcome.Framed (s : Serv) (market : Market) (out : Outcome) : Prop :=
  out.serv.markets = s.markets ∧ out.serv.maxExecs = s.maxExecs
  ∧ (s.matches_ = [] → out.serv.matches_ = []) ∧ out.market.id = market.id

/-- The ref index of the account holds live orders only. -/
def Accnt.RefSub (a : Accnt) : Prop := ∀ o ∈ a.refIdx, o ∈ a.orders

/-- The scratch buffer is clear and the book of every market is well formed and coherent with
the live orders of the accounts. -/
def Serv.BooksOk (s : Serv) : Prop :=
  s.matches_ = [] ∧ ∀ m ∈ s.markets, BookInv (fun _ => True) [] s.accnts m

/-! ## Positions and committed trades -/

/-- The sign of a side: `+1` for a Buy, `-1` for a Sell. -/
def Side.sign : Side → Int
  | Side.Buy => 1
  | Side.Sell => -1

/-- Whether the exec is a trade of account `sym` under the key `(i, n, d)`. -/
def Exec.isTradeOf (e : Exec) (sym : Symbol) (i : Id64) (n : Symbol) (d : JDay) : Bool :=
  e.state == State.Trade && e.accnt == sym && e.marketId == i && e.instr == n
    && e.settlDay == d

/-- The sum of `W side lastLots lastTicks` over the trade execs of account `sym` under the key
`(i, n, d)` among `es`. -/
def tradeSum (W : Side → Lots → Ticks → Int) (es : List Exec) (sym : Symbol) (i : Id64)
    (n : Symbol) (d : JDay) : Int :=
  ((es.filter (fun e => e.isTradeOf sym i n d)).map
    (fun e => W e.side e.lastLots e.lastTicks)).sum

/-- The signed lots of a trade: `sign(side) * lastLots`. -/
def signedLots (sd : Side) (l : Lots) (_ : Ticks) : Int := sd.sign * l

/-- The signed cost of a trade: `sign(side) * lastLots * lastTicks`. -/
def signedCost (sd : Side) (l : Lots) (t : Ticks) : Int := sd.sign * (l * t)

/-- Whether the account holds a position under the key. -/
def Accnt.hasPosn (a : Accnt) (i : Id64) (n : Symbol) (d : JDay) : Bool :=
  a.posns.any (fun p => p.sameKey i n d)

/-- The value `f` of the account's position under the key, `0` when there is none. -/
def Accnt.net (f : Posn → Int) (a : Accnt) (i : Id64) (n : Symbol) (d : JDay) : Int :=
  match a.findPosn i n d with
  | some p => f p
  | none => 0

/-- The value `f` of a position is a running sum of `W` over the trades booked on it. -/
def Measure (f : Posn → Int) (W : Side → Lots → Ticks → Int) : Prop :=
  (∀ p sd l t, f (Posn.addTrade p sd l t) = f p + W sd l t)
  ∧ ∀ sym i n d, f (zeroPosn sym i n d) = 0

/-- Account `b` is account `a` after the trades of `es` have been booked on its positions. -/
def Accnt.Moved (f : Posn → Int) (W : Side → Lots → Ticks → Int) (es : List Exec)
    (a b : Accnt) : Prop :=
  b.symbol = a.symbol
  ∧ (∀ i n d, a.hasPosn i n d = true → b.hasPosn i n d = true)
  ∧ ∀ i n d, b.net f i n d = a.net f i n d + tradeSum W es a.symbol i n d

/-- Every account of the service with symbol `sym` holds a position under the key. -/
def Serv.HasP (sym : Symbol) (i : Id64) (n : Symbol) (d : JDay) (s : Serv) : Prop :=
  ∀ a ∈ s.accnts, a.symbol = sym → a.hasPosn i n d = true

/-- The exec is a trade of account `sym` under the key `(i, n, d)`. -/
def Exec.TradeOf (e : Exec) (sym : Symbol) (i : Id64) (n : Symbol) (d : JDay) : Prop :=
  e.state = State.Trade ∧ e.accnt = sym ∧ e.marketId = i ∧ e.instr = n ∧ e.settlDay = d

/-- The positions of the service are the running sums of the committed trades: for every
account and key, the value `f` of the position is the sum of `W` over the account's trade execs
under the key in the journal, and every trade exec of the journal belongs to an account of the
service. -/
def Serv.Booked (f : Posn → Int) (W : Side → Lots → Ticks → Int) (s : Serv) : Prop :=
  (∀ a ∈ s.accnts, ∀ i n d, a.net f i n d = tradeSum W s.journ.flatten a.symbol i n d)
  ∧ ∀ e ∈ s.journ.flatten, e.state = State.Trade → ∃ a ∈ s.accnts, a.symbol = e.accnt

/-- Every order resting in a book belongs to an account of the service. -/
def Serv.BookAccts (s : Serv) : Prop :=
  ∀ m ∈ s.markets, ∀ o ∈ m.orders, ∃ a ∈ s.accnts, a.symbol = o.accnt

/-- Whether the call is a `createOrder` or a `createTrade`. -/
def Request.isCreateOrTrade : Request → Bool
  | Request.op (Op.create _ _ _ _ _ _ _ _) => true
  | Request.trade _ _ _ _ _ _ _ _ _ => true
  | _ => false

/-- The states the service reaches from one without accounts, with empty books and an empty
journal, by calls of `createOrder` and `createTrade`, each with a message queue that may accept
or reject. -/
def Trading (busDay : Time → JDay) (s : Serv) : Prop :=
  ReachBy busDay Serv.Initial (fun _ r => r.isCreateOrTrade = true) s

/-- The scratch buffer `execs_` is clear, the resting orders belong to accounts of the service,
and the positions are the running sums of the committed trades. -/
def Serv.TradesOk (f : Posn → Int) (W : Side → Lots → Ticks → Int) (s : Serv) : Prop :=
  s.execs_ = [] ∧ s.BookAccts ∧ s.Booked f W

/-- No two positions of the account have the same key. -/
def Accnt.PosnKeys (a : Accnt) : Prop :=
  a.posns.Pairwise (fun p q => ¬ (q.sameKey p.marketId p.instr p.settlDay = true))

/-! ## Examples for the replay window of `load` -/

/-- A manual trade of `A` created at time 1000. -/
def exOldExec : Exec :=
  newManual 7 "EURUSD" 0 1 "A" "" Side.Buy 5 100 0 0 LiqInd.None "" 1000

/-- A model holding the single exec `exOldExec`; `readExec since` hands out the execs created at
or after `since`. -/
def exWeekModel : Model :=
  { readMarket := [], readOrder := [],
    readExec := fun since => [exOldExec].filter (fun e => decide (since ≤ e.created)),
    readTrade := [], readPosn := fun _ => [] }

/-- A time 606000000 ms after the creation of `exOldExec`: more than 7×24h and less than
608400000 ms later. -/
def exWeekNow : Time := 606001000

/-! ## Examples for the position snapshot of a trade exec -/

/-- Account `A` books a manual trade Buy 5 @ 100 without a counter-party. -/
def exManual : TradeOutcome :=
  createTrade exMq exServ0 "A" exMarket0 "" Side.Buy 5 100 LiqInd.None "" 1

/-- Account `A` books a manual trade Buy 5 @ 100 with the counter-party `B`. -/
def exManualCpty : TradeOutcome :=
  createTrade exMq exServ0 "A" exMarket0 "" Side.Buy 5 100 LiqInd.None "B" 1

/-- The reserve phase of the `createOrder` call of `exFill2`. -/
def exFillReserved : Reserved :=
  createOrderReserve exFill1.serv "B" exFill1.market "rb" Side.Buy 10 12345 0 2 Response.empty

/-- The state in which the commit loop of `exFill2` starts. -/
def exFillCommit : Committed :=
  { serv := exFillReserved.serv, market := exFillReserved.market, resp := exFillReserved.resp }

/-- The match that the commit loop of `exFill2` commits. -/
def exFillMatch : Match := exFillReserved.serv.matches_.headD exMatch

/-! ## Example for a batch cancel that names an order twice -/

/-- In the state of `exOut1`, where order 1 of `A` (Sell 5 @ 100) rests, `A` cancels the batch
of ids `[1, 1]`. -/
def exCancelTwice : Outcome :=
  cancelOrderBatch exMq exOut1.serv "A" exOut1.market [1, 1] 2 Response.empty

/-- In the same state `A` cancels the batch `[1]`. -/
def exCancelOnce : Outcome :=
  cancelOrderBatch exMq exOut1.serv "A" exOut1.market [1] 2 Response.empty

/-! ## `Order::toJson` and `Order::toDsv` (`swirly/fin/Order.cpp`) -/

/-- One item written to an `ostream` with `<<`: a string or character literal, or a value whose
printing is defined outside `Order.cpp` (a symbol or ref, an id, a number of lots, ticks or
cost, a time, the ISO date `jdToIso(day)`, a state, a side). -/
inductive Item where
  | lit (s : String)
  | sym (s : String)
  | id (n : Id64)
  | num (i : Int)
  | time (t : Time)
  | iso (day : JDay)
  | state (s : State)
  | side (s : Side)
deriving DecidableEq, Repr

namespace Item

/-- The characters an item contributes to the stream, for a printing `r` of the values. -/
def text (r : Item → String) : Item → String
  | Item.lit s => s
  | x => r x

/-- Whether the item prints no character: an empty literal or an empty symbol; numbers, dates
and enumerators print at least one. -/
def blank : Item → Bool
  | Item.lit s => decide (s = "")
  | Item.sym s => decide (s = "")
  | _ => false

end Item

/-- The text of a stream, for a printing `r` of the values. -/
def render (r : Item → String) (l : List Item) : String :=
  l.foldr (fun i s => i.text r ++ s) ""

/-- Modelled from the spec: `OStreamJoiner{os, delim}`, whose header `Stream.hpp` is not under
`src/`: the items written to it go to the stream with the delimiter between them. -/
def OStreamJoiner (delim : Char) : List Item → List Item
  | [] => []
  | [x] => [x]
  | x :: y :: l => x :: Item.lit (String.singleton delim) :: OStreamJoiner delim (y :: l)

namespace Order

/-- The items `Order::toDsv` writes to the joiner (Order.cpp:34-69), in order. -/
def dsvFields (o : Order) : List Item :=
  [Item.sym o.accnt, Item.id o.marketId, Item.sym o.instr]
  ++ (if o.settlDay ≠ 0 then [Item.iso o.settlDay] else [Item.lit ""])
  ++ [Item.id o.id]
  ++ (if !o.ref.isEmpty then [Item.sym o.ref] else [Item.lit ""])
  ++ [Item.state o.state, Item.side o.side, Item.num o.lots, Item.num o.ticks,
      Item.num o.resdLots, Item.num o.execLots, Item.num o.execCost]
  ++ (if o.lastLots ≠ 0 then [Item.num o.lastLots, Item.num o.lastTicks]
      else [Item.lit "", Item.lit ""])
  ++ (if o.minLots ≠ 0 then [Item.num o.minLots] else [Item.lit ""])
  ++ [Item.time o.created, Item.time o.modified]

/-- `Order::toDsv(os, delim)` (Order.cpp:32). -/
def toDsv (o : Order) (delim : Char) : List Item := OStreamJoiner delim o.dsvFields

/-- `Order::toJson(os)` (Order.cpp:72). -/
def toJson (o : Order) : List Item :=
  [Item.lit "\x7b\"accnt\":\"", Item.sym o.accnt,
   Item.lit "\",\"market_id\":", Item.id o.marketId,
   Item.lit ",\"instr\":\"", Item.sym o.instr,
   Item.lit "\",\"settl_date\":"]
  ++ (if o.settlDay ≠ 0 then [Item.iso o.settlDay] else [Item.lit "null"])
  ++ [Item.lit ",\"id\":", Item.id o.id,
      Item.lit ",\"ref\":"]
  ++ (if !o.ref.isEmpty then [Item.lit "\"", Item.sym o.ref, Item.lit "\""]
      else [Item.lit "null"])
  ++ [Item.lit ",\"state\":\"", Item.state o.state,
      Item.lit "\",\"side\":\"", Item.side o.side,
      Item.lit "\",\"lots\":", Item.num o.lots,
      Item.lit ",\"ticks\":", Item.num o.ticks,
      Item.lit ",\"resd_lots\":", Item.num o.resdLots,
      Item.lit ",\"exec_lots\":", Item.num o.execLots,
      Item.lit ",\"exec_cost\":", Item.num o.execCost]
  ++ (if o.lastLots ≠ 0 then
        [Item.lit ",\"last_lots\":", Item.num o.lastLots,
         Item.lit ",\"last_ticks\":", Item.num o.lastTicks]
      else [Item.lit ",\"last_lots\":null,\"last_ticks\":null"])
  ++ [Item.lit ",\"min_lots\":"]
  ++ (if o.minLots ≠ 0 then [Item.num o.minLots] else [Item.lit "null"])
  ++ [Item.lit ",\"created\":", Item.time o.created,
      Item.lit ",\"modified\":", Item.time o.modified,
      Item.lit "\x7d"]

end Order

/-- The value of a JSON member: `null`, a value printed as it is, or a value printed between
double quotes. -/
inductive JsonValue where
  | null
  | bare (i : Item)
  | quoted (i : Item)
deriving DecidableEq, Repr

namespace JsonValue

/-- The items of a JSON value. -/
def items : JsonValue → List Item
  | null => [Item.lit "null"]
  | bare i => [i]
  | quoted i => [Item.lit "\"", i, Item.lit "\""]

/-- The field of the delimited form that stands for a JSON value: the value itself, and the
empty field for `null`. -/
def field : JsonValue → Item
  | null => Item.lit ""
  | bare i => i
  | quoted i => i

end JsonValue

/-- The items of a JSON object with the given members: `"key":value` for each member, separated
by commas, between braces. -/
def jsonItems (members : List (String × JsonValue)) : List Item :=
  [Item.lit "\x7b"]
  ++ List.intercalate [Item.lit ","]
      (members.map (fun kv => [Item.lit "\"", Item.lit kv.1, Item.lit "\":"] ++ kv.2.items))
  ++ [Item.lit "\x7d"]

/-- The JSON form of an order as the specification words it (§6): the eighteen members in their
fixed order, the optional ones `null` when absent (`settl_date` when the settlement day is 0,
`ref` when empty, `last_lots` and `last_ticks` when there is no last fill, `min_lots` when
0). -/
def Order.jsonSpec (o : Order) : List (String × JsonValue) :=
  [("accnt", JsonValue.quoted (Item.sym o.accnt)),
   ("market_id", JsonValue.bare (Item.id o.marketId)),
   ("instr", JsonValue.quoted (Item.sym o.instr)),
   ("settl_date", if o.settlDay = 0 then JsonValue.null else JsonValue.bare (Item.iso o.settlDay)),
   ("id", JsonValue.bare (Item.id o.id)),
   ("ref", if o.ref = "" then JsonValue.null else JsonValue.quoted (Item.sym o.ref)),
   ("state", JsonValue.quoted (Item.state o.state)),
   ("side", JsonValue.quoted (Item.side o.side)),
   ("lots", JsonValue.bare (Item.num o.lots)),
   ("ticks", JsonValue.bare (Item.num o.ticks)),
   ("resd_lots", JsonValue.bare (Item.num o.resdLots)),
   ("exec_lots", JsonValue.bare (Item.num o.execLots)),
   ("exec_cost", JsonValue.bare (Item.num o.execCost)),
   ("last_lots", if o.lastLots = 0 then JsonValue.null else JsonValue.bare (Item.num o.lastLots)),
   ("last_ticks",
     if o.lastLots = 0 then JsonValue.null else JsonValue.bare (Item.num o.lastTicks)),
   ("min_lots", if o.minLots = 0 then JsonValue.null else JsonValue.bare (Item.num o.minLots)),
   ("created", JsonValue.bare (Item.time o.created)),
   ("modified", JsonValue.bare (Item.time o.modified))]

/-- Adjacent literals of a stream written as one literal: the text is the same. -/
def mergeCons (x : Item) (acc : List Item) : List Item :=
  match x, acc with
  | Item.lit a, Item.lit b :: rest => Item.lit (a ++ b) :: rest
  | x, acc => x :: acc

/-- A stream with every run of adjacent literals written as one literal. -/
def mergeLits (l : List Item) : List Item := l.foldr mergeCons []

/-- An order with every optional field present. -/
def exOrderFull : Order :=
  { accnt := "MARAYL", marketId := 7, instr := "EURUSD", settlDay := 2457824, id := 5,
    ref := "r1", state := State.Trade, side := Side.Buy, lots := 10, ticks := 12345,
    resdLots := 7, execLots := 3, execCost := 37035, lastLots := 3, lastTicks := 12345,
    minLots := 1, created := 1000, modified := 2000 }

/-- An order with every optional field absent. -/
def exOrderBare : Order := Order.make "MARAYL" 7 "EURUSD" 0 5 "" Side.Buy 10 12345 0 1000

/-! ## createMarket -/

/-- Modelled from the spec: an instrument, of which `createMarket` reads the id and the symbol;
`Instr.hpp` is not under `src/`. -/
structure Instr where
  id : Id32
  symbol : Symbol
deriving DecidableEq, Repr

/-- An iterator into the set of markets, kept in id order: the markets before it, and the
markets from it on (none at `end()`). -/
structure MarketIter where
  before : List Market
  after : List Market
deriving DecidableEq, Repr

/-- `IdSet::findHint` (Set.hpp:96): `lower_bound` skips the markets whose id is less than `id`;
the market it stops at is the one looked for unless `id` is less than its id. -/
def findHint (id : Id64) (l : List Market) : MarketIter × Bool :=
  let it : MarketIter :=
    { before := l.takeWhile (fun m => decide (m.id < id)),
      after := l.dropWhile (fun m => decide (m.id < id)) }
  (it, match it.after with
       | [] => false
       | m :: _ => !decide (id < m.id))

/-- `IdSet::insertHint` (Set.hpp:115): the market is linked at the hint. -/
def insertHint (it : MarketIter) (m : Market) : List Market := it.before ++ m :: it.after

/-- The record `CreateMarket` handed to the message queue (§6). -/
structure CreateMarket where
  id : Id64
  instr : Symbol
  settlDay : JDay
  state : Nat
deriving DecidableEq, Repr

/-- What `createMarket` leaves behind: the service members, the record the message queue has
accepted, if any, the market returned, and the exception raised, if any. -/
structure MarketOutcome where
  serv : Serv
  journalled : Option CreateMarket
  market : Option Market
  thrown : Option Thrown
deriving DecidableEq, Repr

/-- `Serv::Impl::createMarket` (Serv.cpp:151).  `mq` tells whether `mq_.createMarket` accepts the
record or throws. -/
def createMarket (mq : CreateMarket → Bool) (busDay : Time → JDay) (s : Serv) (instr : Instr)
    (settlDay : JDay) (state : Nat) (now : Time) : MarketOutcome :=
  -- busDay <= settlDay.
  if settlDay ≠ 0 ∧ settlDay < busDay now then
    { serv := s, journalled := none, market := none,
      thrown := some (Thrown.value ErrKind.Invalid) }
  else
    let id := toMarketId instr.id settlDay
    let hint := findHint id s.markets
    if hint.2 then
      { serv := s, journalled := none, market := none,
        thrown := some (Thrown.value ErrKind.AlreadyExists) }
    else
      let market := Market.make id instr.symbol settlDay state
      let rec_ : CreateMarket :=
        { id := id, instr := instr.symbol, settlDay := settlDay, state := state }
      if mq rec_ then
        { serv := { s with markets := insertHint hint.1 market }, journalled := some rec_,
          market := some market, thrown := none }
      else
        { serv := s, journalled := none, market := none,
          thrown := some (Thrown.value ErrKind.Journal) }

/-- The instrument `EURUSD` with id 1. -/
def exInstr : Instr := { id := 1, symbol := "EURUSD" }

/-- A message queue that accepts every `CreateMarket` record. -/
def exMqMarket : CreateMarket → Bool := fun _ => true

/-- A message queue that rejects every `CreateMarket` record. -/
def exMqMarketFail : CreateMarket → Bool := fun _ => false

/-- An engine without markets and accounts. -/
def exEngineEmpty : Serv :=
  { maxExecs := 4, markets := [], accnts := [], matches_ := [], execs_ := [], journ := [] }

/-- The engine after the spot market of `exInstr` has been created. -/
def exCreated : MarketOutcome := createMarket exMqMarket exBusDay exEngineEmpty exInstr 0 0 1

/-! ## archiveTrade -/

namespace Accnt

/-- Modelled from the spec: `accnt.trade(marketId, id)`, the trade under that key in the trade
index, or `TradeNotFound` on a lookup miss (§7). -/
def trade (a : Accnt) (marketId : Id64) (id : Id64) : Except Thrown Exec :=
  match a.trades.find? (fun x => x.marketId == marketId && x.id == id) with
  | some e => Except.ok e
  | none => Except.error (Thrown.value ErrKind.TradeNotFound)

/-- Modelled from the spec: `accnt.removeTrade(trade)`, the trade leaves the trade index
(§4.8). -/
def removeTrade (a : Accnt) (e : Exec) : Accnt :=
  { a with trades := a.trades.filter (fun x => !(x.marketId == e.marketId && x.id == e.id)) }

end Accnt

/-- The record handed to `mq_.archiveTrade(marketId, ids, now)`: `ArchiveTrade` for each of the
ids (§6). -/
structure ArchiveTrade where
  marketId : Id64
  ids : List Id64
  modified : Time
deriving DecidableEq, Repr

/-- What `archiveTrade` leaves behind: the service members, what the message queue has
accepted, if anything, and the exception raised, if any. -/
structure ArchiveOutcome where
  serv : Serv
  journalled : Option ArchiveTrade
  thrown : Option Thrown
deriving DecidableEq, Repr

/-- The validation loop of the batch `archiveTrade` (Serv.cpp:451-453). -/
def archiveValidate (a : Accnt) (marketId : Id64) : List Id64 → Option Thrown
  | [] => none
  | id :: ids =>
    match a.trade marketId id with
    | Except.error e => some e
    | Except.ok _ => archiveValidate a marketId ids

/-- The commit loop of the batch `archiveTrade` (Serv.cpp:459-464). -/
def archiveCommitLoop (accnt : Symbol) (marketId : Id64) : List Id64 → Serv → Serv × Option Thrown
  | [], s => (s, none)
  | id :: ids, s =>
    match (s.getAccnt accnt).trades.find? (fun x => x.marketId == marketId && x.id == id) with
    | none => (s, some Thrown.assertFailed)
    | some t =>
      archiveCommitLoop accnt marketId ids (s.writeAccnt accnt (fun a => a.removeTrade t))

/-- `Serv::Impl::archiveTrade(accnt, marketId, ArrayView<Id64> ids, now)` (Serv.cpp:448).  `mq`
tells whether `mq_.archiveTrade` accepts or throws. -/
def archiveTradeBatch (mq : ArchiveTrade → Bool) (s : Serv) (accnt : Symbol) (marketId : Id64)
    (ids : List Id64) (now : Time) : ArchiveOutcome :=
  -- Validate.
  match archiveValidate (s.getAccnt accnt) marketId ids with
  | some e => { serv := s, journalled := none, thrown := some e }
  | none =>
    if mq { marketId := marketId, ids := ids, modified := now } then
      -- Commit phase.
      let r := archiveCommitLoop accnt marketId ids s
      { serv := r.1, journalled := some { marketId := marketId, ids := ids, modified := now },
        thrown := r.2 }
    else { serv := s, journalled := none, thrown := some (Thrown.value ErrKind.Journal) }

/-- The trade index of an account without the trades of market `marketId` named by `ids`. -/
def Accnt.archived (marketId : Id64) (ids : List Id64) (a : Accnt) : Accnt :=
  { a with trades := a.trades.filter (fun x => !(x.marketId == marketId && ids.contains x.id)) }

/-- A message queue that accepts every `ArchiveTrade` batch. -/
def exMqArchive : ArchiveTrade → Bool := fun _ => true

/-- Account `A` books two manual trades in market 7: Buy 5 @ 100 (exec 1) and Buy 3 @ 101
(exec 2). -/
def exTwoTrades : TradeOutcome :=
  createTrade exMq exManual.serv "A" exManual.market "" Side.Buy 3 101 LiqInd.None "" 2

/-! ## Maximal fill -/

/-- Whether the price of a resting order crosses the limit `ticks` of a taker on side `side`: an
offer at or below the limit of a buyer, a bid at or above the limit of a seller. -/
def crosses (side : Side) (ticks : Ticks) (o : Order) : Bool :=
  match side with
  | Side.Buy => decide (o.ticks ≤ ticks)
  | Side.Sell => decide (ticks ≤ o.ticks)

/-- The side of the book a taker on side `side` is matched against. -/
def Market.opposite (m : Market) (side : Side) : MarketSide :=
  if side = Side.Buy then m.offerSide else m.bidSide

/-- Account `B` posts Buy 10 @ 110 in the market of `exOut2`, where `A` offers 5 @ 100 and
5 @ 120. -/
def exOut3 : Outcome :=
  createOrder exMq exBusDay exOut2.serv "B" exOut2.market "r1" Side.Buy 10 110 0 3
    Response.empty

/-! ## A book that is not crossed -/

/-- The book is not crossed: every bid price is strictly below every offer price, that is, when
both sides are non-empty the highest bid is strictly below the lowest offer. -/
def Market.Uncrossed (m : Market) : Prop :=
  ∀ b ∈ m.bidSide.orders, ∀ o ∈ m.offerSide.orders, b.ticks < o.ticks

/-- Side `t` holds no price that side `s` does not hold: every order of `t` is priced as an
order of `s`, and the level prices of `t` are level prices of `s`, in the same order. -/
def MarketSide.Within (t s : MarketSide) : Prop :=
  (∀ y ∈ t.orders, ∃ x ∈ s.orders, x.ticks = y.ticks)
  ∧ (t.levels.map (fun l => l.ticks)).Sublist (s.levels.map (fun l => l.ticks))

/-- Book `m2` holds no price that book `m` does not hold on the same side. -/
def Market.Within (m2 m : Market) : Prop :=
  m2.bidSide.Within m.bidSide ∧ m2.offerSide.Within m.offerSide

/-- The best bid: the price of the first level of the bid side. -/
def Market.bestBid (m : Market) : Option Ticks := m.bidSide.levels.head?.map (fun l => l.ticks)

/-- The best offer: the price of the first level of the offer side. -/
def Market.bestOffer (m : Market) : Option Ticks :=
  m.offerSide.levels.head?.map (fun l => l.ticks)

/-- The best bid is strictly below the best offer, or a side is empty. -/
def Market.BestUncrossed (m : Market) : Prop :=
  match m.bestBid, m.bestOffer with
  | some b, some o => b < o
  | _, _ => True

/-- Account `B` posts Buy 4 @ 90 in the market of `exOut2`, below the offers of `A` at 100 and
at 120. -/
def exOutSpread : Outcome :=
  createOrder exMq exBusDay exOut2.serv "B" exOut2.market "" Side.Buy 4 90 0 3 Response.empty

/-- Account `B` then posts Buy 8 @ 110: it lifts the offer at 100, and the 3 lots left are
placed at 110, below the offer at 120. -/
def exOutLift : Outcome :=
  createOrder exMq exBusDay exOutSpread.serv "B" exOutSpread.market "" Side.Buy 8 110 0 4
    Response.empty

/-- Account `A` books a manual trade Buy 5 @ 100 and names itself as counter-party. -/
def exManualSelf : TradeOutcome :=
  createTrade exMq exServ0 "A" exMarket0 "" Side.Buy 5 100 LiqInd.None "A" 1

/-- The reserve phase of the `createOrder` call of `exSelf2`, in which `A` buys from its own
resting order. -/
def exSelfReserved : Reserved :=
  createOrderReserve exSelf1 "A" exSelfMarket1 "" Side.Buy 5 100 0 2 Response.empty

/-- The state in which the commit loop of `exSelf2` starts. -/
def exSelfStart : Committed :=
  { serv := exSelfReserved.serv, market := exSelfReserved.market, resp := exSelfReserved.resp }

/-- The match that the commit loop of `exSelf2` commits. -/
def exSelfMatch : Match := exSelfReserved.serv.matches_.headD exMatch

/-! # Theorems -/

theorem newMatch_fst (s : Serv) (market : Market) (takerOrder makerOrder : Order)
    (lots sumLots : Lots) (sumCost : Cost) (created : Time) :
    (newMatch s market takerOrder makerOrder lots sumLots sumCost created).1
      = mkMatch market.execSeq takerOrder makerOrder lots sumLots sumCost created := rfl

theorem newMatch_execSeq (s : Serv) (market : Market) (takerOrder makerOrder : Order)
    (lots sumLots : Lots) (sumCost : Cost) (created : Time) :
    (newMatch s market takerOrder makerOrder lots sumLots sumCost created).2.2.execSeq
      = market.execSeq + 2 := rfl

theorem newMatch_matches (s : Serv) (market : Market) (takerOrder makerOrder : Order)
    (lots sumLots : Lots) (sumCost : Cost) (created : Time) :
    (newMatch s market takerOrder makerOrder lots sumLots sumCost created).2.1.matches_
      = s.matches_ := rfl

theorem matchStep_matches (takerAccnt : Symbol) (takerOrder : Order) (now : Time)
    (mk : Order) (st : MatchLoop) :
    (matchStep takerAccnt takerOrder now mk st).serv.matches_
      = st.serv.matches_ ++ [mkMatch st.market.execSeq takerOrder mk
          (min (takerOrder.resdLots - st.sumLots) mk.resdLots)
          (st.sumLots + min (takerOrder.resdLots - st.sumLots) mk.resdLots)
          (st.sumCost + cost (min (takerOrder.resdLots - st.sumLots) mk.resdLots) mk.ticks)
          now] := rfl

theorem matchStep_execs (takerAccnt : Symbol) (takerOrder : Order) (now : Time)
    (mk : Order) (st : MatchLoop) :
    (matchStep takerAccnt takerOrder now mk st).serv.execs_
      = st.serv.execs_ ++
        [(mkMatch st.market.execSeq takerOrder mk
            (min (takerOrder.resdLots - st.sumLots) mk.resdLots)
            (st.sumLots + min (takerOrder.resdLots - st.sumLots) mk.resdLots)
            (st.sumCost + cost (min (takerOrder.resdLots - st.sumLots) mk.resdLots) mk.ticks)
            now).makerTrade,
         (mkMatch st.market.execSeq takerOrder mk
            (min (takerOrder.resdLots - st.sumLots) mk.resdLots)
            (st.sumLots + min (takerOrder.resdLots - st.sumLots) mk.resdLots)
            (st.sumCost + cost (min (takerOrder.resdLots - st.sumLots) mk.resdLots) mk.ticks)
            now).takerTrade] := rfl

theorem matchStep_journ (takerAccnt : Symbol) (takerOrder : Order) (now : Time)
    (mk : Order) (st : MatchLoop) :
    (matchStep takerAccnt takerOrder now mk st).serv.journ = st.serv.journ := rfl

theorem matchStep_markets (takerAccnt : Symbol) (takerOrder : Order) (now : Time)
    (mk : Order) (st : MatchLoop) :
    (matchStep takerAccnt takerOrder now mk st).serv.markets = st.serv.markets := rfl

theorem matchStep_maxExecs (takerAccnt : Symbol) (takerOrder : Order) (now : Time)
    (mk : Order) (st : MatchLoop) :
    (matchStep takerAccnt takerOrder now mk st).serv.maxExecs = st.serv.maxExecs := rfl

theorem matchStep_accnts (takerAccnt : Symbol) (takerOrder : Order) (now : Time)
    (mk : Order) (st : MatchLoop) :
    (matchStep takerAccnt takerOrder now mk st).serv.accnts
      = st.serv.accnts.map (fun a => if a.symbol = mk.accnt
          then a.posn st.market.id st.market.instr st.market.settlDay else a) := rfl

theorem matchStep_market (takerAccnt : Symbol) (takerOrder : Order) (now : Time)
    (mk : Order) (st : MatchLoop) :
    (matchStep takerAccnt takerOrder now mk st).market
      = { st.market with execSeq := st.market.execSeq + 2 } := rfl

theorem matchStep_sumLots (takerAccnt : Symbol) (takerOrder : Order) (now : Time)
    (mk : Order) (st : MatchLoop) :
    (matchStep takerAccnt takerOrder now mk st).sumLots
      = st.sumLots + min (takerOrder.resdLots - st.sumLots) mk.resdLots := rfl

theorem matchStep_sumCost (takerAccnt : Symbol) (takerOrder : Order) (now : Time)
    (mk : Order) (st : MatchLoop) :
    (matchStep takerAccnt takerOrder now mk st).sumCost
      = st.sumCost + cost (min (takerOrder.resdLots - st.sumLots) mk.resdLots) mk.ticks := rfl

theorem matchLoop_matches (takerAccnt : Symbol) (takerOrder : Order) (direct : Direct)
    (now : Time) (makers : List Order) (st : MatchLoop) :
    (matchLoop takerAccnt takerOrder direct now makers st).serv.matches_
      = st.serv.matches_
        ++ matchList takerOrder direct now makers st.market.execSeq st.sumLots st.sumCost := by
  induction makers generalizing st with
  | nil => simp [matchLoop, matchList]
  | cons mk rest ih =>
    unfold matchLoop matchList
    by_cases h1 : st.sumLots = takerOrder.resdLots
    · simp [h1]
    · by_cases h2 : spread takerOrder mk direct > 0
      · simp [h1, h2]
      · simp only [h1, h2, if_false]
        rw [ih]
        simp [matchStep_matches, matchStep_market, matchStep_sumLots, matchStep_sumCost,
          List.append_assoc]

/-- The matches `matchOrders` appends to `matches_` are `matchList` over the opposite side. -/
theorem matchOrders_matches (s : Serv) (takerAccnt : Symbol) (market : Market)
    (takerOrder : Order) (now : Time) (resp : Response) :
    (matchOrders s takerAccnt market takerOrder now resp).serv.matches_
      = s.matches_ ++ matchList takerOrder
          (if takerOrder.side = Side.Buy then Direct.Paid else Direct.Given) now
          (if takerOrder.side = Side.Buy then market.offerSide else market.bidSide).orders
          market.execSeq 0 0 := by
  unfold matchOrders matchOrdersSide
  by_cases h : takerOrder.side = Side.Buy
  · simp only [h, if_true]
    exact matchLoop_matches _ _ _ _ _ _
  · simp only [h, if_false]
    exact matchLoop_matches _ _ _ _ _ _

theorem matchList_lots (takerOrder : Order) (direct : Direct) (now : Time) :
    ∀ (makers : List Order) (seq : Id64) (sumLots : Lots) (sumCost : Cost)
      (pre : List Match) (m : Match) (post : List Match),
      matchList takerOrder direct now makers seq sumLots sumCost = pre ++ m :: post →
      m.lots = min (takerOrder.resdLots - (sumLots + (pre.map (fun x => x.lots)).sum))
                 m.makerOrder.resdLots
      ∧ m.makerTrade.lastLots = m.lots ∧ m.takerTrade.lastLots = m.lots
      ∧ m.makerTrade.lastTicks = m.makerOrder.ticks
      ∧ m.takerTrade.lastTicks = m.makerOrder.ticks
      ∧ m.makerOrder ∈ makers := by
  intro makers
  induction makers with
  | nil =>
    intro seq sumLots sumCost pre m post h
    simp [matchList] at h
  | cons mk rest ih =>
    intro seq sumLots sumCost pre m post h
    unfold matchList at h
    by_cases h1 : sumLots = takerOrder.resdLots
    · simp [h1] at h
    · by_cases h2 : spread takerOrder mk direct > 0
      · simp [h1, h2] at h
      · simp only [h1, h2, if_false] at h
        cases pre with
        | nil =>
          simp only [List.nil_append, List.cons.injEq] at h
          obtain ⟨hm, -⟩ := h
          subst hm
          simp [mkMatch, Exec.tradeLast, Exec.trade, newExec]
        | cons p pre2 =>
          simp only [List.cons_append, List.cons.injEq] at h
          obtain ⟨hp, hrest⟩ := h
          have := ih _ _ _ pre2 m post hrest
          obtain ⟨a, b, c, d, e, f⟩ := this
          refine ⟨?_, b, c, d, e, List.mem_cons_of_mem _ f⟩
          rw [a]
          subst hp
          simp [mkMatch, add_assoc]

/-- C1: every match appended by `matchOrders` has
`lots = min(taker.resdLots - lots matched earlier in the call, maker.resdLots)`, and both of its
trade execs carry `lastLots` equal to those lots and `lastTicks` equal to the maker's limit
ticks; the maker is an order resting on the opposite side. -/
theorem matchOrders_lots_and_ticks (s : Serv) (takerAccnt : Symbol) (market : Market)
    (takerOrder : Order) (now : Time) (resp : Response)
    (pre : List Match) (m : Match) (post : List Match)
    (h : (matchOrders s takerAccnt market takerOrder now resp).serv.matches_
          = s.matches_ ++ (pre ++ m :: post)) :
    m.lots = min (takerOrder.resdLots - (pre.map (fun x => x.lots)).sum) m.makerOrder.resdLots
    ∧ m.makerTrade.lastLots = m.lots ∧ m.takerTrade.lastLots = m.lots
    ∧ m.makerTrade.lastTicks = m.makerOrder.ticks
    ∧ m.takerTrade.lastTicks = m.makerOrder.ticks
    ∧ m.makerOrder ∈
        (if takerOrder.side = Side.Buy then market.offerSide else market.bidSide).orders := by
  rw [matchOrders_matches] at h
  have h2 := List.append_cancel_left h
  have := matchList_lots takerOrder _ now _ _ _ _ pre m post h2
  simpa using this

theorem matchList_prefix (takerOrder : Order) (direct : Direct) (now : Time) :
    ∀ (makers : List Order) (seq : Id64) (sumLots : Lots) (sumCost : Cost),
      ∃ rest, makers
          = (matchList takerOrder direct now makers seq sumLots sumCost).map
              (fun m => m.makerOrder) ++ rest
        ∧ (rest = []
           ∨ sumLots + ((matchList takerOrder direct now makers seq sumLots sumCost).map
                (fun m => m.lots)).sum = takerOrder.resdLots
           ∨ ∃ mk tl, rest = mk :: tl ∧ spread takerOrder mk direct > 0) := by
  intro makers
  induction makers with
  | nil => intro seq sumLots sumCost; exact ⟨[], by simp [matchList], Or.inl rfl⟩
  | cons mk rest ih =>
    intro seq sumLots sumCost
    unfold matchList
    by_cases h1 : sumLots = takerOrder.resdLots
    · exact ⟨mk :: rest, by simp [h1], Or.inr (Or.inl (by simp [h1]))⟩
    · by_cases h2 : spread takerOrder mk direct > 0
      · exact ⟨mk :: rest, by simp [h1, h2], Or.inr (Or.inr ⟨mk, rest, rfl, h2⟩)⟩
      · simp only [h1, h2, if_false]
        obtain ⟨r, hr, hstop⟩ := ih (seq + 2)
          (sumLots + min (takerOrder.resdLots - sumLots) mk.resdLots)
          (sumCost + cost (min (takerOrder.resdLots - sumLots) mk.resdLots) mk.ticks)
        refine ⟨r, ?_, ?_⟩
        · simp only [List.map_cons, List.cons_append, mkMatch]
          rw [← hr]
        · rcases hstop with h | h | h
          · exact Or.inl h
          · refine Or.inr (Or.inl ?_)
            simp only [List.map_cons, List.sum_cons, mkMatch]
            rw [← add_assoc]; exact h
          · exact Or.inr (Or.inr h)

theorem matchList_cross (takerOrder : Order) (direct : Direct) (now : Time) :
    ∀ (makers : List Order) (seq : Id64) (sumLots : Lots) (sumCost : Cost) (m : Match),
      m ∈ matchList takerOrder direct now makers seq sumLots sumCost →
      spread takerOrder m.makerOrder direct ≤ 0 := by
  intro makers
  induction makers with
  | nil => intro seq sumLots sumCost m h; simp [matchList] at h
  | cons mk rest ih =>
    intro seq sumLots sumCost m h
    unfold matchList at h
    by_cases h1 : sumLots = takerOrder.resdLots
    · simp [h1] at h
    · by_cases h2 : spread takerOrder mk direct > 0
      · simp [h1, h2] at h
      · simp only [h1, h2, if_false, List.mem_cons] at h
        rcases h with h | h
        · subst h; simpa [mkMatch] using h2
        · exact ih _ _ _ m h

theorem matchList_full_but_last (takerOrder : Order) (direct : Direct) (now : Time) :
    ∀ (makers : List Order) (seq : Id64) (sumLots : Lots) (sumCost : Cost)
      (pre : List Match) (m : Match) (post : List Match),
      matchList takerOrder direct now makers seq sumLots sumCost = pre ++ m :: post →
      post ≠ [] → m.lots = m.makerOrder.resdLots := by
  intro makers
  induction makers with
  | nil => intro seq sumLots sumCost pre m post h; simp [matchList] at h
  | cons mk rest ih =>
    intro seq sumLots sumCost pre m post h hpost
    unfold matchList at h
    by_cases h1 : sumLots = takerOrder.resdLots
    · simp [h1] at h
    · by_cases h2 : spread takerOrder mk direct > 0
      · simp [h1, h2] at h
      · simp only [h1, h2, if_false] at h
        cases pre with
        | nil =>
          simp only [List.nil_append, List.cons.injEq] at h
          obtain ⟨hm, htl⟩ := h
          subst hm
          simp only [mkMatch]
          by_contra hne
          have hmin : min (takerOrder.resdLots - sumLots) mk.resdLots
              = takerOrder.resdLots - sumLots := by
            rcases min_choice (takerOrder.resdLots - sumLots) mk.resdLots with hc | hc
            · exact hc
            · exact absurd hc hne
          apply hpost
          rw [← htl]
          cases rest with
          | nil => simp [matchList]
          | cons mk2 rest2 =>
            unfold matchList
            rw [if_pos]
            rw [hmin]; ring
        | cons p pre2 =>
          simp only [List.cons_append, List.cons.injEq] at h
          exact ih _ _ _ pre2 m post h.2 hpost

/-- C2: price-time priority of `matchOrders`.  When the opposite side's orders are in price
priority (offers ascending for a Buy taker, bids descending for a Sell taker), the matched makers
are a prefix of them, each matched maker's price crosses the taker's limit, the first maker left
unmatched (if any, and unless the taker is filled) has `spread > 0`, no maker left unmatched
crosses unless the taker is filled, and every match but the last fills its maker completely. -/
theorem matchOrders_price_time_priority (s : Serv) (takerAccnt : Symbol) (market : Market)
    (takerOrder : Order) (now : Time) (resp : Response)
    (hsorted : if takerOrder.side = Side.Buy
      then market.offerSide.orders.Pairwise (fun a b => a.ticks ≤ b.ticks)
      else market.bidSide.orders.Pairwise (fun a b => b.ticks ≤ a.ticks)) :
    ∃ (ms : List Match) (rest : List Order),
      (matchOrders s takerAccnt market takerOrder now resp).serv.matches_ = s.matches_ ++ ms
      ∧ (if takerOrder.side = Side.Buy then market.offerSide else market.bidSide).orders
          = ms.map (fun m => m.makerOrder) ++ rest
      ∧ (∀ m ∈ ms, if takerOrder.side = Side.Buy then m.makerOrder.ticks ≤ takerOrder.ticks
                    else takerOrder.ticks ≤ m.makerOrder.ticks)
      ∧ (rest = [] ∨ (ms.map (fun m => m.lots)).sum = takerOrder.resdLots
          ∨ ∃ mk tl, rest = mk :: tl
              ∧ spread takerOrder mk
                  (if takerOrder.side = Side.Buy then Direct.Paid else Direct.Given) > 0)
      ∧ (∀ o ∈ rest, (ms.map (fun m => m.lots)).sum = takerOrder.resdLots
          ∨ (if takerOrder.side = Side.Buy then takerOrder.ticks < o.ticks
             else o.ticks < takerOrder.ticks))
      ∧ (∀ pre m post, ms = pre ++ m :: post → post ≠ [] →
          m.lots = m.makerOrder.resdLots) := by
  obtain ⟨rest, hrest, hstop⟩ := matchList_prefix takerOrder
    (if takerOrder.side = Side.Buy then Direct.Paid else Direct.Given) now
    (if takerOrder.side = Side.Buy then market.offerSide else market.bidSide).orders
    market.execSeq 0 0
  refine ⟨_, rest, matchOrders_matches s takerAccnt market takerOrder now resp, hrest, ?_, ?_,
    ?_, ?_⟩
  · intro m hm
    have := matchList_cross takerOrder _ now _ _ _ _ m hm
    by_cases hb : takerOrder.side = Side.Buy
    · simp only [hb, if_true, spread] at this ⊢
      linarith
    · simp only [hb, if_false, spread] at this ⊢
      simp at this
      linarith
  · simpa using hstop
  · intro o ho
    rcases hstop with h | h | ⟨mk, tl, hmk, hsp⟩
    · subst h; simp at ho
    · left; simpa using h
    · right
      subst hmk
      by_cases hb : takerOrder.side = Side.Buy
      · simp only [hb, if_true] at hsorted hrest hsp ⊢
        rw [hrest] at hsorted
        have hp := (List.pairwise_append.mp hsorted).2.1
        simp only [spread, if_true] at hsp
        rcases List.mem_cons.mp ho with h | h
        · subst h; linarith
        · have := (List.pairwise_cons.mp hp).1 o h
          linarith
      · simp only [hb, if_false] at hsorted hrest hsp ⊢
        rw [hrest] at hsorted
        have hp := (List.pairwise_append.mp hsorted).2.1
        simp [spread] at hsp
        rcases List.mem_cons.mp ho with h | h
        · subst h; linarith
        · have := (List.pairwise_cons.mp hp).1 o h
          linarith
  · intro pre m post h hpost
    exact matchList_full_but_last takerOrder _ now _ _ _ _ pre m post h hpost

/-! ## Frame lemmas: what the loops leave untouched -/

@[simp] theorem Serv.writeAccnt_matches (s : Serv) (a : Symbol) (f : Accnt → Accnt) :
    (s.writeAccnt a f).matches_ = s.matches_ := rfl

@[simp] theorem Serv.writeAccnt_execs (s : Serv) (a : Symbol) (f : Accnt → Accnt) :
    (s.writeAccnt a f).execs_ = s.execs_ := rfl

@[simp] theorem Serv.writeAccnt_journ (s : Serv) (a : Symbol) (f : Accnt → Accnt) :
    (s.writeAccnt a f).journ = s.journ := rfl

@[simp] theorem Serv.writeAccnt_markets (s : Serv) (a : Symbol) (f : Accnt → Accnt) :
    (s.writeAccnt a f).markets = s.markets := rfl

@[simp] theorem Serv.writeAccnt_maxExecs (s : Serv) (a : Symbol) (f : Accnt → Accnt) :
    (s.writeAccnt a f).maxExecs = s.maxExecs := rfl

theorem newMatch_execs (s : Serv) (market : Market) (takerOrder makerOrder : Order)
    (lots sumLots : Lots) (sumCost : Cost) (created : Time) :
    (newMatch s market takerOrder makerOrder lots sumLots sumCost created).2.1.execs_
      = s.execs_ := rfl

theorem newMatch_journ (s : Serv) (market : Market) (takerOrder makerOrder : Order)
    (lots sumLots : Lots) (sumCost : Cost) (created : Time) :
    (newMatch s market takerOrder makerOrder lots sumLots sumCost created).2.1.journ
      = s.journ := rfl

theorem matchLoop_execs (takerAccnt : Symbol) (takerOrder : Order) (direct : Direct)
    (now : Time) (makers : List Order) (st : MatchLoop) :
    (matchLoop takerAccnt takerOrder direct now makers st).serv.execs_
      = st.serv.execs_
        ++ (matchList takerOrder direct now makers st.market.execSeq st.sumLots
              st.sumCost).flatMap (fun m => [m.makerTrade, m.takerTrade]) := by
  induction makers generalizing st with
  | nil => simp [matchLoop, matchList]
  | cons mk rest ih =>
    unfold matchLoop matchList
    by_cases h1 : st.sumLots = takerOrder.resdLots
    · simp [h1]
    · by_cases h2 : spread takerOrder mk direct > 0
      · simp [h1, h2]
      · simp only [h1, h2, if_false]
        rw [ih]
        simp [matchStep_execs, matchStep_market, matchStep_sumLots, matchStep_sumCost,
          List.append_assoc]

theorem matchLoop_journ (takerAccnt : Symbol) (takerOrder : Order) (direct : Direct)
    (now : Time) (makers : List Order) (st : MatchLoop) :
    (matchLoop takerAccnt takerOrder direct now makers st).serv.journ = st.serv.journ := by
  induction makers generalizing st with
  | nil => simp [matchLoop]
  | cons mk rest ih =>
    unfold matchLoop
    by_cases h1 : st.sumLots = takerOrder.resdLots
    · simp [h1]
    · by_cases h2 : spread takerOrder mk direct > 0
      · simp [h1, h2]
      · simp only [h1, h2, if_false]
        rw [ih, matchStep_journ]

theorem matchOrders_execs (s : Serv) (takerAccnt : Symbol) (market : Market)
    (takerOrder : Order) (now : Time) (resp : Response) :
    (matchOrders s takerAccnt market takerOrder now resp).serv.execs_
      = s.execs_ ++ (matchList takerOrder
          (if takerOrder.side = Side.Buy then Direct.Paid else Direct.Given) now
          (if takerOrder.side = Side.Buy then market.offerSide else market.bidSide).orders
          market.execSeq 0 0).flatMap (fun m => [m.makerTrade, m.takerTrade]) := by
  unfold matchOrders matchOrdersSide
  by_cases h : takerOrder.side = Side.Buy
  · simp only [h, if_true]
    exact matchLoop_execs _ _ _ _ _ _
  · simp only [h, if_false]
    exact matchLoop_execs _ _ _ _ _ _

theorem matchOrders_journ (s : Serv) (takerAccnt : Symbol) (market : Market)
    (takerOrder : Order) (now : Time) (resp : Response) :
    (matchOrders s takerAccnt market takerOrder now resp).serv.journ = s.journ := by
  unfold matchOrders matchOrdersSide
  by_cases h : takerOrder.side = Side.Buy
  · simp only [h, if_true]
    exact matchLoop_journ _ _ _ _ _ _
  · simp only [h, if_false]
    exact matchLoop_journ _ _ _ _ _ _

theorem commitMatch_journ (takerAccnt : Symbol) (now : Time) (m : Match) (c : Committed) :
    (commitMatch takerAccnt now m c).serv.journ = c.serv.journ := by
  unfold commitMatch
  simp only []
  split <;> simp

theorem commitMatches_journ (takerAccnt : Symbol) (now : Time) (ms : List Match)
    (c : Committed) :
    (commitMatches takerAccnt now ms c).serv.journ = c.serv.journ := by
  induction ms generalizing c with
  | nil => rfl
  | cons m ms ih =>
    unfold commitMatches
    rw [ih, commitMatch_journ]

theorem createOrderReserve_execs (s : Serv) (accnt : Symbol) (market : Market) (ref : String)
    (side : Side) (lots : Lots) (ticks : Ticks) (minLots : Lots) (now : Time)
    (resp : Response) :
    (createOrderReserve s accnt market ref side lots ticks minLots now resp).serv.execs_
      = s.execs_
        ++ newExec (Order.make accnt market.id market.instr market.settlDay
              (market.execSeq + 1) ref side lots ticks minLots now) (market.execSeq + 1) now
        :: (matchList (Order.make accnt market.id market.instr market.settlDay
              (market.execSeq + 1) ref side lots ticks minLots now)
            (if side = Side.Buy then Direct.Paid else Direct.Given) now
            (if side = Side.Buy then market.offerSide else market.bidSide).orders
            (market.execSeq + 1) 0 0).flatMap (fun m => [m.makerTrade, m.takerTrade]) := by
  unfold createOrderReserve
  simp only []
  split
  · simp [matchOrders_execs, Market.allocId, Order.make]
  · simp [matchOrders_execs, Market.allocId, Order.make]

theorem createOrderReserve_journ (s : Serv) (accnt : Symbol) (market : Market) (ref : String)
    (side : Side) (lots : Lots) (ticks : Ticks) (minLots : Lots) (now : Time)
    (resp : Response) :
    (createOrderReserve s accnt market ref side lots ticks minLots now resp).serv.journ
      = s.journ := by
  unfold createOrderReserve
  simp only []
  split
  · simp [matchOrders_journ]
  · simp [matchOrders_journ]

theorem createOrderCommit_journ (accnt : Symbol) (now : Time) (r : Reserved) :
    (createOrderCommit accnt now r).serv.journ = r.serv.journ ++ [r.serv.execs_] := by
  unfold createOrderCommit
  simp only []
  split
  · rw [commitMatches_journ]
    split <;> simp
  · split <;> simp

theorem matchList_mem (takerOrder : Order) (direct : Direct) (now : Time) :
    ∀ (makers : List Order) (seq : Id64) (sumLots : Lots) (sumCost : Cost) (m : Match),
      m ∈ matchList takerOrder direct now makers seq sumLots sumCost →
      ∃ seq2 mk lots sl sc, mk ∈ makers ∧ m = mkMatch seq2 takerOrder mk lots sl sc now := by
  intro makers
  induction makers with
  | nil => intro seq sumLots sumCost m h; simp [matchList] at h
  | cons mk rest ih =>
    intro seq sumLots sumCost m h
    unfold matchList at h
    by_cases h1 : sumLots = takerOrder.resdLots
    · simp [h1] at h
    · by_cases h2 : spread takerOrder mk direct > 0
      · simp [h1, h2] at h
      · simp only [h1, h2, if_false, List.mem_cons] at h
        rcases h with h | h
        · exact ⟨_, mk, _, _, _, List.mem_cons_self _ _, h⟩
        · obtain ⟨a, b, c, d, e, hb, hm⟩ := ih _ _ _ m h
          exact ⟨a, b, c, d, e, List.mem_cons_of_mem _ hb, hm⟩

/-- A successful `createOrder` passed the three guards, had its batch accepted and ran the
commit phase. -/
theorem createOrder_ok (mq : MsgQueue) (busDay : Time → JDay) (s : Serv)
    (accnt : Symbol) (market : Market) (ref : String) (side : Side) (lots : Lots)
    (ticks : Ticks) (minLots : Lots) (now : Time) (resp : Response)
    (hok : (createOrder mq busDay s accnt market ref side lots ticks minLots now resp).thrown
      = none) :
    (!ref.isEmpty && (s.getAccnt accnt).existsRef ref) = false
    ∧ ¬ (market.settlDay ≠ 0 ∧ market.settlDay < busDay now)
    ∧ ¬ (lots = 0 ∨ lots < minLots)
    ∧ mq (createOrderReserve s accnt market ref side lots ticks minLots now resp).serv.execs_
        = true
    ∧ createOrder mq busDay s accnt market ref side lots ticks minLots now resp
        = { serv := { (createOrderCommit accnt now (createOrderReserve s accnt market ref side
                        lots ticks minLots now resp)).serv with matches_ := [], execs_ := [] },
            market := (createOrderCommit accnt now (createOrderReserve s accnt market ref side
                        lots ticks minLots now resp)).market,
            resp := (createOrderCommit accnt now (createOrderReserve s accnt market ref side
                        lots ticks minLots now resp)).resp,
            thrown := none } := by
  unfold createOrder at hok ⊢
  simp only [] at hok ⊢
  split_ifs at hok ⊢ with h1 h2 h3 h4
  exact ⟨by simpa using h1, h2, h3, h4, rfl⟩

/-- C3: when `createOrder` succeeds, the batch it journals is the scratch buffer followed by the
order's `New` exec and, for each committed match, its maker exec and its taker exec.  The two
execs of a match cross-reference each other through `matchId`, have distinct ids, carry the same
`lastLots`, carry as `lastTicks` the limit ticks of the maker order as it rested on the opposite
side before the call, and are tagged `Maker` and `Taker`. -/
theorem createOrder_match_execs (mq : MsgQueue) (busDay : Time → JDay) (s : Serv)
    (accnt : Symbol) (market : Market) (ref : String) (side : Side) (lots : Lots)
    (ticks : Ticks) (minLots : Lots) (now : Time) (resp : Response)
    (hok : (createOrder mq busDay s accnt market ref side lots ticks minLots now resp).thrown
      = none) :
    ∃ (exec : Exec) (ms : List Match),
      (createOrder mq busDay s accnt market ref side lots ticks minLots now resp).serv.journ
        = s.journ ++ [s.execs_ ++ exec :: ms.flatMap (fun m => [m.makerTrade, m.takerTrade])]
      ∧ ∀ m ∈ ms,
          m.makerOrder ∈ (if side = Side.Buy then market.offerSide else market.bidSide).orders
          ∧ m.makerTrade.matchId = m.takerTrade.id
          ∧ m.takerTrade.matchId = m.makerTrade.id
          ∧ m.makerTrade.id ≠ m.takerTrade.id
          ∧ m.makerTrade.lastLots = m.takerTrade.lastLots
          ∧ m.makerTrade.lastTicks = m.makerOrder.ticks
          ∧ m.takerTrade.lastTicks = m.makerOrder.ticks
          ∧ m.makerTrade.liqInd = LiqInd.Maker
          ∧ m.takerTrade.liqInd = LiqInd.Taker
          ∧ m.makerTrade.orderId = m.makerOrder.id
          ∧ m.takerTrade.orderId = market.execSeq + 1 := by
  obtain ⟨-, -, -, -, heq⟩ := createOrder_ok mq busDay s accnt market ref side lots ticks minLots
    now resp hok
  rw [heq]
  refine ⟨newExec (Order.make accnt market.id market.instr market.settlDay
      (market.execSeq + 1) ref side lots ticks minLots now) (market.execSeq + 1) now,
    matchList (Order.make accnt market.id market.instr market.settlDay
      (market.execSeq + 1) ref side lots ticks minLots now)
      (if side = Side.Buy then Direct.Paid else Direct.Given) now
      (if side = Side.Buy then market.offerSide else market.bidSide).orders
      (market.execSeq + 1) 0 0, ?_, ?_⟩
  · simp only [createOrderCommit_journ, createOrderReserve_journ, createOrderReserve_execs]
  · intro m hm
    obtain ⟨seq2, mk, l, sl, sc, hmk, rfl⟩ := matchList_mem _ _ _ _ _ _ _ m hm
    refine ⟨hmk, ?_⟩
    simp [mkMatch, Exec.tradeLast, Exec.trade, newExec, Order.make]

theorem matchOrders_lots_and_ticks_witness :
    (matchOrders exOut2.serv "B" exMarket2 exTaker 3 Response.empty).serv.matches_
        = exOut2.serv.matches_ ++ ([] ++ exMatch :: [])
    ∧ (exMatch.lots
          = min (exTaker.resdLots - (([] : List Match).map (fun x => x.lots)).sum)
              exMatch.makerOrder.resdLots
        ∧ exMatch.makerTrade.lastLots = exMatch.lots
        ∧ exMatch.takerTrade.lastLots = exMatch.lots
        ∧ exMatch.makerTrade.lastTicks = exMatch.makerOrder.ticks
        ∧ exMatch.takerTrade.lastTicks = exMatch.makerOrder.ticks
        ∧ exMatch.makerOrder ∈
            (if exTaker.side = Side.Buy then exMarket2.offerSide
             else exMarket2.bidSide).orders) :=
  ⟨by decide,
   matchOrders_lots_and_ticks exOut2.serv "B" exMarket2 exTaker 3
     Response.empty [] exMatch [] (by decide)⟩

theorem matchOrders_price_time_priority_witness :
    (if exTaker.side = Side.Buy
      then exMarket2.offerSide.orders.Pairwise (fun a b => a.ticks ≤ b.ticks)
      else exMarket2.bidSide.orders.Pairwise (fun a b => b.ticks ≤ a.ticks))
    ∧ ∃ (ms : List Match) (rest : List Order),
      (matchOrders exOut2.serv "B" exMarket2 exTaker 3 Response.empty).serv.matches_
        = exOut2.serv.matches_ ++ ms
      ∧ (if exTaker.side = Side.Buy then exMarket2.offerSide else exMarket2.bidSide).orders
          = ms.map (fun m => m.makerOrder) ++ rest
      ∧ (∀ m ∈ ms, if exTaker.side = Side.Buy then m.makerOrder.ticks ≤ exTaker.ticks
                    else exTaker.ticks ≤ m.makerOrder.ticks)
      ∧ (rest = [] ∨ (ms.map (fun m => m.lots)).sum = exTaker.resdLots
          ∨ ∃ mk tl, rest = mk :: tl
              ∧ spread exTaker mk
                  (if exTaker.side = Side.Buy then Direct.Paid else Direct.Given) > 0)
      ∧ (∀ o ∈ rest, (ms.map (fun m => m.lots)).sum = exTaker.resdLots
          ∨ (if exTaker.side = Side.Buy then exTaker.ticks < o.ticks
             else o.ticks < exTaker.ticks))
      ∧ (∀ pre m post, ms = pre ++ m :: post → post ≠ [] →
          m.lots = m.makerOrder.resdLots) :=
  ⟨by decide,
   matchOrders_price_time_priority exOut2.serv "B" exMarket2 exTaker 3 Response.empty
     (by decide)⟩

theorem createOrder_match_execs_witness :
    (createOrder exMq exBusDay exOut2.serv "B" exOut2.market "r1" Side.Buy 10 110 0 3
        Response.empty).thrown = none
    ∧ ∃ (exec : Exec) (ms : List Match),
      (createOrder exMq exBusDay exOut2.serv "B" exOut2.market "r1" Side.Buy 10 110 0 3
          Response.empty).serv.journ
        = exOut2.serv.journ
          ++ [exOut2.serv.execs_ ++ exec :: ms.flatMap (fun m => [m.makerTrade, m.takerTrade])]
      ∧ ∀ m ∈ ms,
          m.makerOrder ∈
            (if Side.Buy = Side.Buy then exOut2.market.offerSide
             else exOut2.market.bidSide).orders
          ∧ m.makerTrade.matchId = m.takerTrade.id
          ∧ m.takerTrade.matchId = m.makerTrade.id
          ∧ m.makerTrade.id ≠ m.takerTrade.id
          ∧ m.makerTrade.lastLots = m.takerTrade.lastLots
          ∧ m.makerTrade.lastTicks = m.makerOrder.ticks
          ∧ m.takerTrade.lastTicks = m.makerOrder.ticks
          ∧ m.makerTrade.liqInd = LiqInd.Maker
          ∧ m.takerTrade.liqInd = LiqInd.Taker
          ∧ m.makerTrade.orderId = m.makerOrder.id
          ∧ m.takerTrade.orderId = exOut2.market.execSeq + 1 :=
  ⟨by decide,
   createOrder_match_execs exMq exBusDay exOut2.serv "B" exOut2.market "r1" Side.Buy 10 110 0 3
     Response.empty (by decide)⟩

/-! ## A failed journal submission -/

theorem Posn.sameKey_self (p : Posn) : p.sameKey p.marketId p.instr p.settlDay = true := by
  simp [Posn.sameKey]

theorem Accnt.posn_idem (a : Accnt) (i : Id64) (n : Symbol) (d : JDay) :
    (a.posn i n d).posn i n d = a.posn i n d := by
  unfold Accnt.posn
  by_cases h : a.posns.any (fun p => p.sameKey i n d) = true
  · simp [h]
  · simp only [h, if_false]
    rw [if_pos]
    simp [Posn.sameKey]

theorem SameButZeroPosn.refl (i : Id64) (n : Symbol) (d : JDay) (a : Accnt) :
    SameButZeroPosn i n d a a :=
  ⟨rfl, rfl, rfl, rfl, rfl, rfl, Or.inl rfl⟩

theorem SameButZeroPosn.posn_step (i : Id64) (n : Symbol) (d : JDay) (a b : Accnt)
    (h : SameButZeroPosn i n d a b) : SameButZeroPosn i n d a (b.posn i n d) := by
  obtain ⟨h1, h2, h3, h4, h5, h6, h7⟩ := h
  unfold Accnt.posn
  by_cases hb : b.posns.any (fun p => p.sameKey i n d) = true
  · simp only [hb, if_true]
    exact ⟨h1, h2, h3, h4, h5, h6, h7⟩
  · simp only [hb, if_false]
    refine ⟨h1, h2, h3, h4, h5, h6, ?_⟩
    rcases h7 with h7 | ⟨-, h7⟩
    · right
      rw [h7] at hb ⊢
      rw [h1]
      exact ⟨by simpa using hb, rfl⟩
    · exfalso
      apply hb
      rw [h7]
      simp [zeroPosn, Posn.sameKey]

theorem SameButZeroPosn.write_step (i : Id64) (n : Symbol) (d : JDay) (sym : Symbol) :
    ∀ (l l2 : List Accnt), List.Forall₂ (SameButZeroPosn i n d) l l2 →
      List.Forall₂ (SameButZeroPosn i n d) l
        (l2.map (fun a => if a.symbol = sym then a.posn i n d else a)) := by
  intro l l2 h
  induction h with
  | nil => exact List.Forall₂.nil
  | @cons a b l1 l3 hab _ ih =>
    refine List.Forall₂.cons ?_ ih
    by_cases hs : b.symbol = sym
    · simp only [hs, if_true]
      exact SameButZeroPosn.posn_step i n d _ _ hab
    · simp only [hs, if_false]
      exact hab

theorem forall₂_sameButZeroPosn_refl (i : Id64) (n : Symbol) (d : JDay) (l : List Accnt) :
    List.Forall₂ (SameButZeroPosn i n d) l l := by
  induction l with
  | nil => exact List.Forall₂.nil
  | cons a l ih => exact List.Forall₂.cons (SameButZeroPosn.refl i n d a) ih

/-- The loop of `matchOrders` only advances the market's exec id counter. -/
theorem matchLoop_market (takerAccnt : Symbol) (takerOrder : Order) (direct : Direct)
    (now : Time) (makers : List Order) (st : MatchLoop) :
    ∃ n, (matchLoop takerAccnt takerOrder direct now makers st).market
      = { st.market with execSeq := st.market.execSeq + n } := by
  induction makers generalizing st with
  | nil => exact ⟨0, rfl⟩
  | cons mk rest ih =>
    unfold matchLoop
    by_cases h1 : st.sumLots = takerOrder.resdLots
    · simp only [h1, if_true]; exact ⟨0, rfl⟩
    · by_cases h2 : spread takerOrder mk direct > 0
      · simp only [h1, h2, if_true, if_false]; exact ⟨0, rfl⟩
      · simp only [h1, h2, if_false]
        obtain ⟨n, hn⟩ := ih (matchStep takerAccnt takerOrder now mk st)
        refine ⟨2 + n, ?_⟩
        rw [hn, matchStep_market]
        simp [add_assoc]

/-- The loop of `matchOrders` leaves every account as it was, except for zero positions created
under the market's key. -/
theorem matchLoop_accnts (takerAccnt : Symbol) (takerOrder : Order) (direct : Direct)
    (now : Time) (makers : List Order) (st : MatchLoop) (l0 : List Accnt)
    (h0 : List.Forall₂ (SameButZeroPosn st.market.id st.market.instr st.market.settlDay) l0
      st.serv.accnts) :
    List.Forall₂ (SameButZeroPosn st.market.id st.market.instr st.market.settlDay) l0
      (matchLoop takerAccnt takerOrder direct now makers st).serv.accnts := by
  induction makers generalizing st with
  | nil => exact h0
  | cons mk rest ih =>
    unfold matchLoop
    by_cases h1 : st.sumLots = takerOrder.resdLots
    · simp only [h1, if_true]; exact h0
    · by_cases h2 : spread takerOrder mk direct > 0
      · simp only [h1, h2, if_true, if_false]; exact h0
      · simp only [h1, h2, if_false]
        have := ih (matchStep takerAccnt takerOrder now mk st)
          (by
            rw [matchStep_market, matchStep_accnts]
            exact SameButZeroPosn.write_step _ _ _ _ _ _ h0)
        rw [matchStep_market] at this
        exact this

theorem matchLoop_markets (takerAccnt : Symbol) (takerOrder : Order) (direct : Direct)
    (now : Time) (makers : List Order) (st : MatchLoop) :
    (matchLoop takerAccnt takerOrder direct now makers st).serv.markets = st.serv.markets
    ∧ (matchLoop takerAccnt takerOrder direct now makers st).serv.maxExecs
        = st.serv.maxExecs := by
  induction makers generalizing st with
  | nil => exact ⟨rfl, rfl⟩
  | cons mk rest ih =>
    unfold matchLoop
    by_cases h1 : st.sumLots = takerOrder.resdLots
    · simp [h1]
    · by_cases h2 : spread takerOrder mk direct > 0
      · simp [h1, h2]
      · simp only [h1, h2, if_false]
        rw [(ih _).1, (ih _).2]
        exact ⟨rfl, rfl⟩

/-- Inserting an order in a fresh side and removing it again gives the side back. -/
theorem removeLevels_insertLevels (side : Side) (o : Order) (n : Id64) (hid : n < o.id) :
    ∀ (ls : List Level), (∀ l ∈ ls, l.count ≠ 0 ∧ ∀ x ∈ l.queue, x.id ≤ n) →
      MarketSide.removeLevels o (MarketSide.insertLevels side o ls) = ls := by
  intro ls
  induction ls with
  | nil =>
    intro _
    simp [MarketSide.insertLevels, MarketSide.removeLevels]
  | cons l ls ih =>
    intro h
    have hl := h l (List.mem_cons_self _ _)
    unfold MarketSide.insertLevels
    by_cases h1 : l.ticks = o.ticks
    · simp only [h1, if_true]
      unfold MarketSide.removeLevels
      have hc : l.count + 1 - 1 ≠ 0 := by simpa using hl.1
      have hq : l.queue.filter (fun x => !(x.id == o.id)) = l.queue := by
        apply List.filter_eq_self.mpr
        intro x hx
        have := hl.2 x hx
        have hne : x.id ≠ o.id := Nat.ne_of_lt (Nat.lt_of_le_of_lt this hid)
        simp [hne]
      simp only [if_true, List.any_append, List.any_cons, beq_self_eq_true, Bool.true_or,
        Bool.or_true, List.any_nil, hc, if_false, List.filter_append, hq]
      cases l with
      | mk t lo c q =>
        simp only [List.cons.injEq, Level.mk.injEq, and_true]
        simp only at h1
        refine ⟨h1.symm, ?_, ?_, ?_⟩
        · show lo + o.resdLots - o.resdLots = lo
          ring
        · simp
        · simp
    · simp only [h1, if_false]
      by_cases h2 : priceBefore side o.ticks l.ticks = true
      · simp only [h2, if_true]
        simp [MarketSide.removeLevels]
      · simp only [h2, Bool.false_eq_true, if_false]
        rw [MarketSide.removeLevels, if_neg h1,
          ih (fun l2 hl2 => h l2 (List.mem_cons_of_mem _ hl2))]

theorem matchOrders_market (s : Serv) (takerAccnt : Symbol) (market : Market)
    (takerOrder : Order) (now : Time) (resp : Response) :
    ∃ n, (matchOrders s takerAccnt market takerOrder now resp).market
      = { market with execSeq := market.execSeq + n } := by
  unfold matchOrders matchOrdersSide
  by_cases h : takerOrder.side = Side.Buy
  · simp only [h, if_true]
    exact matchLoop_market _ _ _ _ _ _
  · simp only [h, if_false]
    exact matchLoop_market _ _ _ _ _ _

theorem matchOrders_accnts (s : Serv) (takerAccnt : Symbol) (market : Market)
    (takerOrder : Order) (now : Time) (resp : Response) :
    List.Forall₂ (SameButZeroPosn market.id market.instr market.settlDay) s.accnts
      (matchOrders s takerAccnt market takerOrder now resp).serv.accnts := by
  unfold matchOrders matchOrdersSide
  by_cases h : takerOrder.side = Side.Buy
  · simp only [h, if_true]
    exact matchLoop_accnts _ _ _ _ _
      { serv := s, market := market, resp := resp, sumLots := 0, sumCost := 0, lastLots := 0,
        lastTicks := 0 } _ (forall₂_sameButZeroPosn_refl _ _ _ _)
  · simp only [h, if_false]
    exact matchLoop_accnts _ _ _ _ _
      { serv := s, market := market, resp := resp, sumLots := 0, sumCost := 0, lastLots := 0,
        lastTicks := 0 } _ (forall₂_sameButZeroPosn_refl _ _ _ _)

theorem matchOrders_markets (s : Serv) (takerAccnt : Symbol) (market : Market)
    (takerOrder : Order) (now : Time) (resp : Response) :
    (matchOrders s takerAccnt market takerOrder now resp).serv.markets = s.markets
    ∧ (matchOrders s takerAccnt market takerOrder now resp).serv.maxExecs = s.maxExecs := by
  unfold matchOrders matchOrdersSide
  by_cases h : takerOrder.side = Side.Buy
  · simp only [h, if_true]
    exact matchLoop_markets _ _ _ _ _ _
  · simp only [h, if_false]
    exact matchLoop_markets _ _ _ _ _ _

/-- The match writes the taker order with `Order.trade` only: its key, side, price and ref stay. -/
theorem matchOrders_takerOrder (s : Serv) (takerAccnt : Symbol) (market : Market)
    (takerOrder : Order) (now : Time) (resp : Response) :
    (matchOrders s takerAccnt market takerOrder now resp).takerOrder.id = takerOrder.id
    ∧ (matchOrders s takerAccnt market takerOrder now resp).takerOrder.marketId
        = takerOrder.marketId
    ∧ (matchOrders s takerAccnt market takerOrder now resp).takerOrder.side = takerOrder.side
    ∧ (matchOrders s takerAccnt market takerOrder now resp).takerOrder.ticks = takerOrder.ticks
    ∧ (matchOrders s takerAccnt market takerOrder now resp).takerOrder.ref = takerOrder.ref
    ∧ (matchOrders s takerAccnt market takerOrder now resp).takerOrder.accnt
        = takerOrder.accnt := by
  unfold matchOrders matchOrdersSide
  by_cases h : takerOrder.side = Side.Buy
  · simp only [h, if_true]
    split <;> simp [Order.trade, h]
  · simp only [h, if_false]
    split <;> simp [Order.trade]

theorem Market.removeOrder_insertOrder (m : Market) (o : Order) (n : Id64) (hid : n < o.id)
    (hb : m.bidSide.Fresh n) (ho : m.offerSide.Fresh n) :
    (m.insertOrder o).removeOrder o = m := by
  unfold Market.insertOrder Market.removeOrder
  cases hs : o.side
  · simp only [MarketSide.insertOrder, MarketSide.removeOrder]
    rw [removeLevels_insertLevels _ o n hid _ hb]
  · simp only [MarketSide.insertOrder, MarketSide.removeOrder]
    rw [removeLevels_insertLevels _ o n hid _ ho]

/-- What the reserve phase of `createOrder` leaves behind: the counter has advanced, the order
carries the first id allocated, the book is the old book plus the order if it is not done, and
the accounts are the old accounts up to zero positions under the market's key. -/
theorem createOrderReserve_footprint (s : Serv) (accnt : Symbol) (market : Market)
    (ref : String) (side : Side) (lots : Lots) (ticks : Ticks) (minLots : Lots) (now : Time)
    (resp : Response) :
    (createOrderReserve s accnt market ref side lots ticks minLots now resp).order.id
      = market.execSeq + 1
    ∧ (∃ n, (createOrderReserve s accnt market ref side lots ticks minLots now resp).market
        = if !(createOrderReserve s accnt market ref side lots ticks minLots now
                resp).order.done
          then ({ market with execSeq := market.execSeq + 1 + n } : Market).insertOrder
            (createOrderReserve s accnt market ref side lots ticks minLots now resp).order
          else { market with execSeq := market.execSeq + 1 + n })
    ∧ List.Forall₂ (SameButZeroPosn market.id market.instr market.settlDay) s.accnts
        (createOrderReserve s accnt market ref side lots ticks minLots now resp).serv.accnts
    ∧ (createOrderReserve s accnt market ref side lots ticks minLots now resp).serv.markets
        = s.markets
    ∧ (createOrderReserve s accnt market ref side lots ticks minLots now resp).serv.maxExecs
        = s.maxExecs := by
  unfold createOrderReserve
  simp only []
  obtain ⟨n, hn⟩ := matchOrders_market { s with execs_ := s.execs_ ++
      [newExec (Order.make accnt market.allocId.2.id market.allocId.2.instr
        market.allocId.2.settlDay market.allocId.1 ref side lots ticks minLots now)
        market.allocId.1 now] } accnt market.allocId.2
    (Order.make accnt market.allocId.2.id market.allocId.2.instr market.allocId.2.settlDay
      market.allocId.1 ref side lots ticks minLots now) now
    ((resp.insertOrder (Order.make accnt market.allocId.2.id market.allocId.2.instr
        market.allocId.2.settlDay market.allocId.1 ref side lots ticks minLots now)).insertExec
      (newExec (Order.make accnt market.allocId.2.id market.allocId.2.instr
        market.allocId.2.settlDay market.allocId.1 ref side lots ticks minLots now)
        market.allocId.1 now))
  have hacc := matchOrders_accnts { s with execs_ := s.execs_ ++
      [newExec (Order.make accnt market.allocId.2.id market.allocId.2.instr
        market.allocId.2.settlDay market.allocId.1 ref side lots ticks minLots now)
        market.allocId.1 now] } accnt market.allocId.2
    (Order.make accnt market.allocId.2.id market.allocId.2.instr market.allocId.2.settlDay
      market.allocId.1 ref side lots ticks minLots now) now
    ((resp.insertOrder (Order.make accnt market.allocId.2.id market.allocId.2.instr
        market.allocId.2.settlDay market.allocId.1 ref side lots ticks minLots now)).insertExec
      (newExec (Order.make accnt market.allocId.2.id market.allocId.2.instr
        market.allocId.2.settlDay market.allocId.1 ref side lots ticks minLots now)
        market.allocId.1 now))
  refine ⟨?_, ⟨n, ?_⟩, ?_, ?_, ?_⟩
  · rw [(matchOrders_takerOrder _ _ _ _ _ _).1]
    rfl
  · rw [hn]
    simp [Market.allocId, add_assoc]
  · rw [hn]
    split
    · exact SameButZeroPosn.write_step _ _ _ _ _ _ hacc
    · exact hacc
  · split
    · simp [(matchOrders_markets _ _ _ _ _ _).1]
    · simp [(matchOrders_markets _ _ _ _ _ _).1]
  · split
    · simp [(matchOrders_markets _ _ _ _ _ _).2]
    · simp [(matchOrders_markets _ _ _ _ _ _).2]

/-! ### Accounts a failed submission leaves untouched -/

/-- A write to the account `sym2` leaves the accounts of another symbol `sym` as they are. -/
theorem untouched_write (sym sym2 : Symbol) (f : Accnt → Accnt) (hne : sym2 ≠ sym) :
    ∀ (l0 l : List Accnt), List.Forall₂ (fun a b => a.symbol = sym → b = a) l0 l →
      List.Forall₂ (fun a b => a.symbol = sym → b = a) l0
        (l.map (fun a => if a.symbol = sym2 then f a else a)) := by
  intro l0 l h
  induction h with
  | nil => exact List.Forall₂.nil
  | @cons a b l1 l3 hab _ ih =>
    refine List.Forall₂.cons ?_ ih
    intro ha
    have hb := hab ha
    subst hb
    show (if b.symbol = sym2 then f b else b) = b
    rw [if_neg]
    rw [ha]
    exact fun e => hne e.symm

theorem untouched_refl (sym : Symbol) (l : List Accnt) :
    List.Forall₂ (fun a b => a.symbol = sym → b = a) l l := by
  induction l with
  | nil => exact List.Forall₂.nil
  | cons a l ih => exact List.Forall₂.cons (fun _ => rfl) ih

/-- The loop of `matchOrders` leaves as it is every account that owns none of the makers it
matches. -/
theorem matchLoop_untouched (sym : Symbol) (takerAccnt : Symbol) (takerOrder : Order)
    (direct : Direct) (now : Time) (makers : List Order) (st : MatchLoop) (l0 : List Accnt)
    (hm : ∀ m ∈ matchList takerOrder direct now makers st.market.execSeq st.sumLots st.sumCost,
      m.makerOrder.accnt ≠ sym)
    (h0 : List.Forall₂ (fun a b => a.symbol = sym → b = a) l0 st.serv.accnts) :
    List.Forall₂ (fun a b => a.symbol = sym → b = a) l0
      (matchLoop takerAccnt takerOrder direct now makers st).serv.accnts := by
  induction makers generalizing st with
  | nil => exact h0
  | cons mk rest ih =>
    unfold matchLoop
    unfold matchList at hm
    by_cases h1 : st.sumLots = takerOrder.resdLots
    · simp only [h1, if_true]; exact h0
    · by_cases h2 : spread takerOrder mk direct > 0
      · simp only [h1, h2, if_true, if_false]; exact h0
      · simp only [h1, h2, if_false] at hm ⊢
        apply ih (matchStep takerAccnt takerOrder now mk st)
        · intro m hmem
          exact hm m (List.mem_cons_of_mem _ hmem)
        · rw [matchStep_accnts]
          exact untouched_write sym mk.accnt _ (hm _ (List.mem_cons_self _ _)) _ _ h0

theorem matchOrders_untouched (sym : Symbol) (s : Serv) (takerAccnt : Symbol) (market : Market)
    (takerOrder : Order) (now : Time) (resp : Response)
    (hm : ∀ m ∈ matchList takerOrder
        (if takerOrder.side = Side.Buy then Direct.Paid else Direct.Given) now
        (if takerOrder.side = Side.Buy then market.offerSide else market.bidSide).orders
        market.execSeq 0 0, m.makerOrder.accnt ≠ sym) :
    List.Forall₂ (fun a b => a.symbol = sym → b = a) s.accnts
      (matchOrders s takerAccnt market takerOrder now resp).serv.accnts := by
  unfold matchOrders matchOrdersSide
  by_cases h : takerOrder.side = Side.Buy
  · simp only [h, if_true] at hm ⊢
    exact matchLoop_untouched sym _ _ _ _ _
      { serv := s, market := market, resp := resp, sumLots := 0, sumCost := 0, lastLots := 0,
        lastTicks := 0 } _ hm (untouched_refl sym _)
  · simp only [h, if_false] at hm ⊢
    exact matchLoop_untouched sym _ _ _ _ _
      { serv := s, market := market, resp := resp, sumLots := 0, sumCost := 0, lastLots := 0,
        lastTicks := 0 } _ hm (untouched_refl sym _)

/-- The reserve phase of `createOrder` leaves as it is every account other than the taker's that
owns none of the matched makers. -/
theorem createOrderReserve_untouched (sym : Symbol) (s : Serv) (accnt : Symbol)
    (market : Market) (ref : String) (side : Side) (lots : Lots) (ticks : Ticks)
    (minLots : Lots) (now : Time) (resp : Response) (hne : sym ≠ accnt)
    (hm : ∀ m ∈ matchList
        (Order.make accnt market.id market.instr market.settlDay (market.execSeq + 1) ref
          side lots ticks minLots now)
        (if side = Side.Buy then Direct.Paid else Direct.Given) now
        (if side = Side.Buy then market.offerSide else market.bidSide).orders
        (market.execSeq + 1) 0 0, m.makerOrder.accnt ≠ sym) :
    List.Forall₂ (fun a b => a.symbol = sym → b = a) s.accnts
      (createOrderReserve s accnt market ref side lots ticks minLots now resp).serv.accnts := by
  have hacc := matchOrders_untouched sym { s with execs_ := s.execs_ ++
      [newExec (Order.make accnt market.allocId.2.id market.allocId.2.instr
        market.allocId.2.settlDay market.allocId.1 ref side lots ticks minLots now)
        market.allocId.1 now] } accnt market.allocId.2
    (Order.make accnt market.allocId.2.id market.allocId.2.instr market.allocId.2.settlDay
      market.allocId.1 ref side lots ticks minLots now) now
    ((resp.insertOrder (Order.make accnt market.allocId.2.id market.allocId.2.instr
        market.allocId.2.settlDay market.allocId.1 ref side lots ticks minLots now)).insertExec
      (newExec (Order.make accnt market.allocId.2.id market.allocId.2.instr
        market.allocId.2.settlDay market.allocId.1 ref side lots ticks minLots now)
        market.allocId.1 now)) hm
  unfold createOrderReserve
  simp only []
  split
  · exact untouched_write sym accnt _ (fun e => hne e.symm) _ _ hacc
  · exact hacc

/-- C4 (amended): when `createOrder` reaches the journal on a fresh book and `mq.createExec`
rejects the batch, the error is propagated, both sides of the book and the market's metadata
are as before, every account has its orders, ref index, exec ring and trades as before and its
positions as before except that a zero position may have been created under the market's key,
and that only in the taker's account and in the accounts of the makers matched by the call:
every other account is exactly as before.  The journal, the market set and the scratch buffers
hold nothing new; only the exec id counter has advanced. -/
theorem createOrder_journal_failure (mq : MsgQueue) (busDay : Time → JDay) (s : Serv)
    (accnt : Symbol) (market : Market) (ref : String) (side : Side) (lots : Lots)
    (ticks : Ticks) (minLots : Lots) (now : Time) (resp : Response)
    (hwf : market.Fresh)
    (h1 : (!ref.isEmpty && (s.getAccnt accnt).existsRef ref) = false)
    (h2 : ¬ (market.settlDay ≠ 0 ∧ market.settlDay < busDay now))
    (h3 : ¬ (lots = 0 ∨ lots < minLots))
    (hmq : mq (createOrderReserve s accnt market ref side lots ticks minLots now
      resp).serv.execs_ = false) :
    (createOrder mq busDay s accnt market ref side lots ticks minLots now resp).thrown
      = some (Thrown.value ErrKind.Journal)
    ∧ (∃ n, (createOrder mq busDay s accnt market ref side lots ticks minLots now resp).market
        = { market with execSeq := market.execSeq + 1 + n })
    ∧ List.Forall₂ (SameButZeroPosn market.id market.instr market.settlDay) s.accnts
        (createOrder mq busDay s accnt market ref side lots ticks minLots now resp).serv.accnts
    ∧ (∀ sym, sym ≠ accnt →
        (∀ m ∈ matchList
            (Order.make accnt market.id market.instr market.settlDay (market.execSeq + 1) ref
              side lots ticks minLots now)
            (if side = Side.Buy then Direct.Paid else Direct.Given) now
            (if side = Side.Buy then market.offerSide else market.bidSide).orders
            (market.execSeq + 1) 0 0, m.makerOrder.accnt ≠ sym) →
        List.Forall₂ (fun a b => a.symbol = sym → b = a) s.accnts
          (createOrder mq busDay s accnt market ref side lots ticks minLots now
            resp).serv.accnts)
    ∧ (createOrder mq busDay s accnt market ref side lots ticks minLots now resp).serv.markets
        = s.markets
    ∧ (createOrder mq busDay s accnt market ref side lots ticks minLots now resp).serv.journ
        = s.journ
    ∧ (createOrder mq busDay s accnt market ref side lots ticks minLots now resp).serv.matches_
        = []
    ∧ (createOrder mq busDay s accnt market ref side lots ticks minLots now resp).serv.execs_
        = [] := by
  obtain ⟨hid, ⟨n, hm⟩, hacc, hmk, -⟩ :=
    createOrderReserve_footprint s accnt market ref side lots ticks minLots now resp
  have hun := fun sym hne hms => createOrderReserve_untouched sym s accnt market ref side lots
    ticks minLots now resp hne hms
  unfold createOrder
  simp only [h1, h2, h3, hmq, if_false, Bool.false_eq_true]
  refine ⟨trivial, ⟨n, ?_⟩, hacc, hun, hmk, createOrderReserve_journ _ _ _ _ _ _ _ _ _ _,
    trivial, trivial⟩
  rw [hm]
  split
  · exact Market.removeOrder_insertOrder _ _ market.execSeq (by rw [hid]; exact Nat.lt_succ_self _)
      hwf.1 hwf.2
  · rfl

/-- C4 (as stated) fails: `B` buys 10 @ 110 against the resting offer of `A` and the journal
rejects the batch; the call throws, yet `A`, which had no position, now has one. -/
theorem createOrder_journal_failure_counterexample :
    (createOrder exMqFail exBusDay exOut2.serv "B" exOut2.market "r1" Side.Buy 10 110 0 3
        Response.empty).thrown = some (Thrown.value ErrKind.Journal)
    ∧ (exOut2.serv.getAccnt "A").posns = []
    ∧ ((createOrder exMqFail exBusDay exOut2.serv "B" exOut2.market "r1" Side.Buy 10 110 0 3
        Response.empty).serv.getAccnt "A").posns = [zeroPosn "A" 7 "EURUSD" 0] := by
  decide

theorem createOrder_journal_failure_witness :
    (exOut2.market.Fresh
      ∧ (!("r1" : String).isEmpty && (exOut2.serv.getAccnt "B").existsRef "r1") = false
      ∧ ¬ (exOut2.market.settlDay ≠ 0 ∧ exOut2.market.settlDay < exBusDay 3)
      ∧ ¬ ((10 : Lots) = 0 ∨ (10 : Lots) < 0)
      ∧ exMqFail (createOrderReserve exOut2.serv "B" exOut2.market "r1" Side.Buy 10 110 0 3
          Response.empty).serv.execs_ = false)
    ∧ ((createOrder exMqFail exBusDay exOut2.serv "B" exOut2.market "r1" Side.Buy 10 110 0 3
          Response.empty).thrown = some (Thrown.value ErrKind.Journal)
      ∧ (∃ n, (createOrder exMqFail exBusDay exOut2.serv "B" exOut2.market "r1" Side.Buy 10 110
            0 3 Response.empty).market
          = { exOut2.market with execSeq := exOut2.market.execSeq + 1 + n })
      ∧ List.Forall₂
          (SameButZeroPosn exOut2.market.id exOut2.market.instr exOut2.market.settlDay)
          exOut2.serv.accnts
          (createOrder exMqFail exBusDay exOut2.serv "B" exOut2.market "r1" Side.Buy 10 110 0 3
            Response.empty).serv.accnts
      ∧ (∀ sym, sym ≠ "B" →
          (∀ m ∈ matchList
              (Order.make "B" exOut2.market.id exOut2.market.instr exOut2.market.settlDay
                (exOut2.market.execSeq + 1) "r1" Side.Buy 10 110 0 3)
              (if Side.Buy = Side.Buy then Direct.Paid else Direct.Given) 3
              (if Side.Buy = Side.Buy then exOut2.market.offerSide
               else exOut2.market.bidSide).orders
              (exOut2.market.execSeq + 1) 0 0, m.makerOrder.accnt ≠ sym) →
          List.Forall₂ (fun a b => a.symbol = sym → b = a) exOut2.serv.accnts
            (createOrder exMqFail exBusDay exOut2.serv "B" exOut2.market "r1" Side.Buy 10 110
              0 3 Response.empty).serv.accnts)
      ∧ (createOrder exMqFail exBusDay exOut2.serv "B" exOut2.market "r1" Side.Buy 10 110 0 3
          Response.empty).serv.markets = exOut2.serv.markets
      ∧ (createOrder exMqFail exBusDay exOut2.serv "B" exOut2.market "r1" Side.Buy 10 110 0 3
          Response.empty).serv.journ = exOut2.serv.journ
      ∧ (createOrder exMqFail exBusDay exOut2.serv "B" exOut2.market "r1" Side.Buy 10 110 0 3
          Response.empty).serv.matches_ = []
      ∧ (createOrder exMqFail exBusDay exOut2.serv "B" exOut2.market "r1" Side.Buy 10 110 0 3
          Response.empty).serv.execs_ = []) :=
  ⟨⟨by decide, by decide, by decide, by decide, by decide⟩,
   createOrder_journal_failure exMqFail exBusDay exOut2.serv "B" exOut2.market "r1" Side.Buy 10
     110 0 3 Response.empty (by decide) (by decide) (by decide) (by decide) (by decide)⟩

/-! ## The guards of `createOrder` -/

/-- The exception raised by `createOrder`, guard by guard. -/
theorem createOrder_thrown (mq : MsgQueue) (busDay : Time → JDay) (s : Serv)
    (accnt : Symbol) (market : Market) (ref : String) (side : Side) (lots : Lots)
    (ticks : Ticks) (minLots : Lots) (now : Time) (resp : Response) :
    (createOrder mq busDay s accnt market ref side lots ticks minLots now resp).thrown
      = if (!ref.isEmpty && (s.getAccnt accnt).existsRef ref) = true then
          some (Thrown.value ErrKind.RefAlreadyExists)
        else if market.settlDay ≠ 0 ∧ market.settlDay < busDay now then
          some (Thrown.value ErrKind.MarketClosed)
        else if lots = 0 ∨ lots < minLots then some (Thrown.value ErrKind.InvalidLots)
        else if mq (createOrderReserve s accnt market ref side lots ticks minLots now
            resp).serv.execs_ = true then none
        else some (Thrown.value ErrKind.Journal) := by
  unfold createOrder
  simp only []
  split_ifs <;> rfl

/-- A call rejected by one of the three guards of `createOrder` leaves the service, the market
(so no id is allocated) and the response untouched. -/
theorem createOrder_guard_unchanged (mq : MsgQueue) (busDay : Time → JDay) (s : Serv)
    (accnt : Symbol) (market : Market) (ref : String) (side : Side) (lots : Lots)
    (ticks : Ticks) (minLots : Lots) (now : Time) (resp : Response) (e : ErrKind)
    (he : e = ErrKind.RefAlreadyExists ∨ e = ErrKind.MarketClosed ∨ e = ErrKind.InvalidLots)
    (h : (createOrder mq busDay s accnt market ref side lots ticks minLots now resp).thrown
      = some (Thrown.value e)) :
    createOrder mq busDay s accnt market ref side lots ticks minLots now resp
      = { serv := s, market := market, resp := resp, thrown := some (Thrown.value e) } := by
  rw [createOrder_thrown] at h
  unfold createOrder
  by_cases h1 : (!ref.isEmpty && (s.getAccnt accnt).existsRef ref) = true
  · rw [if_pos h1] at h ⊢
    simp only [Option.some.injEq, Thrown.value.injEq] at h
    rw [h]
  · rw [if_neg h1] at h ⊢
    by_cases h2 : market.settlDay ≠ 0 ∧ market.settlDay < busDay now
    · rw [if_pos h2] at h ⊢
      simp only [Option.some.injEq, Thrown.value.injEq] at h
      rw [h]
    · rw [if_neg h2] at h ⊢
      by_cases h3 : lots = 0 ∨ lots < minLots
      · rw [if_pos h3] at h ⊢
        simp only [Option.some.injEq, Thrown.value.injEq] at h
        rw [h]
      · exfalso
        rw [if_neg h3] at h
        by_cases h4 : mq (createOrderReserve s accnt market ref side lots ticks minLots now
            resp).serv.execs_ = true
        · rw [if_pos h4] at h
          simp at h
        · rw [if_neg h4] at h
          simp only [Option.some.injEq, Thrown.value.injEq] at h
          subst h
          simp at he

/-- The lots guard of `createOrder` as it is coded: once the ref and settlement-day guards have
passed, the call is rejected with `InvalidLots` exactly when `lots = 0` or `lots < minLots`. -/
theorem createOrder_invalidLots_iff (mq : MsgQueue) (busDay : Time → JDay) (s : Serv)
    (accnt : Symbol) (market : Market) (ref : String) (side : Side) (lots : Lots)
    (ticks : Ticks) (minLots : Lots) (now : Time) (resp : Response)
    (h1 : (!ref.isEmpty && (s.getAccnt accnt).existsRef ref) = false)
    (h2 : ¬ (market.settlDay ≠ 0 ∧ market.settlDay < busDay now)) :
    (createOrder mq busDay s accnt market ref side lots ticks minLots now resp).thrown
        = some (Thrown.value ErrKind.InvalidLots)
      ↔ (lots = 0 ∨ lots < minLots) := by
  rw [createOrder_thrown, h1, if_neg Bool.false_ne_true, if_neg h2]
  split_ifs with h3 h4 <;> simp [h3]

/-- C5: `createOrder` does not reject every request with `lots <= 0`.  With `lots = -1` and
`minLots = -1` the guard `lots == 0 || lots < minLots` passes: the call succeeds, an id is
allocated and an order with `resdLots = -1` rests on the bid side and in the account. -/
theorem createOrder_negative_lots_accepted :
    (createOrder exMq exBusDay exServ0 "A" exMarket0 "" Side.Buy (-1) 100 (-1) 1
        Response.empty).thrown = none
    ∧ (createOrder exMq exBusDay exServ0 "A" exMarket0 "" Side.Buy (-1) 100 (-1) 1
        Response.empty).market.execSeq = 1
    ∧ (createOrder exMq exBusDay exServ0 "A" exMarket0 "" Side.Buy (-1) 100 (-1) 1
        Response.empty).market.bidSide.orders.map (fun o => (o.id, o.lots, o.resdLots))
        = [(1, -1, -1)]
    ∧ ((createOrder exMq exBusDay exServ0 "A" exMarket0 "" Side.Buy (-1) 100 (-1) 1
        Response.empty).serv.getAccnt "A").orders.map (fun o => (o.id, o.lots, o.resdLots))
        = [(1, -1, -1)] := by
  decide

/-- C6: once the ref guard has passed, `createOrder` throws `MarketClosed` exactly when the
market's `settlDay` is non-zero and less than `busDay(now)`; whenever it throws `MarketClosed`
the service, the market (so no id is allocated) and the response are untouched; and a market with
`settlDay = 0` never throws `MarketClosed`, whatever the ref and the time. -/
theorem createOrder_marketClosed (mq : MsgQueue) (busDay : Time → JDay) (s : Serv)
    (accnt : Symbol) (market : Market) (ref : String) (side : Side) (lots : Lots)
    (ticks : Ticks) (minLots : Lots) (now : Time) (resp : Response)
    (h1 : (!ref.isEmpty && (s.getAccnt accnt).existsRef ref) = false) :
    ((createOrder mq busDay s accnt market ref side lots ticks minLots now resp).thrown
        = some (Thrown.value ErrKind.MarketClosed)
      ↔ (market.settlDay ≠ 0 ∧ market.settlDay < busDay now))
    ∧ ((createOrder mq busDay s accnt market ref side lots ticks minLots now resp).thrown
        = some (Thrown.value ErrKind.MarketClosed) →
        createOrder mq busDay s accnt market ref side lots ticks minLots now resp
          = { serv := s, market := market, resp := resp,
              thrown := some (Thrown.value ErrKind.MarketClosed) })
    ∧ (market.settlDay = 0 → ∀ (ref2 : String) (now2 : Time),
        (createOrder mq busDay s accnt market ref2 side lots ticks minLots now2 resp).thrown
          ≠ some (Thrown.value ErrKind.MarketClosed)) := by
  refine ⟨?_, ?_, ?_⟩
  · rw [createOrder_thrown, h1, if_neg Bool.false_ne_true]
    split_ifs with h2 h3 h4 <;> simp [h2]
  · intro h
    exact createOrder_guard_unchanged mq busDay s accnt market ref side lots ticks minLots now
      resp ErrKind.MarketClosed (Or.inr (Or.inl rfl)) h
  · intro h0 ref2 now2
    rw [createOrder_thrown]
    have h2 : ¬ (market.settlDay ≠ 0 ∧ market.settlDay < busDay now2) := fun h => h.1 h0
    rw [if_neg h2]
    split_ifs <;> simp

theorem createOrder_marketClosed_witness :
    (!("" : String).isEmpty && (exServ0.getAccnt "A").existsRef "") = false
    ∧ (((createOrder exMq exBusDay exServ0 "A" exMarketOld "" Side.Buy 5 100 0 1
            Response.empty).thrown = some (Thrown.value ErrKind.MarketClosed)
          ↔ (exMarketOld.settlDay ≠ 0 ∧ exMarketOld.settlDay < exBusDay 1))
      ∧ ((createOrder exMq exBusDay exServ0 "A" exMarketOld "" Side.Buy 5 100 0 1
            Response.empty).thrown = some (Thrown.value ErrKind.MarketClosed) →
          createOrder exMq exBusDay exServ0 "A" exMarketOld "" Side.Buy 5 100 0 1 Response.empty
            = { serv := exServ0, market := exMarketOld, resp := Response.empty,
                thrown := some (Thrown.value ErrKind.MarketClosed) })
      ∧ (exMarketOld.settlDay = 0 → ∀ (ref2 : String) (now2 : Time),
          (createOrder exMq exBusDay exServ0 "A" exMarketOld ref2 Side.Buy 5 100 0 now2
            Response.empty).thrown ≠ some (Thrown.value ErrKind.MarketClosed))) :=
  ⟨by decide,
   createOrder_marketClosed exMq exBusDay exServ0 "A" exMarketOld "" Side.Buy 5 100 0 1
     Response.empty (by decide)⟩

/-! ## reviseOrder -/

/-- The lots check of `doReviseOrder` raises a pointer to an `InvalidLots` exception
(`throw new`), not the exception itself, and leaves everything untouched. -/
theorem doReviseOrder_invalid (mq : MsgQueue) (s : Serv) (accnt : Symbol) (market : Market)
    (order : Order) (lots : Lots) (now : Time) (resp : Response)
    (h : lots = 0 ∨ lots > order.lots ∨ lots < order.execLots ∨ lots < order.minLots) :
    doReviseOrder mq s accnt market order lots now resp
      = { serv := s, market := market, resp := resp,
          thrown := some (Thrown.pointer ErrKind.InvalidLots) } := by
  unfold doReviseOrder
  rw [if_pos h]

/-- C8: on the live order of `B` with `lots = 10`, `execLots = 3`, `resdLots = 7`, revising to 5
succeeds and gives `lots = 5`, `resdLots = 2`, `execLots = 3` with one `Revise` exec at the front
of the ring; revising to 2 or to 0 fails and leaves service and market unchanged, but what is
thrown is a pointer to an `InvalidLots` exception, not the `InvalidLots` error itself. -/
theorem reviseOrder_invalid_throws_pointer :
    (exOutB.serv.getAccnt "B").orders.map (fun o => (o.id, o.lots, o.execLots, o.resdLots))
      = [(2, 10, 3, 7)]
    ∧ (reviseOrderById exMq exOutB.serv "B" exOutB.market 2 5 3 Response.empty).thrown = none
    ∧ ((reviseOrderById exMq exOutB.serv "B" exOutB.market 2 5 3
          Response.empty).serv.getAccnt "B").orders.map
          (fun o => (o.id, o.lots, o.execLots, o.resdLots)) = [(2, 5, 3, 2)]
    ∧ ((reviseOrderById exMq exOutB.serv "B" exOutB.market 2 5 3
          Response.empty).serv.getAccnt "B").execs.map (fun e => (e.orderId, e.state))
        = (2, State.Revise) :: (exOutB.serv.getAccnt "B").execs.map
            (fun e => (e.orderId, e.state))
    ∧ reviseOrderById exMq exOutB.serv "B" exOutB.market 2 2 3 Response.empty
        = { serv := exOutB.serv, market := exOutB.market, resp := Response.empty,
            thrown := some (Thrown.pointer ErrKind.InvalidLots) }
    ∧ reviseOrderById exMq exOutB.serv "B" exOutB.market 2 0 3 Response.empty
        = { serv := exOutB.serv, market := exOutB.market, resp := Response.empty,
            thrown := some (Thrown.pointer ErrKind.InvalidLots) }
    ∧ (reviseOrderById exMq exOutB.serv "B" exOutB.market 2 2 3 Response.empty).thrown
        ≠ some (Thrown.value ErrKind.InvalidLots) := by
  decide

/-- C10: after three successful operations from the empty engine (`A` sells 3 @ 100, `B` buys
10 @ 100 and is filled for 3, `B` revises its order down to 3 lots) the order of `B` is still
held in the account's live-order index and still rests on the bid side, with `resdLots = 0`. -/
theorem live_order_with_zero_residual :
    exOutA.thrown = none ∧ exOutB.thrown = none ∧ exOutC.thrown = none
    ∧ (exOutC.serv.getAccnt "B").orders.map (fun o => (o.id, o.lots, o.execLots, o.resdLots))
        = [(2, 3, 3, 0)]
    ∧ exOutC.market.bidSide.orders.map (fun o => (o.id, o.lots, o.execLots, o.resdLots))
        = [(2, 3, 3, 0)] := by
  decide

/-! ## TooLate -/

theorem reviseReserveLoop_cons_ok (s : Serv) (accnt : Symbol) (lots : Lots) (now : Time)
    (i : Id64) (ids : List Id64) (market : Market) (resp : Response) (o : Order)
    (ho : (s.getAccnt accnt).order market.id i = Except.ok o) (hnd : o.done = false)
    (hlots : ¬ (lots = 0 ∨ lots > o.lots ∨ lots < o.execLots ∨ lots < o.minLots)) :
    reviseReserveLoop s accnt lots now (i :: ids) market resp
      = reviseReserveLoop s accnt lots now ids (market.allocId).2
          ((resp.insertOrder o).insertExec ((newExec o (market.allocId).1 now).revise lots)) := by
  rw [reviseReserveLoop]
  simp only [ho, hnd, Bool.false_eq_true, if_false, if_neg hlots]

theorem cancelReserveLoop_cons_ok (s : Serv) (accnt : Symbol) (now : Time)
    (i : Id64) (ids : List Id64) (market : Market) (resp : Response) (o : Order)
    (ho : (s.getAccnt accnt).order market.id i = Except.ok o) (hnd : o.done = false) :
    cancelReserveLoop s accnt now (i :: ids) market resp
      = cancelReserveLoop s accnt now ids (market.allocId).2
          ((resp.insertOrder o).insertExec ((newExec o (market.allocId).1 now).cancel)) := by
  rw [cancelReserveLoop]
  simp only [ho, hnd, Bool.false_eq_true, if_false]

theorem reviseReserveLoop_tooLate (s : Serv) (accnt : Symbol) (lots : Lots) (now : Time)
    (order : Order) (hdone : order.done = true) (id : Id64) (ids3 : List Id64) :
    ∀ (ids1 : List Id64) (market : Market) (resp : Response),
      (∀ i ∈ ids1, ∃ o, (s.getAccnt accnt).order market.id i = Except.ok o ∧ o.done = false
        ∧ ¬ (lots = 0 ∨ lots > o.lots ∨ lots < o.execLots ∨ lots < o.minLots)) →
      (s.getAccnt accnt).order market.id id = Except.ok order →
      (reviseReserveLoop s accnt lots now (ids1 ++ id :: ids3) market resp).thrown
          = some (Thrown.value ErrKind.TooLate)
      ∧ (reviseReserveLoop s accnt lots now (ids1 ++ id :: ids3) market resp).serv = s
      ∧ (reviseReserveLoop s accnt lots now (ids1 ++ id :: ids3) market resp).market
          = { market with execSeq := market.execSeq + ids1.length } := by
  intro ids1
  induction ids1 with
  | nil =>
    intro market resp _ hid
    rw [List.nil_append, reviseReserveLoop]
    simp [hid, hdone]
  | cons i ids ih =>
    intro market resp hpre hid
    obtain ⟨o, ho, hnd, hlots⟩ := hpre i (List.mem_cons_self _ _)
    rw [List.cons_append, reviseReserveLoop_cons_ok s accnt lots now i _ market resp o ho hnd
      hlots]
    have := ih (market.allocId).2 ((resp.insertOrder o).insertExec
        ((newExec o (market.allocId).1 now).revise lots))
      (fun j hj => hpre j (List.mem_cons_of_mem _ hj)) hid
    refine ⟨this.1, this.2.1, ?_⟩
    rw [this.2.2]
    simp [Market.allocId, Nat.add_assoc, Nat.add_comm 1]

theorem cancelReserveLoop_tooLate (s : Serv) (accnt : Symbol) (now : Time)
    (order : Order) (hdone : order.done = true) (id : Id64) (ids3 : List Id64) :
    ∀ (ids1 : List Id64) (market : Market) (resp : Response),
      (∀ i ∈ ids1, ∃ o, (s.getAccnt accnt).order market.id i = Except.ok o
        ∧ o.done = false) →
      (s.getAccnt accnt).order market.id id = Except.ok order →
      (cancelReserveLoop s accnt now (ids1 ++ id :: ids3) market resp).thrown
          = some (Thrown.value ErrKind.TooLate)
      ∧ (cancelReserveLoop s accnt now (ids1 ++ id :: ids3) market resp).serv = s
      ∧ (cancelReserveLoop s accnt now (ids1 ++ id :: ids3) market resp).market
          = { market with execSeq := market.execSeq + ids1.length } := by
  intro ids1
  induction ids1 with
  | nil =>
    intro market resp _ hid
    rw [List.nil_append, cancelReserveLoop]
    simp [hid, hdone]
  | cons i ids ih =>
    intro market resp hpre hid
    obtain ⟨o, ho, hnd⟩ := hpre i (List.mem_cons_self _ _)
    rw [List.cons_append, cancelReserveLoop_cons_ok s accnt now i _ market resp o ho hnd]
    have := ih (market.allocId).2 ((resp.insertOrder o).insertExec
        ((newExec o (market.allocId).1 now).cancel))
      (fun j hj => hpre j (List.mem_cons_of_mem _ hj)) hid
    refine ⟨this.1, this.2.1, ?_⟩
    rw [this.2.2]
    simp [Market.allocId, Nat.add_assoc, Nat.add_comm 1]

/-- A lookup by id in a live-order index that holds no order under the key misses. -/
theorem Accnt.order_miss (a : Accnt) (marketId id : Id64)
    (h : ∀ o ∈ a.orders, ¬ (o.marketId = marketId ∧ o.id = id)) :
    a.order marketId id = Except.error (Thrown.value ErrKind.OrderNotFound) := by
  unfold Accnt.order
  have hf : a.orders.find? (fun o => o.sameKey marketId id) = none := by
    rw [List.find?_eq_none]
    intro o ho hk
    apply h o ho
    simpa [Order.sameKey] using hk
  rw [hf]

/-- A lookup by ref in a ref index that holds no order under the ref misses. -/
theorem Accnt.orderByRef_miss (a : Accnt) (ref : String)
    (h : ∀ o ∈ a.refIdx, o.ref ≠ ref) :
    a.orderByRef ref = Except.error (Thrown.value ErrKind.OrderNotFound) := by
  unfold Accnt.orderByRef
  have hf : a.refIdx.find? (fun o => o.ref == ref) = none := by
    rw [List.find?_eq_none]
    intro o ho hk
    apply h o ho
    simpa using hk
  rw [hf]

theorem reviseReserveLoop_miss (s : Serv) (accnt : Symbol) (lots : Lots) (now : Time)
    (e : Thrown) (id : Id64) (ids3 : List Id64) :
    ∀ (ids1 : List Id64) (market : Market) (resp : Response),
      (∀ i ∈ ids1, ∃ o, (s.getAccnt accnt).order market.id i = Except.ok o ∧ o.done = false
        ∧ ¬ (lots = 0 ∨ lots > o.lots ∨ lots < o.execLots ∨ lots < o.minLots)) →
      (s.getAccnt accnt).order market.id id = Except.error e →
      (reviseReserveLoop s accnt lots now (ids1 ++ id :: ids3) market resp).thrown = some e
      ∧ (reviseReserveLoop s accnt lots now (ids1 ++ id :: ids3) market resp).serv = s
      ∧ (reviseReserveLoop s accnt lots now (ids1 ++ id :: ids3) market resp).market
          = { market with execSeq := market.execSeq + ids1.length } := by
  intro ids1
  induction ids1 with
  | nil =>
    intro market resp _ hid
    rw [List.nil_append, reviseReserveLoop]
    simp [hid]
  | cons i ids ih =>
    intro market resp hpre hid
    obtain ⟨o, ho, hnd, hlots⟩ := hpre i (List.mem_cons_self _ _)
    rw [List.cons_append, reviseReserveLoop_cons_ok s accnt lots now i _ market resp o ho hnd
      hlots]
    have := ih (market.allocId).2 ((resp.insertOrder o).insertExec
        ((newExec o (market.allocId).1 now).revise lots))
      (fun j hj => hpre j (List.mem_cons_of_mem _ hj)) hid
    refine ⟨this.1, this.2.1, ?_⟩
    rw [this.2.2]
    simp [Market.allocId, Nat.add_assoc, Nat.add_comm 1]

theorem cancelReserveLoop_miss (s : Serv) (accnt : Symbol) (now : Time)
    (e : Thrown) (id : Id64) (ids3 : List Id64) :
    ∀ (ids1 : List Id64) (market : Market) (resp : Response),
      (∀ i ∈ ids1, ∃ o, (s.getAccnt accnt).order market.id i = Except.ok o
        ∧ o.done = false) →
      (s.getAccnt accnt).order market.id id = Except.error e →
      (cancelReserveLoop s accnt now (ids1 ++ id :: ids3) market resp).thrown = some e
      ∧ (cancelReserveLoop s accnt now (ids1 ++ id :: ids3) market resp).serv = s
      ∧ (cancelReserveLoop s accnt now (ids1 ++ id :: ids3) market resp).market
          = { market with execSeq := market.execSeq + ids1.length } := by
  intro ids1
  induction ids1 with
  | nil =>
    intro market resp _ hid
    rw [List.nil_append, cancelReserveLoop]
    simp [hid]
  | cons i ids ih =>
    intro market resp hpre hid
    obtain ⟨o, ho, hnd⟩ := hpre i (List.mem_cons_self _ _)
    rw [List.cons_append, cancelReserveLoop_cons_ok s accnt now i _ market resp o ho hnd]
    have := ih (market.allocId).2 ((resp.insertOrder o).insertExec
        ((newExec o (market.allocId).1 now).cancel))
      (fun j hj => hpre j (List.mem_cons_of_mem _ hj)) hid
    refine ⟨this.1, this.2.1, ?_⟩
    rw [this.2.2]
    simp [Market.allocId, Nat.add_assoc, Nat.add_comm 1]

/-- C9 (amended): `reviseOrder` and `cancelOrder` throw `TooLate` whenever the order they
resolve is done: the order passed by reference, whatever the indexes hold, or the order found
in the account's live-order index under the id or under the ref; the outcome is then the input
service, market and response with `TooLate`.  In batch form, when the ids before it pass their
own checks, an id whose order is done gives `TooLate`, the service (accounts, their live orders
and exec rings, and the journal) is unchanged and the market differs only by its exec id
counter.  When the index holds no order under the id or under the ref, the overloads by id, by
ref and in batch form throw `OrderNotFound` instead, with the same unchanged state. -/
theorem revise_cancel_tooLate (mq : MsgQueue) (s : Serv) (accnt : Symbol) (market : Market)
    (lots : Lots) (now : Time) (resp : Response) :
    (∀ order : Order, order.done = true →
      reviseOrder mq s accnt market order lots now resp
        = { serv := s, market := market, resp := resp,
            thrown := some (Thrown.value ErrKind.TooLate) }
      ∧ cancelOrder mq s accnt market order now resp
        = { serv := s, market := market, resp := resp,
            thrown := some (Thrown.value ErrKind.TooLate) })
    ∧ (∀ (id : Id64) (order : Order),
        (s.getAccnt accnt).order market.id id = Except.ok order → order.done = true →
        reviseOrderById mq s accnt market id lots now resp
          = { serv := s, market := market, resp := resp,
              thrown := some (Thrown.value ErrKind.TooLate) }
        ∧ cancelOrderById mq s accnt market id now resp
          = { serv := s, market := market, resp := resp,
              thrown := some (Thrown.value ErrKind.TooLate) })
    ∧ (∀ (ref : String) (order : Order),
        (s.getAccnt accnt).orderByRef ref = Except.ok order → order.done = true →
        reviseOrderByRef mq s accnt market ref lots now resp
          = { serv := s, market := market, resp := resp,
              thrown := some (Thrown.value ErrKind.TooLate) }
        ∧ cancelOrderByRef mq s accnt market ref now resp
          = { serv := s, market := market, resp := resp,
              thrown := some (Thrown.value ErrKind.TooLate) })
    ∧ (∀ (ids1 : List Id64) (id : Id64) (ids3 : List Id64) (order : Order),
        (s.getAccnt accnt).order market.id id = Except.ok order → order.done = true →
        (∀ i ∈ ids1, ∃ o, (s.getAccnt accnt).order market.id i = Except.ok o
          ∧ o.done = false
          ∧ ¬ (lots = 0 ∨ lots > o.lots ∨ lots < o.execLots ∨ lots < o.minLots)) →
        (reviseOrderBatch mq s accnt market (ids1 ++ id :: ids3) lots now resp).thrown
            = some (Thrown.value ErrKind.TooLate)
        ∧ (reviseOrderBatch mq s accnt market (ids1 ++ id :: ids3) lots now resp).serv = s
        ∧ (reviseOrderBatch mq s accnt market (ids1 ++ id :: ids3) lots now resp).market
            = { market with execSeq := market.execSeq + ids1.length })
    ∧ (∀ (ids1 : List Id64) (id : Id64) (ids3 : List Id64) (order : Order),
        (s.getAccnt accnt).order market.id id = Except.ok order → order.done = true →
        (∀ i ∈ ids1, ∃ o, (s.getAccnt accnt).order market.id i = Except.ok o
          ∧ o.done = false) →
        (cancelOrderBatch mq s accnt market (ids1 ++ id :: ids3) now resp).thrown
            = some (Thrown.value ErrKind.TooLate)
        ∧ (cancelOrderBatch mq s accnt market (ids1 ++ id :: ids3) now resp).serv = s
        ∧ (cancelOrderBatch mq s accnt market (ids1 ++ id :: ids3) now resp).market
            = { market with execSeq := market.execSeq + ids1.length })
    ∧ (∀ id : Id64,
        (∀ o ∈ (s.getAccnt accnt).orders, ¬ (o.marketId = market.id ∧ o.id = id)) →
        reviseOrderById mq s accnt market id lots now resp
          = { serv := s, market := market, resp := resp,
              thrown := some (Thrown.value ErrKind.OrderNotFound) }
        ∧ cancelOrderById mq s accnt market id now resp
          = { serv := s, market := market, resp := resp,
              thrown := some (Thrown.value ErrKind.OrderNotFound) })
    ∧ (∀ ref : String,
        (∀ o ∈ (s.getAccnt accnt).refIdx, o.ref ≠ ref) →
        reviseOrderByRef mq s accnt market ref lots now resp
          = { serv := s, market := market, resp := resp,
              thrown := some (Thrown.value ErrKind.OrderNotFound) }
        ∧ cancelOrderByRef mq s accnt market ref now resp
          = { serv := s, market := market, resp := resp,
              thrown := some (Thrown.value ErrKind.OrderNotFound) })
    ∧ (∀ (ids1 : List Id64) (id : Id64) (ids3 : List Id64),
        (∀ o ∈ (s.getAccnt accnt).orders, ¬ (o.marketId = market.id ∧ o.id = id)) →
        (∀ i ∈ ids1, ∃ o, (s.getAccnt accnt).order market.id i = Except.ok o
          ∧ o.done = false
          ∧ ¬ (lots = 0 ∨ lots > o.lots ∨ lots < o.execLots ∨ lots < o.minLots)) →
        (reviseOrderBatch mq s accnt market (ids1 ++ id :: ids3) lots now resp).thrown
            = some (Thrown.value ErrKind.OrderNotFound)
        ∧ (reviseOrderBatch mq s accnt market (ids1 ++ id :: ids3) lots now resp).serv = s
        ∧ (reviseOrderBatch mq s accnt market (ids1 ++ id :: ids3) lots now resp).market
            = { market with execSeq := market.execSeq + ids1.length })
    ∧ (∀ (ids1 : List Id64) (id : Id64) (ids3 : List Id64),
        (∀ o ∈ (s.getAccnt accnt).orders, ¬ (o.marketId = market.id ∧ o.id = id)) →
        (∀ i ∈ ids1, ∃ o, (s.getAccnt accnt).order market.id i = Except.ok o
          ∧ o.done = false) →
        (cancelOrderBatch mq s accnt market (ids1 ++ id :: ids3) now resp).thrown
            = some (Thrown.value ErrKind.OrderNotFound)
        ∧ (cancelOrderBatch mq s accnt market (ids1 ++ id :: ids3) now resp).serv = s
        ∧ (cancelOrderBatch mq s accnt market (ids1 ++ id :: ids3) now resp).market
            = { market with execSeq := market.execSeq + ids1.length }) := by
  refine ⟨?_, ?_, ?_, ?_, ?_, ?_, ?_, ?_, ?_⟩
  · intro order hdone
    exact ⟨by simp [reviseOrder, hdone], by simp [cancelOrder, hdone]⟩
  · intro id order hid hdone
    exact ⟨by simp [reviseOrderById, hid, hdone], by simp [cancelOrderById, hid, hdone]⟩
  · intro ref order href hdone
    exact ⟨by simp [reviseOrderByRef, href, hdone], by simp [cancelOrderByRef, href, hdone]⟩
  · intro ids1 id ids3 order hid hdone hpre
    have hr := reviseReserveLoop_tooLate s accnt lots now order hdone id ids3 ids1 market
      (resp.setMarket market.id) hpre hid
    unfold reviseOrderBatch
    simp only [hr.1]
    exact ⟨trivial, hr.2.1, hr.2.2⟩
  · intro ids1 id ids3 order hid hdone hpre
    have hc := cancelReserveLoop_tooLate s accnt now order hdone id ids3 ids1 market
      (resp.setMarket market.id) hpre hid
    unfold cancelOrderBatch
    simp only [hc.1]
    exact ⟨trivial, hc.2.1, hc.2.2⟩
  · intro id hno
    have hid := Accnt.order_miss _ _ _ hno
    exact ⟨by simp [reviseOrderById, hid], by simp [cancelOrderById, hid]⟩
  · intro ref hno
    have href := Accnt.orderByRef_miss _ _ hno
    exact ⟨by simp [reviseOrderByRef, href], by simp [cancelOrderByRef, href]⟩
  · intro ids1 id ids3 hno hpre
    have hr := reviseReserveLoop_miss s accnt lots now _ id ids3 ids1 market
      (resp.setMarket market.id) hpre (Accnt.order_miss _ _ _ hno)
    unfold reviseOrderBatch
    simp only [hr.1]
    exact ⟨trivial, hr.2.1, hr.2.2⟩
  · intro ids1 id ids3 hno hpre
    have hc := cancelReserveLoop_miss s accnt now _ id ids3 ids1 market
      (resp.setMarket market.id) hpre (Accnt.order_miss _ _ _ hno)
    unfold cancelOrderBatch
    simp only [hc.1]
    exact ⟨trivial, hc.2.1, hc.2.2⟩

/-- C9 applies: in the state of `exOutD` the order 2 of `B` (ref `r1`) is done and still
indexed, order 6 is live, and no order of `B` has id 99 or ref `zz`. -/
theorem revise_cancel_tooLate_witness :
    (exDone.done = true
      ∧ (exOutD.serv.getAccnt "B").order exOutD.market.id 2 = Except.ok exDone
      ∧ (exOutD.serv.getAccnt "B").orderByRef "r1" = Except.ok exDone
      ∧ (∀ i ∈ [6], ∃ o, (exOutD.serv.getAccnt "B").order exOutD.market.id i = Except.ok o
          ∧ o.done = false
          ∧ ¬ ((4 : Lots) = 0 ∨ (4 : Lots) > o.lots ∨ (4 : Lots) < o.execLots
                ∨ (4 : Lots) < o.minLots))
      ∧ (∀ o ∈ (exOutD.serv.getAccnt "B").orders, ¬ (o.marketId = exOutD.market.id ∧ o.id = 99))
      ∧ (∀ o ∈ (exOutD.serv.getAccnt "B").refIdx, o.ref ≠ "zz"))
    ∧ (reviseOrder exMq exOutD.serv "B" exOutD.market exDone 4 5 Response.empty
        = { serv := exOutD.serv, market := exOutD.market, resp := Response.empty,
            thrown := some (Thrown.value ErrKind.TooLate) }
      ∧ cancelOrderById exMq exOutD.serv "B" exOutD.market 2 5 Response.empty
        = { serv := exOutD.serv, market := exOutD.market, resp := Response.empty,
            thrown := some (Thrown.value ErrKind.TooLate) }
      ∧ reviseOrderByRef exMq exOutD.serv "B" exOutD.market "r1" 4 5 Response.empty
        = { serv := exOutD.serv, market := exOutD.market, resp := Response.empty,
            thrown := some (Thrown.value ErrKind.TooLate) }
      ∧ (reviseOrderBatch exMq exOutD.serv "B" exOutD.market ([6] ++ 2 :: []) 4 5
            Response.empty).thrown = some (Thrown.value ErrKind.TooLate)
      ∧ (cancelOrderBatch exMq exOutD.serv "B" exOutD.market ([6] ++ 2 :: []) 5
            Response.empty).serv = exOutD.serv
      ∧ cancelOrderById exMq exOutD.serv "B" exOutD.market 99 5 Response.empty
        = { serv := exOutD.serv, market := exOutD.market, resp := Response.empty,
            thrown := some (Thrown.value ErrKind.OrderNotFound) }
      ∧ reviseOrderByRef exMq exOutD.serv "B" exOutD.market "zz" 4 5 Response.empty
        = { serv := exOutD.serv, market := exOutD.market, resp := Response.empty,
            thrown := some (Thrown.value ErrKind.OrderNotFound) }
      ∧ (cancelOrderBatch exMq exOutD.serv "B" exOutD.market ([6] ++ 99 :: [2]) 5
            Response.empty).thrown = some (Thrown.value ErrKind.OrderNotFound)) :=
  have hdone : exDone.done = true := by decide
  have hid : (exOutD.serv.getAccnt "B").order exOutD.market.id 2 = Except.ok exDone := by rfl
  have href : (exOutD.serv.getAccnt "B").orderByRef "r1" = Except.ok exDone := by rfl
  have hpre : ∀ i ∈ [6], ∃ o, (exOutD.serv.getAccnt "B").order exOutD.market.id i = Except.ok o
      ∧ o.done = false
      ∧ ¬ ((4 : Lots) = 0 ∨ (4 : Lots) > o.lots ∨ (4 : Lots) < o.execLots
            ∨ (4 : Lots) < o.minLots) := by
    intro i hi
    rw [List.mem_singleton] at hi
    subst hi
    exact ⟨Order.make "B" 7 "EURUSD" 0 6 "r2" Side.Buy 4 90 0 4, by rfl, by decide, by decide⟩
  have hpre2 : ∀ i ∈ [6], ∃ o, (exOutD.serv.getAccnt "B").order exOutD.market.id i
      = Except.ok o ∧ o.done = false := fun i hi => by
    obtain ⟨o, h1, h2, -⟩ := hpre i hi
    exact ⟨o, h1, h2⟩
  have hno : ∀ o ∈ (exOutD.serv.getAccnt "B").orders,
      ¬ (o.marketId = exOutD.market.id ∧ o.id = 99) := by decide
  have hnr : ∀ o ∈ (exOutD.serv.getAccnt "B").refIdx, o.ref ≠ "zz" := by decide
  have h := revise_cancel_tooLate exMq exOutD.serv "B" exOutD.market 4 5 Response.empty
  ⟨⟨hdone, hid, href, hpre, hno, hnr⟩,
   (h.1 exDone hdone).1, (h.2.1 2 exDone hid hdone).2, (h.2.2.1 "r1" exDone href hdone).1,
   (h.2.2.2.1 [6] 2 [] exDone hid hdone hpre).1,
   (h.2.2.2.2.1 [6] 2 [] exDone hid hdone hpre2).2.1,
   (h.2.2.2.2.2.1 99 hno).2, (h.2.2.2.2.2.2.1 "zz" hnr).1,
   (h.2.2.2.2.2.2.2.2 [6] 99 [2] hno hpre2).1⟩

/-- C9 (as stated) fails for the lookups by id and by ref: after the full fill of scenario 1 the
order 1 of `A` is done (its last exec shows state `Trade` and `resdLots = 0`) and has left the
live-order index, so `cancelOrder` and `reviseOrder` by id, by ref and in batch form do not reach
the `done()` test: the lookup misses and `OrderNotFound` is thrown, not `TooLate`. -/
theorem tooLate_counterexample :
    exFill2.thrown = none
    ∧ ((exFill2.serv.getAccnt "A").execs.head?.map
        (fun e => (e.orderId, e.state, e.resdLots))) = some (1, State.Trade, 0)
    ∧ (cancelOrderById exMq exFill2.serv "A" exFill2.market 1 3 Response.empty).thrown
        = some (Thrown.value ErrKind.OrderNotFound)
    ∧ (reviseOrderById exMq exFill2.serv "A" exFill2.market 1 5 3 Response.empty).thrown
        = some (Thrown.value ErrKind.OrderNotFound)
    ∧ (cancelOrderByRef exMq exFill2.serv "A" exFill2.market "ra" 3 Response.empty).thrown
        = some (Thrown.value ErrKind.OrderNotFound)
    ∧ (reviseOrderByRef exMq exFill2.serv "A" exFill2.market "ra" 5 3 Response.empty).thrown
        = some (Thrown.value ErrKind.OrderNotFound)
    ∧ (cancelOrderBatch exMq exFill2.serv "A" exFill2.market [1] 3 Response.empty).thrown
        = some (Thrown.value ErrKind.OrderNotFound)
    ∧ (reviseOrderBatch exMq exFill2.serv "A" exFill2.market [1] 5 3 Response.empty).thrown
        = some (Thrown.value ErrKind.OrderNotFound) := by
  decide

/-! ## Uniqueness of refs: account-level steps -/

theorem Accnt.Good.of_same (P : Order → Prop) (a b : Accnt) (ho : b.orders = a.orders)
    (hr : b.refIdx = a.refIdx) (h : a.Good P) : b.Good P := by
  unfold Accnt.Good Accnt.RefOk at h ⊢
  rw [ho, hr]
  exact h

theorem Accnt.Good.weaken (P Q : Order → Prop) (a : Accnt) (hpq : ∀ o, P o → Q o)
    (h : a.Good P) : a.Good Q :=
  ⟨h.1, fun o ho => hpq o (h.2 o ho)⟩

theorem Accnt.Good.posn_keep (P : Order → Prop) (a : Accnt) (i : Id64) (n : Symbol) (d : JDay)
    (h : a.Good P) : (a.posn i n d).Good P := by
  apply Accnt.Good.of_same P a _ _ _ h <;> (unfold Accnt.posn; split <;> rfl)

theorem Accnt.Good.addTrade (P : Order → Prop) (a : Accnt) (i : Id64) (n : Symbol) (d : JDay)
    (sd : Side) (l : Lots) (t : Ticks) (h : a.Good P) : (a.addTrade i n d sd l t).Good P :=
  Accnt.Good.of_same P a _ rfl rfl h

theorem Accnt.Good.pushExecFront (P : Order → Prop) (a : Accnt) (e : Exec) (h : a.Good P) :
    (a.pushExecFront e).Good P :=
  Accnt.Good.of_same P a _ rfl rfl h

theorem Accnt.Good.insertTrade (P : Order → Prop) (a : Accnt) (e : Exec) (h : a.Good P) :
    (a.insertTrade e).Good P :=
  Accnt.Good.of_same P a _ rfl rfl h

theorem Accnt.Good.removeOrder (P : Order → Prop) (a : Accnt) (o : Order) (h : a.Good P) :
    (a.removeOrder o).Good P := by
  obtain ⟨⟨h1, h2⟩, h3⟩ := h
  refine ⟨⟨?_, ?_⟩, ?_⟩
  · show a.refIdx.filter _ = (a.orders.filter _).filter _
    rw [h1, List.filter_filter, List.filter_filter]
    congr 1
    funext x
    exact Bool.and_comm _ _
  · show ((a.refIdx.filter _).map _).Nodup
    exact List.Nodup.sublist (List.Sublist.map _ (List.filter_sublist _)) h2
  · intro x hx
    exact h3 x (List.mem_of_mem_filter hx)

theorem Accnt.Good.writeOrder (P : Order → Prop) (hP : KeyPred P) (a : Accnt) (mid id : Id64)
    (f : Order → Order)
    (hf : ∀ x, (f x).ref = x.ref ∧ (f x).marketId = x.marketId ∧ (f x).id = x.id)
    (h : a.Good P) : (a.writeOrder mid id f).Good P := by
  obtain ⟨⟨h1, h2⟩, h3⟩ := h
  have hg : ∀ x : Order, (if x.sameKey mid id then f x else x).ref = x.ref := by
    intro x; split
    · exact (hf x).1
    · rfl
  refine ⟨⟨?_, ?_⟩, ?_⟩
  · show a.refIdx.map _ = (a.orders.map _).filter _
    rw [h1, List.filter_map]
    congr 1
    apply List.filter_congr
    intro x _
    simp only [Function.comp, hg]
  · show ((a.refIdx.map _).map _).Nodup
    rw [List.map_map]
    have : ((fun o : Order => o.ref) ∘ fun x => if x.sameKey mid id then f x else x)
        = fun o : Order => o.ref := by
      funext x; exact hg x
    rw [this]
    exact h2
  · intro y hy
    obtain ⟨x, hx, rfl⟩ := List.mem_map.mp hy
    split
    · exact hP x (f x) (hf x).2.1.symm (hf x).2.2.symm (h3 x hx)
    · exact h3 x hx

theorem Accnt.Good.insertOrder (P Q : Order → Prop) (a : Accnt) (o : Order)
    (hkey : ∀ x ∈ a.orders, x.sameKey o.marketId o.id = false)
    (href : o.ref.isEmpty = false → a.existsRef o.ref = false)
    (hpq : ∀ x, P x → Q x) (hq : Q o) (h : a.Good P) : (a.insertOrder o).Good Q := by
  obtain ⟨⟨h1, h2⟩, h3⟩ := h
  have hins : Accnt.insertById o a.orders = a.orders ++ [o] := by
    unfold Accnt.insertById
    rw [if_neg]
    simpa using hkey
  refine ⟨⟨?_, ?_⟩, ?_⟩
  · show (if o.ref.isEmpty then a.refIdx else Accnt.insertByRef o a.refIdx)
      = (Accnt.insertById o a.orders).filter _
    rw [hins, List.filter_append]
    by_cases he : o.ref.isEmpty = true
    · simp [he, h1]
    · have he2 : o.ref.isEmpty = false := by simpa using he
      have hx := href he2
      unfold Accnt.existsRef at hx
      unfold Accnt.insertByRef
      simp only [he2, Bool.false_eq_true, if_false, hx, List.filter_cons, Bool.not_false,
        if_true, List.filter_nil]
      rw [h1]
  · show ((if o.ref.isEmpty then a.refIdx else Accnt.insertByRef o a.refIdx).map _).Nodup
    by_cases he : o.ref.isEmpty = true
    · simpa [he] using h2
    · have he2 : o.ref.isEmpty = false := by simpa using he
      have hx := href he2
      unfold Accnt.existsRef at hx
      unfold Accnt.insertByRef
      simp only [he2, Bool.false_eq_true, if_false, hx, List.map_append, List.map_cons,
        List.map_nil]
      rw [List.nodup_append]
      refine ⟨h2, List.nodup_singleton _, ?_⟩
      intro r hr1 hr2
      rw [List.mem_singleton] at hr2
      subst hr2
      obtain ⟨y, hy, hyr⟩ := List.mem_map.mp hr1
      have := List.any_eq_false.mp hx y hy
      simp [hyr] at this
  · intro x hx
    show Q x
    have hx2 : x ∈ Accnt.insertById o a.orders := hx
    rw [hins, List.mem_append, List.mem_singleton] at hx2
    rcases hx2 with hx2 | hx2
    · exact hpq x (h3 x hx2)
    · rw [hx2]; exact hq

/-! ## Uniqueness of refs: service-level steps -/

theorem Accnt.posn_symbol (a : Accnt) (i : Id64) (n : Symbol) (d : JDay) :
    (a.posn i n d).symbol = a.symbol := by
  unfold Accnt.posn; split <;> rfl

theorem neutral_posn (i : Id64) (n : Symbol) (d : JDay) :
    Accnt.Neutral (fun a => a.posn i n d) :=
  fun a => ⟨Accnt.posn_symbol a i n d, fun P _ h => Accnt.Good.posn_keep P a i n d h⟩

theorem neutral_addTrade (i : Id64) (n : Symbol) (d : JDay) (sd : Side) (l : Lots)
    (t : Ticks) : Accnt.Neutral (fun a => a.addTrade i n d sd l t) :=
  fun a => ⟨rfl, fun P _ h => Accnt.Good.addTrade P a i n d sd l t h⟩

theorem neutral_pushExecFront (e : Exec) : Accnt.Neutral (fun a => a.pushExecFront e) :=
  fun a => ⟨rfl, fun P _ h => Accnt.Good.pushExecFront P a e h⟩

theorem neutral_push_insertTrade (e e2 : Exec) :
    Accnt.Neutral (fun a => (a.pushExecFront e).insertTrade e2) :=
  fun a => ⟨rfl, fun P _ h =>
    Accnt.Good.insertTrade P _ e2 (Accnt.Good.pushExecFront P a e h)⟩

theorem neutral_removeOrder (o : Order) : Accnt.Neutral (fun a => a.removeOrder o) :=
  fun a => ⟨rfl, fun P _ h => Accnt.Good.removeOrder P a o h⟩

theorem neutral_writeOrder (mid id : Id64) (f : Order → Order)
    (hf : ∀ x, (f x).ref = x.ref ∧ (f x).marketId = x.marketId ∧ (f x).id = x.id) :
    Accnt.Neutral (fun a => a.writeOrder mid id f) :=
  fun a => ⟨rfl, fun P hP h => Accnt.Good.writeOrder P hP a mid id f hf h⟩

theorem Serv.Good.write_neutral (P : Order → Prop) (hP : KeyPred P) (syms : List Symbol)
    (ms : List Market) (s : Serv) (sym : Symbol) (f : Accnt → Accnt) (hf : Accnt.Neutral f)
    (h : s.Good P syms ms) : (s.writeAccnt sym f).Good P syms ms := by
  obtain ⟨h1, h2, h3⟩ := h
  refine ⟨?_, h2, ?_⟩
  · rw [← h1]
    show (s.accnts.map _).map _ = _
    rw [List.map_map]
    apply List.map_congr_left
    intro a _
    simp only [Function.comp]
    split
    · exact (hf a).1
    · rfl
  · intro b hb
    obtain ⟨a, ha, rfl⟩ := List.mem_map.mp hb
    split
    · exact (hf a).2 P hP (h3 a ha)
    · exact h3 a ha

theorem Serv.Good.ite (P : Order → Prop) (syms : List Symbol) (ms : List Market)
    (c : Prop) [Decidable c] (s s2 : Serv) (h1 : s.Good P syms ms) (h2 : s2.Good P syms ms) :
    (if c then s else s2).Good P syms ms := by
  split
  · exact h1
  · exact h2

theorem Serv.Good.of_eq (P : Order → Prop) (syms : List Symbol) (ms : List Market)
    (s s2 : Serv) (ha : s2.accnts = s.accnts) (hm : s2.markets = s.markets)
    (h : s.Good P syms ms) : s2.Good P syms ms := by
  unfold Serv.Good at h ⊢
  rw [ha, hm]
  exact h

theorem Serv.Good.weakenAll (P Q : Order → Prop) (syms : List Symbol) (ms : List Market)
    (s : Serv) (hpq : ∀ o, P o → Q o) (h : s.Good P syms ms) : s.Good Q syms ms :=
  ⟨h.1, h.2.1, fun a ha => Accnt.Good.weaken P Q a hpq (h.2.2 a ha)⟩

theorem Order.trade_key (x : Order) (a : Lots) (b : Cost) (c : Lots) (d : Ticks) (t : Time) :
    (x.trade a b c d t).ref = x.ref ∧ (x.trade a b c d t).marketId = x.marketId
    ∧ (x.trade a b c d t).id = x.id := ⟨rfl, rfl, rfl⟩

theorem Order.revise_key (x : Order) (a : Lots) (t : Time) :
    (x.revise a t).ref = x.ref ∧ (x.revise a t).marketId = x.marketId
    ∧ (x.revise a t).id = x.id := ⟨rfl, rfl, rfl⟩

theorem Market.takeOrder_meta (m : Market) (o : Order) (l : Lots) (t : Time) :
    (m.takeOrder o l t).id = m.id ∧ (m.takeOrder o l t).execSeq = m.execSeq := by
  unfold Market.takeOrder; split <;> exact ⟨rfl, rfl⟩

theorem Market.insertOrder_meta (m : Market) (o : Order) :
    (m.insertOrder o).id = m.id ∧ (m.insertOrder o).execSeq = m.execSeq := by
  unfold Market.insertOrder; split <;> exact ⟨rfl, rfl⟩

theorem Market.reviseOrder_meta (m : Market) (o : Order) (l : Lots) (t : Time) :
    (m.reviseOrder o l t).id = m.id ∧ (m.reviseOrder o l t).execSeq = m.execSeq := by
  unfold Market.reviseOrder; split <;> exact ⟨rfl, rfl⟩

theorem Market.cancelOrder_meta (m : Market) (o : Order) (t : Time) :
    (m.cancelOrder o t).id = m.id ∧ (m.cancelOrder o t).execSeq = m.execSeq := by
  unfold Market.cancelOrder; split <;> exact ⟨rfl, rfl⟩

/-- One iteration of `commitMatches` keeps the account symbols, the market set, the market's id
and counter, and `Good P` for every account. -/
theorem commitMatch_good (P : Order → Prop) (hP : KeyPred P) (syms : List Symbol)
    (ms : List Market) (takerAccnt : Symbol) (now : Time) (m : Match) (c : Committed)
    (h : c.serv.Good P syms ms) :
    (commitMatch takerAccnt now m c).serv.Good P syms ms
    ∧ (commitMatch takerAccnt now m c).market.id = c.market.id
    ∧ (commitMatch takerAccnt now m c).market.execSeq = c.market.execSeq := by
  unfold commitMatch
  simp only []
  refine ⟨?_, (Market.takeOrder_meta _ _ _ _).1, (Market.takeOrder_meta _ _ _ _).2⟩
  apply Serv.Good.write_neutral P hP _ _ _ _ _ (neutral_push_insertTrade _ _)
  apply Serv.Good.write_neutral P hP _ _ _ _ _ (neutral_addTrade _ _ _ _ _ _)
  have h3 := Serv.Good.write_neutral P hP _ _ _ m.makerOrder.accnt _
    (neutral_writeOrder m.makerOrder.marketId m.makerOrder.id
      (fun x => x.trade m.lots (cost m.lots x.ticks) m.lots x.ticks now)
      (fun x => Order.trade_key x _ _ _ _ _)) h
  apply Serv.Good.ite
  · apply Serv.Good.write_neutral P hP _ _ _ _ _ (neutral_removeOrder _)
    apply Serv.Good.write_neutral P hP _ _ _ _ _ (neutral_push_insertTrade _ _)
    apply Serv.Good.write_neutral P hP _ _ _ _ _ (neutral_addTrade _ _ _ _ _ _)
    exact h3
  · apply Serv.Good.write_neutral P hP _ _ _ _ _ (neutral_push_insertTrade _ _)
    apply Serv.Good.write_neutral P hP _ _ _ _ _ (neutral_addTrade _ _ _ _ _ _)
    exact h3

theorem commitMatches_good (P : Order → Prop) (hP : KeyPred P) (syms : List Symbol)
    (ms : List Market) (takerAccnt : Symbol) (now : Time) (l : List Match) (c : Committed)
    (h : c.serv.Good P syms ms) :
    (commitMatches takerAccnt now l c).serv.Good P syms ms
    ∧ (commitMatches takerAccnt now l c).market.id = c.market.id
    ∧ (commitMatches takerAccnt now l c).market.execSeq = c.market.execSeq := by
  induction l generalizing c with
  | nil => exact ⟨h, rfl, rfl⟩
  | cons m l ih =>
    unfold commitMatches
    obtain ⟨h1, h2, h3⟩ := commitMatch_good P hP syms ms takerAccnt now m c h
    obtain ⟨k1, k2, k3⟩ := ih (commitMatch takerAccnt now m c) h1
    exact ⟨k1, k2.trans h2, k3.trans h3⟩

theorem forall₂_transfer (R : Accnt → Accnt → Prop) (Q Q2 : Accnt → Prop)
    (hq : ∀ a b, R a b → Q a → Q2 b) :
    ∀ (l l2 : List Accnt), List.Forall₂ R l l2 → (∀ a ∈ l, Q a) → ∀ b ∈ l2, Q2 b := by
  intro l l2 h
  induction h with
  | nil => intro _ b hb; simp at hb
  | @cons a b l1 l3 hab _ ih =>
    intro hl c hc
    rcases List.mem_cons.mp hc with hc | hc
    · rw [hc]; exact hq a b hab (hl a (List.mem_cons_self _ _))
    · exact ih (fun x hx => hl x (List.mem_cons_of_mem _ hx)) c hc

theorem forall₂_sameButZeroPosn_symbols (i : Id64) (n : Symbol) (d : JDay) :
    ∀ (l l2 : List Accnt), List.Forall₂ (SameButZeroPosn i n d) l l2 →
      l2.map (fun a => a.symbol) = l.map (fun a => a.symbol) := by
  intro l l2 h
  induction h with
  | nil => rfl
  | @cons a b l1 l3 hab _ ih =>
    simp only [List.map_cons, ih, hab.1]

theorem KeyPred.allocated (ms : List Market) : KeyPred (Order.Allocated ms) := by
  intro o o2 h1 h2 h m hm hid
  rw [← h2]
  exact h m hm (by rw [h1]; exact hid)

theorem KeyPred.allocatedOr (ms : List Market) (mid : Id64) (n : Id64) :
    KeyPred (fun o => Order.Allocated ms o ∨ (o.marketId = mid ∧ o.id ≤ n)) := by
  intro o o2 h1 h2 h
  rcases h with h | h
  · exact Or.inl (KeyPred.allocated ms o o2 h1 h2 h)
  · exact Or.inr ⟨by rw [← h1]; exact h.1, by rw [← h2]; exact h.2⟩

/-- With distinct account symbols, the account read through a symbol is the account that carries
it. -/
theorem Serv.getAccnt_of_mem (s : Serv) (hnd : (s.accnts.map (fun a => a.symbol)).Nodup)
    (a : Accnt) (ha : a ∈ s.accnts) : s.getAccnt a.symbol = a := by
  unfold Serv.getAccnt Serv.findAccnt
  have : ∀ (l : List Accnt), (l.map (fun a => a.symbol)).Nodup → a ∈ l →
      l.find? (fun b => b.symbol == a.symbol) = some a := by
    intro l
    induction l with
    | nil => intro _ h; simp at h
    | cons b l ih =>
      intro hn hm
      rw [List.map_cons, List.nodup_cons] at hn
      rcases List.mem_cons.mp hm with hm | hm
      · subst hm; simp
      · have hne : b.symbol ≠ a.symbol := by
          intro he
          apply hn.1
          rw [he]
          exact List.mem_map.mpr ⟨a, hm, rfl⟩
        rw [List.find?_cons]
        have hb : (b.symbol == a.symbol) = false := by simpa using hne
        rw [hb]
        exact ih hn.2 hm
  rw [this s.accnts hnd ha]
  rfl

/-- The reserve phase of `createOrder` keeps `Good P`, and whatever holds of the live orders and
ref index of the account with a given symbol. -/
theorem createOrderReserve_good (P : Order → Prop) (syms : List Symbol) (ms : List Market)
    (s : Serv) (accnt : Symbol) (market : Market) (ref : String) (side : Side) (lots : Lots)
    (ticks : Ticks) (minLots : Lots) (now : Time) (resp : Response)
    (h : s.Good P syms ms) :
    (createOrderReserve s accnt market ref side lots ticks minLots now resp).serv.Good P syms ms
    ∧ ∀ (X : List Order → List Order → Prop) (sym : Symbol),
        (∀ a ∈ s.accnts, a.symbol = sym → X a.orders a.refIdx) →
        ∀ b ∈ (createOrderReserve s accnt market ref side lots ticks minLots now
                resp).serv.accnts, b.symbol = sym → X b.orders b.refIdx := by
  obtain ⟨-, -, hacc, hmk, -⟩ :=
    createOrderReserve_footprint s accnt market ref side lots ticks minLots now resp
  refine ⟨⟨?_, ?_, ?_⟩, ?_⟩
  · rw [forall₂_sameButZeroPosn_symbols _ _ _ _ _ hacc]
    exact h.1
  · rw [hmk]; exact h.2.1
  · exact forall₂_transfer _ (fun a => a.Good P) (fun a => a.Good P)
      (fun a b hab ha => Accnt.Good.of_same P a b hab.2.2.1 hab.2.2.2.1 ha) _ _ hacc h.2.2
  · intro X sym hX
    exact forall₂_transfer _ (fun a => a.symbol = sym → X a.orders a.refIdx)
      (fun a => a.symbol = sym → X a.orders a.refIdx)
      (fun a b hab ha hb => by
        rw [hab.2.2.1, hab.2.2.2.1]
        exact ha (by rw [← hab.1]; exact hb)) _ _ hacc hX

theorem Serv.Good.insert (P Q : Order → Prop) (syms : List Symbol) (ms : List Market)
    (s : Serv) (sym : Symbol) (o : Order) (hpq : ∀ x, P x → Q x) (hq : Q o)
    (hkey : ∀ a ∈ s.accnts, a.symbol = sym →
      ∀ x ∈ a.orders, x.sameKey o.marketId o.id = false)
    (href : ∀ a ∈ s.accnts, a.symbol = sym →
      o.ref.isEmpty = false → a.existsRef o.ref = false)
    (h : s.Good P syms ms) :
    (s.writeAccnt sym (fun a => a.insertOrder o)).Good Q syms ms := by
  obtain ⟨h1, h2, h3⟩ := h
  refine ⟨?_, h2, ?_⟩
  · rw [← h1]
    show (s.accnts.map _).map _ = _
    rw [List.map_map]
    apply List.map_congr_left
    intro a _
    simp only [Function.comp]
    split <;> rfl
  · intro b hb
    obtain ⟨a, ha, rfl⟩ := List.mem_map.mp hb
    split
    · rename_i hs
      exact Accnt.Good.insertOrder P Q a o (hkey a ha hs) (href a ha hs) hpq hq (h3 a ha)
    · exact Accnt.Good.weaken P Q a hpq (h3 a ha)

/-- The commit phase of `createOrder` keeps the invariant, the new order being the only order
that enters a live-order index. -/
theorem createOrderCommit_good (P Q : Order → Prop) (hQ : KeyPred Q) (syms : List Symbol)
    (ms : List Market) (accnt : Symbol) (now : Time) (r : Reserved)
    (hpq : ∀ x, P x → Q x) (hq : Q r.order)
    (hkey : ∀ a ∈ r.serv.accnts, a.symbol = accnt →
      ∀ x ∈ a.orders, x.sameKey r.order.marketId r.order.id = false)
    (href : ∀ a ∈ r.serv.accnts, a.symbol = accnt →
      r.order.ref.isEmpty = false → a.existsRef r.order.ref = false)
    (h : r.serv.Good P syms ms) :
    (createOrderCommit accnt now r).serv.Good Q syms ms
    ∧ (createOrderCommit accnt now r).market.id = r.market.id
    ∧ (createOrderCommit accnt now r).market.execSeq = r.market.execSeq := by
  have h3 : ({ r.serv with journ := r.serv.journ ++ [r.serv.execs_] } : Serv).Good P syms ms :=
    Serv.Good.of_eq P syms ms r.serv _ rfl rfl h
  have h4 : (if (!r.order.done) = true then
        ({ r.serv with journ := r.serv.journ ++ [r.serv.execs_] } : Serv).writeAccnt accnt
          (fun a => a.insertOrder r.order)
      else { r.serv with journ := r.serv.journ ++ [r.serv.execs_] }).Good Q syms ms := by
    apply Serv.Good.ite
    · exact Serv.Good.insert P Q syms ms _ accnt r.order hpq hq hkey href h3
    · exact Serv.Good.weakenAll P Q syms ms _ hpq h3
  have h5 := Serv.Good.write_neutral Q hQ syms ms _ accnt _ (neutral_pushExecFront r.exec) h4
  unfold createOrderCommit
  simp only []
  split
  · exact commitMatches_good Q hQ syms ms accnt now _ _ h5
  · exact ⟨h5, rfl, rfl⟩

theorem Market.removeOrder_meta (m : Market) (o : Order) :
    (m.removeOrder o).id = m.id ∧ (m.removeOrder o).execSeq = m.execSeq := by
  unfold Market.removeOrder; split <;> exact ⟨rfl, rfl⟩

theorem createOrderReserve_meta (s : Serv) (accnt : Symbol) (market : Market)
    (ref : String) (side : Side) (lots : Lots) (ticks : Ticks) (minLots : Lots) (now : Time)
    (resp : Response) :
    (createOrderReserve s accnt market ref side lots ticks minLots now resp).market.id
      = market.id
    ∧ market.execSeq + 1
      ≤ (createOrderReserve s accnt market ref side lots ticks minLots now resp).market.execSeq
    ∧ (createOrderReserve s accnt market ref side lots ticks minLots now resp).order.marketId
      = market.id
    ∧ (createOrderReserve s accnt market ref side lots ticks minLots now resp).order.ref = ref
    ∧ (createOrderReserve s accnt market ref side lots ticks minLots now resp).order.id
      = market.execSeq + 1 := by
  obtain ⟨hid, ⟨n, hm⟩, -, -, -⟩ :=
    createOrderReserve_footprint s accnt market ref side lots ticks minLots now resp
  refine ⟨?_, ?_, ?_, ?_, hid⟩
  · rw [hm]; split
    · rw [(Market.insertOrder_meta _ _).1]
    · rfl
  · rw [hm]; split
    · rw [(Market.insertOrder_meta _ _).2]; exact Nat.le_add_right _ _
    · exact Nat.le_add_right _ _
  · unfold createOrderReserve
    simp only []
    rw [(matchOrders_takerOrder _ _ _ _ _ _).2.1]
    rfl
  · unfold createOrderReserve
    simp only []
    rw [(matchOrders_takerOrder _ _ _ _ _ _).2.2.2.2.1]
    rfl

/-- `createOrder` keeps the invariant behind the uniqueness of refs: whatever its outcome, the
account symbols and the market set are as before, every ref index is consistent, and every live
order was allocated by its market or is the new order of this market. -/
theorem createOrder_good (mq : MsgQueue) (busDay : Time → JDay) (s : Serv) (accnt : Symbol)
    (market : Market) (ref : String) (side : Side) (lots : Lots) (ticks : Ticks)
    (minLots : Lots) (now : Time) (resp : Response) (syms : List Symbol) (ms : List Market)
    (hnd : syms.Nodup) (hm : market ∈ ms) (h : s.Good (Order.Allocated ms) syms ms) :
    (createOrder mq busDay s accnt market ref side lots ticks minLots now resp).serv.Good
        (fun o => Order.Allocated ms o ∨ (o.marketId = market.id
          ∧ o.id ≤ (createOrder mq busDay s accnt market ref side lots ticks minLots now
                      resp).market.execSeq)) syms ms
    ∧ (createOrder mq busDay s accnt market ref side lots ticks minLots now resp).market.id
        = market.id
    ∧ market.execSeq
        ≤ (createOrder mq busDay s accnt market ref side lots ticks minLots now
            resp).market.execSeq := by
  have hmono : ∀ n, s.Good (fun o => Order.Allocated ms o ∨ (o.marketId = market.id ∧ o.id ≤ n))
      syms ms := fun n => Serv.Good.weakenAll _ _ syms ms s (fun o ho => Or.inl ho) h
  unfold createOrder
  by_cases h1 : (!ref.isEmpty && (s.getAccnt accnt).existsRef ref) = true
  · rw [if_pos h1]; exact ⟨hmono _, rfl, le_refl _⟩
  rw [if_neg h1]
  by_cases h2 : market.settlDay ≠ 0 ∧ market.settlDay < busDay now
  · rw [if_pos h2]; exact ⟨hmono _, rfl, le_refl _⟩
  rw [if_neg h2]
  by_cases h3 : lots = 0 ∨ lots < minLots
  · rw [if_pos h3]; exact ⟨hmono _, rfl, le_refl _⟩
  rw [if_neg h3]
  obtain ⟨hrm1, hrm2, hro1, hro2, hro3⟩ :=
    createOrderReserve_meta s accnt market ref side lots ticks minLots now resp
  obtain ⟨hrg, hrx⟩ := createOrderReserve_good (Order.Allocated ms) syms ms s accnt market ref
    side lots ticks minLots now resp h
  simp only []
  by_cases h4 : mq (createOrderReserve s accnt market ref side lots ticks minLots now
      resp).serv.execs_ = true
  · rw [if_pos h4]
    have hkey : ∀ a ∈ (createOrderReserve s accnt market ref side lots ticks minLots now
        resp).serv.accnts, a.symbol = accnt → ∀ x ∈ a.orders,
        x.sameKey (createOrderReserve s accnt market ref side lots ticks minLots now
          resp).order.marketId (createOrderReserve s accnt market ref side lots ticks minLots
          now resp).order.id = false := by
      intro b hb hbs x hx
      have hall := hrg.2.2 b hb
      have := hall.2 x hx market hm
      rw [hro1, hro3]
      unfold Order.sameKey
      by_cases hxm : x.marketId = market.id
      · have hle := this hxm.symm
        have hne : x.id ≠ market.execSeq + 1 := by
          intro he; rw [he] at hle; exact Nat.not_succ_le_self _ hle
        simp [hne]
      · simp [hxm]
    have href : ∀ a ∈ (createOrderReserve s accnt market ref side lots ticks minLots now
        resp).serv.accnts, a.symbol = accnt →
        (createOrderReserve s accnt market ref side lots ticks minLots now
          resp).order.ref.isEmpty = false →
        a.existsRef (createOrderReserve s accnt market ref side lots ticks minLots now
          resp).order.ref = false := by
      rw [hro2]
      intro b hb hbs hre
      refine hrx (fun _ ri => ref.isEmpty = false → (ri.any (fun o => o.ref == ref)) = false)
        accnt ?_ b hb hbs hre
      intro a ha has hre2
      have hga := Serv.getAccnt_of_mem s (by rw [h.1]; exact hnd) a ha
      rw [has] at hga
      rw [hga] at h1
      simp only [hre2, Bool.not_false, Bool.true_and] at h1
      simpa [Accnt.existsRef] using h1
    obtain ⟨hc1, hc2, hc3⟩ := createOrderCommit_good (Order.Allocated ms)
      (fun o => Order.Allocated ms o ∨ (o.marketId = market.id ∧ o.id ≤ market.execSeq + 1))
      (KeyPred.allocatedOr ms market.id (market.execSeq + 1)) syms ms accnt now
      (createOrderReserve s accnt market ref side lots ticks minLots now resp)
      (fun x hx => Or.inl hx) (Or.inr ⟨hro1, by rw [hro3]⟩) hkey href hrg
    refine ⟨?_, hc2.trans hrm1, ?_⟩
    · apply Serv.Good.of_eq _ syms ms _ _ rfl rfl
      apply Serv.Good.weakenAll _ _ syms ms _ _ hc1
      intro o ho
      rcases ho with ho | ho
      · exact Or.inl ho
      · refine Or.inr ⟨ho.1, le_trans ho.2 ?_⟩
        show market.execSeq + 1 ≤ (createOrderCommit accnt now _).market.execSeq
        rw [hc3]; exact hrm2
    · show market.execSeq ≤ (createOrderCommit accnt now _).market.execSeq
      rw [hc3]; exact le_trans (Nat.le_succ _) hrm2
  · rw [if_neg h4]
    have hmeta : (if (!(createOrderReserve s accnt market ref side lots ticks minLots now
          resp).order.done) = true
        then (createOrderReserve s accnt market ref side lots ticks minLots now
          resp).market.removeOrder (createOrderReserve s accnt market ref side lots ticks
          minLots now resp).order
        else (createOrderReserve s accnt market ref side lots ticks minLots now
          resp).market).id = market.id
      ∧ market.execSeq ≤ (if (!(createOrderReserve s accnt market ref side lots ticks minLots
          now resp).order.done) = true
        then (createOrderReserve s accnt market ref side lots ticks minLots now
          resp).market.removeOrder (createOrderReserve s accnt market ref side lots ticks
          minLots now resp).order
        else (createOrderReserve s accnt market ref side lots ticks minLots now
          resp).market).execSeq := by
      split
      · rw [(Market.removeOrder_meta _ _).1, (Market.removeOrder_meta _ _).2]
        exact ⟨hrm1, le_trans (Nat.le_succ _) hrm2⟩
      · exact ⟨hrm1, le_trans (Nat.le_succ _) hrm2⟩
    refine ⟨?_, hmeta.1, hmeta.2⟩
    apply Serv.Good.of_eq _ syms ms _ _ rfl rfl
    exact Serv.Good.weakenAll _ _ syms ms _ (fun o ho => Or.inl ho) hrg

theorem doReviseOrder_good (P : Order → Prop) (hP : KeyPred P) (syms : List Symbol)
    (ms : List Market) (mq : MsgQueue) (s : Serv) (accnt : Symbol) (market : Market)
    (order : Order) (lots : Lots) (now : Time) (resp : Response) (h : s.Good P syms ms) :
    (doReviseOrder mq s accnt market order lots now resp).serv.Good P syms ms
    ∧ (doReviseOrder mq s accnt market order lots now resp).market.id = market.id
    ∧ market.execSeq ≤ (doReviseOrder mq s accnt market order lots now resp).market.execSeq := by
  unfold doReviseOrder
  simp only []
  split
  · exact ⟨h, rfl, le_refl _⟩
  · split
    · refine ⟨?_, ?_, ?_⟩
      · apply Serv.Good.write_neutral P hP _ _ _ _ _ (neutral_pushExecFront _)
        apply Serv.Good.write_neutral P hP _ _ _ _ _
          (neutral_writeOrder _ _ _ (fun x => Order.revise_key x _ _))
        exact Serv.Good.of_eq P syms ms s _ rfl rfl h
      · rw [(Market.reviseOrder_meta _ _ _ _).1]; rfl
      · rw [(Market.reviseOrder_meta _ _ _ _).2]; exact Nat.le_succ _
    · exact ⟨h, rfl, Nat.le_succ _⟩

theorem doCancelOrder_good (P : Order → Prop) (hP : KeyPred P) (syms : List Symbol)
    (ms : List Market) (mq : MsgQueue) (s : Serv) (accnt : Symbol) (market : Market)
    (order : Order) (now : Time) (resp : Response) (h : s.Good P syms ms) :
    (doCancelOrder mq s accnt market order now resp).serv.Good P syms ms
    ∧ (doCancelOrder mq s accnt market order now resp).market.id = market.id
    ∧ market.execSeq ≤ (doCancelOrder mq s accnt market order now resp).market.execSeq := by
  unfold doCancelOrder
  simp only []
  split
  · refine ⟨?_, ?_, ?_⟩
    · apply Serv.Good.write_neutral P hP _ _ _ _ _ (neutral_pushExecFront _)
      apply Serv.Good.write_neutral P hP _ _ _ _ _ (neutral_removeOrder _)
      exact Serv.Good.of_eq P syms ms s _ rfl rfl h
    · rw [(Market.cancelOrder_meta _ _ _).1]; rfl
    · rw [(Market.cancelOrder_meta _ _ _).2]; exact Nat.le_succ _
  · exact ⟨h, rfl, Nat.le_succ _⟩

theorem reviseReserveLoop_meta (s : Serv) (accnt : Symbol) (lots : Lots) (now : Time) :
    ∀ (ids : List Id64) (market : Market) (resp : Response),
      (reviseReserveLoop s accnt lots now ids market resp).serv = s
      ∧ (reviseReserveLoop s accnt lots now ids market resp).market.id = market.id
      ∧ market.execSeq ≤ (reviseReserveLoop s accnt lots now ids market resp).market.execSeq := by
  intro ids
  induction ids with
  | nil => intro market resp; exact ⟨rfl, rfl, le_refl _⟩
  | cons i ids ih =>
    intro market resp
    rw [reviseReserveLoop]
    split
    · exact ⟨rfl, rfl, le_refl _⟩
    · split
      · exact ⟨rfl, rfl, le_refl _⟩
      · split
        · exact ⟨rfl, rfl, le_refl _⟩
        · obtain ⟨a, b, c⟩ := ih (market.allocId).2 ((resp.insertOrder _).insertExec
            ((newExec _ (market.allocId).1 now).revise lots))
          exact ⟨a, b, le_trans (Nat.le_succ _) c⟩

theorem cancelReserveLoop_meta (s : Serv) (accnt : Symbol) (now : Time) :
    ∀ (ids : List Id64) (market : Market) (resp : Response),
      (cancelReserveLoop s accnt now ids market resp).serv = s
      ∧ (cancelReserveLoop s accnt now ids market resp).market.id = market.id
      ∧ market.execSeq ≤ (cancelReserveLoop s accnt now ids market resp).market.execSeq := by
  intro ids
  induction ids with
  | nil => intro market resp; exact ⟨rfl, rfl, le_refl _⟩
  | cons i ids ih =>
    intro market resp
    rw [cancelReserveLoop]
    split
    · exact ⟨rfl, rfl, le_refl _⟩
    · split
      · exact ⟨rfl, rfl, le_refl _⟩
      · obtain ⟨a, b, c⟩ := ih (market.allocId).2 ((resp.insertOrder _).insertExec
          ((newExec _ (market.allocId).1 now).cancel))
        exact ⟨a, b, le_trans (Nat.le_succ _) c⟩

theorem reviseCommitLoop_good (P : Order → Prop) (hP : KeyPred P) (syms : List Symbol)
    (ms : List Market) (accnt : Symbol) (lots : Lots) (now : Time) :
    ∀ (execs : List Exec) (s : Serv) (market : Market) (resp : Response),
      s.Good P syms ms →
      (reviseCommitLoop accnt lots now execs s market resp).serv.Good P syms ms
      ∧ (reviseCommitLoop accnt lots now execs s market resp).market.id = market.id
      ∧ (reviseCommitLoop accnt lots now execs s market resp).market.execSeq
          = market.execSeq := by
  intro execs
  induction execs with
  | nil => intro s market resp h; exact ⟨h, rfl, rfl⟩
  | cons e execs ih =>
    intro s market resp h
    rw [reviseCommitLoop]
    split
    · exact ⟨h, rfl, rfl⟩
    · rename_i order _
      simp only []
      obtain ⟨a, b, c⟩ := ih
        ((s.writeAccnt accnt (fun a => a.writeOrder order.marketId order.id
          (fun x => x.revise lots now))).writeAccnt accnt (fun a => a.pushExecFront e))
        (market.reviseOrder order lots now)
        (resp.writeOrder order.marketId order.id (fun x => x.revise lots now))
        (by
          apply Serv.Good.write_neutral P hP _ _ _ _ _ (neutral_pushExecFront _)
          exact Serv.Good.write_neutral P hP _ _ _ _ _
            (neutral_writeOrder _ _ _ (fun x => Order.revise_key x _ _)) h)
      exact ⟨a, b.trans (Market.reviseOrder_meta _ _ _ _).1,
        c.trans (Market.reviseOrder_meta _ _ _ _).2⟩

theorem cancelCommitLoop_good (P : Order → Prop) (hP : KeyPred P) (syms : List Symbol)
    (ms : List Market) (accnt : Symbol) (now : Time) :
    ∀ (execs : List Exec) (s : Serv) (market : Market) (resp : Response),
      s.Good P syms ms →
      (cancelCommitLoop accnt now execs s market resp).serv.Good P syms ms
      ∧ (cancelCommitLoop accnt now execs s market resp).market.id = market.id
      ∧ (cancelCommitLoop accnt now execs s market resp).market.execSeq
          = market.execSeq := by
  intro execs
  induction execs with
  | nil => intro s market resp h; exact ⟨h, rfl, rfl⟩
  | cons e execs ih =>
    intro s market resp h
    rw [cancelCommitLoop]
    split
    · exact ⟨h, rfl, rfl⟩
    · rename_i order _
      simp only []
      obtain ⟨a, b, c⟩ := ih
        ((s.writeAccnt accnt (fun a => a.removeOrder order)).writeAccnt accnt
          (fun a => a.pushExecFront e))
        (market.cancelOrder order now)
        (resp.writeOrder order.marketId order.id (fun x => x.cancel now))
        (by
          apply Serv.Good.write_neutral P hP _ _ _ _ _ (neutral_pushExecFront _)
          exact Serv.Good.write_neutral P hP _ _ _ _ _ (neutral_removeOrder _) h)
      exact ⟨a, b.trans (Market.cancelOrder_meta _ _ _).1,
        c.trans (Market.cancelOrder_meta _ _ _).2⟩

theorem reviseOrderBatch_good (P : Order → Prop) (hP : KeyPred P) (syms : List Symbol)
    (ms : List Market) (mq : MsgQueue) (s : Serv) (accnt : Symbol) (market : Market)
    (ids : List Id64) (lots : Lots) (now : Time) (resp : Response) (h : s.Good P syms ms) :
    (reviseOrderBatch mq s accnt market ids lots now resp).serv.Good P syms ms
    ∧ (reviseOrderBatch mq s accnt market ids lots now resp).market.id = market.id
    ∧ market.execSeq
        ≤ (reviseOrderBatch mq s accnt market ids lots now resp).market.execSeq := by
  obtain ⟨r1, r2, r3⟩ := reviseReserveLoop_meta s accnt lots now ids market
    (resp.setMarket market.id)
  unfold reviseOrderBatch
  simp only []
  split
  · exact ⟨by rw [r1]; exact h, r2, r3⟩
  · split
    · obtain ⟨a, b, c⟩ := reviseCommitLoop_good P hP syms ms accnt lots now
        (reviseReserveLoop s accnt lots now ids market (resp.setMarket market.id)).resp.execs
        { s with journ := s.journ ++ [(reviseReserveLoop s accnt lots now ids market
            (resp.setMarket market.id)).resp.execs] }
        (reviseReserveLoop s accnt lots now ids market (resp.setMarket market.id)).market
        (reviseReserveLoop s accnt lots now ids market (resp.setMarket market.id)).resp
        (Serv.Good.of_eq P syms ms s _ rfl rfl h)
      exact ⟨a, b.trans r2, by rw [c]; exact r3⟩
    · exact ⟨by rw [r1]; exact h, r2, r3⟩

theorem cancelOrderBatch_good (P : Order → Prop) (hP : KeyPred P) (syms : List Symbol)
    (ms : List Market) (mq : MsgQueue) (s : Serv) (accnt : Symbol) (market : Market)
    (ids : List Id64) (now : Time) (resp : Response) (h : s.Good P syms ms) :
    (cancelOrderBatch mq s accnt market ids now resp).serv.Good P syms ms
    ∧ (cancelOrderBatch mq s accnt market ids now resp).market.id = market.id
    ∧ market.execSeq ≤ (cancelOrderBatch mq s accnt market ids now resp).market.execSeq := by
  obtain ⟨r1, r2, r3⟩ := cancelReserveLoop_meta s accnt now ids market
    (resp.setMarket market.id)
  unfold cancelOrderBatch
  simp only []
  split
  · exact ⟨by rw [r1]; exact h, r2, r3⟩
  · split
    · obtain ⟨a, b, c⟩ := cancelCommitLoop_good P hP syms ms accnt now
        (cancelReserveLoop s accnt now ids market (resp.setMarket market.id)).resp.execs
        { s with journ := s.journ ++ [(cancelReserveLoop s accnt now ids market
            (resp.setMarket market.id)).resp.execs] }
        (cancelReserveLoop s accnt now ids market (resp.setMarket market.id)).market
        (cancelReserveLoop s accnt now ids market (resp.setMarket market.id)).resp
        (Serv.Good.of_eq P syms ms s _ rfl rfl h)
      exact ⟨a, b.trans r2, by rw [c]; exact r3⟩
    · exact ⟨by rw [r1]; exact h, r2, r3⟩

theorem reviseOrder_good (P : Order → Prop) (hP : KeyPred P) (syms : List Symbol)
    (ms : List Market) (mq : MsgQueue) (s : Serv) (accnt : Symbol) (market : Market)
    (order : Order) (lots : Lots) (now : Time) (resp : Response) (h : s.Good P syms ms) :
    (reviseOrder mq s accnt market order lots now resp).serv.Good P syms ms
    ∧ (reviseOrder mq s accnt market order lots now resp).market.id = market.id
    ∧ market.execSeq ≤ (reviseOrder mq s accnt market order lots now resp).market.execSeq := by
  unfold reviseOrder
  split
  · exact ⟨h, rfl, le_refl _⟩
  · exact doReviseOrder_good _ hP syms ms mq s accnt market order lots now _ h

theorem reviseOrderById_good (P : Order → Prop) (hP : KeyPred P) (syms : List Symbol)
    (ms : List Market) (mq : MsgQueue) (s : Serv) (accnt : Symbol) (market : Market)
    (id : Id64) (lots : Lots) (now : Time) (resp : Response) (h : s.Good P syms ms) :
    (reviseOrderById mq s accnt market id lots now resp).serv.Good P syms ms
    ∧ (reviseOrderById mq s accnt market id lots now resp).market.id = market.id
    ∧ market.execSeq
        ≤ (reviseOrderById mq s accnt market id lots now resp).market.execSeq := by
  unfold reviseOrderById
  split
  · exact ⟨h, rfl, le_refl _⟩
  · split
    · exact ⟨h, rfl, le_refl _⟩
    · exact doReviseOrder_good _ hP syms ms mq s accnt market _ lots now _ h

theorem reviseOrderByRef_good (P : Order → Prop) (hP : KeyPred P) (syms : List Symbol)
    (ms : List Market) (mq : MsgQueue) (s : Serv) (accnt : Symbol) (market : Market)
    (ref : String) (lots : Lots) (now : Time) (resp : Response) (h : s.Good P syms ms) :
    (reviseOrderByRef mq s accnt market ref lots now resp).serv.Good P syms ms
    ∧ (reviseOrderByRef mq s accnt market ref lots now resp).market.id = market.id
    ∧ market.execSeq
        ≤ (reviseOrderByRef mq s accnt market ref lots now resp).market.execSeq := by
  unfold reviseOrderByRef
  split
  · exact ⟨h, rfl, le_refl _⟩
  · split
    · exact ⟨h, rfl, le_refl _⟩
    · exact doReviseOrder_good _ hP syms ms mq s accnt market _ lots now _ h

theorem cancelOrder_good (P : Order → Prop) (hP : KeyPred P) (syms : List Symbol)
    (ms : List Market) (mq : MsgQueue) (s : Serv) (accnt : Symbol) (market : Market)
    (order : Order) (now : Time) (resp : Response) (h : s.Good P syms ms) :
    (cancelOrder mq s accnt market order now resp).serv.Good P syms ms
    ∧ (cancelOrder mq s accnt market order now resp).market.id = market.id
    ∧ market.execSeq ≤ (cancelOrder mq s accnt market order now resp).market.execSeq := by
  unfold cancelOrder
  split
  · exact ⟨h, rfl, le_refl _⟩
  · exact doCancelOrder_good _ hP syms ms mq s accnt market order now _ h

theorem cancelOrderById_good (P : Order → Prop) (hP : KeyPred P) (syms : List Symbol)
    (ms : List Market) (mq : MsgQueue) (s : Serv) (accnt : Symbol) (market : Market)
    (id : Id64) (now : Time) (resp : Response) (h : s.Good P syms ms) :
    (cancelOrderById mq s accnt market id now resp).serv.Good P syms ms
    ∧ (cancelOrderById mq s accnt market id now resp).market.id = market.id
    ∧ market.execSeq ≤ (cancelOrderById mq s accnt market id now resp).market.execSeq := by
  unfold cancelOrderById
  split
  · exact ⟨h, rfl, le_refl _⟩
  · split
    · exact ⟨h, rfl, le_refl _⟩
    · exact doCancelOrder_good _ hP syms ms mq s accnt market _ now _ h

theorem cancelOrderByRef_good (P : Order → Prop) (hP : KeyPred P) (syms : List Symbol)
    (ms : List Market) (mq : MsgQueue) (s : Serv) (accnt : Symbol) (market : Market)
    (ref : String) (now : Time) (resp : Response) (h : s.Good P syms ms) :
    (cancelOrderByRef mq s accnt market ref now resp).serv.Good P syms ms
    ∧ (cancelOrderByRef mq s accnt market ref now resp).market.id = market.id
    ∧ market.execSeq ≤ (cancelOrderByRef mq s accnt market ref now resp).market.execSeq := by
  unfold cancelOrderByRef
  split
  · exact ⟨h, rfl, le_refl _⟩
  · split
    · exact ⟨h, rfl, le_refl _⟩
    · exact doCancelOrder_good _ hP syms ms mq s accnt market _ now _ h

/-- Every request keeps the invariant behind the uniqueness of refs. -/
theorem Op.run_good (mq : MsgQueue) (busDay : Time → JDay) (s : Serv) (market : Market)
    (op : Op) (syms : List Symbol) (ms : List Market) (hnd : syms.Nodup) (hm : market ∈ ms)
    (h : s.Good (Order.Allocated ms) syms ms) :
    (op.run mq busDay s market).serv.Good
        (fun o => Order.Allocated ms o ∨ (o.marketId = market.id
          ∧ o.id ≤ (op.run mq busDay s market).market.execSeq)) syms ms
    ∧ (op.run mq busDay s market).market.id = market.id
    ∧ market.execSeq ≤ (op.run mq busDay s market).market.execSeq := by
  have hP := KeyPred.allocated ms
  have weaken : ∀ (out : Outcome), out.serv.Good (Order.Allocated ms) syms ms
      ∧ out.market.id = market.id ∧ market.execSeq ≤ out.market.execSeq →
      out.serv.Good (fun o => Order.Allocated ms o ∨ (o.marketId = market.id
          ∧ o.id ≤ out.market.execSeq)) syms ms
      ∧ out.market.id = market.id ∧ market.execSeq ≤ out.market.execSeq :=
    fun out ho => ⟨Serv.Good.weakenAll _ _ syms ms _ (fun o h => Or.inl h) ho.1, ho.2.1, ho.2.2⟩
  cases op with
  | create a mid ref side lots ticks minLots now =>
    exact createOrder_good mq busDay s a market ref side lots ticks minLots now Response.empty
      syms ms hnd hm h
  | revise a mid order lots now =>
    exact weaken _ (reviseOrder_good _ hP syms ms mq s a market order lots now _ h)
  | reviseById a mid id lots now =>
    exact weaken _ (reviseOrderById_good _ hP syms ms mq s a market id lots now _ h)
  | reviseByRef a mid ref lots now =>
    exact weaken _ (reviseOrderByRef_good _ hP syms ms mq s a market ref lots now _ h)
  | reviseBatch a mid ids lots now =>
    exact weaken _ (reviseOrderBatch_good _ hP syms ms mq s a market ids lots now _ h)
  | cancel a mid order now =>
    exact weaken _ (cancelOrder_good _ hP syms ms mq s a market order now _ h)
  | cancelById a mid id now =>
    exact weaken _ (cancelOrderById_good _ hP syms ms mq s a market id now _ h)
  | cancelByRef a mid ref now =>
    exact weaken _ (cancelOrderByRef_good _ hP syms ms mq s a market ref now _ h)
  | cancelBatch a mid ids now =>
    exact weaken _ (cancelOrderBatch_good _ hP syms ms mq s a market ids now _ h)

theorem Serv.market_mem (s : Serv) (id : Id64) (m : Market)
    (h : s.market id = Except.ok m) : m ∈ s.markets := by
  unfold Serv.market at h
  split at h
  · rename_i m2 hf
    simp only [Except.ok.injEq] at h
    subst h
    exact List.mem_of_find?_eq_some hf
  · simp at h

theorem symbolLess_trans (a b c : Symbol) (h1 : symbolLess a b = true)
    (h2 : symbolLess b c = true) : symbolLess a c = true := by
  unfold symbolLess at *
  simp only [decide_eq_true_eq] at *
  exact lt_trans h1 h2

theorem symbolLess_irrefl (a : Symbol) : symbolLess a a = false := by
  unfold symbolLess
  simp

theorem symbolLess_total (a b : Symbol) (h1 : symbolLess a b = false)
    (h2 : symbolLess b a = false) : a = b := by
  unfold symbolLess at *
  simp only [decide_eq_false_iff_not] at *
  exact String.ext (le_antisymm (not_lt.mp h2) (not_lt.mp h1))

/-- Accounts in strict symbol order have distinct symbols. -/
theorem nodup_of_symbolLess (l : List Symbol)
    (h : l.Pairwise (fun a b => symbolLess a b = true)) : l.Nodup := by
  apply List.Pairwise.imp _ h
  intro a b hab he
  rw [he, symbolLess_irrefl] at hab
  exact Bool.false_ne_true hab

/-- `Serv::accnt` keeps the accounts in strict symbol order, and the only account it can add is
an empty one. -/
theorem accntInsert_sorted (sym : Symbol) (n : Nat) :
    ∀ (l : List Accnt), (l.map (fun a => a.symbol)).Pairwise (fun a b => symbolLess a b = true) →
      ((Serv.accntInsert sym n l).map (fun a => a.symbol)).Pairwise
          (fun a b => symbolLess a b = true)
      ∧ ∀ b ∈ Serv.accntInsert sym n l, b ∈ l ∨ b = Accnt.make sym n := by
  intro l
  induction l with
  | nil =>
    intro _
    refine ⟨by simp [Serv.accntInsert], ?_⟩
    intro b hb
    simp only [Serv.accntInsert, List.mem_singleton] at hb
    exact Or.inr hb
  | cons a l ih =>
    intro h
    rw [List.map_cons, List.pairwise_cons] at h
    obtain ⟨i1, i2⟩ := ih h.2
    unfold Serv.accntInsert
    by_cases h1 : symbolLess a.symbol sym = true
    · rw [if_pos h1]
      refine ⟨?_, ?_⟩
      · rw [List.map_cons, List.pairwise_cons]
        refine ⟨?_, i1⟩
        intro x hx
        obtain ⟨b, hb, rfl⟩ := List.mem_map.mp hx
        rcases i2 b hb with hb2 | hb2
        · exact h.1 _ (List.mem_map.mpr ⟨b, hb2, rfl⟩)
        · rw [hb2]; exact h1
      · intro b hb
        rcases List.mem_cons.mp hb with hb | hb
        · exact Or.inl (by rw [hb]; exact List.mem_cons_self _ _)
        · rcases i2 b hb with hb2 | hb2
          · exact Or.inl (List.mem_cons_of_mem _ hb2)
          · exact Or.inr hb2
    · rw [if_neg h1]
      by_cases h2 : symbolLess sym a.symbol = true
      · rw [if_pos h2]
        refine ⟨?_, ?_⟩
        · rw [List.map_cons, List.pairwise_cons]
          refine ⟨?_, by rw [List.map_cons, List.pairwise_cons]; exact h⟩
          intro x hx
          rw [List.map_cons, List.mem_cons] at hx
          rcases hx with hx | hx
          · rw [hx]; exact h2
          · exact symbolLess_trans _ _ _ h2 (h.1 x hx)
        · intro b hb
          rcases List.mem_cons.mp hb with hb | hb
          · exact Or.inr hb
          · exact Or.inl hb
      · rw [if_neg h2]
        refine ⟨by rw [List.map_cons, List.pairwise_cons]; exact h, fun b hb => Or.inl hb⟩

theorem Serv.RefInv.accnt (s : Serv) (sym : Symbol) (h : s.RefInv) :
    (s.accnt sym).RefInv ∧ (s.accnt sym).markets = s.markets := by
  obtain ⟨i1, i2⟩ := accntInsert_sorted sym s.maxExecs s.accnts h.1
  refine ⟨⟨i1, ?_⟩, rfl⟩
  intro a ha
  rcases i2 a ha with ha2 | ha2
  · exact h.2 a ha2
  · subst ha2
    refine ⟨⟨rfl, List.nodup_nil⟩, ?_⟩
    intro o ho
    simp [Accnt.make] at ho

/-- A request as a caller makes it keeps the invariant behind the uniqueness of refs. -/
theorem Serv.RefInv.apply (mq : MsgQueue) (busDay : Time → JDay) (s : Serv) (op : Op)
    (h : s.RefInv) : (s.apply mq busDay op).RefInv := by
  unfold Serv.apply
  split
  · exact h
  · rename_i market hmk
    simp only []
    have hm := Serv.market_mem s _ market hmk
    obtain ⟨h1, h1m⟩ := Serv.RefInv.accnt s op.accnt h
    have hg : (s.accnt op.accnt).Good (Order.Allocated s.markets)
        ((s.accnt op.accnt).accnts.map (fun a => a.symbol)) s.markets := by
      refine ⟨rfl, h1m, ?_⟩
      rw [← h1m]; exact h1.2
    obtain ⟨g1, g2, g3⟩ := Op.run_good mq busDay (s.accnt op.accnt) market op _ s.markets
      (nodup_of_symbolLess _ h1.1) hm hg
    refine ⟨?_, ?_⟩
    · show ((op.run mq busDay (s.accnt op.accnt) market).serv.accnts.map _).Pairwise _
      rw [g1.1]; exact h1.1
    · intro a ha
      have ha2 : a ∈ (op.run mq busDay (s.accnt op.accnt) market).serv.accnts := ha
      refine Accnt.Good.weaken _ _ a ?_ (g1.2.2 a ha2)
      intro o ho m2 hm2 hid
      have hm3 : m2 ∈ (op.run mq busDay (s.accnt op.accnt) market).serv.markets.map
          (fun x => if x.id = (op.run mq busDay (s.accnt op.accnt) market).market.id
            then (op.run mq busDay (s.accnt op.accnt) market).market else x) := hm2
      rw [g1.2.1] at hm3
      obtain ⟨x, hx, hxe⟩ := List.mem_map.mp hm3
      by_cases hxi : x.id = (op.run mq busDay (s.accnt op.accnt) market).market.id
      · rw [if_pos hxi] at hxe
        subst hxe
        rcases ho with ho | ho
        · have := ho market hm (by rw [← g2]; exact hid)
          exact le_trans this g3
        · exact ho.2
      · rw [if_neg hxi] at hxe
        subst hxe
        rcases ho with ho | ho
        · exact ho x hx hid
        · exfalso
          apply hxi
          rw [hid, ho.1, g2]

theorem Reachable.refInv (busDay : Time → JDay) (s : Serv) (h : Reachable busDay s) :
    s.RefInv := by
  induction h with
  | init maxExecs markets =>
    refine ⟨List.Pairwise.nil, ?_⟩
    intro a ha
    simp at ha
  | step s mq op _ ih => exact Serv.RefInv.apply mq busDay s op ih

theorem filter_ref_of_nodup (o : Order) :
    ∀ (l : List Order), (l.map (fun x => x.ref)).Nodup → o ∈ l →
      l.filter (fun x => x.ref == o.ref) = [o]
      ∧ l.find? (fun x => x.ref == o.ref) = some o := by
  intro l
  induction l with
  | nil => intro _ h; simp at h
  | cons b l ih =>
    intro hn hm
    rw [List.map_cons, List.nodup_cons] at hn
    rcases List.mem_cons.mp hm with hm | hm
    · subst hm
      have hnone : ∀ x ∈ l, (x.ref == o.ref) = false := by
        intro x hx
        have : x.ref ≠ o.ref := fun he => hn.1 (by rw [← he]; exact List.mem_map.mpr ⟨x, hx, rfl⟩)
        simpa using this
      refine ⟨?_, by simp⟩
      rw [List.filter_cons]
      simp only [beq_self_eq_true, if_true, List.cons.injEq, true_and]
      exact List.filter_eq_nil_iff.mpr (fun x hx => by simp [hnone x hx])
    · have hne : (b.ref == o.ref) = false := by
        have : b.ref ≠ o.ref := fun he => hn.1 (by rw [he]; exact List.mem_map.mpr ⟨o, hm, rfl⟩)
        simpa using this
      obtain ⟨i1, i2⟩ := ih hn.2 hm
      refine ⟨?_, ?_⟩
      · rw [List.filter_cons, hne]; simpa using i1
      · rw [List.find?_cons, hne]; exact i2

/-- C7: in every state reached by `createOrder`, `reviseOrder` and `cancelOrder` requests, and
for every account: a live order with a non-empty ref is the only live order with that ref and is
the order the ref index returns for it; `createOrder` with that ref on that account throws
`RefAlreadyExists` and changes nothing; no order with an empty ref is in the ref index; and
`createOrder` with an empty ref never throws `RefAlreadyExists`. -/
theorem refs_unique (busDay : Time → JDay) (s : Serv) (h : Reachable busDay s) (a : Accnt)
    (ha : a ∈ s.accnts) :
    (∀ o ∈ a.orders, o.ref.isEmpty = false →
      a.orders.filter (fun x => x.ref == o.ref) = [o] ∧ a.orderByRef o.ref = Except.ok o)
    ∧ (∀ o ∈ a.orders, o.ref.isEmpty = false →
        ∀ (mq : MsgQueue) (market : Market) (side : Side) (lots : Lots) (ticks : Ticks)
          (minLots : Lots) (now : Time) (resp : Response),
          createOrder mq busDay s a.symbol market o.ref side lots ticks minLots now resp
            = { serv := s, market := market, resp := resp,
                thrown := some (Thrown.value ErrKind.RefAlreadyExists) })
    ∧ (∀ o ∈ a.refIdx, o.ref.isEmpty = false)
    ∧ (∀ (mq : MsgQueue) (market : Market) (side : Side) (lots : Lots) (ticks : Ticks)
          (minLots : Lots) (now : Time) (resp : Response),
          (createOrder mq busDay s a.symbol market "" side lots ticks minLots now resp).thrown
            ≠ some (Thrown.value ErrKind.RefAlreadyExists)) := by
  obtain ⟨hsorted, hgood⟩ := Reachable.refInv busDay s h
  have hnd := nodup_of_symbolLess _ hsorted
  obtain ⟨⟨hidx, hrefs⟩, -⟩ := hgood a ha
  have hmem : ∀ o ∈ a.orders, o.ref.isEmpty = false → o ∈ a.refIdx := by
    intro o ho he
    rw [hidx, List.mem_filter]
    exact ⟨ho, by simp [he]⟩
  refine ⟨?_, ?_, ?_, ?_⟩
  · intro o ho he
    obtain ⟨f1, f2⟩ := filter_ref_of_nodup o a.refIdx hrefs (hmem o ho he)
    refine ⟨?_, ?_⟩
    · rw [← f1, hidx, List.filter_filter]
      apply List.filter_congr
      intro x _
      by_cases hx : x.ref = o.ref
      · simp [hx, he]
      · simp [hx]
    · unfold Accnt.orderByRef
      rw [f2]
  · intro o ho he mq market side lots ticks minLots now resp
    have hga := Serv.getAccnt_of_mem s hnd a ha
    have hex : (!o.ref.isEmpty && (s.getAccnt a.symbol).existsRef o.ref) = true := by
      rw [hga, he]
      simp only [Bool.not_false, Bool.true_and]
      unfold Accnt.existsRef
      rw [List.any_eq_true]
      exact ⟨o, hmem o ho he, by simp⟩
    unfold createOrder
    rw [if_pos hex]
  · intro o ho
    rw [hidx, List.mem_filter] at ho
    simpa using ho.2
  · intro mq market side lots ticks minLots now resp
    rw [createOrder_thrown]
    have he : ("" : String).isEmpty = true := by decide
    have : (!("" : String).isEmpty && (s.getAccnt a.symbol).existsRef "") = false := by
      rw [he]; rfl
    rw [this, if_neg Bool.false_ne_true]
    split_ifs <;> simp

theorem refs_unique_witness :
    (Reachable exBusDay exEngine2 ∧ exEngine2.getAccnt "A" ∈ exEngine2.accnts)
    ∧ ((∀ o ∈ (exEngine2.getAccnt "A").orders, o.ref.isEmpty = false →
        (exEngine2.getAccnt "A").orders.filter (fun x => x.ref == o.ref) = [o]
        ∧ (exEngine2.getAccnt "A").orderByRef o.ref = Except.ok o)
      ∧ (∀ o ∈ (exEngine2.getAccnt "A").orders, o.ref.isEmpty = false →
          ∀ (mq : MsgQueue) (market : Market) (side : Side) (lots : Lots) (ticks : Ticks)
            (minLots : Lots) (now : Time) (resp : Response),
            createOrder mq exBusDay exEngine2 (exEngine2.getAccnt "A").symbol market o.ref side
                lots ticks minLots now resp
              = { serv := exEngine2, market := market, resp := resp,
                  thrown := some (Thrown.value ErrKind.RefAlreadyExists) })
      ∧ (∀ o ∈ (exEngine2.getAccnt "A").refIdx, o.ref.isEmpty = false)
      ∧ (∀ (mq : MsgQueue) (market : Market) (side : Side) (lots : Lots) (ticks : Ticks)
            (minLots : Lots) (now : Time) (resp : Response),
            (createOrder mq exBusDay exEngine2 (exEngine2.getAccnt "A").symbol market "" side
                lots ticks minLots now resp).thrown
              ≠ some (Thrown.value ErrKind.RefAlreadyExists))) :=
  have hr : Reachable exBusDay exEngine2 :=
    Reachable.step _ exMq _ (Reachable.step _ exMq _ (Reachable.init 4 [exMarket0]))
  have hm : exEngine2.getAccnt "A" ∈ exEngine2.accnts := by decide
  ⟨⟨hr, hm⟩, refs_unique exBusDay exEngine2 hr (exEngine2.getAccnt "A") hm⟩

/-! ## Market id -/

/-- The instrument id and the day field do not overlap: the bitwise or is a sum. -/
theorem toMarketId_eq_add (i : Id32) (d : JDay) :
    toMarketId i d = 16777216 * i + (d % 16777216).toNat := by
  unfold toMarketId
  have hlt : (d % 16777216).toNat < 2 ^ 24 := by
    have h1 : d % 16777216 < 16777216 := Int.emod_lt_of_pos _ (by norm_num)
    have h0 : 0 ≤ d % 16777216 := Int.emod_nonneg _ (by norm_num)
    omega
  rw [Nat.shiftLeft_eq, Nat.mul_comm, ← Nat.mul_add_lt_is_or hlt]

/-- C18: full fill.  In the empty spot market, after `A` creates Sell 10 @ 12345 (order 1, which
rests as the only offer) and `B` creates Buy 10 @ 12345 (order 2), both calls succeed; the order
of `B`, as the response holds it, and the order of `A`, as its trade exec shows it, have state
`Trade` and `resdLots = 0`; each account's exec ring holds exactly its `Trade` exec and its `New`
exec, newest first; `A` has `netLots = -10`, `netCost = -123450` and `B` has `netLots = 10`,
`netCost = 123450`; both book sides are empty and neither account has a live order. -/
theorem full_fill_scenario :
    exFill1.thrown = none ∧ exFill2.thrown = none
    ∧ exFill1.market.offerSide.orders.map (fun o => (o.accnt, o.id, o.state, o.resdLots))
        = [("A", 1, State.New, 10)]
    ∧ exFill2.resp.orders.map (fun o => (o.accnt, o.id, o.state, o.resdLots, o.execLots))
        = [("B", 2, State.Trade, 0, 10)]
    ∧ (exFill2.serv.getAccnt "A").execs.map
          (fun e => (e.orderId, e.state, e.resdLots, e.execLots))
        = [(1, State.Trade, 0, 10), (1, State.New, 10, 0)]
    ∧ (exFill2.serv.getAccnt "B").execs.map
          (fun e => (e.orderId, e.state, e.resdLots, e.execLots))
        = [(2, State.Trade, 0, 10), (2, State.New, 10, 0)]
    ∧ (exFill2.serv.getAccnt "A").posns.map
          (fun p => (p.marketId, p.instr, p.settlDay, p.netLots, p.netCost))
        = [(7, "EURUSD", 0, -10, -123450)]
    ∧ (exFill2.serv.getAccnt "B").posns.map
          (fun p => (p.marketId, p.instr, p.settlDay, p.netLots, p.netCost))
        = [(7, "EURUSD", 0, 10, 123450)]
    ∧ exFill2.market.bidSide.levels = [] ∧ exFill2.market.offerSide.levels = []
    ∧ (exFill2.serv.getAccnt "A").orders = [] ∧ (exFill2.serv.getAccnt "A").refIdx = []
    ∧ (exFill2.serv.getAccnt "B").orders = [] ∧ (exFill2.serv.getAccnt "B").refIdx = [] := by
  refine ⟨by decide, by decide, by decide, by decide, by decide, by decide, by decide, by decide,
    by decide, by decide, by decide, by decide, by decide, by decide⟩

/-! ## The book-level invariant -/

theorem priceBefore_irrefl (side : Side) (a : Ticks) : priceBefore side a a = false := by
  cases side <;> simp [priceBefore]

theorem priceBefore_trans (side : Side) (a b c : Ticks) (h1 : priceBefore side a b = true)
    (h2 : priceBefore side b c = true) : priceBefore side a c = true := by
  cases side <;> simp only [priceBefore, decide_eq_true_eq] at h1 h2 ⊢ <;> linarith

theorem priceBefore_total (side : Side) (a b : Ticks) (h : a ≠ b)
    (h1 : ¬ priceBefore side a b = true) : priceBefore side b a = true := by
  cases side <;> simp only [priceBefore, decide_eq_true_eq, not_lt] at h1 ⊢
  · exact lt_of_le_of_ne h1 h
  · exact lt_of_le_of_ne h1 (Ne.symm h)

/-- An order of a queue in id order splits the queue into the orders with smaller and with
larger ids. -/
theorem queue_split (q : List Order) (hp : q.Pairwise (fun x y => x.id < y.id)) (o : Order)
    (ho : o ∈ q) :
    ∃ pre post, q = pre ++ o :: post ∧ (∀ y ∈ pre, y.id < o.id) ∧ (∀ y ∈ post, o.id < y.id) := by
  obtain ⟨pre, post, rfl⟩ := List.append_of_mem ho
  rw [List.pairwise_append] at hp
  obtain ⟨-, hpost, hcross⟩ := hp
  rw [List.pairwise_cons] at hpost
  exact ⟨pre, post, rfl, fun y hy => hcross y hy o (List.mem_cons_self _ _), hpost.1⟩

theorem filter_split (pre post : List Order) (o : Order) (h1 : ∀ y ∈ pre, y.id < o.id)
    (h2 : ∀ y ∈ post, o.id < y.id) :
    (pre ++ o :: post).filter (fun x => !(x.id == o.id)) = pre ++ post := by
  have e1 : pre.filter (fun x => !(x.id == o.id)) = pre := by
    apply List.filter_eq_self.mpr
    intro x hx
    have hne : x.id ≠ o.id := Nat.ne_of_lt (h1 x hx)
    simp [hne]
  have e2 : post.filter (fun x => !(x.id == o.id)) = post := by
    apply List.filter_eq_self.mpr
    intro x hx
    have hne : x.id ≠ o.id := Nat.ne_of_gt (h2 x hx)
    simp [hne]
  simp [List.filter_append, e1, e2]

theorem any_split (pre post : List Order) (o : Order) :
    (pre ++ o :: post).any (fun x => x.id == o.id) = true := by
  simp

theorem writeQueue_split (pre post : List Order) (o : Order) (g : Order → Order)
    (h1 : ∀ y ∈ pre, y.id < o.id) (h2 : ∀ y ∈ post, o.id < y.id) :
    MarketSide.writeQueue o.id g (pre ++ o :: post) = pre ++ g o :: post := by
  unfold MarketSide.writeQueue
  have e1 : pre.map (fun x => if x.id = o.id then g x else x) = pre := by
    conv_rhs => rw [← List.map_id pre]
    apply List.map_congr_left
    intro x hx
    have hne : x.id ≠ o.id := Nat.ne_of_lt (h1 x hx)
    simp [hne]
  have e2 : post.map (fun x => if x.id = o.id then g x else x) = post := by
    conv_rhs => rw [← List.map_id post]
    apply List.map_congr_left
    intro x hx
    have hne : x.id ≠ o.id := Nat.ne_of_gt (h2 x hx)
    simp [hne]
  simp [List.map_append, e1, e2]

theorem removeLevels_eq_walk (o : Order) (ls : List Level) :
    MarketSide.removeLevels o ls = MarketSide.walkLevels o (MarketSide.dropLevel o) ls := by
  induction ls with
  | nil => rfl
  | cons l ls ih =>
    rw [MarketSide.removeLevels, MarketSide.walkLevels, ih]
    by_cases ht : l.ticks = o.ticks
    · rw [if_pos ht, if_pos ht]
      by_cases ha : l.queue.any (fun x => x.id == o.id) = true
      · rw [if_pos ha, if_pos ha]
        unfold MarketSide.dropLevel
        split_ifs <;> rfl
      · rw [if_neg ha, if_neg ha]
    · rw [if_neg ht, if_neg ht]

theorem takeLevels_eq_walk (o : Order) (lots : Lots) (now : Time) (ls : List Level) :
    MarketSide.takeLevels o lots now ls
      = MarketSide.walkLevels o (MarketSide.takeLevel o lots now) ls := by
  induction ls with
  | nil => rfl
  | cons l ls ih =>
    rw [MarketSide.takeLevels, MarketSide.walkLevels, ih]
    by_cases ht : l.ticks = o.ticks
    · rw [if_pos ht, if_pos ht]
      by_cases ha : l.queue.any (fun x => x.id == o.id) = true
      · rw [if_pos ha, if_pos ha]
        unfold MarketSide.takeLevel
        split_ifs <;> rfl
      · rw [if_neg ha, if_neg ha]
    · rw [if_neg ht, if_neg ht]

theorem reviseLevels_eq_walk (o : Order) (lots : Lots) (now : Time) (ls : List Level) :
    MarketSide.reviseLevels o lots now ls
      = MarketSide.walkLevels o (MarketSide.reviseLevel o lots now) ls := by
  induction ls with
  | nil => rfl
  | cons l ls ih =>
    rw [MarketSide.reviseLevels, MarketSide.walkLevels, ih]
    by_cases ht : l.ticks = o.ticks
    · rw [if_pos ht, if_pos ht]
      by_cases ha : l.queue.any (fun x => x.id == o.id) = true
      · rw [if_pos ha, if_pos ha]
        rfl
      · rw [if_neg ha, if_neg ha]
    · rw [if_neg ht, if_neg ht]

theorem walkLevels_target (o : Order) (f : Level → Option Level) (l : Level) (ls : List Level)
    (ht : l.ticks = o.ticks) (ho : o ∈ l.queue) :
    MarketSide.walkLevels o f (l :: ls) = (f l).toList ++ ls := by
  have hany : l.queue.any (fun x => x.id == o.id) = true :=
    List.any_eq_true.mpr ⟨o, ho, by simp⟩
  unfold MarketSide.walkLevels
  rw [if_pos ht, if_pos hany]
  cases f l <;> rfl

/-- The walk keeps a side well formed when the rewritten level is well formed, and changes the
resting orders as the rewrite of the level does. -/
theorem walkLevels_ok (side : Side) (o : Order) (f : Level → Option Level) (extra : List Order)
    (hf : ∀ l : Level, l.Ok side → o ∈ l.queue →
      (∀ l2 ∈ (f l).toList, l2.ticks = l.ticks ∧ l2.Ok side)
      ∧ ∀ y, y ∈ (f l).toList.flatMap (fun l2 => l2.queue) ↔ (y ∈ l.queue ∧ y ≠ o) ∨ y ∈ extra) :
    ∀ ls : List Level, ls.Pairwise (fun a b => priceBefore side a.ticks b.ticks = true) →
      (∀ l ∈ ls, l.Ok side) → o ∈ ls.flatMap (fun l => l.queue) →
      (MarketSide.walkLevels o f ls).Pairwise
          (fun a b => priceBefore side a.ticks b.ticks = true)
      ∧ (∀ l ∈ MarketSide.walkLevels o f ls, l.Ok side)
      ∧ (∀ l ∈ MarketSide.walkLevels o f ls, ∃ l2 ∈ ls, l2.ticks = l.ticks)
      ∧ ∀ y, y ∈ (MarketSide.walkLevels o f ls).flatMap (fun l => l.queue)
          ↔ (y ∈ ls.flatMap (fun l => l.queue) ∧ y ≠ o) ∨ y ∈ extra := by
  intro ls
  induction ls with
  | nil => intro _ _ ho; simp at ho
  | cons l ls ih =>
    intro hp hok ho
    rw [List.pairwise_cons] at hp
    obtain ⟨hhead, htail⟩ := hp
    have hl : l.Ok side := hok l (List.mem_cons_self _ _)
    have hls : ∀ l2 ∈ ls, l2.Ok side := fun l2 h => hok l2 (List.mem_cons_of_mem _ h)
    -- an order of a later level has another price than `l`
    have hne : ∀ l2 ∈ ls, ∀ y ∈ l2.queue, y.ticks ≠ l.ticks := by
      intro l2 hl2 y hy heq
      have h1 := hhead l2 hl2
      rw [← ((hls l2 hl2).2.2.2.1 y hy).1, heq, priceBefore_irrefl] at h1
      exact Bool.false_ne_true h1
    by_cases ht : l.ticks = o.ticks
    · have hol : o ∈ l.queue := by
        rw [List.flatMap_cons, List.mem_append] at ho
        rcases ho with h | h
        · exact h
        · obtain ⟨l2, hl2, hy⟩ := List.mem_flatMap.mp h
          exact absurd ht.symm (hne l2 hl2 o hy)
      rw [walkLevels_target o f l ls ht hol]
      obtain ⟨hf1, hf2⟩ := hf l hl hol
      refine ⟨?_, ?_, ?_, ?_⟩
      · rw [List.pairwise_append]
        refine ⟨?_, htail, ?_⟩
        · cases f l <;> simp
        · intro a ha b hb
          rw [(hf1 a ha).1]
          exact hhead b hb
      · intro l2 h2
        rcases List.mem_append.mp h2 with h | h
        · exact (hf1 l2 h).2
        · exact hls l2 h
      · intro l2 h2
        rcases List.mem_append.mp h2 with h | h
        · exact ⟨l, List.mem_cons_self _ _, (hf1 l2 h).1.symm⟩
        · exact ⟨l2, List.mem_cons_of_mem _ h, rfl⟩
      · intro y
        rw [List.flatMap_append, List.mem_append, hf2 y, List.flatMap_cons, List.mem_append]
        constructor
        · rintro ((⟨h1, h2⟩ | h) | h)
          · exact Or.inl ⟨Or.inl h1, h2⟩
          · exact Or.inr h
          · refine Or.inl ⟨Or.inr h, ?_⟩
            rintro rfl
            obtain ⟨l2, hl2, hy⟩ := List.mem_flatMap.mp h
            exact hne l2 hl2 y hy ht.symm
        · rintro (⟨h1 | h1, h2⟩ | h)
          · exact Or.inl (Or.inl ⟨h1, h2⟩)
          · exact Or.inr h1
          · exact Or.inl (Or.inr h)
    · have hnl : ∀ y ∈ l.queue, y ≠ o := by
        rintro y hy rfl
        exact ht (hl.2.2.2.1 y hy).1.symm
      have hol : o ∈ ls.flatMap (fun l => l.queue) := by
        rw [List.flatMap_cons, List.mem_append] at ho
        rcases ho with h | h
        · exact absurd rfl (hnl o h)
        · exact h
      obtain ⟨ih1, ih2, ih3, ih4⟩ := ih htail hls hol
      have hw : MarketSide.walkLevels o f (l :: ls) = l :: MarketSide.walkLevels o f ls := by
        rw [MarketSide.walkLevels, if_neg ht]
      rw [hw]
      refine ⟨?_, ?_, ?_, ?_⟩
      · rw [List.pairwise_cons]
        refine ⟨?_, ih1⟩
        intro l2 h2
        obtain ⟨l3, hl3, he⟩ := ih3 l2 h2
        rw [← he]
        exact hhead l3 hl3
      · intro l2 h2
        rcases List.mem_cons.mp h2 with h | h
        · rw [h]; exact hl
        · exact ih2 l2 h
      · intro l2 h2
        rcases List.mem_cons.mp h2 with h | h
        · exact ⟨l, List.mem_cons_self _ _, by rw [h]⟩
        · obtain ⟨l3, hl3, he⟩ := ih3 l2 h
          exact ⟨l3, List.mem_cons_of_mem _ hl3, he⟩
      · intro y
        rw [List.flatMap_cons, List.mem_append, ih4 y, List.flatMap_cons, List.mem_append]
        constructor
        · rintro (h | ⟨h1, h2⟩ | h)
          · exact Or.inl ⟨Or.inl h, hnl y h⟩
          · exact Or.inl ⟨Or.inr h1, h2⟩
          · exact Or.inr h
        · rintro (⟨h1 | h1, h2⟩ | h)
          · exact Or.inl h1
          · exact Or.inr (Or.inl ⟨h1, h2⟩)
          · exact Or.inr (Or.inr h)
/-- Dropping an order from a well-formed level: the level was the order alone, or what is left
is a well-formed level holding the other orders. -/
theorem Level.Ok.drop (side : Side) (l : Level) (o : Order) (hl : l.Ok side)
    (ho : o ∈ l.queue) :
    (l.count - 1 = 0 → ∀ y ∈ l.queue, y = o)
    ∧ (¬ l.count - 1 = 0 →
        ({ l with lots := l.lots - o.resdLots, count := l.count - 1,
                  queue := l.queue.filter (fun x => !(x.id == o.id)) } : Level).Ok side)
    ∧ ∀ y, y ∈ l.queue.filter (fun x => !(x.id == o.id)) ↔ (y ∈ l.queue ∧ y ≠ o) := by
  obtain ⟨hne, hc, hlots, hq, hp⟩ := hl
  obtain ⟨pre, post, hsplit, h1, h2⟩ := queue_split l.queue hp o ho
  have hfil := filter_split pre post o h1 h2
  rw [hsplit] at hc hlots hq hp
  rw [hsplit, hfil]
  have hmem : ∀ y, y ∈ pre ++ post ↔ (y ∈ pre ++ o :: post ∧ y ≠ o) := by
    intro y
    simp only [List.mem_append, List.mem_cons]
    constructor
    · rintro (h | h)
      · exact ⟨Or.inl h, fun e => Nat.lt_irrefl _ (e ▸ h1 y h)⟩
      · exact ⟨Or.inr (Or.inr h), fun e => Nat.lt_irrefl _ (e ▸ h2 y h)⟩
    · rintro ⟨h | h | h, hn⟩
      · exact Or.inl h
      · exact absurd h hn
      · exact Or.inr h
  refine ⟨?_, ?_, hmem⟩
  · intro h0 y hy
    rw [hc] at h0
    simp only [List.length_append, List.length_cons] at h0
    have hpre : pre = [] := List.eq_nil_of_length_eq_zero (by omega)
    have hpost : post = [] := List.eq_nil_of_length_eq_zero (by omega)
    subst hpre hpost
    simpa using hy
  · intro h0
    rw [hc] at h0
    simp only [List.length_append, List.length_cons] at h0
    refine ⟨?_, ?_, ?_, ?_, ?_⟩
    · intro he
      have := congrArg List.length he
      simp only [List.length_append, List.length_nil] at this
      omega
    · show l.count - 1 = (pre ++ post).length
      rw [hc]
      simp only [List.length_append, List.length_cons]
      omega
    · show l.lots - o.resdLots = ((pre ++ post).map (fun o => o.resdLots)).sum
      rw [hlots]
      simp only [List.map_append, List.map_cons, List.sum_append, List.sum_cons]
      ring
    · intro x hx
      exact hq x ((hmem x).mp hx).1
    · rw [List.pairwise_append] at hp ⊢
      obtain ⟨hp1, hp2, hp3⟩ := hp
      rw [List.pairwise_cons] at hp2
      exact ⟨hp1, hp2.2, fun a ha b hb => hp3 a ha b (List.mem_cons_of_mem _ hb)⟩

/-- Writing an order of a well-formed level in place, with its key, price and side kept and the
level's lots adjusted by the change of the residual. -/
theorem Level.Ok_write (side : Side) (l : Level) (o : Order) (g : Order → Order) (d : Lots)
    (hl : l.Ok side) (ho : o ∈ l.queue) (hid : (g o).id = o.id) (ht : (g o).ticks = o.ticks)
    (hs : (g o).side = o.side) (hr : (g o).resdLots = o.resdLots - d) :
    ({ l with lots := l.lots - d, queue := MarketSide.writeQueue o.id g l.queue } : Level).Ok side
    ∧ ∀ y, y ∈ MarketSide.writeQueue o.id g l.queue ↔ (y ∈ l.queue ∧ y ≠ o) ∨ y = g o := by
  obtain ⟨hne, hc, hlots, hq, hp⟩ := hl
  obtain ⟨pre, post, hsplit, h1, h2⟩ := queue_split l.queue hp o ho
  have hw := writeQueue_split pre post o g h1 h2
  rw [hsplit] at hc hlots hq hp
  rw [hsplit, hw]
  have hmem : ∀ y, y ∈ pre ++ g o :: post ↔ (y ∈ pre ++ o :: post ∧ y ≠ o) ∨ y = g o := by
    intro y
    simp only [List.mem_append, List.mem_cons]
    constructor
    · rintro (h | h | h)
      · exact Or.inl ⟨Or.inl h, fun e => Nat.lt_irrefl _ (e ▸ h1 y h)⟩
      · exact Or.inr h
      · exact Or.inl ⟨Or.inr (Or.inr h), fun e => Nat.lt_irrefl _ (e ▸ h2 y h)⟩
    · rintro (⟨h | h | h, hn⟩ | h)
      · exact Or.inl h
      · exact absurd h hn
      · exact Or.inr (Or.inr h)
      · exact Or.inr (Or.inl h)
  refine ⟨⟨?_, ?_, ?_, ?_, ?_⟩, hmem⟩
  · simp
  · show l.count = (pre ++ g o :: post).length
    rw [hc]
    simp
  · show l.lots - d = ((pre ++ g o :: post).map (fun o => o.resdLots)).sum
    rw [hlots]
    simp only [List.map_append, List.map_cons, List.sum_append, List.sum_cons, hr]
    ring
  · intro x hx
    rcases (hmem x).mp hx with ⟨h, -⟩ | h
    · exact hq x h
    · have := hq o (by simp)
      rw [h, ht, hs]
      exact this
  · rw [List.pairwise_append] at hp ⊢
    obtain ⟨hp1, hp2, hp3⟩ := hp
    rw [List.pairwise_cons] at hp2 ⊢
    refine ⟨hp1, ⟨?_, hp2.2⟩, ?_⟩
    · intro a ha
      rw [hid]
      exact hp2.1 a ha
    · intro a ha b hb
      rcases List.mem_cons.mp hb with h | h
      · rw [h, hid]
        exact hp3 a ha o (List.mem_cons_self _ _)
      · exact hp3 a ha b (List.mem_cons_of_mem _ h)
/-- `removeLevels` of a resting order keeps a side well formed and removes that order only. -/
theorem removeLevels_ok (side : Side) (o : Order) (ls : List Level)
    (hp : ls.Pairwise (fun a b => priceBefore side a.ticks b.ticks = true))
    (hok : ∀ l ∈ ls, l.Ok side) (ho : o ∈ ls.flatMap (fun l => l.queue)) :
    (MarketSide.removeLevels o ls).Pairwise (fun a b => priceBefore side a.ticks b.ticks = true)
    ∧ (∀ l ∈ MarketSide.removeLevels o ls, l.Ok side)
    ∧ ∀ y, y ∈ (MarketSide.removeLevels o ls).flatMap (fun l => l.queue)
        ↔ (y ∈ ls.flatMap (fun l => l.queue) ∧ y ≠ o) := by
  rw [removeLevels_eq_walk]
  have h := walkLevels_ok side o (MarketSide.dropLevel o) [] (by
    unfold MarketSide.dropLevel
    intro l hl hol
    obtain ⟨h1, h2, h3⟩ := Level.Ok.drop side l o hl hol
    by_cases hc : l.count - 1 = 0
    · simp only [hc, if_true, Option.toList_none, List.not_mem_nil, false_imp_iff, implies_true,
        List.flatMap_nil, or_false, true_and, false_iff, not_and, not_not]
      exact fun y hy => h1 hc y hy
    · simp only [hc, if_false, Option.toList_some, List.mem_singleton, forall_eq,
        List.flatMap_cons, List.flatMap_nil, List.append_nil, List.not_mem_nil, or_false, true_and]
      exact ⟨h2 hc, h3⟩) ls hp hok ho
  obtain ⟨a, b, -, d⟩ := h
  exact ⟨a, b, fun y => by rw [d y]; simp⟩

/-- The order a fill of `lots` at the order's own price leaves. -/
theorem Order.trade_fields (o : Order) (lots : Lots) (now : Time) :
    (o.trade lots (cost lots o.ticks) lots o.ticks now).id = o.id
    ∧ (o.trade lots (cost lots o.ticks) lots o.ticks now).ticks = o.ticks
    ∧ (o.trade lots (cost lots o.ticks) lots o.ticks now).side = o.side
    ∧ (o.trade lots (cost lots o.ticks) lots o.ticks now).resdLots = o.resdLots - lots :=
  ⟨rfl, rfl, rfl, rfl⟩

/-- `takeLevels` of a resting order keeps a side well formed: the order leaves the side when the
fill completes it, and is written in place otherwise. -/
theorem takeLevels_ok (side : Side) (o : Order) (lots : Lots) (now : Time) (ls : List Level)
    (hp : ls.Pairwise (fun a b => priceBefore side a.ticks b.ticks = true))
    (hok : ∀ l ∈ ls, l.Ok side) (ho : o ∈ ls.flatMap (fun l => l.queue)) :
    (MarketSide.takeLevels o lots now ls).Pairwise
        (fun a b => priceBefore side a.ticks b.ticks = true)
    ∧ (∀ l ∈ MarketSide.takeLevels o lots now ls, l.Ok side)
    ∧ ∀ y, y ∈ (MarketSide.takeLevels o lots now ls).flatMap (fun l => l.queue)
        ↔ (y ∈ ls.flatMap (fun l => l.queue) ∧ y ≠ o)
          ∨ (¬ o.resdLots - lots = 0 ∧ y = o.trade lots (cost lots o.ticks) lots o.ticks now) := by
  rw [takeLevels_eq_walk]
  have h := walkLevels_ok side o (MarketSide.takeLevel o lots now)
    (if o.resdLots - lots = 0 then []
     else [o.trade lots (cost lots o.ticks) lots o.ticks now]) (by
    unfold MarketSide.takeLevel
    intro l hl hol
    by_cases hd : o.resdLots - lots = 0
    · obtain ⟨h1, h2, h3⟩ := Level.Ok.drop side l o hl hol
      have hlots : lots = o.resdLots := by linarith
      by_cases hc : l.count - 1 = 0
      · simp only [hd, hc, if_true, Option.toList_none, List.not_mem_nil, false_imp_iff,
          implies_true, List.flatMap_nil, or_false, true_and, false_iff, not_and, not_not]
        exact fun y hy => h1 hc y hy
      · simp only [hd, hc, if_true, if_false, Option.toList_some, List.mem_singleton, forall_eq,
          List.flatMap_cons, List.flatMap_nil, List.append_nil, List.not_mem_nil, or_false,
          true_and]
        rw [hlots]
        exact ⟨h2 hc, h3⟩
    · obtain ⟨h1, h2⟩ := Level.Ok_write side l o
        (fun x => x.trade lots (cost lots x.ticks) lots x.ticks now) lots hl hol rfl rfl rfl rfl
      simp only [hd, if_false, Option.toList_some, List.mem_singleton, forall_eq,
        List.flatMap_cons, List.flatMap_nil, List.append_nil, true_and]
      exact ⟨h1, h2⟩) ls hp hok ho
  obtain ⟨a, b, -, d⟩ := h
  refine ⟨a, b, fun y => ?_⟩
  rw [d y]
  by_cases hd : o.resdLots - lots = 0 <;> simp [hd]

/-- `reviseLevels` of a resting order keeps a side well formed and writes the order in place. -/
theorem reviseLevels_ok (side : Side) (o : Order) (lots : Lots) (now : Time) (ls : List Level)
    (hp : ls.Pairwise (fun a b => priceBefore side a.ticks b.ticks = true))
    (hok : ∀ l ∈ ls, l.Ok side) (ho : o ∈ ls.flatMap (fun l => l.queue)) :
    (MarketSide.reviseLevels o lots now ls).Pairwise
        (fun a b => priceBefore side a.ticks b.ticks = true)
    ∧ (∀ l ∈ MarketSide.reviseLevels o lots now ls, l.Ok side)
    ∧ ∀ y, y ∈ (MarketSide.reviseLevels o lots now ls).flatMap (fun l => l.queue)
        ↔ (y ∈ ls.flatMap (fun l => l.queue) ∧ y ≠ o) ∨ y = o.revise lots now := by
  rw [reviseLevels_eq_walk]
  have h := walkLevels_ok side o (MarketSide.reviseLevel o lots now) [o.revise lots now] (by
    unfold MarketSide.reviseLevel
    intro l hl hol
    obtain ⟨h1, h2⟩ := Level.Ok_write side l o (fun x => x.revise lots now) (o.lots - lots)
      hl hol rfl rfl rfl rfl
    simp only [Option.toList_some, List.mem_singleton, forall_eq, List.flatMap_cons,
      List.flatMap_nil, List.append_nil, true_and]
    exact ⟨h1, h2⟩) ls hp hok ho
  obtain ⟨a, b, -, d⟩ := h
  refine ⟨a, b, fun y => ?_⟩
  rw [d y]
  simp

/-- `insertLevels` of an order newer than every resting order keeps a side well formed and adds
that order only. -/
theorem insertLevels_ok (side : Side) (o : Order) (hs : o.side = side) :
    ∀ ls : List Level, ls.Pairwise (fun a b => priceBefore side a.ticks b.ticks = true) →
      (∀ l ∈ ls, l.Ok side) → (∀ y ∈ ls.flatMap (fun l => l.queue), y.id < o.id) →
      (MarketSide.insertLevels side o ls).Pairwise
          (fun a b => priceBefore side a.ticks b.ticks = true)
      ∧ (∀ l ∈ MarketSide.insertLevels side o ls, l.Ok side)
      ∧ (∀ l ∈ MarketSide.insertLevels side o ls,
          l.ticks = o.ticks ∨ ∃ l2 ∈ ls, l2.ticks = l.ticks)
      ∧ ∀ y, y ∈ (MarketSide.insertLevels side o ls).flatMap (fun l => l.queue)
          ↔ y = o ∨ y ∈ ls.flatMap (fun l => l.queue) := by
  have hnew : (⟨o.ticks, o.resdLots, 1, [o]⟩ : Level).Ok side :=
    ⟨by simp, rfl, by simp, by simp [hs], by simp⟩
  intro ls
  induction ls with
  | nil =>
    intro _ _ _
    rw [MarketSide.insertLevels]
    refine ⟨by simp, ?_, ?_, ?_⟩
    · intro l hl
      rw [List.mem_singleton] at hl
      rw [hl]
      exact hnew
    · intro l hl
      rw [List.mem_singleton] at hl
      exact Or.inl (by rw [hl])
    · intro y
      simp
  | cons l ls ih =>
    intro hp hok hid
    rw [List.pairwise_cons] at hp
    obtain ⟨hhead, htail⟩ := hp
    have hl : l.Ok side := hok l (List.mem_cons_self _ _)
    have hls : ∀ l2 ∈ ls, l2.Ok side := fun l2 h => hok l2 (List.mem_cons_of_mem _ h)
    have hidl : ∀ y ∈ l.queue, y.id < o.id := fun y hy =>
      hid y (by rw [List.flatMap_cons]; exact List.mem_append_left _ hy)
    have hidls : ∀ y ∈ ls.flatMap (fun l => l.queue), y.id < o.id := fun y hy =>
      hid y (by rw [List.flatMap_cons]; exact List.mem_append_right _ hy)
    by_cases ht : l.ticks = o.ticks
    · have hw : MarketSide.insertLevels side o (l :: ls)
          = { l with lots := l.lots + o.resdLots, count := l.count + 1,
                     queue := l.queue ++ [o] } :: ls := by
        rw [MarketSide.insertLevels, if_pos ht]
      rw [hw]
      obtain ⟨hne, hc, hlots, hq, hpq⟩ := hl
      refine ⟨?_, ?_, ?_, ?_⟩
      · rw [List.pairwise_cons]
        exact ⟨hhead, htail⟩
      · intro l2 h2
        rcases List.mem_cons.mp h2 with h | h
        · rw [h]
          refine ⟨by simp, ?_, ?_, ?_, ?_⟩
          · show l.count + 1 = (l.queue ++ [o]).length
            rw [hc]; simp
          · show l.lots + o.resdLots = ((l.queue ++ [o]).map (fun o => o.resdLots)).sum
            rw [hlots]; simp
          · intro x hx
            rcases List.mem_append.mp hx with h3 | h3
            · exact hq x h3
            · rw [List.mem_singleton] at h3
              rw [h3]
              exact ⟨ht.symm, hs⟩
          · show (l.queue ++ [o]).Pairwise _
            rw [List.pairwise_append]
            refine ⟨hpq, by simp, ?_⟩
            intro a ha b hb
            rw [List.mem_singleton] at hb
            rw [hb]
            exact hidl a ha
        · exact hls l2 h
      · intro l2 h2
        rcases List.mem_cons.mp h2 with h | h
        · exact Or.inl (by rw [h]; exact ht)
        · exact Or.inr ⟨l2, List.mem_cons_of_mem _ h, rfl⟩
      · intro y
        simp only [List.flatMap_cons, List.mem_append, List.mem_singleton]
        tauto
    · by_cases hb : priceBefore side o.ticks l.ticks = true
      · have hw : MarketSide.insertLevels side o (l :: ls)
            = ⟨o.ticks, o.resdLots, 1, [o]⟩ :: l :: ls := by
          rw [MarketSide.insertLevels, if_neg ht, if_pos hb]
        rw [hw]
        refine ⟨?_, ?_, ?_, ?_⟩
        · rw [List.pairwise_cons, List.pairwise_cons]
          refine ⟨?_, hhead, htail⟩
          intro l2 h2
          rcases List.mem_cons.mp h2 with h | h
          · rw [h]; exact hb
          · exact priceBefore_trans side _ _ _ hb (hhead l2 h)
        · intro l2 h2
          rcases List.mem_cons.mp h2 with h | h
          · rw [h]; exact hnew
          · exact hok l2 h
        · intro l2 h2
          rcases List.mem_cons.mp h2 with h | h
          · exact Or.inl (by rw [h])
          · exact Or.inr ⟨l2, h, rfl⟩
        · intro y
          simp only [List.flatMap_cons, List.mem_append, List.mem_singleton, List.mem_cons,
            List.not_mem_nil, or_false]
      · have hw : MarketSide.insertLevels side o (l :: ls)
            = l :: MarketSide.insertLevels side o ls := by
          rw [MarketSide.insertLevels, if_neg ht, if_neg hb]
        rw [hw]
        obtain ⟨ih1, ih2, ih3, ih4⟩ := ih htail hls hidls
        refine ⟨?_, ?_, ?_, ?_⟩
        · rw [List.pairwise_cons]
          refine ⟨?_, ih1⟩
          intro l2 h2
          rcases ih3 l2 h2 with h | ⟨l3, hl3, he⟩
          · rw [h]
            exact priceBefore_total side _ _ (Ne.symm ht) hb
          · rw [← he]
            exact hhead l3 hl3
        · intro l2 h2
          rcases List.mem_cons.mp h2 with h | h
          · rw [h]; exact hl
          · exact ih2 l2 h
        · intro l2 h2
          rcases List.mem_cons.mp h2 with h | h
          · exact Or.inr ⟨l, List.mem_cons_self _ _, by rw [h]⟩
          · rcases ih3 l2 h with h3 | ⟨l3, hl3, he⟩
            · exact Or.inl h3
            · exact Or.inr ⟨l3, List.mem_cons_of_mem _ hl3, he⟩
        · intro y
          simp only [List.flatMap_cons, List.mem_append, ih4 y]
          tauto

theorem Market.removeOrder_eq_mapSide (m : Market) (o : Order) :
    m.removeOrder o = m.mapSide o.side (MarketSide.removeLevels o) := by
  unfold Market.removeOrder Market.mapSide
  cases o.side <;> rfl

theorem Market.cancelOrder_eq_mapSide (m : Market) (o : Order) (now : Time) :
    m.cancelOrder o now = m.mapSide o.side (MarketSide.removeLevels o) := by
  unfold Market.cancelOrder Market.mapSide
  cases o.side <;> rfl

theorem Market.takeOrder_eq_mapSide (m : Market) (o : Order) (lots : Lots) (now : Time) :
    m.takeOrder o lots now = m.mapSide o.side (MarketSide.takeLevels o lots now) := by
  unfold Market.takeOrder Market.mapSide
  cases o.side <;> rfl

theorem Market.reviseOrder_eq_mapSide (m : Market) (o : Order) (lots : Lots) (now : Time) :
    m.reviseOrder o lots now = m.mapSide o.side (MarketSide.reviseLevels o lots now) := by
  unfold Market.reviseOrder Market.mapSide
  cases o.side <;> rfl

theorem Market.insertOrder_eq_mapSide (m : Market) (o : Order) (hm : m.Ok) :
    m.insertOrder o = m.mapSide o.side (MarketSide.insertLevels o.side o) := by
  unfold Market.insertOrder Market.mapSide MarketSide.insertOrder
  cases hs : o.side
  · simp only [hm.1]
  · simp only [hm.2.1]

/-- A resting order rests on the side its own `side` names. -/
theorem Market.Ok.mem_side (m : Market) (o : Order) (hm : m.Ok) (ho : o ∈ m.orders) :
    (o.side = Side.Buy ∧ o ∈ m.bidSide.orders) ∨ (o.side = Side.Sell ∧ o ∈ m.offerSide.orders) := by
  obtain ⟨hb, hs, hbo, hso, -, -⟩ := hm
  rcases List.mem_append.mp ho with h | h
  · left
    obtain ⟨l, hl, hy⟩ := List.mem_flatMap.mp h
    exact ⟨by rw [((hbo.2 l hl).2.2.2.1 o hy).2, hb], h⟩
  · right
    obtain ⟨l, hl, hy⟩ := List.mem_flatMap.mp h
    exact ⟨by rw [((hso.2 l hl).2.2.2.1 o hy).2, hs], h⟩

theorem Market.Ok.side_of_mem (m : Market) (o : Order) (hm : m.Ok) :
    (o ∈ m.bidSide.orders → o.side = Side.Buy) ∧ (o ∈ m.offerSide.orders → o.side = Side.Sell) := by
  obtain ⟨hb, hs, hbo, hso, -, -⟩ := hm
  constructor
  · intro h
    obtain ⟨l, hl, hy⟩ := List.mem_flatMap.mp h
    rw [((hbo.2 l hl).2.2.2.1 o hy).2, hb]
  · intro h
    obtain ⟨l, hl, hy⟩ := List.mem_flatMap.mp h
    rw [((hso.2 l hl).2.2.2.1 o hy).2, hs]

/-- A rewrite of one side that keeps the side well formed and changes the resting orders by
removing `o` and adding the orders of `extra`, each with the key of `o`, keeps the market well
formed. -/
theorem Market.Ok.mapSide (m : Market) (o : Order) (G : List Level → List Level)
    (extra : List Order) (hm : m.Ok) (ho : o ∈ m.orders)
    (hG : ∀ (side : Side) (ls : List Level),
      ls.Pairwise (fun a b => priceBefore side a.ticks b.ticks = true) →
      (∀ l ∈ ls, l.Ok side) → o ∈ ls.flatMap (fun l => l.queue) →
      (G ls).Pairwise (fun a b => priceBefore side a.ticks b.ticks = true)
      ∧ (∀ l ∈ G ls, l.Ok side)
      ∧ ∀ y, y ∈ (G ls).flatMap (fun l => l.queue)
          ↔ (y ∈ ls.flatMap (fun l => l.queue) ∧ y ≠ o) ∨ y ∈ extra)
    (hx : ∀ g ∈ extra, ∀ h ∈ extra, g = h)
    (hg : ∀ g ∈ extra, g.id = o.id ∧ g.marketId = o.marketId ∧ g.instr = o.instr
      ∧ g.settlDay = o.settlDay) :
    (m.mapSide o.side G).Ok
    ∧ (∀ y, y ∈ (m.mapSide o.side G).orders ↔ (y ∈ m.orders ∧ y ≠ o) ∨ y ∈ extra)
    ∧ (m.mapSide o.side G).id = m.id ∧ (m.mapSide o.side G).instr = m.instr
    ∧ (m.mapSide o.side G).settlDay = m.settlDay ∧ (m.mapSide o.side G).execSeq = m.execSeq
    ∧ (m.mapSide o.side G).state = m.state := by
  have hside := Market.Ok.side_of_mem m
  have hmem := Market.Ok.mem_side m o hm ho
  obtain ⟨hb, hs, hbo, hso, hkey, hfld⟩ := hm
  -- the membership statement, proved side by side
  have hmain : ((m.mapSide o.side G).bidSide.side = Side.Buy
      ∧ (m.mapSide o.side G).offerSide.side = Side.Sell
      ∧ (m.mapSide o.side G).bidSide.Ok ∧ (m.mapSide o.side G).offerSide.Ok)
      ∧ ∀ y, y ∈ (m.mapSide o.side G).orders ↔ (y ∈ m.orders ∧ y ≠ o) ∨ y ∈ extra := by
    rcases hmem with ⟨hsd, hin⟩ | ⟨hsd, hin⟩
    · rw [hsd]
      obtain ⟨g1, g2, g3⟩ := hG Side.Buy m.bidSide.levels (hb ▸ hbo.1) (hb ▸ hbo.2) hin
      refine ⟨⟨hb, hs, ⟨?_, ?_⟩, hso⟩, ?_⟩
      · show List.Pairwise _ (G m.bidSide.levels)
        rw [show (m.mapSide Side.Buy G).bidSide.side = Side.Buy from hb]
        exact g1
      · show ∀ l ∈ G m.bidSide.levels, l.Ok (m.mapSide Side.Buy G).bidSide.side
        rw [show (m.mapSide Side.Buy G).bidSide.side = Side.Buy from hb]
        exact g2
      · intro y
        show y ∈ (G m.bidSide.levels).flatMap (fun l => l.queue) ++ m.offerSide.orders ↔ _
        rw [List.mem_append, g3 y]
        unfold Market.orders
        rw [List.mem_append]
        constructor
        · rintro ((⟨h1, h2⟩ | h) | h)
          · exact Or.inl ⟨Or.inl h1, h2⟩
          · exact Or.inr h
          · refine Or.inl ⟨Or.inr h, ?_⟩
            rintro rfl
            have := (hside y ⟨hb, hs, hbo, hso, hkey, hfld⟩).2 h
            rw [hsd] at this
            exact Side.noConfusion this
        · rintro (⟨h1 | h1, h2⟩ | h)
          · exact Or.inl (Or.inl ⟨h1, h2⟩)
          · exact Or.inr h1
          · exact Or.inl (Or.inr h)
    · rw [hsd]
      obtain ⟨g1, g2, g3⟩ := hG Side.Sell m.offerSide.levels (hs ▸ hso.1) (hs ▸ hso.2) hin
      refine ⟨⟨hb, hs, hbo, ⟨?_, ?_⟩⟩, ?_⟩
      · show List.Pairwise _ (G m.offerSide.levels)
        rw [show (m.mapSide Side.Sell G).offerSide.side = Side.Sell from hs]
        exact g1
      · show ∀ l ∈ G m.offerSide.levels, l.Ok (m.mapSide Side.Sell G).offerSide.side
        rw [show (m.mapSide Side.Sell G).offerSide.side = Side.Sell from hs]
        exact g2
      · intro y
        show y ∈ m.bidSide.orders ++ (G m.offerSide.levels).flatMap (fun l => l.queue) ↔ _
        rw [List.mem_append, g3 y]
        unfold Market.orders
        rw [List.mem_append]
        constructor
        · rintro (h | ⟨h1, h2⟩ | h)
          · refine Or.inl ⟨Or.inl h, ?_⟩
            rintro rfl
            have := (hside y ⟨hb, hs, hbo, hso, hkey, hfld⟩).1 h
            rw [hsd] at this
            exact Side.noConfusion this
          · exact Or.inl ⟨Or.inr h1, h2⟩
          · exact Or.inr h
        · rintro (⟨h1 | h1, h2⟩ | h)
          · exact Or.inl h1
          · exact Or.inr (Or.inl ⟨h1, h2⟩)
          · exact Or.inr (Or.inr h)
  obtain ⟨⟨k1, k2, k3, k4⟩, hmm⟩ := hmain
  have hmeta : (m.mapSide o.side G).id = m.id ∧ (m.mapSide o.side G).instr = m.instr
      ∧ (m.mapSide o.side G).settlDay = m.settlDay ∧ (m.mapSide o.side G).execSeq = m.execSeq
      ∧ (m.mapSide o.side G).state = m.state := by
    unfold Market.mapSide
    cases o.side <;> exact ⟨rfl, rfl, rfl, rfl, rfl⟩
  have hof := hfld o ho
  refine ⟨⟨k1, k2, k3, k4, ?_, ?_⟩, hmm, hmeta⟩
  · intro x hx1 y hy1 hid
    rcases (hmm x).mp hx1 with ⟨hx2, hx3⟩ | hx2
    · rcases (hmm y).mp hy1 with ⟨hy2, hy3⟩ | hy2
      · exact hkey x hx2 y hy2 hid
      · exact absurd (hkey x hx2 o ho (by rw [hid, (hg y hy2).1])) hx3
    · rcases (hmm y).mp hy1 with ⟨hy2, hy3⟩ | hy2
      · exact absurd (hkey y hy2 o ho (by rw [← hid, (hg x hx2).1])) hy3
      · exact hx x hx2 y hy2
  · intro x hx1
    rw [hmeta.1, hmeta.2.1, hmeta.2.2.1, hmeta.2.2.2.1]
    rcases (hmm x).mp hx1 with ⟨hx2, -⟩ | hx2
    · exact hfld x hx2
    · obtain ⟨e1, e2, e3, e4⟩ := hg x hx2
      rw [e1, e2, e3, e4]
      exact hof
theorem Market.mapSide_meta (m : Market) (side : Side) (G : List Level → List Level) :
    (m.mapSide side G).id = m.id ∧ (m.mapSide side G).instr = m.instr
    ∧ (m.mapSide side G).settlDay = m.settlDay ∧ (m.mapSide side G).execSeq = m.execSeq
    ∧ (m.mapSide side G).state = m.state := by
  unfold Market.mapSide
  cases side <;> exact ⟨rfl, rfl, rfl, rfl, rfl⟩

/-- `Market::removeOrder` of a resting order keeps the book well formed and removes that order
only. -/
theorem Market.Ok_removeOrder (m : Market) (o : Order) (hm : m.Ok) (ho : o ∈ m.orders) :
    (m.removeOrder o).Ok ∧ ∀ y, y ∈ (m.removeOrder o).orders ↔ (y ∈ m.orders ∧ y ≠ o) := by
  rw [Market.removeOrder_eq_mapSide]
  obtain ⟨h1, h2, -⟩ := Market.Ok.mapSide m o (MarketSide.removeLevels o) [] hm ho
    (fun side ls hp hok hol => by
      obtain ⟨a, b, c⟩ := removeLevels_ok side o ls hp hok hol
      exact ⟨a, b, fun y => by rw [c y]; simp⟩)
    (by simp) (by simp)
  exact ⟨h1, fun y => by rw [h2 y]; simp⟩

/-- `Market::takeOrder` on a resting order keeps the book well formed: the order leaves the
book when the fill completes it, and is written in place otherwise. -/
theorem Market.Ok.takeOrder (m : Market) (o : Order) (lots : Lots) (now : Time) (hm : m.Ok)
    (ho : o ∈ m.orders) :
    (m.takeOrder o lots now).Ok
    ∧ ∀ y, y ∈ (m.takeOrder o lots now).orders
        ↔ (y ∈ m.orders ∧ y ≠ o)
          ∨ (¬ o.resdLots - lots = 0
              ∧ y = o.trade lots (cost lots o.ticks) lots o.ticks now) := by
  rw [Market.takeOrder_eq_mapSide]
  obtain ⟨h1, h2, -⟩ := Market.Ok.mapSide m o (MarketSide.takeLevels o lots now)
    (if o.resdLots - lots = 0 then []
     else [o.trade lots (cost lots o.ticks) lots o.ticks now]) hm ho
    (fun side ls hp hok hol => by
      obtain ⟨a, b, c⟩ := takeLevels_ok side o lots now ls hp hok hol
      refine ⟨a, b, fun y => ?_⟩
      rw [c y]
      by_cases hd : o.resdLots - lots = 0 <;> simp [hd])
    (by
      intro g hg h hh
      by_cases hd : o.resdLots - lots = 0
      · simp [hd] at hg
      · simp only [hd, if_false, List.mem_singleton] at hg hh
        rw [hg, hh])
    (by
      intro g hg
      by_cases hd : o.resdLots - lots = 0
      · simp [hd] at hg
      · simp only [hd, if_false, List.mem_singleton] at hg
        rw [hg]
        exact ⟨rfl, rfl, rfl, rfl⟩)
  refine ⟨h1, fun y => ?_⟩
  rw [h2 y]
  by_cases hd : o.resdLots - lots = 0 <;> simp [hd]

/-- `Market::reviseOrder` on a resting order keeps the book well formed and writes the order in
place. -/
theorem Market.Ok.reviseOrder (m : Market) (o : Order) (lots : Lots) (now : Time) (hm : m.Ok)
    (ho : o ∈ m.orders) :
    (m.reviseOrder o lots now).Ok
    ∧ ∀ y, y ∈ (m.reviseOrder o lots now).orders
        ↔ (y ∈ m.orders ∧ y ≠ o) ∨ y = o.revise lots now := by
  rw [Market.reviseOrder_eq_mapSide]
  obtain ⟨h1, h2, -⟩ := Market.Ok.mapSide m o (MarketSide.reviseLevels o lots now)
    [o.revise lots now] hm ho
    (fun side ls hp hok hol => by
      obtain ⟨a, b, c⟩ := reviseLevels_ok side o lots now ls hp hok hol
      exact ⟨a, b, fun y => by rw [c y]; simp⟩)
    (by
      intro g hg h hh
      rw [List.mem_singleton] at hg hh
      rw [hg, hh])
    (by
      intro g hg
      rw [List.mem_singleton] at hg
      rw [hg]
      exact ⟨rfl, rfl, rfl, rfl⟩)
  exact ⟨h1, fun y => by rw [h2 y]; simp⟩

/-- `Market::insertOrder` of an order of this market, newer than every resting order, with an
id the counter has handed out, keeps the book well formed and adds that order only. -/
theorem Market.Ok_insertOrder (m : Market) (o : Order) (hm : m.Ok)
    (hid : ∀ x ∈ m.orders, x.id < o.id) (hseq : o.id ≤ m.execSeq)
    (hk : o.marketId = m.id ∧ o.instr = m.instr ∧ o.settlDay = m.settlDay) :
    (m.insertOrder o).Ok ∧ ∀ y, y ∈ (m.insertOrder o).orders ↔ (y = o ∨ y ∈ m.orders) := by
  rw [Market.insertOrder_eq_mapSide m o hm]
  have hmeta := Market.mapSide_meta m o.side (MarketSide.insertLevels o.side o)
  obtain ⟨hb, hs, hbo, hso, hkey, hfld⟩ := hm
  have hmain : ((m.mapSide o.side (MarketSide.insertLevels o.side o)).bidSide.side = Side.Buy
      ∧ (m.mapSide o.side (MarketSide.insertLevels o.side o)).offerSide.side = Side.Sell
      ∧ (m.mapSide o.side (MarketSide.insertLevels o.side o)).bidSide.Ok
      ∧ (m.mapSide o.side (MarketSide.insertLevels o.side o)).offerSide.Ok)
      ∧ ∀ y, y ∈ (m.mapSide o.side (MarketSide.insertLevels o.side o)).orders
          ↔ (y = o ∨ y ∈ m.orders) := by
    cases hsd : o.side
    · obtain ⟨g1, g2, -, g4⟩ := insertLevels_ok Side.Buy o hsd m.bidSide.levels
        (hb ▸ hbo.1) (hb ▸ hbo.2)
        (fun y hy => hid y (List.mem_append_left _ hy))
      refine ⟨⟨hb, hs, ⟨?_, ?_⟩, hso⟩, ?_⟩
      · show List.Pairwise _ (MarketSide.insertLevels Side.Buy o m.bidSide.levels)
        rw [show (m.mapSide Side.Buy (MarketSide.insertLevels Side.Buy o)).bidSide.side
          = Side.Buy from hb]
        exact g1
      · show ∀ l ∈ MarketSide.insertLevels Side.Buy o m.bidSide.levels, l.Ok _
        rw [show (m.mapSide Side.Buy (MarketSide.insertLevels Side.Buy o)).bidSide.side
          = Side.Buy from hb]
        exact g2
      · intro y
        show y ∈ (MarketSide.insertLevels Side.Buy o m.bidSide.levels).flatMap
          (fun l => l.queue) ++ m.offerSide.orders ↔ _
        rw [List.mem_append, g4 y]
        unfold Market.orders
        rw [List.mem_append]
        exact ⟨fun h => by tauto, fun h => by tauto⟩
    · obtain ⟨g1, g2, -, g4⟩ := insertLevels_ok Side.Sell o hsd m.offerSide.levels
        (hs ▸ hso.1) (hs ▸ hso.2)
        (fun y hy => hid y (List.mem_append_right _ hy))
      refine ⟨⟨hb, hs, hbo, ⟨?_, ?_⟩⟩, ?_⟩
      · show List.Pairwise _ (MarketSide.insertLevels Side.Sell o m.offerSide.levels)
        rw [show (m.mapSide Side.Sell (MarketSide.insertLevels Side.Sell o)).offerSide.side
          = Side.Sell from hs]
        exact g1
      · show ∀ l ∈ MarketSide.insertLevels Side.Sell o m.offerSide.levels, l.Ok _
        rw [show (m.mapSide Side.Sell (MarketSide.insertLevels Side.Sell o)).offerSide.side
          = Side.Sell from hs]
        exact g2
      · intro y
        show y ∈ m.bidSide.orders ++ (MarketSide.insertLevels Side.Sell o
          m.offerSide.levels).flatMap (fun l => l.queue) ↔ _
        rw [List.mem_append, g4 y]
        unfold Market.orders
        rw [List.mem_append]
        exact ⟨fun h => by tauto, fun h => by tauto⟩
  obtain ⟨⟨k1, k2, k3, k4⟩, hmm⟩ := hmain
  refine ⟨⟨k1, k2, k3, k4, ?_, ?_⟩, hmm⟩
  · intro x hx1 y hy1 hxy
    rcases (hmm x).mp hx1 with hx2 | hx2
    · rcases (hmm y).mp hy1 with hy2 | hy2
      · rw [hx2, hy2]
      · exact absurd (hx2 ▸ hxy).symm (Nat.ne_of_lt (hid y hy2))
    · rcases (hmm y).mp hy1 with hy2 | hy2
      · exact absurd (hy2 ▸ hxy) (Nat.ne_of_lt (hid x hx2))
      · exact hkey x hx2 y hy2 hxy
  · intro x hx1
    rw [hmeta.1, hmeta.2.1, hmeta.2.2.1, hmeta.2.2.2.1]
    rcases (hmm x).mp hx1 with hx2 | hx2
    · rw [hx2]
      exact ⟨hseq, hk⟩
    · exact hfld x hx2

/-- Advancing the exec id counter keeps the book well formed. -/
theorem Market.Ok.bump (m : Market) (n : Nat) (hm : m.Ok) :
    ({ m with execSeq := m.execSeq + n } : Market).Ok := by
  obtain ⟨hb, hs, hbo, hso, hkey, hfld⟩ := hm
  refine ⟨hb, hs, hbo, hso, hkey, ?_⟩
  intro x hx
  obtain ⟨h1, h2⟩ := hfld x hx
  exact ⟨Nat.le_trans h1 (Nat.le_add_right _ _), h2⟩

/-! ## Coherence of the accounts with the book -/

theorem Order_sameKey_iff (o : Order) (marketId id : Id64) :
    o.sameKey marketId id = true ↔ o.marketId = marketId ∧ o.id = id := by
  simp [Order.sameKey]

/-- A write to the accounts that touches neither symbols nor live orders keeps coherence. -/
theorem BookInv_inert (Q : Order → Prop) (ex : List Order) (l : List Accnt) (m : Market)
    (sym : Symbol) (f : Accnt → Accnt)
    (hf : ∀ a, (f a).symbol = a.symbol ∧ (f a).orders = a.orders) (h : BookInv Q ex l m) :
    BookInv Q ex (l.map (fun a => if a.symbol = sym then f a else a)) m := by
  refine ⟨h.1, ?_⟩
  intro a2 ha2 o ho
  obtain ⟨a, ha, rfl⟩ := List.mem_map.mp ha2
  by_cases hs : a.symbol = sym
  · simp only [hs, if_true] at ho ⊢
    rw [(hf a).2] at ho
    rw [(hf a).1]
    exact h.2 a ha o ho
  · simp only [hs, if_false] at ho ⊢
    exact h.2 a ha o ho

/-- The book changes by replacing the resting order `x` by `g x` (when `c` holds) or dropping it
(otherwise), and the account of `x` writes the order with `g`: coherence holds up to the order
`g x` that has left the book. -/
theorem BookInv_write (Q : Order → Prop) (l : List Accnt) (m m2 : Market) (x : Order)
    (g : Order → Order) (c : Prop) [Decidable c] (h : BookInv Q [] l m) (hx : x ∈ m.orders)
    (hm2 : m2.Ok) (hid : m2.id = m.id)
    (hmem : ∀ y, y ∈ m2.orders ↔ (y ∈ m.orders ∧ y ≠ x) ∨ (c ∧ y = g x))
    (hg : ∀ o, (g o).accnt = o.accnt ∧ (g o).marketId = o.marketId) :
    BookInv Q (if c then [] else [g x])
      (l.map (fun a => if a.symbol = x.accnt then a.writeOrder x.marketId x.id g else a))
      m2 := by
  obtain ⟨hm, hco⟩ := h
  have hxm : x.marketId = m.id := (hm.2.2.2.2.2 x hx).2.1
  refine ⟨hm2, ?_⟩
  intro a2 ha2 o2 ho2
  obtain ⟨a, ha, rfl⟩ := List.mem_map.mp ha2
  rw [hid]
  by_cases hs : a.symbol = x.accnt
  · simp only [hs, if_true] at ho2 ⊢
    have hsym : (a.writeOrder x.marketId x.id g).symbol = a.symbol := rfl
    rw [hsym]
    obtain ⟨o, ho, rfl⟩ := List.mem_map.mp ho2
    obtain ⟨h1, h2, h3⟩ := hco a ha o ho
    by_cases hk : o.sameKey x.marketId x.id = true
    · simp only [hk, if_true]
      obtain ⟨hk1, hk2⟩ := (Order_sameKey_iff _ _ _).mp hk
      have hom : o ∈ m.orders := by
        rcases h2 (hk1.trans hxm) with h | h
        · exact h
        · simp at h
      have hox : o = x := hm.2.2.2.2.1 o hom x hx hk2
      subst hox
      refine ⟨by rw [(hg o).1]; exact h1, ?_, ?_⟩
      · intro _
        by_cases hc : c
        · exact Or.inl ((hmem _).mpr (Or.inr ⟨hc, rfl⟩))
        · simp [hc]
      · intro hne
        exact absurd (by rw [(hg o).2]; exact hxm) hne
    · simp only [hk, if_false]
      refine ⟨h1, ?_, h3⟩
      intro hmk
      rcases h2 hmk with h | h
      · refine Or.inl ((hmem _).mpr (Or.inl ⟨h, ?_⟩))
        rintro rfl
        exact hk ((Order_sameKey_iff _ _ _).mpr ⟨rfl, rfl⟩)
      · simp at h
  · simp only [hs, if_false] at ho2 ⊢
    obtain ⟨h1, h2, h3⟩ := hco a ha o2 ho2
    refine ⟨h1, ?_, h3⟩
    intro hmk
    rcases h2 hmk with h | h
    · refine Or.inl ((hmem _).mpr (Or.inl ⟨h, ?_⟩))
      rintro rfl
      exact hs h1.symm
    · simp at h

/-- The order that has left the book leaves the live-order index of its account. -/
theorem BookInv.remove_ex (Q : Order → Prop) (l : List Accnt) (m : Market) (g : Order)
    (h : BookInv Q [g] l m) :
    BookInv Q [] (l.map (fun a => if a.symbol = g.accnt then a.removeOrder g else a)) m := by
  obtain ⟨hm, hco⟩ := h
  refine ⟨hm, ?_⟩
  intro a2 ha2 o2 ho2
  obtain ⟨a, ha, rfl⟩ := List.mem_map.mp ha2
  by_cases hs : a.symbol = g.accnt
  · simp only [hs, if_true] at ho2 ⊢
    have hsym : (a.removeOrder g).symbol = a.symbol := rfl
    rw [hsym]
    have ho : o2 ∈ a.orders.filter (fun x => !(x.sameKey g.marketId g.id)) := ho2
    rw [List.mem_filter] at ho
    obtain ⟨ho, hk⟩ := ho
    obtain ⟨h1, h2, h3⟩ := hco a ha o2 ho
    refine ⟨h1, ?_, h3⟩
    intro hmk
    rcases h2 hmk with h | h
    · exact Or.inl h
    · rw [List.mem_singleton] at h
      subst h
      simp [Order.sameKey] at hk
  · simp only [hs, if_false] at ho2 ⊢
    obtain ⟨h1, h2, h3⟩ := hco a ha o2 ho2
    refine ⟨h1, ?_, h3⟩
    intro hmk
    rcases h2 hmk with h | h
    · exact Or.inl h
    · rw [List.mem_singleton] at h
      subst h
      exact absurd h1.symm hs

/-- The book drops the resting order `x` and the account `sym` of `x` removes it. -/
theorem BookInv.remove (Q : Order → Prop) (l : List Accnt) (m m2 : Market) (x : Order)
    (h : BookInv Q [] l m) (hx : x ∈ m.orders)
    (hm2 : m2.Ok) (hid : m2.id = m.id)
    (hmem : ∀ y, y ∈ m2.orders ↔ (y ∈ m.orders ∧ y ≠ x)) :
    BookInv Q [] (l.map (fun a => if a.symbol = x.accnt then a.removeOrder x else a)) m2 := by
  obtain ⟨hm, hco⟩ := h
  have hxm : x.marketId = m.id := (hm.2.2.2.2.2 x hx).2.1
  refine ⟨hm2, ?_⟩
  intro a2 ha2 o2 ho2
  obtain ⟨a, ha, rfl⟩ := List.mem_map.mp ha2
  rw [hid]
  by_cases hs : a.symbol = x.accnt
  · simp only [hs, if_true] at ho2 ⊢
    have hsym : (a.removeOrder x).symbol = a.symbol := rfl
    rw [hsym]
    have ho : o2 ∈ a.orders.filter (fun y => !(y.sameKey x.marketId x.id)) := ho2
    rw [List.mem_filter] at ho
    obtain ⟨ho, hk⟩ := ho
    obtain ⟨h1, h2, h3⟩ := hco a ha o2 ho
    refine ⟨h1, ?_, h3⟩
    intro hmk
    rcases h2 hmk with h | h
    · refine Or.inl ((hmem _).mpr ⟨h, ?_⟩)
      rintro rfl
      simp [Order.sameKey] at hk
    · simp at h
  · simp only [hs, if_false] at ho2 ⊢
    obtain ⟨h1, h2, h3⟩ := hco a ha o2 ho2
    refine ⟨h1, ?_, h3⟩
    intro hmk
    rcases h2 hmk with h | h
    · refine Or.inl ((hmem _).mpr ⟨h, ?_⟩)
      rintro rfl
      exact hs h1.symm
    · simp at h

/-- The account `sym` links an order that rests in the book. -/
theorem BookInv_insert (Q : Order → Prop) (l : List Accnt) (m : Market) (o : Order)
    (sym : Symbol) (h : BookInv Q [] l m) (ho : o ∈ m.orders) (ha : o.accnt = sym)
    (hk : o.marketId = m.id) :
    BookInv Q [] (l.map (fun a => if a.symbol = sym then a.insertOrder o else a)) m := by
  obtain ⟨hm, hco⟩ := h
  refine ⟨hm, ?_⟩
  intro a2 ha2 o2 ho2
  obtain ⟨a, hal, rfl⟩ := List.mem_map.mp ha2
  by_cases hs : a.symbol = sym
  · simp only [hs, if_true] at ho2 ⊢
    have hsym : (a.insertOrder o).symbol = a.symbol := rfl
    rw [hsym]
    have ho3 : o2 ∈ Accnt.insertById o a.orders := ho2
    unfold Accnt.insertById at ho3
    split at ho3
    · exact hco a hal o2 ho3
    · rcases List.mem_append.mp ho3 with h | h
      · exact hco a hal o2 h
      · rw [List.mem_singleton] at h
        subst h
        exact ⟨by rw [ha, hs], fun _ => Or.inl ho, fun hne => absurd hk hne⟩
  · simp only [hs, if_false] at ho2 ⊢
    exact hco a hal o2 ho2

/-- A change of the book that keeps it well formed, keeps its id and loses no resting order
keeps coherence. -/
theorem BookInv.grow (Q : Order → Prop) (l : List Accnt) (m m2 : Market)
    (h : BookInv Q [] l m) (hm2 : m2.Ok) (hid : m2.id = m.id)
    (hmem : ∀ y, y ∈ m.orders → y ∈ m2.orders) : BookInv Q [] l m2 := by
  obtain ⟨hm, hco⟩ := h
  refine ⟨hm2, ?_⟩
  intro a ha o ho
  obtain ⟨h1, h2, h3⟩ := hco a ha o ho
  rw [hid]
  refine ⟨h1, ?_, h3⟩
  intro hmk
  rcases h2 hmk with h | h
  · exact Or.inl (hmem o h)
  · simp at h

/-- Accounts that differ from coherent ones by zero positions only are coherent. -/
theorem BookInv_sameButZeroPosn (Q : Order → Prop) (i : Id64) (n : Symbol) (d : JDay)
    (m : Market) : ∀ (l l2 : List Accnt), List.Forall₂ (SameButZeroPosn i n d) l l2 →
      BookInv Q [] l m → BookInv Q [] l2 m := by
  intro l l2 hf
  induction hf with
  | nil => exact fun h => h
  | @cons a b l1 l3 hab _ ih =>
    intro h
    obtain ⟨hm, hco⟩ := h
    have ht := ih ⟨hm, fun a2 ha2 => hco a2 (List.mem_cons_of_mem _ ha2)⟩
    refine ⟨hm, ?_⟩
    intro a2 ha2 o ho
    rcases List.mem_cons.mp ha2 with h | h
    · subst h
      obtain ⟨e1, -, e3, -⟩ := hab
      rw [e3] at ho
      rw [e1]
      exact hco a (List.mem_cons_self _ _) o ho
    · exact ht.2 a2 h o ho
theorem inert_posn (i : Id64) (n : Symbol) (d : JDay) (a : Accnt) :
    (a.posn i n d).symbol = a.symbol ∧ (a.posn i n d).orders = a.orders := by
  unfold Accnt.posn
  split <;> exact ⟨rfl, rfl⟩

theorem inert_addTrade (i : Id64) (n : Symbol) (d : JDay) (sd : Side) (lots : Lots)
    (ticks : Ticks) (a : Accnt) :
    (a.addTrade i n d sd lots ticks).symbol = a.symbol
    ∧ (a.addTrade i n d sd lots ticks).orders = a.orders :=
  ⟨rfl, rfl⟩

theorem inert_pushExecFront (e : Exec) (a : Accnt) :
    (a.pushExecFront e).symbol = a.symbol ∧ (a.pushExecFront e).orders = a.orders :=
  ⟨rfl, rfl⟩

theorem inert_push_insertTrade (e e2 : Exec) (a : Accnt) :
    ((a.pushExecFront e).insertTrade e2).symbol = a.symbol
    ∧ ((a.pushExecFront e).insertTrade e2).orders = a.orders :=
  ⟨rfl, rfl⟩

theorem BookInv.inertS (Q : Order → Prop) (ex : List Order) (s : Serv) (m : Market)
    (sym : Symbol) (f : Accnt → Accnt)
    (hf : ∀ a, (f a).symbol = a.symbol ∧ (f a).orders = a.orders)
    (h : BookInv Q ex s.accnts m) : BookInv Q ex (s.writeAccnt sym f).accnts m :=
  BookInv_inert Q ex s.accnts m sym f hf h

/-- One iteration of `commitMatches` on a maker resting in the book keeps the accounts coherent
with the book; the other resting orders stay. -/
theorem commitMatch_bookInv (Q : Order → Prop) (takerAccnt : Symbol) (now : Time) (m : Match)
    (c : Committed) (h : BookInv Q [] c.serv.accnts c.market)
    (hx : m.makerOrder ∈ c.market.orders) :
    BookInv Q [] (commitMatch takerAccnt now m c).serv.accnts
      (commitMatch takerAccnt now m c).market
    ∧ (∀ y ∈ c.market.orders, y ≠ m.makerOrder →
        y ∈ (commitMatch takerAccnt now m c).market.orders)
    ∧ (∀ y ∈ (commitMatch takerAccnt now m c).market.orders, y ∈ c.market.orders
        ∨ y = m.makerOrder.trade m.lots (cost m.lots m.makerOrder.ticks) m.lots
              m.makerOrder.ticks now) := by
  obtain ⟨hok, hmem⟩ := Market.Ok.takeOrder c.market m.makerOrder m.lots now h.1 hx
  have hw := BookInv_write Q c.serv.accnts c.market (c.market.takeOrder m.makerOrder m.lots now)
    m.makerOrder (fun x => x.trade m.lots (cost m.lots x.ticks) m.lots x.ticks now)
    (¬ m.makerOrder.resdLots - m.lots = 0) h hx hok (Market.takeOrder_meta _ _ _ _).1 hmem
    (fun o => ⟨rfl, rfl⟩)
  refine ⟨?_, ?_, ?_⟩
  · unfold commitMatch
    simp only []
    apply BookInv.inertS Q [] _ _ _ _ (inert_push_insertTrade _ _)
    apply BookInv.inertS Q [] _ _ _ _ (inert_addTrade _ _ _ _ _ _)
    by_cases hd : m.makerOrder.resdLots - m.lots = 0
    · have hdone : (m.makerOrder.trade m.lots (cost m.lots m.makerOrder.ticks) m.lots
          m.makerOrder.ticks now).done = true := by
        simp [Order.done, Order.trade, hd]
      rw [if_pos hdone]
      apply BookInv.remove_ex Q _ _ (m.makerOrder.trade m.lots (cost m.lots m.makerOrder.ticks)
        m.lots m.makerOrder.ticks now)
      apply BookInv.inertS Q _ _ _ _ _ (inert_push_insertTrade _ _)
      apply BookInv.inertS Q _ _ _ _ _ (inert_addTrade _ _ _ _ _ _)
      simpa [hd] using hw
    · have hdone : ¬ (m.makerOrder.trade m.lots (cost m.lots m.makerOrder.ticks) m.lots
          m.makerOrder.ticks now).done = true := by
        simp [Order.done, Order.trade, hd]
      rw [if_neg hdone]
      apply BookInv.inertS Q _ _ _ _ _ (inert_push_insertTrade _ _)
      apply BookInv.inertS Q _ _ _ _ _ (inert_addTrade _ _ _ _ _ _)
      simpa [hd] using hw
  · intro y hy hne
    exact (hmem y).mpr (Or.inl ⟨hy, hne⟩)
  · intro y hy
    rcases (hmem y).mp hy with ⟨h1, -⟩ | ⟨-, h1⟩
    · exact Or.inl h1
    · exact Or.inr h1

/-- `commitMatches` over makers that rest in the book, each once, keeps the accounts coherent
with the book. -/
theorem commitMatches_bookInv (Q : Order → Prop) (takerAccnt : Symbol) (now : Time)
    (ms : List Match) (c : Committed) (h : BookInv Q [] c.serv.accnts c.market)
    (hx : ∀ m ∈ ms, m.makerOrder ∈ c.market.orders)
    (hnd : (ms.map (fun m => m.makerOrder)).Nodup) :
    BookInv Q [] (commitMatches takerAccnt now ms c).serv.accnts
      (commitMatches takerAccnt now ms c).market := by
  induction ms generalizing c with
  | nil => exact h
  | cons m ms ih =>
    unfold commitMatches
    rw [List.map_cons, List.nodup_cons] at hnd
    obtain ⟨h1, h2, -⟩ := commitMatch_bookInv Q takerAccnt now m c h
      (hx m (List.mem_cons_self _ _))
    apply ih _ h1 _ hnd.2
    intro m2 hm2
    apply h2 _ (hx m2 (List.mem_cons_of_mem _ hm2))
    intro he
    exact hnd.1 (List.mem_map.mpr ⟨m2, hm2, he⟩)

/-- The resting orders of a well-formed side are pairwise distinct. -/
theorem MarketSide.Ok.nodup (s : MarketSide) (h : s.Ok) : s.orders.Nodup := by
  unfold MarketSide.orders
  rw [List.nodup_flatMap]
  refine ⟨?_, ?_⟩
  · intro l hl
    have hp := (h.2 l hl).2.2.2.2
    exact List.Pairwise.imp
      (fun {a b} (hlt : a.id < b.id) (he : a = b) => Nat.lt_irrefl _ (he ▸ hlt)) hp
  · have key : ∀ ls : List Level,
        ls.Pairwise (fun a b => priceBefore s.side a.ticks b.ticks = true) →
        (∀ l ∈ ls, l.Ok s.side) →
        ls.Pairwise (fun a b => List.Disjoint a.queue b.queue) := by
      intro ls hp
      induction hp with
      | nil => intro _; exact List.Pairwise.nil
      | @cons a l hal _ ih =>
        intro hall
        refine List.Pairwise.cons ?_ (ih (fun l2 h2 => hall l2 (List.mem_cons_of_mem _ h2)))
        intro b hb x hxa hxb
        have h1 := ((hall a (List.mem_cons_self _ _)).2.2.2.1 x hxa).1
        have h2 := ((hall b (List.mem_cons_of_mem _ hb)).2.2.2.1 x hxb).1
        have h3 := hal b hb
        rw [← h1, ← h2, priceBefore_irrefl] at h3
        exact Bool.false_ne_true h3
    exact key s.levels h.1 h.2

theorem MarketSide.Ok_fresh (s : MarketSide) (n : Id64) (h : s.Ok)
    (hid : ∀ x ∈ s.orders, x.id ≤ n) : s.Fresh n := by
  intro l hl
  obtain ⟨hne, hc, -, -, -⟩ := h.2 l hl
  refine ⟨?_, ?_⟩
  · rw [hc]
    intro h0
    exact hne (List.eq_nil_of_length_eq_zero h0)
  · intro x hx
    exact hid x (List.mem_flatMap.mpr ⟨l, hl, hx⟩)

theorem Market_Ok_fresh (m : Market) (h : m.Ok) :
    m.bidSide.Fresh m.execSeq ∧ m.offerSide.Fresh m.execSeq := by
  obtain ⟨-, -, hbo, hso, -, hfld⟩ := h
  exact ⟨MarketSide.Ok_fresh _ _ hbo (fun x hx => (hfld x (List.mem_append_left _ hx)).1),
    MarketSide.Ok_fresh _ _ hso (fun x hx => (hfld x (List.mem_append_right _ hx)).1)⟩

/-- The order the reserve phase of `createOrder` builds: a new order of the account in the
market, with the id allocated first. -/
theorem createOrderReserve_order (s : Serv) (accnt : Symbol) (market : Market)
    (ref : String) (side : Side) (lots : Lots) (ticks : Ticks) (minLots : Lots) (now : Time)
    (resp : Response) :
    (createOrderReserve s accnt market ref side lots ticks minLots now resp).order.accnt = accnt
    ∧ (createOrderReserve s accnt market ref side lots ticks minLots now resp).order.marketId
        = market.id
    ∧ (createOrderReserve s accnt market ref side lots ticks minLots now resp).order.instr
        = market.instr
    ∧ (createOrderReserve s accnt market ref side lots ticks minLots now resp).order.settlDay
        = market.settlDay
    ∧ (createOrderReserve s accnt market ref side lots ticks minLots now resp).order.id
        = market.execSeq + 1
    ∧ (createOrderReserve s accnt market ref side lots ticks minLots now resp).order.side
        = side := by
  unfold createOrderReserve matchOrders matchOrdersSide
  simp only []
  split <;> split <;> exact ⟨rfl, rfl, rfl, rfl, rfl, rfl⟩

/-- The matches the reserve phase of `createOrder` leaves in `matches_`. -/
theorem createOrderReserve_matches (s : Serv) (accnt : Symbol) (market : Market)
    (ref : String) (side : Side) (lots : Lots) (ticks : Ticks) (minLots : Lots) (now : Time)
    (resp : Response) :
    (createOrderReserve s accnt market ref side lots ticks minLots now resp).serv.matches_
      = s.matches_ ++ matchList
          (Order.make accnt market.id market.instr market.settlDay (market.execSeq + 1) ref
            side lots ticks minLots now)
          (if side = Side.Buy then Direct.Paid else Direct.Given) now
          (if side = Side.Buy then market.offerSide else market.bidSide).orders
          (market.execSeq + 1) 0 0 := by
  unfold createOrderReserve
  simp only []
  split
  · show (matchOrders _ _ _ _ _ _).serv.matches_ = _
    rw [matchOrders_matches]
    rfl
  · rw [matchOrders_matches]
    rfl
/-- The commit phase of `createOrder` keeps the accounts coherent with the book, when the order
rests in the book unless it is done and the matched makers rest in the book, each once. -/
theorem createOrderCommit_bookInv (Q : Order → Prop) (accnt : Symbol) (now : Time)
    (r : Reserved) (h : BookInv Q [] r.serv.accnts r.market)
    (ho : ¬ r.order.done = true → r.order ∈ r.market.orders) (ha : r.order.accnt = accnt)
    (hk : r.order.marketId = r.market.id)
    (hx : ∀ m ∈ r.serv.matches_, m.makerOrder ∈ r.market.orders)
    (hnd : (r.serv.matches_.map (fun m => m.makerOrder)).Nodup) :
    BookInv Q [] (createOrderCommit accnt now r).serv.accnts
      (createOrderCommit accnt now r).market := by
  have h4 : BookInv Q [] (if (!r.order.done) = true then
        ({ r.serv with journ := r.serv.journ ++ [r.serv.execs_] } : Serv).writeAccnt accnt
          (fun a => a.insertOrder r.order)
      else { r.serv with journ := r.serv.journ ++ [r.serv.execs_] }).accnts r.market := by
    by_cases hd : r.order.done = true
    · simp only [hd, Bool.not_true, Bool.false_eq_true, if_false]
      exact h
    · simp only [hd, Bool.not_false, if_true]
      exact BookInv_insert Q r.serv.accnts r.market r.order accnt h (ho hd) ha hk
  have h5 := BookInv.inertS Q [] _ r.market accnt _ (inert_pushExecFront r.exec) h4
  have hms : (Serv.writeAccnt (if (!r.order.done) = true then
        ({ r.serv with journ := r.serv.journ ++ [r.serv.execs_] } : Serv).writeAccnt accnt
          (fun a => a.insertOrder r.order)
      else { r.serv with journ := r.serv.journ ++ [r.serv.execs_] }) accnt
        (fun a => a.pushExecFront r.exec)).matches_ = r.serv.matches_ := by
    split <;> rfl
  unfold createOrderCommit
  simp only []
  split
  · apply commitMatches_bookInv Q accnt now _ _ h5
    · intro m hm
      rw [hms] at hm
      exact hx m hm
    · rw [hms]
      exact hnd
  · exact h5

/-- `createOrder` keeps the accounts coherent with the book of its market, whatever its outcome
(a guard rejects, the journal rejects, or the call commits). -/
theorem createOrder_bookInv (Q : Order → Prop) (mq : MsgQueue) (busDay : Time → JDay)
    (s : Serv) (accnt : Symbol) (market : Market) (ref : String) (side : Side) (lots : Lots)
    (ticks : Ticks) (minLots : Lots) (now : Time) (resp : Response)
    (h : BookInv Q [] s.accnts market) (hm0 : s.matches_ = []) :
    BookInv Q [] (createOrder mq busDay s accnt market ref side lots ticks minLots now
        resp).serv.accnts
      (createOrder mq busDay s accnt market ref side lots ticks minLots now resp).market := by
  unfold createOrder
  by_cases h1 : (!ref.isEmpty && (s.getAccnt accnt).existsRef ref) = true
  · rw [if_pos h1]; exact h
  rw [if_neg h1]
  by_cases h2 : market.settlDay ≠ 0 ∧ market.settlDay < busDay now
  · rw [if_pos h2]; exact h
  rw [if_neg h2]
  by_cases h3 : lots = 0 ∨ lots < minLots
  · rw [if_pos h3]; exact h
  rw [if_neg h3]
  simp only []
  obtain ⟨hid, ⟨n, hmk⟩, hacc, -, -⟩ :=
    createOrderReserve_footprint s accnt market ref side lots ticks minLots now resp
  obtain ⟨ha, hmid, hin, hsd, -, hside⟩ :=
    createOrderReserve_order s accnt market ref side lots ticks minLots now resp
  have hmat := createOrderReserve_matches s accnt market ref side lots ticks minLots now resp
  rw [hm0, List.nil_append] at hmat
  generalize createOrderReserve s accnt market ref side lots ticks minLots now resp = r at *
  have hb : ({ market with execSeq := market.execSeq + 1 + n } : Market).Ok :=
    Market.Ok.bump _ n (Market.Ok.bump market 1 h.1)
  have hbi : BookInv Q [] s.accnts ({ market with execSeq := market.execSeq + 1 + n } : Market) :=
    BookInv.grow Q _ market _ h hb rfl (fun y hy => hy)
  have hfld := h.1.2.2.2.2.2
  have hrm : BookInv Q [] s.accnts r.market
      ∧ (¬ r.order.done = true → r.order ∈ r.market.orders)
      ∧ (∀ y ∈ market.orders, y ∈ r.market.orders) ∧ r.market.id = market.id := by
    rw [hmk]
    by_cases hd : r.order.done = true
    · rw [if_neg (by simp [hd])]
      exact ⟨hbi, fun hn => absurd hd hn, fun y hy => hy, rfl⟩
    · rw [if_pos (by simp [hd])]
      obtain ⟨hok, hmem⟩ := Market.Ok_insertOrder
        ({ market with execSeq := market.execSeq + 1 + n } : Market) r.order hb
        (fun x hx => by
          rw [hid]
          exact Nat.lt_succ_of_le (hfld x hx).1)
        (by rw [hid]; exact Nat.le_add_right _ _) ⟨hmid, hin, hsd⟩
      exact ⟨BookInv.grow Q _ _ _ hbi hok (Market.insertOrder_meta _ _).1
          (fun y hy => (hmem y).mpr (Or.inr hy)),
        fun _ => (hmem _).mpr (Or.inl rfl), fun y hy => (hmem y).mpr (Or.inr hy),
        (Market.insertOrder_meta _ _).1⟩
  obtain ⟨hr1, hr2, hr3, hr4⟩ := hrm
  have hracc : BookInv Q [] r.serv.accnts r.market :=
    BookInv_sameButZeroPosn Q _ _ _ _ _ _ hacc hr1
  by_cases h4 : mq r.serv.execs_ = true
  · rw [if_pos h4]
    show BookInv Q [] (createOrderCommit accnt now r).serv.accnts
      (createOrderCommit accnt now r).market
    apply createOrderCommit_bookInv Q accnt now r hracc hr2 ha (hmid.trans hr4.symm)
    · intro m hm
      rw [hmat] at hm
      obtain ⟨seq2, mk, l2, sl, sc, hmk2, rfl⟩ := matchList_mem _ _ _ _ _ _ _ m hm
      apply hr3
      show mk ∈ market.orders
      by_cases hsb : side = Side.Buy
      · simp only [hsb, if_true] at hmk2
        exact List.mem_append_right _ hmk2
      · simp only [hsb, if_false] at hmk2
        exact List.mem_append_left _ hmk2
    · rw [hmat]
      obtain ⟨rest, hrest, -⟩ := matchList_prefix
        (Order.make accnt market.id market.instr market.settlDay (market.execSeq + 1) ref
          side lots ticks minLots now)
        (if side = Side.Buy then Direct.Paid else Direct.Given) now
        (if side = Side.Buy then market.offerSide else market.bidSide).orders
        (market.execSeq + 1) 0 0
      have hnd : (if side = Side.Buy then market.offerSide else market.bidSide).orders.Nodup := by
        by_cases hsb : side = Side.Buy
        · simp only [hsb, if_true]
          exact MarketSide.Ok.nodup _ h.1.2.2.2.1
        · simp only [hsb, if_false]
          exact MarketSide.Ok.nodup _ h.1.2.2.1
      rw [hrest] at hnd
      exact List.Nodup.of_append_left hnd
  · rw [if_neg h4]
    show BookInv Q [] r.serv.accnts
      (if (!r.order.done) = true then r.market.removeOrder r.order else r.market)
    apply BookInv_sameButZeroPosn Q _ _ _ _ _ _ hacc
    rw [hmk]
    by_cases hd : r.order.done = true
    · rw [if_neg (by simp [hd]), if_neg (by simp [hd])]
      exact hbi
    · rw [if_pos (by simp [hd]), if_pos (by simp [hd])]
      rw [Market.removeOrder_insertOrder
        ({ market with execSeq := market.execSeq + 1 + n } : Market) r.order market.execSeq
        (by rw [hid]; exact Nat.lt_succ_self _) (Market_Ok_fresh market h.1).1
        (Market_Ok_fresh market h.1).2]
      exact hbi

/-- A live order read through an `Accnt&` belongs to an account of the service with that
symbol. -/
theorem Serv.getAccnt_orders_mem (s : Serv) (sym : Symbol) (o : Order)
    (h : o ∈ (s.getAccnt sym).orders) : ∃ a ∈ s.accnts, a.symbol = sym ∧ o ∈ a.orders := by
  unfold Serv.getAccnt Serv.findAccnt at h
  cases hf : s.accnts.find? (fun a => a.symbol == sym) with
  | none =>
    rw [hf] at h
    simp [Accnt.make] at h
  | some a =>
    rw [hf] at h
    have h1 := List.find?_some hf
    exact ⟨a, List.mem_of_find?_eq_some hf, by simpa using h1, h⟩

/-- Under coherence, a live order of the account in the market is the order resting in the
book. -/
theorem BookInv.resting (Q : Order → Prop) (s : Serv) (market : Market) (accnt : Symbol)
    (o : Order) (h : BookInv Q [] s.accnts market) (ho : o ∈ (s.getAccnt accnt).orders)
    (hm : o.marketId = market.id) : o ∈ market.orders ∧ o.accnt = accnt := by
  obtain ⟨a, ha, hs, hoa⟩ := Serv.getAccnt_orders_mem s accnt o ho
  obtain ⟨h1, h2, -⟩ := h.2 a ha o hoa
  refine ⟨?_, h1.trans hs⟩
  rcases h2 hm with h3 | h3
  · exact h3
  · simp at h3

theorem Accnt.order_ok (a : Accnt) (marketId id : Id64) (o : Order)
    (h : a.order marketId id = Except.ok o) :
    o ∈ a.orders ∧ o.marketId = marketId ∧ o.id = id := by
  unfold Accnt.order at h
  cases hf : a.orders.find? (fun o => o.sameKey marketId id) with
  | none => rw [hf] at h; simp at h
  | some x =>
    rw [hf] at h
    simp only [Except.ok.injEq] at h
    subst h
    have h1 := List.find?_some hf
    exact ⟨List.mem_of_find?_eq_some hf, (Order_sameKey_iff _ _ _).mp h1⟩

/-- The commit steps of a revision: the book revises the resting order, the account writes it
and receives the exec. -/
theorem BookInv.reviseStep (Q : Order → Prop) (s : Serv) (market : Market) (accnt : Symbol)
    (order : Order) (lots : Lots) (now : Time) (exec : Exec)
    (h : BookInv Q [] s.accnts market) (hx : order ∈ market.orders)
    (ha : order.accnt = accnt) :
    BookInv Q []
      ((s.writeAccnt accnt (fun a => a.writeOrder order.marketId order.id
          (fun x => x.revise lots now))).writeAccnt accnt
        (fun a => a.pushExecFront exec)).accnts
      (market.reviseOrder order lots now) := by
  apply BookInv.inertS Q [] _ _ _ _ (inert_pushExecFront _)
  obtain ⟨hok, hmem⟩ := Market.Ok.reviseOrder market order lots now h.1 hx
  have hw := BookInv_write Q s.accnts market (market.reviseOrder order lots now) order
    (fun x => x.revise lots now) True h hx hok (Market.reviseOrder_meta _ _ _ _).1
    (fun y => by rw [hmem y]; simp) (fun o => ⟨rfl, rfl⟩)
  rw [ha] at hw
  simpa using hw

/-- The commit steps of a cancellation: the book drops the resting order, the account removes
it and receives the exec. -/
theorem BookInv.cancelStep (Q : Order → Prop) (s : Serv) (market : Market) (accnt : Symbol)
    (order : Order) (now : Time) (exec : Exec)
    (h : BookInv Q [] s.accnts market) (hx : order ∈ market.orders)
    (ha : order.accnt = accnt) :
    BookInv Q []
      ((s.writeAccnt accnt (fun a => a.removeOrder order)).writeAccnt accnt
        (fun a => a.pushExecFront exec)).accnts
      (market.cancelOrder order now) := by
  apply BookInv.inertS Q [] _ _ _ _ (inert_pushExecFront _)
  have hc : market.cancelOrder order now = market.removeOrder order := by
    rw [Market.cancelOrder_eq_mapSide, Market.removeOrder_eq_mapSide]
  rw [hc]
  obtain ⟨hok, hmem⟩ := Market.Ok_removeOrder market order h.1 hx
  have hw := BookInv.remove Q s.accnts market (market.removeOrder order) order h hx hok
    (Market.removeOrder_meta _ _).1 hmem
  rw [ha] at hw
  exact hw

theorem BookInv.allocId (Q : Order → Prop) (l : List Accnt) (market : Market)
    (h : BookInv Q [] l market) : BookInv Q [] l market.allocId.2 :=
  BookInv.grow Q l market _ h (Market.Ok.bump market 1 h.1) rfl (fun _ hy => hy)

theorem doReviseOrder_bookInv (Q : Order → Prop) (mq : MsgQueue) (s : Serv) (accnt : Symbol)
    (market : Market) (order : Order) (lots : Lots) (now : Time) (resp : Response)
    (h : BookInv Q [] s.accnts market) (hx : order ∈ market.orders)
    (ha : order.accnt = accnt) :
    BookInv Q [] (doReviseOrder mq s accnt market order lots now resp).serv.accnts
      (doReviseOrder mq s accnt market order lots now resp).market := by
  unfold doReviseOrder
  split
  · exact h
  · simp only []
    split
    · exact BookInv.reviseStep Q
        { s with journ := s.journ ++ [[(newExec order market.allocId.1 now).revise lots]] }
        market.allocId.2 accnt order lots now _ (BookInv.allocId Q _ _ h) hx ha
    · exact BookInv.allocId Q _ _ h

theorem doCancelOrder_bookInv (Q : Order → Prop) (mq : MsgQueue) (s : Serv) (accnt : Symbol)
    (market : Market) (order : Order) (now : Time) (resp : Response)
    (h : BookInv Q [] s.accnts market) (hx : order ∈ market.orders)
    (ha : order.accnt = accnt) :
    BookInv Q [] (doCancelOrder mq s accnt market order now resp).serv.accnts
      (doCancelOrder mq s accnt market order now resp).market := by
  unfold doCancelOrder
  simp only []
  split
  · exact BookInv.cancelStep Q
      { s with journ := s.journ ++ [[(newExec order market.allocId.1 now).cancel]] }
      market.allocId.2 accnt order now _ (BookInv.allocId Q _ _ h) hx ha
  · exact BookInv.allocId Q _ _ h

theorem Accnt.orderByRef_ok (a : Accnt) (ref : String) (o : Order)
    (h : a.orderByRef ref = Except.ok o) : o ∈ a.refIdx := by
  unfold Accnt.orderByRef at h
  cases hf : a.refIdx.find? (fun o => o.ref == ref) with
  | none => rw [hf] at h; simp at h
  | some x =>
    rw [hf] at h
    simp only [Except.ok.injEq] at h
    subst h
    exact List.mem_of_find?_eq_some hf

theorem reviseOrder_bookInv (Q : Order → Prop) (mq : MsgQueue) (s : Serv) (accnt : Symbol)
    (market : Market) (order : Order) (lots : Lots) (now : Time) (resp : Response)
    (h : BookInv Q [] s.accnts market) (hx : order ∈ (s.getAccnt accnt).orders)
    (hm : order.marketId = market.id) :
    BookInv Q [] (reviseOrder mq s accnt market order lots now resp).serv.accnts
      (reviseOrder mq s accnt market order lots now resp).market := by
  obtain ⟨h1, h2⟩ := BookInv.resting Q s market accnt order h hx hm
  unfold reviseOrder
  split
  · exact h
  · exact doReviseOrder_bookInv Q mq s accnt market order lots now resp h h1 h2

theorem cancelOrder_bookInv (Q : Order → Prop) (mq : MsgQueue) (s : Serv) (accnt : Symbol)
    (market : Market) (order : Order) (now : Time) (resp : Response)
    (h : BookInv Q [] s.accnts market) (hx : order ∈ (s.getAccnt accnt).orders)
    (hm : order.marketId = market.id) :
    BookInv Q [] (cancelOrder mq s accnt market order now resp).serv.accnts
      (cancelOrder mq s accnt market order now resp).market := by
  obtain ⟨h1, h2⟩ := BookInv.resting Q s market accnt order h hx hm
  unfold cancelOrder
  split
  · exact h
  · exact doCancelOrder_bookInv Q mq s accnt market order now resp h h1 h2

theorem reviseOrderById_bookInv (Q : Order → Prop) (mq : MsgQueue) (s : Serv)
    (accnt : Symbol) (market : Market) (id : Id64) (lots : Lots) (now : Time)
    (resp : Response) (h : BookInv Q [] s.accnts market) :
    BookInv Q [] (reviseOrderById mq s accnt market id lots now resp).serv.accnts
      (reviseOrderById mq s accnt market id lots now resp).market := by
  unfold reviseOrderById
  split
  · exact h
  · rename_i order ho
    obtain ⟨k1, k2, -⟩ := Accnt.order_ok _ _ _ _ ho
    obtain ⟨h1, h2⟩ := BookInv.resting Q s market accnt order h k1 k2
    split
    · exact h
    · exact doReviseOrder_bookInv Q mq s accnt market order lots now resp h h1 h2

theorem cancelOrderById_bookInv (Q : Order → Prop) (mq : MsgQueue) (s : Serv)
    (accnt : Symbol) (market : Market) (id : Id64) (now : Time)
    (resp : Response) (h : BookInv Q [] s.accnts market) :
    BookInv Q [] (cancelOrderById mq s accnt market id now resp).serv.accnts
      (cancelOrderById mq s accnt market id now resp).market := by
  unfold cancelOrderById
  split
  · exact h
  · rename_i order ho
    obtain ⟨k1, k2, -⟩ := Accnt.order_ok _ _ _ _ ho
    obtain ⟨h1, h2⟩ := BookInv.resting Q s market accnt order h k1 k2
    split
    · exact h
    · exact doCancelOrder_bookInv Q mq s accnt market order now resp h h1 h2

theorem reviseOrderByRef_bookInv (Q : Order → Prop) (mq : MsgQueue) (s : Serv)
    (accnt : Symbol) (market : Market) (ref : String) (lots : Lots) (now : Time)
    (resp : Response) (h : BookInv Q [] s.accnts market)
    (hsub : ∀ o ∈ (s.getAccnt accnt).refIdx, o ∈ (s.getAccnt accnt).orders)
    (hv : ∀ o, (s.getAccnt accnt).orderByRef ref = Except.ok o → o.marketId = market.id) :
    BookInv Q [] (reviseOrderByRef mq s accnt market ref lots now resp).serv.accnts
      (reviseOrderByRef mq s accnt market ref lots now resp).market := by
  unfold reviseOrderByRef
  split
  · exact h
  · rename_i order ho
    obtain ⟨h1, h2⟩ := BookInv.resting Q s market accnt order h
      (hsub _ (Accnt.orderByRef_ok _ _ _ ho)) (hv _ ho)
    split
    · exact h
    · exact doReviseOrder_bookInv Q mq s accnt market order lots now resp h h1 h2

theorem cancelOrderByRef_bookInv (Q : Order → Prop) (mq : MsgQueue) (s : Serv)
    (accnt : Symbol) (market : Market) (ref : String) (now : Time)
    (resp : Response) (h : BookInv Q [] s.accnts market)
    (hsub : ∀ o ∈ (s.getAccnt accnt).refIdx, o ∈ (s.getAccnt accnt).orders)
    (hv : ∀ o, (s.getAccnt accnt).orderByRef ref = Except.ok o → o.marketId = market.id) :
    BookInv Q [] (cancelOrderByRef mq s accnt market ref now resp).serv.accnts
      (cancelOrderByRef mq s accnt market ref now resp).market := by
  unfold cancelOrderByRef
  split
  · exact h
  · rename_i order ho
    obtain ⟨h1, h2⟩ := BookInv.resting Q s market accnt order h
      (hsub _ (Accnt.orderByRef_ok _ _ _ ho)) (hv _ ho)
    split
    · exact h
    · exact doCancelOrder_bookInv Q mq s accnt market order now resp h h1 h2

theorem reviseReserveLoop_bookInv (Q : Order → Prop) (s : Serv) (accnt : Symbol) (lots : Lots)
    (now : Time) : ∀ (ids : List Id64) (market : Market) (resp : Response),
      BookInv Q [] s.accnts market →
      BookInv Q [] s.accnts (reviseReserveLoop s accnt lots now ids market resp).market := by
  intro ids
  induction ids with
  | nil => intro market resp h; exact h
  | cons i ids ih =>
    intro market resp h
    rw [reviseReserveLoop]
    split
    · exact h
    · split
      · exact h
      · split
        · exact h
        · exact ih _ _ (BookInv.allocId Q _ _ h)

theorem cancelReserveLoop_bookInv (Q : Order → Prop) (s : Serv) (accnt : Symbol)
    (now : Time) : ∀ (ids : List Id64) (market : Market) (resp : Response),
      BookInv Q [] s.accnts market →
      BookInv Q [] s.accnts (cancelReserveLoop s accnt now ids market resp).market := by
  intro ids
  induction ids with
  | nil => intro market resp h; exact h
  | cons i ids ih =>
    intro market resp h
    rw [cancelReserveLoop]
    split
    · exact h
    · split
      · exact h
      · exact ih _ _ (BookInv.allocId Q _ _ h)

theorem reviseCommitLoop_bookInv (Q : Order → Prop) (accnt : Symbol) (lots : Lots)
    (now : Time) : ∀ (execs : List Exec) (s : Serv) (market : Market) (resp : Response),
      BookInv Q [] s.accnts market →
      BookInv Q [] (reviseCommitLoop accnt lots now execs s market resp).serv.accnts
        (reviseCommitLoop accnt lots now execs s market resp).market := by
  intro execs
  induction execs with
  | nil => intro s market resp h; exact h
  | cons e execs ih =>
    intro s market resp h
    rw [reviseCommitLoop]
    split
    · exact h
    · rename_i order hf
      have hfs := List.find?_some hf
      have hk := (Order_sameKey_iff _ _ _).mp hfs
      obtain ⟨h1, h2⟩ := BookInv.resting Q s market accnt order h
        (List.mem_of_find?_eq_some hf) hk.1
      exact ih _ _ _ (BookInv.reviseStep Q s market accnt order lots now e h h1 h2)

theorem cancelCommitLoop_bookInv (Q : Order → Prop) (accnt : Symbol)
    (now : Time) : ∀ (execs : List Exec) (s : Serv) (market : Market) (resp : Response),
      BookInv Q [] s.accnts market →
      BookInv Q [] (cancelCommitLoop accnt now execs s market resp).serv.accnts
        (cancelCommitLoop accnt now execs s market resp).market := by
  intro execs
  induction execs with
  | nil => intro s market resp h; exact h
  | cons e execs ih =>
    intro s market resp h
    rw [cancelCommitLoop]
    split
    · exact h
    · rename_i order hf
      have hfs := List.find?_some hf
      have hk := (Order_sameKey_iff _ _ _).mp hfs
      obtain ⟨h1, h2⟩ := BookInv.resting Q s market accnt order h
        (List.mem_of_find?_eq_some hf) hk.1
      exact ih _ _ _ (BookInv.cancelStep Q s market accnt order now e h h1 h2)

theorem reviseOrderBatch_bookInv (Q : Order → Prop) (mq : MsgQueue) (s : Serv)
    (accnt : Symbol) (market : Market) (ids : List Id64) (lots : Lots) (now : Time)
    (resp : Response) (h : BookInv Q [] s.accnts market) :
    BookInv Q [] (reviseOrderBatch mq s accnt market ids lots now resp).serv.accnts
      (reviseOrderBatch mq s accnt market ids lots now resp).market := by
  have hr := reviseReserveLoop_bookInv Q s accnt lots now ids market
    (resp.setMarket market.id) h
  have hs := (reviseReserveLoop_meta s accnt lots now ids market (resp.setMarket market.id)).1
  unfold reviseOrderBatch
  simp only []
  split
  · show BookInv Q [] (reviseReserveLoop s accnt lots now ids market _).serv.accnts _
    rw [hs]; exact hr
  · split
    · exact reviseCommitLoop_bookInv Q accnt lots now _ _ _ _ hr
    · show BookInv Q [] (reviseReserveLoop s accnt lots now ids market _).serv.accnts _
      rw [hs]; exact hr

theorem cancelOrderBatch_bookInv (Q : Order → Prop) (mq : MsgQueue) (s : Serv)
    (accnt : Symbol) (market : Market) (ids : List Id64) (now : Time)
    (resp : Response) (h : BookInv Q [] s.accnts market) :
    BookInv Q [] (cancelOrderBatch mq s accnt market ids now resp).serv.accnts
      (cancelOrderBatch mq s accnt market ids now resp).market := by
  have hr := cancelReserveLoop_bookInv Q s accnt now ids market
    (resp.setMarket market.id) h
  have hs := (cancelReserveLoop_meta s accnt now ids market (resp.setMarket market.id)).1
  unfold cancelOrderBatch
  simp only []
  split
  · show BookInv Q [] (cancelReserveLoop s accnt now ids market _).serv.accnts _
    rw [hs]; exact hr
  · split
    · exact cancelCommitLoop_bookInv Q accnt now _ _ _ _ hr
    · show BookInv Q [] (cancelReserveLoop s accnt now ids market _).serv.accnts _
      rw [hs]; exact hr

/-- Every request that names an order of its market keeps the accounts coherent with the book
of the market. -/
theorem Op.run_bookInv (Q : Order → Prop) (mq : MsgQueue) (busDay : Time → JDay) (s : Serv)
    (market : Market) (op : Op) (h : BookInv Q [] s.accnts market) (hm0 : s.matches_ = [])
    (hsub : ∀ sym, ∀ o ∈ (s.getAccnt sym).refIdx, o ∈ (s.getAccnt sym).orders)
    (hv : op.valid s market.id = true) :
    BookInv Q [] (op.run mq busDay s market).serv.accnts (op.run mq busDay s market).market := by
  cases op with
  | create a mid ref side lots ticks minLots now =>
    exact createOrder_bookInv Q mq busDay s a market ref side lots ticks minLots now _ h hm0
  | revise a mid order lots now =>
    simp only [Op.valid, Bool.and_eq_true, decide_eq_true_eq, beq_iff_eq] at hv
    exact reviseOrder_bookInv Q mq s a market order lots now _ h hv.1 hv.2
  | reviseById a mid id lots now =>
    exact reviseOrderById_bookInv Q mq s a market id lots now _ h
  | reviseByRef a mid ref lots now =>
    refine reviseOrderByRef_bookInv Q mq s a market ref lots now _ h (hsub a) ?_
    intro o ho
    simp only [Op.valid, ho, beq_iff_eq] at hv
    exact hv
  | reviseBatch a mid ids lots now =>
    exact reviseOrderBatch_bookInv Q mq s a market ids lots now _ h
  | cancel a mid order now =>
    simp only [Op.valid, Bool.and_eq_true, decide_eq_true_eq, beq_iff_eq] at hv
    exact cancelOrder_bookInv Q mq s a market order now _ h hv.1 hv.2
  | cancelById a mid id now =>
    exact cancelOrderById_bookInv Q mq s a market id now _ h
  | cancelByRef a mid ref now =>
    refine cancelOrderByRef_bookInv Q mq s a market ref now _ h (hsub a) ?_
    intro o ho
    simp only [Op.valid, ho, beq_iff_eq] at hv
    exact hv
  | cancelBatch a mid ids now =>
    exact cancelOrderBatch_bookInv Q mq s a market ids now _ h

/-! ## Properties of accounts kept by every operation -/

theorem Serv.All_write (Q : Accnt → Prop) (s : Serv) (sym : Symbol) (f : Accnt → Accnt)
    (hf : ∀ a, Q a → Q (f a)) (h : s.All Q) : (s.writeAccnt sym f).All Q := by
  intro a2 ha2
  obtain ⟨a, ha, rfl⟩ := List.mem_map.mp ha2
  by_cases hs : a.symbol = sym
  · simp only [hs, if_true]
    exact hf a (h a ha)
  · simp only [hs, if_false]
    exact h a ha

theorem accntInsert_mem (sym : Symbol) (n : Nat) (l : List Accnt) (a : Accnt)
    (h : a ∈ Serv.accntInsert sym n l) : a ∈ l ∨ a = Accnt.make sym n := by
  induction l with
  | nil =>
    simp only [Serv.accntInsert, List.mem_singleton] at h
    exact Or.inr h
  | cons b l ih =>
    rw [Serv.accntInsert] at h
    split at h
    · rcases List.mem_cons.mp h with h1 | h1
      · exact Or.inl (by rw [h1]; exact List.mem_cons_self _ _)
      · rcases ih h1 with h2 | h2
        · exact Or.inl (List.mem_cons_of_mem _ h2)
        · exact Or.inr h2
    · split at h
      · rcases List.mem_cons.mp h with h1 | h1
        · exact Or.inr h1
        · exact Or.inl h1
      · exact Or.inl h

theorem Serv.All_accnt (Q : Accnt → Prop) (hQ : Accnt.Stable Q) (s : Serv) (sym : Symbol)
    (h : s.All Q) : (s.accnt sym).All Q := by
  intro a ha
  rcases accntInsert_mem sym s.maxExecs s.accnts a ha with h1 | h1
  · exact h a h1
  · rw [h1]; exact hQ.1 _ _

theorem SameButZeroPosn.cases (i : Id64) (n : Symbol) (d : JDay) (a b : Accnt)
    (h : SameButZeroPosn i n d a b) : b = a ∨ b = a.posn i n d := by
  obtain ⟨h1, h2, h3, h4, h5, h6, h7⟩ := h
  cases a
  cases b
  simp only at h1 h2 h3 h4 h5 h6 h7
  subst h1 h2 h3 h4 h5 h6
  rcases h7 with h7 | ⟨h7, h8⟩
  · left; rw [h7]
  · right
    unfold Accnt.posn
    simp only [h7, Bool.false_eq_true, if_false]
    rw [h8]
    rfl

theorem Serv.All_sameButZeroPosn (Q : Accnt → Prop) (hQ : Accnt.Stable Q) (i : Id64)
    (n : Symbol) (d : JDay) : ∀ (l l2 : List Accnt),
      List.Forall₂ (SameButZeroPosn i n d) l l2 → (∀ a ∈ l, Q a) → ∀ b ∈ l2, Q b := by
  apply forall₂_transfer _ Q Q
  intro a b hab ha
  rcases SameButZeroPosn.cases i n d a b hab with h | h
  · rw [h]; exact ha
  · rw [h]; exact (hQ.2 a ha).1 i n d

theorem Accnt.Stable_posn (Q : Accnt → Prop) (hQ : Accnt.Stable Q) (i : Id64) (n : Symbol)
    (d : JDay) (a : Accnt) (h : Q a) : Q (a.posn i n d) := (hQ.2 a h).1 i n d

theorem Accnt.Stable_addTrade (Q : Accnt → Prop) (hQ : Accnt.Stable Q) (i : Id64) (n : Symbol)
    (d : JDay) (sd : Side) (l : Lots) (t : Ticks) (a : Accnt) (h : Q a) :
    Q (a.addTrade i n d sd l t) := (hQ.2 a h).2.1 i n d sd l t

theorem Accnt.Stable_pushExecFront (Q : Accnt → Prop) (hQ : Accnt.Stable Q) (e : Exec)
    (a : Accnt) (h : Q a) : Q (a.pushExecFront e) := (hQ.2 a h).2.2.1 e

theorem Accnt.Stable.pushExecBack (Q : Accnt → Prop) (hQ : Accnt.Stable Q) (e : Exec)
    (a : Accnt) (h : Q a) : Q (a.pushExecBack e) := (hQ.2 a h).2.2.2.1 e

theorem Accnt.Stable_insertTrade (Q : Accnt → Prop) (hQ : Accnt.Stable Q) (e : Exec)
    (a : Accnt) (h : Q a) : Q (a.insertTrade e) := (hQ.2 a h).2.2.2.2.1 e

theorem Accnt.Stable.insertPosn (Q : Accnt → Prop) (hQ : Accnt.Stable Q) (p : Posn)
    (a : Accnt) (h : Q a) : Q (a.insertPosn p) := (hQ.2 a h).2.2.2.2.2.1 p

theorem Accnt.Stable_insertOrder (Q : Accnt → Prop) (hQ : Accnt.Stable Q) (o : Order)
    (a : Accnt) (h : Q a) : Q (a.insertOrder o) := (hQ.2 a h).2.2.2.2.2.2.1 o

theorem Accnt.Stable_removeOrder (Q : Accnt → Prop) (hQ : Accnt.Stable Q) (o : Order)
    (a : Accnt) (h : Q a) : Q (a.removeOrder o) := (hQ.2 a h).2.2.2.2.2.2.2.1 o

theorem Accnt.Stable_writeOrder (Q : Accnt → Prop) (hQ : Accnt.Stable Q) (i j : Id64)
    (f : Order → Order) (a : Accnt) (h : Q a) : Q (a.writeOrder i j f) :=
  (hQ.2 a h).2.2.2.2.2.2.2.2 i j f

theorem Accnt.Stable.push_insertTrade (Q : Accnt → Prop) (hQ : Accnt.Stable Q) (e e2 : Exec)
    (a : Accnt) (h : Q a) : Q ((a.pushExecFront e).insertTrade e2) :=
  Accnt.Stable_insertTrade Q hQ e2 _ (Accnt.Stable_pushExecFront Q hQ e a h)

theorem commitMatch_all (Q : Accnt → Prop) (hQ : Accnt.Stable Q) (takerAccnt : Symbol)
    (now : Time) (m : Match) (c : Committed) (h : c.serv.All Q) :
    (commitMatch takerAccnt now m c).serv.All Q := by
  unfold commitMatch
  simp only []
  apply Serv.All_write Q _ _ _ (Accnt.Stable.push_insertTrade Q hQ _ _)
  apply Serv.All_write Q _ _ _ (Accnt.Stable_addTrade Q hQ _ _ _ _ _ _)
  split
  · apply Serv.All_write Q _ _ _ (Accnt.Stable_removeOrder Q hQ _)
    apply Serv.All_write Q _ _ _ (Accnt.Stable.push_insertTrade Q hQ _ _)
    apply Serv.All_write Q _ _ _ (Accnt.Stable_addTrade Q hQ _ _ _ _ _ _)
    exact Serv.All_write Q _ _ _ (Accnt.Stable_writeOrder Q hQ _ _ _) h
  · apply Serv.All_write Q _ _ _ (Accnt.Stable.push_insertTrade Q hQ _ _)
    apply Serv.All_write Q _ _ _ (Accnt.Stable_addTrade Q hQ _ _ _ _ _ _)
    exact Serv.All_write Q _ _ _ (Accnt.Stable_writeOrder Q hQ _ _ _) h

theorem commitMatches_all (Q : Accnt → Prop) (hQ : Accnt.Stable Q) (takerAccnt : Symbol)
    (now : Time) (ms : List Match) (c : Committed) (h : c.serv.All Q) :
    (commitMatches takerAccnt now ms c).serv.All Q := by
  induction ms generalizing c with
  | nil => exact h
  | cons m ms ih =>
    unfold commitMatches
    exact ih _ (commitMatch_all Q hQ takerAccnt now m c h)

theorem createOrder_all (Q : Accnt → Prop) (hQ : Accnt.Stable Q) (mq : MsgQueue)
    (busDay : Time → JDay) (s : Serv) (accnt : Symbol) (market : Market) (ref : String)
    (side : Side) (lots : Lots) (ticks : Ticks) (minLots : Lots) (now : Time) (resp : Response)
    (h : s.All Q) :
    (createOrder mq busDay s accnt market ref side lots ticks minLots now resp).serv.All Q := by
  have hr : (createOrderReserve s accnt market ref side lots ticks minLots now
      resp).serv.All Q :=
    Serv.All_sameButZeroPosn Q hQ _ _ _ _ _
      (createOrderReserve_footprint s accnt market ref side lots ticks minLots now
        resp).2.2.1 h
  unfold createOrder
  split
  · exact h
  · split
    · exact h
    · split
      · exact h
      · simp only []
        split
        · show (createOrderCommit accnt now _).serv.All Q
          unfold createOrderCommit
          simp only []
          split
          · apply commitMatches_all Q hQ
            apply Serv.All_write Q _ _ _ (Accnt.Stable_pushExecFront Q hQ _)
            split
            · exact Serv.All_write Q _ _ _ (Accnt.Stable_insertOrder Q hQ _) hr
            · exact hr
          · apply Serv.All_write Q _ _ _ (Accnt.Stable_pushExecFront Q hQ _)
            split
            · exact Serv.All_write Q _ _ _ (Accnt.Stable_insertOrder Q hQ _) hr
            · exact hr
        · exact hr

theorem doReviseOrder_all (Q : Accnt → Prop) (hQ : Accnt.Stable Q) (mq : MsgQueue) (s : Serv)
    (accnt : Symbol) (market : Market) (order : Order) (lots : Lots) (now : Time)
    (resp : Response) (h : s.All Q) :
    (doReviseOrder mq s accnt market order lots now resp).serv.All Q := by
  unfold doReviseOrder
  split
  · exact h
  · simp only []
    split
    · apply Serv.All_write Q _ _ _ (Accnt.Stable_pushExecFront Q hQ _)
      exact Serv.All_write Q _ _ _ (Accnt.Stable_writeOrder Q hQ _ _ _) h
    · exact h

theorem doCancelOrder_all (Q : Accnt → Prop) (hQ : Accnt.Stable Q) (mq : MsgQueue) (s : Serv)
    (accnt : Symbol) (market : Market) (order : Order) (now : Time)
    (resp : Response) (h : s.All Q) :
    (doCancelOrder mq s accnt market order now resp).serv.All Q := by
  unfold doCancelOrder
  simp only []
  split
  · apply Serv.All_write Q _ _ _ (Accnt.Stable_pushExecFront Q hQ _)
    exact Serv.All_write Q _ _ _ (Accnt.Stable_removeOrder Q hQ _) h
  · exact h

theorem reviseCommitLoop_all (Q : Accnt → Prop) (hQ : Accnt.Stable Q) (accnt : Symbol)
    (lots : Lots) (now : Time) :
    ∀ (execs : List Exec) (s : Serv) (market : Market) (resp : Response), s.All Q →
      (reviseCommitLoop accnt lots now execs s market resp).serv.All Q := by
  intro execs
  induction execs with
  | nil => intro s market resp h; exact h
  | cons e execs ih =>
    intro s market resp h
    rw [reviseCommitLoop]
    split
    · exact h
    · apply ih
      apply Serv.All_write Q _ _ _ (Accnt.Stable_pushExecFront Q hQ _)
      exact Serv.All_write Q _ _ _ (Accnt.Stable_writeOrder Q hQ _ _ _) h

theorem cancelCommitLoop_all (Q : Accnt → Prop) (hQ : Accnt.Stable Q) (accnt : Symbol)
    (now : Time) :
    ∀ (execs : List Exec) (s : Serv) (market : Market) (resp : Response), s.All Q →
      (cancelCommitLoop accnt now execs s market resp).serv.All Q := by
  intro execs
  induction execs with
  | nil => intro s market resp h; exact h
  | cons e execs ih =>
    intro s market resp h
    rw [cancelCommitLoop]
    split
    · exact h
    · apply ih
      apply Serv.All_write Q _ _ _ (Accnt.Stable_pushExecFront Q hQ _)
      exact Serv.All_write Q _ _ _ (Accnt.Stable_removeOrder Q hQ _) h

/-- Every order request keeps a stable property of the accounts. -/
theorem Op.run_all (Q : Accnt → Prop) (hQ : Accnt.Stable Q) (mq : MsgQueue)
    (busDay : Time → JDay) (s : Serv) (market : Market) (op : Op) (h : s.All Q) :
    (op.run mq busDay s market).serv.All Q := by
  cases op with
  | create a mid ref side lots ticks minLots now =>
    exact createOrder_all Q hQ mq busDay s a market ref side lots ticks minLots now _ h
  | revise a mid order lots now =>
    show (reviseOrder mq s a market order lots now _).serv.All Q
    unfold reviseOrder
    split
    · exact h
    · exact doReviseOrder_all Q hQ mq s a market order lots now _ h
  | reviseById a mid id lots now =>
    show (reviseOrderById mq s a market id lots now _).serv.All Q
    unfold reviseOrderById
    split
    · exact h
    · split
      · exact h
      · exact doReviseOrder_all Q hQ mq s a market _ lots now _ h
  | reviseByRef a mid ref lots now =>
    show (reviseOrderByRef mq s a market ref lots now _).serv.All Q
    unfold reviseOrderByRef
    split
    · exact h
    · split
      · exact h
      · exact doReviseOrder_all Q hQ mq s a market _ lots now _ h
  | reviseBatch a mid ids lots now =>
    show (reviseOrderBatch mq s a market ids lots now _).serv.All Q
    have hs := (reviseReserveLoop_meta s a lots now ids market
      (Response.empty.setMarket market.id)).1
    unfold reviseOrderBatch
    simp only []
    split
    · show (reviseReserveLoop s a lots now ids market _).serv.All Q
      rw [hs]; exact h
    · split
      · exact reviseCommitLoop_all Q hQ a lots now _ _ _ _ h
      · show (reviseReserveLoop s a lots now ids market _).serv.All Q
        rw [hs]; exact h
  | cancel a mid order now =>
    show (cancelOrder mq s a market order now _).serv.All Q
    unfold cancelOrder
    split
    · exact h
    · exact doCancelOrder_all Q hQ mq s a market order now _ h
  | cancelById a mid id now =>
    show (cancelOrderById mq s a market id now _).serv.All Q
    unfold cancelOrderById
    split
    · exact h
    · split
      · exact h
      · exact doCancelOrder_all Q hQ mq s a market _ now _ h
  | cancelByRef a mid ref now =>
    show (cancelOrderByRef mq s a market ref now _).serv.All Q
    unfold cancelOrderByRef
    split
    · exact h
    · split
      · exact h
      · exact doCancelOrder_all Q hQ mq s a market _ now _ h
  | cancelBatch a mid ids now =>
    show (cancelOrderBatch mq s a market ids now _).serv.All Q
    have hs := (cancelReserveLoop_meta s a now ids market
      (Response.empty.setMarket market.id)).1
    unfold cancelOrderBatch
    simp only []
    split
    · show (cancelReserveLoop s a now ids market _).serv.All Q
      rw [hs]; exact h
    · split
      · exact cancelCommitLoop_all Q hQ a now _ _ _ _ h
      · show (cancelReserveLoop s a now ids market _).serv.All Q
        rw [hs]; exact h

theorem createTrade_all (Q : Accnt → Prop) (hQ : Accnt.Stable Q) (mq : MsgQueue) (s : Serv)
    (accnt : Symbol) (market : Market) (ref : String) (side : Side) (lots : Lots)
    (ticks : Ticks) (liqInd : LiqInd) (cpty : Symbol) (created : Time) (h : s.All Q) :
    (createTrade mq s accnt market ref side lots ticks liqInd cpty created).serv.All Q := by
  have h1 : (s.writeAccnt accnt
      (fun a => a.posn market.id market.instr market.settlDay)).All Q :=
    Serv.All_write Q _ _ _ (Accnt.Stable_posn Q hQ _ _ _) h
  have h2 : (((s.writeAccnt accnt
      (fun a => a.posn market.id market.instr market.settlDay)).accnt cpty).writeAccnt cpty
      (fun a => a.posn market.id market.instr market.settlDay)).All Q :=
    Serv.All_write Q _ _ _ (Accnt.Stable_posn Q hQ _ _ _) (Serv.All_accnt Q hQ _ _ h1)
  unfold createTrade
  simp only []
  split
  · split
    · apply Serv.All_write Q _ _ _ (Accnt.Stable_addTrade Q hQ _ _ _ _ _ _)
      apply Serv.All_write Q _ _ _ (Accnt.Stable.push_insertTrade Q hQ _ _)
      apply Serv.All_write Q _ _ _ (Accnt.Stable_addTrade Q hQ _ _ _ _ _ _)
      apply Serv.All_write Q _ _ _ (Accnt.Stable.push_insertTrade Q hQ _ _)
      exact h2
    · exact h2
  · split
    · apply Serv.All_write Q _ _ _ (Accnt.Stable_addTrade Q hQ _ _ _ _ _ _)
      apply Serv.All_write Q _ _ _ (Accnt.Stable.push_insertTrade Q hQ _ _)
      exact h1
    · exact h1

theorem loadOrders_all (Q : Accnt → Prop) (hQ : Accnt.Stable Q) :
    ∀ (os : List Order) (s : Serv), s.All Q → (loadOrders os s).1.All Q := by
  intro os
  induction os with
  | nil => intro s h; exact h
  | cons o os ih =>
    intro s h
    have h1 : ((s.accnt o.accnt).writeAccnt o.accnt (fun a => a.insertOrder o)).All Q :=
      Serv.All_write Q _ _ _ (Accnt.Stable_insertOrder Q hQ _) (Serv.All_accnt Q hQ _ _ h)
    rw [loadOrders]
    unfold loadOrder
    simp only []
    split
    · rename_i s1 heq
      split at heq
      · simp at heq
      · simp only [Prod.mk.injEq] at heq
        apply ih
        rw [← heq.1]
        exact h1
    · rename_i s1 e heq
      split at heq
      · simp only [Prod.mk.injEq] at heq
        rw [← heq.1]
        exact h1
      · simp at heq

theorem foldl_all (Q : Accnt → Prop) (α : Type) (f : Serv → α → Serv)
    (hf : ∀ s x, s.All Q → (f s x).All Q) :
    ∀ (l : List α) (s : Serv), s.All Q → (l.foldl f s).All Q := by
  intro l
  induction l with
  | nil => intro s h; exact h
  | cons x l ih => intro s h; exact ih _ (hf s x h)

theorem load_all (Q : Accnt → Prop) (hQ : Accnt.Stable Q) (busDay : Time → JDay)
    (model : Model) (now : Time) (s : Serv) (h : s.All Q) :
    (load busDay model now s).1.All Q := by
  have h2 := loadOrders_all Q hQ model.readOrder
    { s with markets := model.readMarket.foldl (fun l m => marketInsert m l) s.markets } h
  unfold load
  simp only []
  split
  · rename_i s2 e heq
    rw [heq] at h2
    exact h2
  · rename_i s2 heq
    rw [heq] at h2
    apply foldl_all Q _ _ (fun t p ht => Serv.All_write Q _ _ _
      (Accnt.Stable.insertPosn Q hQ _) (Serv.All_accnt Q hQ _ _ ht))
    apply foldl_all Q _ _ (fun t e ht => Serv.All_write Q _ _ _
      (Accnt.Stable_insertTrade Q hQ _) (Serv.All_accnt Q hQ _ _ ht))
    apply foldl_all Q _ _ (fun t e ht => Serv.All_write Q _ _ _
      (Accnt.Stable.pushExecBack Q hQ _) (Serv.All_accnt Q hQ _ _ ht))
    exact h2

/-- Every call of the service keeps a stable property of the accounts. -/
theorem Serv.All_request (Q : Accnt → Prop) (hQ : Accnt.Stable Q) (mq : MsgQueue)
    (busDay : Time → JDay) (s : Serv) (r : Request) (h : s.All Q) :
    (s.request mq busDay r).All Q := by
  cases r with
  | op o =>
    show (s.apply mq busDay o).All Q
    unfold Serv.apply
    split
    · exact h
    · rename_i market hmk
      exact Op.run_all Q hQ mq busDay _ market o (Serv.All_accnt Q hQ _ _ h)
  | trade a mid ref side lots ticks liqInd cpty created =>
    show (match s.market mid with
      | Except.error _ => s
      | Except.ok market =>
        (createTrade mq (s.accnt a) a market ref side lots ticks liqInd cpty created).serv.storeMarket
          (createTrade mq (s.accnt a) a market ref side lots ticks liqInd cpty created).market).All Q
    split
    · exact h
    · rename_i market hmk
      exact createTrade_all Q hQ mq _ a market ref side lots ticks liqInd cpty created
        (Serv.All_accnt Q hQ _ _ h)
  | load model now => exact load_all Q hQ busDay model now s h

theorem ReachBy.all (Q : Accnt → Prop) (hQ : Accnt.Stable Q) (busDay : Time → JDay)
    (I : Serv → Prop) (V : Serv → Request → Prop) (hI : ∀ s, I s → s.All Q) (s : Serv)
    (h : ReachBy busDay I V s) : s.All Q := by
  induction h with
  | init s hs => exact hI s hs
  | step s mq r _ _ ih => exact Serv.All_request Q hQ mq busDay s r ih

theorem Accnt.RingOk_stable : Accnt.Stable Accnt.RingOk := by
  refine ⟨fun sym n => Nat.zero_le _, fun a h => ⟨?_, ?_, ?_, ?_, ?_, ?_, ?_, ?_, ?_⟩⟩
  · intro i n d
    show (a.posn i n d).execs.length ≤ (a.posn i n d).maxExecs
    unfold Accnt.posn
    split <;> exact h
  · intro i n d sd l t
    exact h
  · intro e
    show ((e :: a.execs).take a.maxExecs).length ≤ a.maxExecs
    rw [List.length_take]
    exact Nat.min_le_left _ _
  · intro e
    show ((a.execs ++ [e]).drop ((a.execs ++ [e]).length - a.maxExecs)).length ≤ a.maxExecs
    rw [List.length_drop]
    omega
  · intro e
    exact h
  · intro p
    exact h
  · intro o
    show (a.insertOrder o).execs.length ≤ (a.insertOrder o).maxExecs
    unfold Accnt.insertOrder
    split <;> exact h
  · intro o
    exact h
  · intro i j f
    exact h

theorem pushExecFront_foldl (es : List Exec) :
    ∀ a : Accnt, a.RingOk →
      (es.foldl Accnt.pushExecFront a).execs = (es.reverse ++ a.execs).take a.maxExecs
      ∧ (es.foldl Accnt.pushExecFront a).maxExecs = a.maxExecs := by
  induction es with
  | nil =>
    intro a ha
    exact ⟨(List.take_of_length_le ha).symm, rfl⟩
  | cons e es ih =>
    intro a ha
    obtain ⟨h1, h2⟩ := ih (a.pushExecFront e) (Accnt.Stable_pushExecFront Accnt.RingOk
      Accnt.RingOk_stable e a ha)
    rw [List.foldl_cons, h1, h2]
    refine ⟨?_, rfl⟩
    show (es.reverse ++ (e :: a.execs).take a.maxExecs).take a.maxExecs
      = ((e :: es).reverse ++ a.execs).take a.maxExecs
    rw [List.reverse_cons, List.append_assoc, List.singleton_append]
    rw [List.take_append_eq_append_take, List.take_append_eq_append_take, List.take_take]
    congr 1
    congr 1
    omega

/-- C13 (exec ring bound).  In every state reached from a service without accounts by calls of
`load`, `createOrder`, `reviseOrder`, `cancelOrder` (all overloads) and `createTrade`, whatever
the message queue answers, every account's ring holds at most `maxExecs` execs; on such an
account with a non-zero capacity `pushExecFront` puts the new exec at the front, keeping the
others when there is room and dropping exactly the last (oldest) one when the ring is full; and
after pushing `es` one by one the ring reads newest first: the reverse of `es`, then the old
execs, cut at the capacity. -/
theorem exec_ring_bound (busDay : Time → JDay) (s : Serv)
    (h : ReachBy busDay Serv.NoAccnts anyRequest s) :
    ∀ a ∈ s.accnts, a.execs.length ≤ a.maxExecs
      ∧ (∀ e, 0 < a.maxExecs →
          (a.pushExecFront e).execs
            = e :: (if a.execs.length < a.maxExecs then a.execs else a.execs.dropLast))
      ∧ ∀ es : List Exec,
          (es.foldl Accnt.pushExecFront a).execs = (es.reverse ++ a.execs).take a.maxExecs := by
  intro a ha
  have hb : a.execs.length ≤ a.maxExecs :=
    ReachBy.all Accnt.RingOk Accnt.RingOk_stable busDay _ _
      (fun t ht b hb => by rw [show t.accnts = [] from ht] at hb; simp at hb) s h a ha
  refine ⟨hb, ?_, fun es => (pushExecFront_foldl es a hb).1⟩
  intro e hpos
  show (e :: a.execs).take a.maxExecs = _
  obtain ⟨n, hn⟩ : ∃ n, a.maxExecs = n + 1 := ⟨a.maxExecs - 1, by omega⟩
  rw [hn, List.take_succ_cons]
  congr 1
  split
  · exact List.take_of_length_le (by omega)
  · rw [List.dropLast_eq_take]
    congr 1
    omega

theorem exec_ring_bound_witness :
    ReachBy exBusDay Serv.NoAccnts anyRequest exEngine2
    ∧ ∀ a ∈ exEngine2.accnts, a.execs.length ≤ a.maxExecs
      ∧ (∀ e, 0 < a.maxExecs →
          (a.pushExecFront e).execs
            = e :: (if a.execs.length < a.maxExecs then a.execs else a.execs.dropLast))
      ∧ ∀ es : List Exec,
          (es.foldl Accnt.pushExecFront a).execs = (es.reverse ++ a.execs).take a.maxExecs :=
  have h0 : ReachBy exBusDay Serv.NoAccnts anyRequest exEngine0 := ReachBy.init exEngine0 rfl
  have h1 : ReachBy exBusDay Serv.NoAccnts anyRequest
      (exEngine0.request exMq exBusDay (Request.op (Op.create "A" 7 "ra" Side.Sell 10 100 0 1))) :=
    ReachBy.step _ exMq _ h0 trivial
  have hr : ReachBy exBusDay Serv.NoAccnts anyRequest exEngine2 :=
    ReachBy.step _ exMq (Request.op (Op.create "A" 7 "" Side.Sell 5 101 0 2)) h1 trivial
  ⟨hr, exec_ring_bound exBusDay exEngine2 hr⟩

theorem Serv.getAccnt_writeAccnt (s : Serv) (sym : Symbol) (f : Accnt → Accnt)
    (hf : ∀ a, (f a).symbol = a.symbol) :
    (∀ sym2, sym2 ≠ sym → (s.writeAccnt sym f).getAccnt sym2 = s.getAccnt sym2)
    ∧ ((∃ a ∈ s.accnts, a.symbol = sym) →
        (s.writeAccnt sym f).getAccnt sym = f (s.getAccnt sym)
        ∧ ∃ a ∈ (s.writeAccnt sym f).accnts, a.symbol = sym) := by
  have hfind : ∀ sym2, (s.writeAccnt sym f).findAccnt sym2
      = (s.findAccnt sym2).map (fun a => if a.symbol = sym then f a else a) := by
    intro sym2
    unfold Serv.findAccnt Serv.writeAccnt
    simp only []
    rw [List.find?_map]
    congr 1
    congr 1
    funext a
    show ((if a.symbol = sym then f a else a).symbol == sym2) = (a.symbol == sym2)
    split
    · rw [hf]
    · rfl
  constructor
  · intro sym2 hne
    unfold Serv.getAccnt
    rw [hfind]
    cases hc : s.findAccnt sym2 with
    | none => rfl
    | some a =>
      have h1 := List.find?_some hc
      have h2 : a.symbol = sym2 := by simpa using h1
      show (if a.symbol = sym then f a else a) = a
      rw [if_neg (by rw [h2]; exact hne)]
  · rintro ⟨a, ha, has⟩
    constructor
    · unfold Serv.getAccnt
      rw [hfind]
      cases hc : s.findAccnt sym with
      | none =>
        exfalso
        have := List.find?_eq_none.mp hc a ha
        simp [has] at this
      | some b =>
        have h1 := List.find?_some hc
        have h2 : b.symbol = sym := by simpa using h1
        show (if b.symbol = sym then f b else b) = f b
        rw [if_pos h2]
    · refine ⟨f a, ?_, by rw [hf, has]⟩
      show f a ∈ s.accnts.map (fun a => if a.symbol = sym then f a else a)
      exact List.mem_map.mpr ⟨a, ha, by rw [if_pos has]⟩

/-- On a well-formed side, removing a resting order rewrites the one level that holds it and
leaves the levels before and after it as they are. -/
theorem removeLevels_split (side : Side) (o : Order) :
    ∀ ls : List Level, ls.Pairwise (fun a b => priceBefore side a.ticks b.ticks = true) →
      (∀ l ∈ ls, l.Ok side) → o ∈ ls.flatMap (fun l => l.queue) →
      ∃ pre l post, ls = pre ++ l :: post ∧ l.ticks = o.ticks ∧ o ∈ l.queue
        ∧ MarketSide.removeLevels o ls
            = pre ++ (if l.count = 1 then []
                else [{ l with lots := l.lots - o.resdLots, count := l.count - 1,
                               queue := l.queue.filter (fun x => !(x.id == o.id)) }]) ++ post := by
  intro ls
  induction ls with
  | nil => intro _ _ ho; simp at ho
  | cons l ls ih =>
    intro hp hok ho
    rw [List.pairwise_cons] at hp
    by_cases ht : l.ticks = o.ticks
    · have hol : o ∈ l.queue := by
        rw [List.flatMap_cons, List.mem_append] at ho
        rcases ho with ho | ho
        · exact ho
        · exfalso
          obtain ⟨l2, hl2, ho2⟩ := List.mem_flatMap.mp ho
          have h2 := ((hok l2 (List.mem_cons_of_mem _ hl2)).2.2.2.1 o ho2).1
          have h3 := hp.1 l2 hl2
          rw [ht, ← h2, priceBefore_irrefl] at h3
          exact Bool.false_ne_true h3
      refine ⟨[], l, ls, rfl, ht, hol, ?_⟩
      rw [removeLevels_eq_walk, walkLevels_target o _ l ls ht hol]
      have hc : l.count = l.queue.length := (hok l (List.mem_cons_self _ _)).2.1
      have hpos : 0 < l.queue.length := List.length_pos_of_mem hol
      unfold MarketSide.dropLevel
      by_cases h1 : l.count = 1
      · rw [if_pos (by omega), if_pos h1]; rfl
      · rw [if_neg (by omega), if_neg h1]; rfl
    · have hor : o ∈ ls.flatMap (fun l => l.queue) := by
        rw [List.flatMap_cons, List.mem_append] at ho
        rcases ho with ho | ho
        · exact absurd ((hok l (List.mem_cons_self _ _)).2.2.2.1 o ho).1.symm ht
        · exact ho
      obtain ⟨pre, l2, post, h1, h2, h3, h4⟩ := ih hp.2
        (fun x hx => hok x (List.mem_cons_of_mem _ hx)) hor
      refine ⟨l :: pre, l2, post, by rw [h1]; rfl, h2, h3, ?_⟩
      rw [MarketSide.removeLevels, if_neg ht, h4]
      rfl

/-- C20 (cancel of a live order).  When the message queue accepts, `cancelOrder` on an order that
is not done, rests in a well-formed book and is among its account's live orders does not throw;
the order reported in the response is in state `Cancel` with `resdLots = 0` and its `execLots`
unchanged; the book stays well formed and holds the orders it held, except the cancelled one: the
other side is untouched, and on the order's side only the level of the order changes (it is
dropped if the order was alone there, else it loses the order, its lots and one count); the
account loses the order from its live orders and gets one exec in state `Cancel` with
`resdLots = 0` at the front of its ring; the other accounts are unchanged. -/
theorem cancelOrder_live (mq : MsgQueue) (s : Serv) (accnt : Symbol) (market : Market)
    (order : Order) (now : Time) (resp : Response)
    (hmq : mq [(newExec order (market.execSeq + 1) now).cancel] = true)
    (hlive : order.done = false) (hm : market.Ok) (hbook : order ∈ market.orders)
    (hacc : order ∈ (s.getAccnt accnt).orders) :
    (cancelOrder mq s accnt market order now resp).thrown = none
    ∧ (cancelOrder mq s accnt market order now resp).resp.orders
        = (resp.orders ++ [order]).map
            (fun x => if x.sameKey order.marketId order.id then x.cancel now else x)
    ∧ order.cancel now ∈ (cancelOrder mq s accnt market order now resp).resp.orders
    ∧ (order.cancel now).state = State.Cancel ∧ (order.cancel now).resdLots = 0
    ∧ (order.cancel now).execLots = order.execLots
    ∧ (cancelOrder mq s accnt market order now resp).market.Ok
    ∧ (∀ y, y ∈ (cancelOrder mq s accnt market order now resp).market.orders
        ↔ (y ∈ market.orders ∧ y ≠ order))
    ∧ (cancelOrder mq s accnt market order now resp).market.side order.side.opposite
        = market.side order.side.opposite
    ∧ (∃ pre l post, (market.side order.side).levels = pre ++ l :: post
        ∧ l.ticks = order.ticks ∧ order ∈ l.queue
        ∧ ((cancelOrder mq s accnt market order now resp).market.side order.side).levels
            = pre ++ (if l.count = 1 then []
                else [{ l with lots := l.lots - order.resdLots, count := l.count - 1,
                               queue := l.queue.filter (fun x => !(x.id == order.id)) }])
              ++ post)
    ∧ (cancelOrder mq s accnt market order now resp).market.execSeq = market.execSeq + 1
    ∧ ((cancelOrder mq s accnt market order now resp).serv.getAccnt accnt).orders
        = (s.getAccnt accnt).orders.filter (fun x => !(x.sameKey order.marketId order.id))
    ∧ order ∉ ((cancelOrder mq s accnt market order now resp).serv.getAccnt accnt).orders
    ∧ ((cancelOrder mq s accnt market order now resp).serv.getAccnt accnt).execs
        = ((newExec order (market.execSeq + 1) now).cancel :: (s.getAccnt accnt).execs).take
            (s.getAccnt accnt).maxExecs
    ∧ (newExec order (market.execSeq + 1) now).cancel.state = State.Cancel
    ∧ (newExec order (market.execSeq + 1) now).cancel.resdLots = 0
    ∧ (newExec order (market.execSeq + 1) now).cancel.execLots = order.execLots
    ∧ (newExec order (market.execSeq + 1) now).cancel.orderId = order.id
    ∧ ∀ sym, sym ≠ accnt →
        (cancelOrder mq s accnt market order now resp).serv.getAccnt sym = s.getAccnt sym := by
  have hout : cancelOrder mq s accnt market order now resp
      = { serv := (({ s with journ := s.journ
                        ++ [[(newExec order (market.execSeq + 1) now).cancel]] } : Serv).writeAccnt
                    accnt (fun a => a.removeOrder order)).writeAccnt accnt
                    (fun a => a.pushExecFront (newExec order (market.execSeq + 1) now).cancel),
          market := ({ market with execSeq := market.execSeq + 1 } : Market).cancelOrder order now,
          resp := (((resp.setMarket market.id).insertOrder order).insertExec
                    (newExec order (market.execSeq + 1) now).cancel).writeOrder
                    order.marketId order.id (fun x => x.cancel now),
          thrown := none } := by
    unfold cancelOrder
    rw [if_neg (by rw [hlive]; exact Bool.false_ne_true)]
    unfold doCancelOrder
    simp only [Market.allocId]
    rw [if_pos hmq]
  have hself : order.sameKey order.marketId order.id = true := by
    simp [Order.sameKey]
  have hm1 : ({ market with execSeq := market.execSeq + 1 } : Market).Ok :=
    Market.Ok.bump market 1 hm
  have hbook1 : order ∈ ({ market with execSeq := market.execSeq + 1 } : Market).orders := hbook
  obtain ⟨hk1, hk2⟩ := Market.Ok_removeOrder _ order hm1 hbook1
  obtain ⟨a0, ha0, has0, -⟩ := Serv.getAccnt_orders_mem s accnt order hacc
  obtain ⟨w1, w2⟩ := Serv.getAccnt_writeAccnt
    ({ s with journ := s.journ ++ [[(newExec order (market.execSeq + 1) now).cancel]] } : Serv)
    accnt (fun a => a.removeOrder order) (fun _ => rfl)
  obtain ⟨w3, w4⟩ := w2 ⟨a0, ha0, has0⟩
  obtain ⟨v1, v2⟩ := Serv.getAccnt_writeAccnt
    (({ s with journ := s.journ ++ [[(newExec order (market.execSeq + 1) now).cancel]] }
      : Serv).writeAccnt accnt (fun a => a.removeOrder order))
    accnt (fun a => a.pushExecFront (newExec order (market.execSeq + 1) now).cancel)
    (fun _ => rfl)
  obtain ⟨v3, -⟩ := v2 w4
  have hget : ∀ sym, ({ s with journ := s.journ
      ++ [[(newExec order (market.execSeq + 1) now).cancel]] } : Serv).getAccnt sym
      = s.getAccnt sym := fun _ => rfl
  rw [hout]
  refine ⟨rfl, ?_, ?_, rfl, rfl, rfl, ?_, ?_, ?_, ?_, ?_, ?_, ?_, ?_, rfl, rfl, rfl, rfl, ?_⟩
  · rfl
  · show order.cancel now ∈ (resp.orders ++ [order]).map
      (fun x => if x.sameKey order.marketId order.id then x.cancel now else x)
    exact List.mem_map.mpr ⟨order, by simp, by rw [if_pos hself]⟩
  · rw [Market.cancelOrder_eq_mapSide, ← Market.removeOrder_eq_mapSide]
    exact hk1
  · intro y
    rw [Market.cancelOrder_eq_mapSide, ← Market.removeOrder_eq_mapSide, hk2 y]
    exact Iff.rfl
  · unfold Market.cancelOrder Market.side
    cases order.side <;> rfl
  · have hb := hm.1
    have hs := hm.2.1
    rcases Market.Ok.mem_side market order hm hbook with ⟨hsd, hmem⟩ | ⟨hsd, hmem⟩
    · obtain ⟨pre, l, post, h1, h2, h3, h4⟩ := removeLevels_split market.bidSide.side order
        market.bidSide.levels hm.2.2.1.1 hm.2.2.1.2 hmem
      refine ⟨pre, l, post, by rw [hsd]; exact h1, h2, h3, ?_⟩
      unfold Market.cancelOrder Market.side
      rw [hsd]
      exact h4
    · obtain ⟨pre, l, post, h1, h2, h3, h4⟩ := removeLevels_split market.offerSide.side order
        market.offerSide.levels hm.2.2.2.1.1 hm.2.2.2.1.2 hmem
      refine ⟨pre, l, post, by rw [hsd]; exact h1, h2, h3, ?_⟩
      unfold Market.cancelOrder Market.side
      rw [hsd]
      exact h4
  · unfold Market.cancelOrder
    cases order.side <;> rfl
  · rw [v3, w3, hget]
    rfl
  · rw [v3, w3, hget]
    show order ∉ (s.getAccnt accnt).orders.filter
      (fun x => !(x.sameKey order.marketId order.id))
    rw [List.mem_filter]
    rintro ⟨-, h⟩
    rw [hself] at h
    exact Bool.false_ne_true h
  · rw [v3, w3, hget]
    rfl
  · intro sym hne
    rw [v1 sym hne, w1 sym hne, hget]

theorem cancelOrder_live_witness :
    (exMq [(newExec exLive (exCrossMarket.execSeq + 1) 9).cancel] = true
      ∧ exLive.done = false ∧ exCrossMarket.Ok ∧ exLive ∈ exCrossMarket.orders
      ∧ exLive ∈ (exCross.getAccnt "A").orders)
    ∧ (exLive.side = Side.Buy ∧ exLive.lots = 10 ∧ exLive.ticks = 100 ∧ exLive.execLots = 4
      ∧ exLive.resdLots = 6)
    ∧ ((cancelOrder exMq exCross "A" exCrossMarket exLive 9 Response.empty).thrown = none
      ∧ (cancelOrder exMq exCross "A" exCrossMarket exLive 9 Response.empty).resp.orders
          = [exLive.cancel 9]
      ∧ (exLive.cancel 9).state = State.Cancel ∧ (exLive.cancel 9).resdLots = 0
      ∧ (exLive.cancel 9).execLots = 4
      ∧ (cancelOrder exMq exCross "A" exCrossMarket exLive 9 Response.empty).market.orders = []
      ∧ ((cancelOrder exMq exCross "A" exCrossMarket exLive 9 Response.empty).serv.getAccnt
          "A").orders = []) :=
  have h1 : exMq [(newExec exLive (exCrossMarket.execSeq + 1) 9).cancel] = true := rfl
  have h2 : exLive.done = false := by decide
  have h3 : exCrossMarket.Ok := by
    unfold Market.Ok MarketSide.Ok Level.Ok
    decide
  have h4 : exLive ∈ exCrossMarket.orders := by decide
  have h5 : exLive ∈ (exCross.getAccnt "A").orders := by decide
  have h := cancelOrder_live exMq exCross "A" exCrossMarket exLive 9 Response.empty h1 h2 h3 h4 h5
  ⟨⟨h1, h2, h3, h4, h5⟩, by decide, h.1, by decide, h.2.2.2.1, h.2.2.2.2.1, by decide,
    by decide, by decide⟩

theorem Serv.writeAccnt_has (s : Serv) (sym : Symbol) (f : Accnt → Accnt) (sym2 : Symbol)
    (hf : ∀ a, (f a).symbol = a.symbol) (h : ∃ a ∈ s.accnts, a.symbol = sym2) :
    ∃ a ∈ (s.writeAccnt sym f).accnts, a.symbol = sym2 := by
  obtain ⟨a, ha, has⟩ := h
  refine ⟨if a.symbol = sym then f a else a, List.mem_map.mpr ⟨a, ha, rfl⟩, ?_⟩
  split
  · rw [hf, has]
  · exact has

theorem Serv.getAccnt_write (s : Serv) (sym : Symbol) (f : Accnt → Accnt)
    (hf : ∀ a, (f a).symbol = a.symbol) (h : ∃ a ∈ s.accnts, a.symbol = sym) :
    (s.writeAccnt sym f).getAccnt sym = f (s.getAccnt sym) :=
  ((Serv.getAccnt_writeAccnt s sym f hf).2 h).1

theorem Accnt.findPosn_addTrade (a : Accnt) (i : Id64) (n : Symbol) (d : JDay) (sd : Side)
    (l : Lots) (t : Ticks) :
    (a.addTrade i n d sd l t).findPosn i n d
      = (a.findPosn i n d).map (fun p => p.addTrade sd l t) := by
  unfold Accnt.addTrade Accnt.findPosn
  simp only []
  rw [List.find?_map]
  have hp : ((fun p : Posn => p.sameKey i n d) ∘ fun p : Posn =>
      if p.sameKey i n d = true then p.addTrade sd l t else p)
      = fun p : Posn => p.sameKey i n d := by
    funext p
    show (if p.sameKey i n d = true then p.addTrade sd l t else p).sameKey i n d = p.sameKey i n d
    split
    · cases sd <;> rfl
    · rfl
  rw [hp]
  cases hc : List.find? (fun p : Posn => p.sameKey i n d) a.posns with
  | none => rfl
  | some p =>
    have h1 := List.find?_some hc
    show some (if p.sameKey i n d = true then p.addTrade sd l t else p) = some (p.addTrade sd l t)
    rw [if_pos h1]

theorem Market.takeOrder_key (m : Market) (o : Order) (lots : Lots) (now : Time) :
    (m.takeOrder o lots now).id = m.id ∧ (m.takeOrder o lots now).instr = m.instr
    ∧ (m.takeOrder o lots now).settlDay = m.settlDay := by
  unfold Market.takeOrder
  split <;> exact ⟨rfl, rfl, rfl⟩

/-- What `commitMatch` does to the account of the taker when the maker is an order of the same
account: both trades are booked on its positions, and both execs are pushed on its ring. -/
theorem commitMatch_self (takerAccnt : Symbol) (now : Time) (m : Match) (c : Committed)
    (hself : m.makerOrder.accnt = takerAccnt)
    (hex : ∃ a ∈ c.serv.accnts, a.symbol = takerAccnt) :
    ∃ (pl pl2 : Lots) (pc pc2 : Cost),
      ((commitMatch takerAccnt now m c).serv.getAccnt takerAccnt).posns
        = (((c.serv.getAccnt takerAccnt).addTrade c.market.id c.market.instr c.market.settlDay
            m.makerTrade.side m.makerTrade.lastLots m.makerTrade.lastTicks).addTrade
            c.market.id c.market.instr c.market.settlDay
            m.takerTrade.side m.takerTrade.lastLots m.takerTrade.lastTicks).posns
      ∧ ((commitMatch takerAccnt now m c).serv.getAccnt takerAccnt).execs
        = (m.takerTrade.posn pl2 pc2
            :: ((m.makerTrade.posn pl pc :: (c.serv.getAccnt takerAccnt).execs).take
                (c.serv.getAccnt takerAccnt).maxExecs)).take
            (c.serv.getAccnt takerAccnt).maxExecs := by
  obtain ⟨k1, k2, k3⟩ := Market.takeOrder_key c.market m.makerOrder m.lots now
  unfold commitMatch
  simp only []
  rw [hself, k1, k2, k3]
  by_cases hd : (m.makerOrder.trade m.lots (cost m.lots m.makerOrder.ticks) m.lots
      m.makerOrder.ticks now).done = true
  · simp only [hd, if_true]
    exact ⟨_, _, _, _, by
      rw [Serv.getAccnt_write _ _ _ ?_ ?_,
        Serv.getAccnt_write _ _ _ ?_ ?_,
        Serv.getAccnt_write _ _ _ ?_ ?_,
        Serv.getAccnt_write _ _ _ ?_ ?_,
        Serv.getAccnt_write _ _ _ ?_ ?_,
        Serv.getAccnt_write _ _ _ ?_ ?_]
      · rfl
      all_goals repeat (first | exact hex | exact (fun _ => rfl) | apply Serv.writeAccnt_has), by
      rw [Serv.getAccnt_write _ _ _ ?_ ?_,
        Serv.getAccnt_write _ _ _ ?_ ?_,
        Serv.getAccnt_write _ _ _ ?_ ?_,
        Serv.getAccnt_write _ _ _ ?_ ?_,
        Serv.getAccnt_write _ _ _ ?_ ?_,
        Serv.getAccnt_write _ _ _ ?_ ?_]
      · rfl
      all_goals repeat (first | exact hex | exact (fun _ => rfl) | apply Serv.writeAccnt_has)⟩
  · simp only [hd, Bool.false_eq_true, if_false]
    exact ⟨_, _, _, _, by
      rw [Serv.getAccnt_write _ _ _ ?_ ?_,
        Serv.getAccnt_write _ _ _ ?_ ?_,
        Serv.getAccnt_write _ _ _ ?_ ?_,
        Serv.getAccnt_write _ _ _ ?_ ?_,
        Serv.getAccnt_write _ _ _ ?_ ?_]
      · rfl
      all_goals repeat (first | exact hex | exact (fun _ => rfl) | apply Serv.writeAccnt_has), by
      rw [Serv.getAccnt_write _ _ _ ?_ ?_,
        Serv.getAccnt_write _ _ _ ?_ ?_,
        Serv.getAccnt_write _ _ _ ?_ ?_,
        Serv.getAccnt_write _ _ _ ?_ ?_,
        Serv.getAccnt_write _ _ _ ?_ ?_]
      · rfl
      all_goals repeat (first | exact hex | exact (fun _ => rfl) | apply Serv.writeAccnt_has)⟩

theorem Posn.addTrade_opposite (p : Posn) (sd : Side) (l : Lots) (t : Ticks) :
    ((p.addTrade sd.opposite l t).addTrade sd l t).netLots = p.netLots
    ∧ ((p.addTrade sd.opposite l t).addTrade sd l t).netCost = p.netCost := by
  cases sd
  · exact ⟨Int.sub_add_cancel _ _, Int.sub_add_cancel _ _⟩
  · exact ⟨Int.add_sub_cancel _ _, Int.add_sub_cancel _ _⟩

/-- C19 (self-cross).  `matchStep` adds the maker order and the maker's trade exec to the
response exactly when the maker belongs to the account of the taker, and only the taker's trade
exec otherwise.  When it does belong to it, the match is recorded like any other, with two trade
execs of that account for the same lots; `commitMatch` leaves the account's net lots and net
cost under the market's key as they were before the match, and pushes both execs on its ring,
the taker's in front of the maker's. -/
theorem self_cross (takerAccnt : Symbol) (takerOrder makerOrder : Order) (now : Time)
    (st : MatchLoop) (c : Committed)
    (hself : makerOrder.accnt = takerAccnt) (htaker : takerOrder.accnt = takerAccnt)
    (hside : makerOrder.side = takerOrder.side.opposite)
    (hex : ∃ a ∈ c.serv.accnts, a.symbol = takerAccnt) :
    (∀ mk : Order,
      (matchStep takerAccnt takerOrder now mk st).resp.orders
        = (if mk.accnt = takerAccnt then st.resp.orders ++ [mk] else st.resp.orders)
      ∧ (matchStep takerAccnt takerOrder now mk st).resp.execs
        = (if mk.accnt = takerAccnt
            then st.resp.execs ++ [(stepMatch takerOrder now mk st).makerTrade,
              (stepMatch takerOrder now mk st).takerTrade]
            else st.resp.execs ++ [(stepMatch takerOrder now mk st).takerTrade]))
    ∧ (matchStep takerAccnt takerOrder now makerOrder st).serv.matches_
        = st.serv.matches_ ++ [stepMatch takerOrder now makerOrder st]
    ∧ (stepMatch takerOrder now makerOrder st).makerTrade.accnt = takerAccnt
    ∧ (stepMatch takerOrder now makerOrder st).takerTrade.accnt = takerAccnt
    ∧ (stepMatch takerOrder now makerOrder st).makerTrade.state = State.Trade
    ∧ (stepMatch takerOrder now makerOrder st).takerTrade.state = State.Trade
    ∧ (stepMatch takerOrder now makerOrder st).makerTrade.lastLots
        = (stepMatch takerOrder now makerOrder st).lots
    ∧ (stepMatch takerOrder now makerOrder st).takerTrade.lastLots
        = (stepMatch takerOrder now makerOrder st).lots
    ∧ (commitMatch takerAccnt now (stepMatch takerOrder now makerOrder st) c).serv.posnLots
        takerAccnt c.market = c.serv.posnLots takerAccnt c.market
    ∧ (commitMatch takerAccnt now (stepMatch takerOrder now makerOrder st) c).serv.posnCost
        takerAccnt c.market = c.serv.posnCost takerAccnt c.market
    ∧ ∃ (pl pl2 : Lots) (pc pc2 : Cost),
        ((commitMatch takerAccnt now (stepMatch takerOrder now makerOrder st) c).serv.getAccnt
          takerAccnt).execs
          = ((stepMatch takerOrder now makerOrder st).takerTrade.posn pl2 pc2
              :: (((stepMatch takerOrder now makerOrder st).makerTrade.posn pl pc
                    :: (c.serv.getAccnt takerAccnt).execs).take
                  (c.serv.getAccnt takerAccnt).maxExecs)).take
              (c.serv.getAccnt takerAccnt).maxExecs := by
  obtain ⟨pl, pl2, pc, pc2, hp, he⟩ := commitMatch_self takerAccnt now
    (stepMatch takerOrder now makerOrder st) c hself hex
  have hfind : ((commitMatch takerAccnt now (stepMatch takerOrder now makerOrder st) c).serv.getAccnt
      takerAccnt).findPosn c.market.id c.market.instr c.market.settlDay
      = ((c.serv.getAccnt takerAccnt).findPosn c.market.id c.market.instr c.market.settlDay).map
          (fun p => (p.addTrade takerOrder.side.opposite
            (stepMatch takerOrder now makerOrder st).lots makerOrder.ticks).addTrade
            takerOrder.side (stepMatch takerOrder now makerOrder st).lots makerOrder.ticks) := by
    have h1 : ((commitMatch takerAccnt now (stepMatch takerOrder now makerOrder st) c).serv.getAccnt
        takerAccnt).findPosn c.market.id c.market.instr c.market.settlDay
        = (((c.serv.getAccnt takerAccnt).addTrade c.market.id c.market.instr c.market.settlDay
            (stepMatch takerOrder now makerOrder st).makerTrade.side
            (stepMatch takerOrder now makerOrder st).makerTrade.lastLots
            (stepMatch takerOrder now makerOrder st).makerTrade.lastTicks).addTrade
            c.market.id c.market.instr c.market.settlDay
            (stepMatch takerOrder now makerOrder st).takerTrade.side
            (stepMatch takerOrder now makerOrder st).takerTrade.lastLots
            (stepMatch takerOrder now makerOrder st).takerTrade.lastTicks).findPosn
            c.market.id c.market.instr c.market.settlDay := by
      unfold Accnt.findPosn
      rw [hp]
    rw [h1, Accnt.findPosn_addTrade, Accnt.findPosn_addTrade, Option.map_map]
    have hs : (stepMatch takerOrder now makerOrder st).makerTrade.side
        = takerOrder.side.opposite := hside
    rw [hs]
    rfl
  refine ⟨?_, rfl, hself, htaker, rfl, rfl, rfl, rfl, ?_, ?_, ⟨pl, pl2, pc, pc2, he⟩⟩
  · intro mk
    unfold matchStep stepMatch
    by_cases hm : mk.accnt = takerAccnt
    · simp only [hm, if_true]
      exact ⟨rfl, by simp [Response.insertExec, Response.insertOrder]⟩
    · simp only [hm, if_false]
      exact ⟨rfl, rfl⟩
  · unfold Serv.posnLots
    rw [hfind]
    cases (c.serv.getAccnt takerAccnt).findPosn c.market.id c.market.instr c.market.settlDay with
    | none => rfl
    | some p => exact (Posn.addTrade_opposite p _ _ _).1
  · unfold Serv.posnCost
    rw [hfind]
    cases (c.serv.getAccnt takerAccnt).findPosn c.market.id c.market.instr c.market.settlDay with
    | none => rfl
    | some p => exact (Posn.addTrade_opposite p _ _ _).2

theorem self_cross_witness :
    (exSelfMaker.accnt = "A" ∧ exSelfTaker.accnt = "A"
      ∧ exSelfMaker.side = exSelfTaker.side.opposite
      ∧ (∃ a ∈ exSelfCommit.serv.accnts, a.symbol = "A")
      ∧ exSelfMarket1.offerSide.orders = [exSelfMaker])
    ∧ ((matchStep "A" exSelfTaker 2 exSelfMaker exSelfLoop).resp.orders = [exSelfMaker]
      ∧ (stepMatch exSelfTaker 2 exSelfMaker exSelfLoop).lots = 3
      ∧ (commitMatch "A" 2 (stepMatch exSelfTaker 2 exSelfMaker exSelfLoop)
          exSelfCommit).serv.posnLots "A" exSelfCommit.market
          = exSelfCommit.serv.posnLots "A" exSelfCommit.market
      ∧ (commitMatch "A" 2 (stepMatch exSelfTaker 2 exSelfMaker exSelfLoop)
          exSelfCommit).serv.posnCost "A" exSelfCommit.market
          = exSelfCommit.serv.posnCost "A" exSelfCommit.market)
    ∧ ((exSelf2.getAccnt "A").execs.map
          (fun e => (e.accnt, e.state, e.side, e.lastLots, e.lastTicks))
        = [("A", State.Trade, Side.Buy, 3, 100), ("A", State.Trade, Side.Sell, 3, 100),
           ("A", State.New, Side.Buy, 0, 0), ("A", State.New, Side.Sell, 0, 0)]
      ∧ exSelf2.posnLots "A" exSelfMarket2 = 0 ∧ exSelf2.posnCost "A" exSelfMarket2 = 0
      ∧ exSelfMarket2.offerSide.levels = []
      ∧ exSelfMarket2.bidSide.levels.map (fun l => (l.ticks, l.lots, l.count)) = [(100, 2, 1)]
      ∧ exSelfMarket2.bidSide.orders.map
          (fun o => (o.accnt, o.side, o.lots, o.resdLots, o.ticks))
        = [("A", Side.Buy, 5, 2, 100)]) :=
  have hex : ∃ a ∈ exSelfCommit.serv.accnts, a.symbol = "A" := by decide
  have h := self_cross "A" exSelfTaker exSelfMaker 2 exSelfLoop exSelfCommit rfl rfl rfl hex
  ⟨⟨rfl, rfl, rfl, hex, by decide⟩,
    ⟨by decide, by decide, h.2.2.2.2.2.2.2.2.1, h.2.2.2.2.2.2.2.2.2.1⟩,
    ⟨by decide, by decide, by decide, by decide, by decide, by decide⟩⟩

theorem matchLoop_nocross (takerAccnt : Symbol) (takerOrder : Order) (direct : Direct)
    (now : Time) (makers : List Order) (st : MatchLoop)
    (h : ∀ mk ∈ makers, spread takerOrder mk direct > 0) :
    matchLoop takerAccnt takerOrder direct now makers st = st := by
  cases makers with
  | nil => rfl
  | cons mk rest =>
    unfold matchLoop
    split
    · rfl
    · rw [if_pos (h mk (List.mem_cons_self _ _))]

theorem matchOrders_nocross (s : Serv) (takerAccnt : Symbol) (market : Market)
    (takerOrder : Order) (now : Time) (resp : Response) (hm0 : s.matches_ = [])
    (h : ∀ mk ∈ (market.side takerOrder.side.opposite).orders,
      if takerOrder.side = Side.Buy then takerOrder.ticks < mk.ticks
      else mk.ticks < takerOrder.ticks) :
    matchOrders s takerAccnt market takerOrder now resp
      = { serv := s, market := market, resp := resp, takerOrder := takerOrder } := by
  unfold matchOrders matchOrdersSide
  by_cases hs : takerOrder.side = Side.Buy
  · rw [if_pos hs, matchLoop_nocross]
    · simp [hm0]
    · intro mk hmk
      have h1 := h mk (by rw [hs]; exact hmk)
      rw [if_pos hs] at h1
      unfold spread
      rw [if_pos rfl]
      exact Int.sub_pos.mpr h1
  · rw [if_neg hs, matchLoop_nocross]
    · simp [hm0]
    · intro mk hmk
      have hs2 : takerOrder.side = Side.Sell := by
        cases hc : takerOrder.side
        · exact absurd hc hs
        · rfl
      have h1 := h mk (by rw [hs2]; exact hmk)
      rw [if_neg hs] at h1
      unfold spread
      rw [if_neg (by decide)]
      exact Int.sub_pos.mpr h1

theorem Market.insertOrder_bump (m : Market) (o : Order) (n : Id64) :
    ({ (m.insertOrder o) with execSeq := n } : Market)
      = ({ m with execSeq := n } : Market).insertOrder o := by
  unfold Market.insertOrder
  cases o.side <;> rfl

/-- What `createOrder` leaves behind when it does not throw and the order crosses no resting
order: the order is reported, and rests in the book as created. -/
theorem createOrder_nocross (mq : MsgQueue) (busDay : Time → JDay) (s : Serv)
    (accnt : Symbol) (market : Market) (ref : String) (side : Side) (lots : Lots)
    (ticks : Ticks) (minLots : Lots) (now : Time) (resp : Response) (hm0 : s.matches_ = [])
    (hok : (createOrder mq busDay s accnt market ref side lots ticks minLots now resp).thrown
      = none)
    (hno : ∀ mk ∈ (market.side side.opposite).orders,
      if side = Side.Buy then ticks < mk.ticks else mk.ticks < ticks) :
    (createOrder mq busDay s accnt market ref side lots ticks minLots now resp).market
      = ({ market with execSeq := market.execSeq + 1 } : Market).insertOrder
          (Order.make accnt market.id market.instr market.settlDay (market.execSeq + 1) ref
            side lots ticks minLots now)
    ∧ Order.make accnt market.id market.instr market.settlDay (market.execSeq + 1) ref side
        lots ticks minLots now
      ∈ (createOrder mq busDay s accnt market ref side lots ticks minLots now resp).resp.orders
    ∧ lots ≠ 0 := by
  rw [createOrder_thrown] at hok
  split_ifs at hok with g1 g2 g3 g4
  have hl : lots ≠ 0 := fun h => g3 (Or.inl h)
  have hdone : (Order.make accnt market.id market.instr market.settlDay (market.execSeq + 1) ref
      side lots ticks minLots now).done = false := by
    show (lots == 0) = false
    simpa using hl
  have hmo := matchOrders_nocross ({ s with execs_ := s.execs_ ++ [newExec (Order.make accnt
      market.id market.instr market.settlDay (market.execSeq + 1) ref side lots ticks minLots
      now) (market.execSeq + 1) now] } : Serv) accnt
    ({ market with execSeq := market.execSeq + 1 } : Market)
    (Order.make accnt market.id market.instr market.settlDay (market.execSeq + 1) ref
      side lots ticks minLots now) now
    ((resp.insertOrder (Order.make accnt market.id market.instr market.settlDay
        (market.execSeq + 1) ref side lots ticks minLots now)).insertExec
      (newExec (Order.make accnt market.id market.instr market.settlDay (market.execSeq + 1) ref
        side lots ticks minLots now) (market.execSeq + 1) now)) hm0 hno
  have hr : createOrderReserve s accnt market ref side lots ticks minLots now resp
      = { serv := ({ s with execs_ := s.execs_ ++ [newExec (Order.make accnt
            market.id market.instr market.settlDay (market.execSeq + 1) ref side lots ticks
            minLots now) (market.execSeq + 1) now] } : Serv),
          market := ({ market with execSeq := market.execSeq + 1 } : Market).insertOrder
            (Order.make accnt market.id market.instr market.settlDay (market.execSeq + 1) ref
              side lots ticks minLots now),
          resp := ((((resp.insertOrder (Order.make accnt market.id market.instr market.settlDay
              (market.execSeq + 1) ref side lots ticks minLots now)).insertExec
            (newExec (Order.make accnt market.id market.instr market.settlDay
              (market.execSeq + 1) ref side lots ticks minLots now) (market.execSeq + 1)
              now)).writeOrder market.id (market.execSeq + 1)
              (fun _ => Order.make accnt market.id market.instr market.settlDay
                (market.execSeq + 1) ref side lots ticks minLots now)).setMarket market.id),
          order := Order.make accnt market.id market.instr market.settlDay (market.execSeq + 1)
            ref side lots ticks minLots now,
          exec := newExec (Order.make accnt market.id market.instr market.settlDay
            (market.execSeq + 1) ref side lots ticks minLots now) (market.execSeq + 1) now } := by
    unfold createOrderReserve
    simp only [Market.allocId]
    rw [hmo]
    simp only [hm0, hdone, List.isEmpty_nil, Bool.not_true, Bool.false_eq_true, if_false,
      Bool.not_false, if_true]
    rfl
  have hout : createOrder mq busDay s accnt market ref side lots ticks minLots now resp
      = { serv := { (createOrderCommit accnt now
            (createOrderReserve s accnt market ref side lots ticks minLots now resp)).serv
              with matches_ := [], execs_ := [] },
          market := (createOrderCommit accnt now
            (createOrderReserve s accnt market ref side lots ticks minLots now resp)).market,
          resp := (createOrderCommit accnt now
            (createOrderReserve s accnt market ref side lots ticks minLots now resp)).resp,
          thrown := none } := by
    unfold createOrder
    rw [if_neg g1, if_neg g2, if_neg g3]
    simp only []
    rw [if_pos g4]
  have hcm : (createOrderCommit accnt now
      (createOrderReserve s accnt market ref side lots ticks minLots now resp)).market
        = (createOrderReserve s accnt market ref side lots ticks minLots now resp).market
      ∧ (createOrderCommit accnt now
      (createOrderReserve s accnt market ref side lots ticks minLots now resp)).resp
        = (createOrderReserve s accnt market ref side lots ticks minLots now resp).resp := by
    have he : (createOrderReserve s accnt market ref side lots ticks minLots now
        resp).serv.matches_ = [] := by rw [hr]; exact hm0
    unfold createOrderCommit
    rw [he]
    exact ⟨rfl, rfl⟩
  rw [hout]
  refine ⟨?_, ?_, hl⟩
  · show (createOrderCommit accnt now _).market = _
    rw [hcm.1, hr]
  · show _ ∈ (createOrderCommit accnt now _).resp.orders
    rw [hcm.2, hr]
    show _ ∈ (resp.orders ++ [_]).map _
    refine List.mem_map.mpr ⟨_, List.mem_append_right _ (List.mem_singleton_self _), ?_⟩
    rw [if_pos (by simp [Order.sameKey, Order.make])]

/-- C17, counterexample.  `A` has Sell 3 @ 100 resting; `B` creates Buy 10 @ 100, which trades 3
lots, and then cancels it.  Neither call throws, yet the offer side, which held the order of `A`
before the create, is empty afterwards. -/
theorem create_cancel_counterexample :
    exOutA.market.Fresh ∧ exOutA.serv.matches_ = [] ∧ exOutB.thrown = none
    ∧ exOutB.resp.orders = [(exOutB.serv.getAccnt "B").orders.headD exTaker]
    ∧ exOutCancel.thrown = none
    ∧ exOutA.market.offerSide.orders.map (fun o => (o.accnt, o.resdLots, o.ticks))
        = [("A", 3, 100)]
    ∧ exOutCancel.market.offerSide.levels = []
    ∧ exOutCancel.market.offerSide ≠ exOutA.market.offerSide := by
  refine ⟨by decide, by decide, by decide, by decide, by decide, by decide, by decide,
    by decide⟩

/-- C17 (create then cancel), amended.  On a book whose levels are non-empty and whose resting
orders carry ids already handed out, when `createOrder` does not throw and the new order crosses
no resting order of the opposite side, cancelling the created order (the journal accepting)
does not throw and leaves both sides of the book equal to what they were before the create;
the market's metadata is unchanged and its exec id counter has advanced by two. -/
theorem create_cancel_restores_book (mq mq2 : MsgQueue) (busDay : Time → JDay) (s : Serv)
    (accnt : Symbol) (market : Market) (ref : String) (side : Side) (lots : Lots)
    (ticks : Ticks) (minLots : Lots) (now now2 : Time) (resp resp2 : Response)
    (hfresh : market.Fresh) (hm0 : s.matches_ = [])
    (hok : (createOrder mq busDay s accnt market ref side lots ticks minLots now resp).thrown
      = none)
    (hno : ∀ mk ∈ (market.side side.opposite).orders,
      if side = Side.Buy then ticks < mk.ticks else mk.ticks < ticks)
    (hmq2 : mq2 [(newExec (Order.make accnt market.id market.instr market.settlDay
      (market.execSeq + 1) ref side lots ticks minLots now) (market.execSeq + 2) now2).cancel]
      = true) :
    Order.make accnt market.id market.instr market.settlDay (market.execSeq + 1) ref side
        lots ticks minLots now
      ∈ (createOrder mq busDay s accnt market ref side lots ticks minLots now resp).resp.orders
    ∧ (cancelOrder mq2
        (createOrder mq busDay s accnt market ref side lots ticks minLots now resp).serv accnt
        (createOrder mq busDay s accnt market ref side lots ticks minLots now resp).market
        (Order.make accnt market.id market.instr market.settlDay (market.execSeq + 1) ref side
          lots ticks minLots now) now2 resp2).thrown = none
    ∧ (cancelOrder mq2
        (createOrder mq busDay s accnt market ref side lots ticks minLots now resp).serv accnt
        (createOrder mq busDay s accnt market ref side lots ticks minLots now resp).market
        (Order.make accnt market.id market.instr market.settlDay (market.execSeq + 1) ref side
          lots ticks minLots now) now2 resp2).market
      = { market with execSeq := market.execSeq + 2 } := by
  obtain ⟨h1, h2, hl⟩ := createOrder_nocross mq busDay s accnt market ref side lots ticks
    minLots now resp hm0 hok hno
  have hdone : (Order.make accnt market.id market.instr market.settlDay (market.execSeq + 1) ref
      side lots ticks minLots now).done = false := by
    show (lots == 0) = false
    simpa using hl
  have hseq : (({ market with execSeq := market.execSeq + 1 } : Market).insertOrder
      (Order.make accnt market.id market.instr market.settlDay (market.execSeq + 1) ref
        side lots ticks minLots now)).execSeq + 1 = market.execSeq + 2 := by
    rw [(Market.insertOrder_meta _ _).2]
  refine ⟨h2, ?_, ?_⟩
  · rw [h1]
    unfold cancelOrder
    rw [if_neg (by rw [hdone]; exact Bool.false_ne_true)]
    unfold doCancelOrder
    simp only [Market.allocId]
    rw [hseq, if_pos hmq2]
  · rw [h1]
    unfold cancelOrder
    rw [if_neg (by rw [hdone]; exact Bool.false_ne_true)]
    unfold doCancelOrder
    simp only [Market.allocId]
    rw [hseq, if_pos hmq2]
    show Market.cancelOrder _ _ _ = _
    rw [Market.insertOrder_bump, Market.cancelOrder_eq_mapSide, ← Market.removeOrder_eq_mapSide]
    exact Market.removeOrder_insertOrder
      ({ market with execSeq := market.execSeq + 2 } : Market) _ market.execSeq
      (Nat.lt_succ_self _) hfresh.1 hfresh.2

theorem create_cancel_restores_book_witness :
    (exOut1.market.Fresh ∧ exOut1.serv.matches_ = [] ∧ exOutBid.thrown = none
      ∧ exOut1.market.offerSide.orders.map (fun o => (o.accnt, o.resdLots, o.ticks))
          = [("A", 5, 100)]
      ∧ exOutBid.market.bidSide.orders.map (fun o => (o.accnt, o.resdLots, o.ticks))
          = [("B", 4, 90)])
    ∧ (cancelOrder exMq exOutBid.serv "B" exOutBid.market
        (Order.make "B" exOut1.market.id exOut1.market.instr exOut1.market.settlDay
          (exOut1.market.execSeq + 1) "" Side.Buy 4 90 0 2) 3 Response.empty).thrown = none
    ∧ (cancelOrder exMq exOutBid.serv "B" exOutBid.market
        (Order.make "B" exOut1.market.id exOut1.market.instr exOut1.market.settlDay
          (exOut1.market.execSeq + 1) "" Side.Buy 4 90 0 2) 3 Response.empty).market
      = { exOut1.market with execSeq := exOut1.market.execSeq + 2 } :=
  have hf : exOut1.market.Fresh := by decide
  have hm0 : exOut1.serv.matches_ = [] := by decide
  have hok : exOutBid.thrown = none := by decide
  have h := create_cancel_restores_book exMq exMq exBusDay exOut1.serv "B" exOut1.market ""
    Side.Buy 4 90 0 2 3 Response.empty Response.empty hf hm0 hok (by decide) rfl
  ⟨⟨hf, hm0, hok, by decide, by decide⟩, h.2.1, h.2.2⟩

theorem commitMatch_frame (takerAccnt : Symbol) (now : Time) (m : Match) (c : Committed) :
    (commitMatch takerAccnt now m c).serv.markets = c.serv.markets
    ∧ (commitMatch takerAccnt now m c).serv.maxExecs = c.serv.maxExecs
    ∧ (commitMatch takerAccnt now m c).market.id = c.market.id := by
  unfold commitMatch
  simp only []
  refine ⟨?_, ?_, (Market.takeOrder_meta _ _ _ _).1⟩
  · split <;> rfl
  · split <;> rfl

theorem commitMatches_frame (takerAccnt : Symbol) (now : Time) :
    ∀ (ms : List Match) (c : Committed),
      (commitMatches takerAccnt now ms c).serv.markets = c.serv.markets
      ∧ (commitMatches takerAccnt now ms c).serv.maxExecs = c.serv.maxExecs
      ∧ (commitMatches takerAccnt now ms c).market.id = c.market.id := by
  intro ms
  induction ms with
  | nil => intro c; exact ⟨rfl, rfl, rfl⟩
  | cons m ms ih =>
    intro c
    obtain ⟨h1, h2, h3⟩ := commitMatch_frame takerAccnt now m c
    obtain ⟨i1, i2, i3⟩ := ih (commitMatch takerAccnt now m c)
    rw [commitMatches]
    exact ⟨i1.trans h1, i2.trans h2, i3.trans h3⟩

theorem createOrder_framed (mq : MsgQueue) (busDay : Time → JDay) (s : Serv) (accnt : Symbol)
    (market : Market) (ref : String) (side : Side) (lots : Lots) (ticks : Ticks)
    (minLots : Lots) (now : Time) (resp : Response) :
    (createOrder mq busDay s accnt market ref side lots ticks minLots now resp).Framed s
      market := by
  obtain ⟨-, ⟨n, f2⟩, -, f4, f5⟩ := createOrderReserve_footprint s accnt market ref side lots
    ticks minLots now resp
  have hrid : (createOrderReserve s accnt market ref side lots ticks minLots now
      resp).market.id = market.id :=
    (createOrderReserve_meta s accnt market ref side lots ticks minLots now resp).1
  unfold createOrder
  split
  · exact ⟨rfl, rfl, fun h => h, rfl⟩
  · split
    · exact ⟨rfl, rfl, fun h => h, rfl⟩
    · split
      · exact ⟨rfl, rfl, fun h => h, rfl⟩
      · simp only []
        split
        · have hc : (createOrderCommit accnt now (createOrderReserve s accnt market ref side
              lots ticks minLots now resp)).serv.markets = s.markets
            ∧ (createOrderCommit accnt now (createOrderReserve s accnt market ref side
              lots ticks minLots now resp)).serv.maxExecs = s.maxExecs
            ∧ (createOrderCommit accnt now (createOrderReserve s accnt market ref side
              lots ticks minLots now resp)).market.id = market.id := by
            unfold createOrderCommit
            simp only []
            split
            · refine ⟨?_, ?_, ?_⟩
              · rw [(commitMatches_frame accnt now _ _).1]; split <;> exact f4
              · rw [(commitMatches_frame accnt now _ _).2.1]; split <;> exact f5
              · rw [(commitMatches_frame accnt now _ _).2.2]; exact hrid
            · refine ⟨?_, ?_, hrid⟩
              · split <;> exact f4
              · split <;> exact f5
          exact ⟨hc.1, hc.2.1, fun _ => rfl, hc.2.2⟩
        · refine ⟨f4, f5, fun _ => rfl, ?_⟩
          show (if _ then _ else _ : Market).id = market.id
          split
          · rw [(Market.removeOrder_meta _ _).1]; exact hrid
          · exact hrid

theorem doReviseOrder_framed (mq : MsgQueue) (s : Serv) (accnt : Symbol) (market : Market)
    (order : Order) (lots : Lots) (now : Time) (resp : Response) :
    (doReviseOrder mq s accnt market order lots now resp).Framed s market := by
  unfold doReviseOrder
  split
  · exact ⟨rfl, rfl, fun h => h, rfl⟩
  · simp only []
    split
    · exact ⟨rfl, rfl, fun h => h, (Market.reviseOrder_meta _ _ _ _).1⟩
    · exact ⟨rfl, rfl, fun h => h, rfl⟩

theorem doCancelOrder_framed (mq : MsgQueue) (s : Serv) (accnt : Symbol) (market : Market)
    (order : Order) (now : Time) (resp : Response) :
    (doCancelOrder mq s accnt market order now resp).Framed s market := by
  unfold doCancelOrder
  simp only []
  split
  · exact ⟨rfl, rfl, fun h => h, (Market.cancelOrder_meta _ _ _).1⟩
  · exact ⟨rfl, rfl, fun h => h, rfl⟩

theorem reviseCommitLoop_framed (accnt : Symbol) (lots : Lots) (now : Time) :
    ∀ (execs : List Exec) (s : Serv) (market : Market) (resp : Response),
      (reviseCommitLoop accnt lots now execs s market resp).Framed s market := by
  intro execs
  induction execs with
  | nil => intro s market resp; exact ⟨rfl, rfl, fun h => h, rfl⟩
  | cons e execs ih =>
    intro s market resp
    rw [reviseCommitLoop]
    split
    · exact ⟨rfl, rfl, fun h => h, rfl⟩
    · obtain ⟨i1, i2, i3, i4⟩ := ih
        ((s.writeAccnt accnt (fun a => a.writeOrder _ _ _)).writeAccnt accnt
          (fun a => a.pushExecFront e)) (market.reviseOrder _ lots now)
        (resp.writeOrder _ _ _)
      exact ⟨i1, i2, i3, i4.trans (Market.reviseOrder_meta _ _ _ _).1⟩

theorem cancelCommitLoop_framed (accnt : Symbol) (now : Time) :
    ∀ (execs : List Exec) (s : Serv) (market : Market) (resp : Response),
      (cancelCommitLoop accnt now execs s market resp).Framed s market := by
  intro execs
  induction execs with
  | nil => intro s market resp; exact ⟨rfl, rfl, fun h => h, rfl⟩
  | cons e execs ih =>
    intro s market resp
    rw [cancelCommitLoop]
    split
    · exact ⟨rfl, rfl, fun h => h, rfl⟩
    · obtain ⟨i1, i2, i3, i4⟩ := ih
        ((s.writeAccnt accnt (fun a => a.removeOrder _)).writeAccnt accnt
          (fun a => a.pushExecFront e)) (market.cancelOrder _ now)
        (resp.writeOrder _ _ _)
      exact ⟨i1, i2, i3, i4.trans (Market.cancelOrder_meta _ _ _).1⟩

/-- Every order request leaves the set of markets, the capacity and the clear scratch buffer as
they are, and the market keeps its id. -/
theorem Op.run_framed (mq : MsgQueue) (busDay : Time → JDay) (s : Serv) (market : Market)
    (op : Op) : (op.run mq busDay s market).Framed s market := by
  cases op with
  | create a mid ref side lots ticks minLots now =>
    exact createOrder_framed mq busDay s a market ref side lots ticks minLots now _
  | revise a mid order lots now =>
    show (reviseOrder mq s a market order lots now _).Framed s market
    unfold reviseOrder
    split
    · exact ⟨rfl, rfl, fun h => h, rfl⟩
    · exact doReviseOrder_framed mq s a market order lots now _
  | reviseById a mid id lots now =>
    show (reviseOrderById mq s a market id lots now _).Framed s market
    unfold reviseOrderById
    split
    · exact ⟨rfl, rfl, fun h => h, rfl⟩
    · split
      · exact ⟨rfl, rfl, fun h => h, rfl⟩
      · exact doReviseOrder_framed mq s a market _ lots now _
  | reviseByRef a mid ref lots now =>
    show (reviseOrderByRef mq s a market ref lots now _).Framed s market
    unfold reviseOrderByRef
    split
    · exact ⟨rfl, rfl, fun h => h, rfl⟩
    · split
      · exact ⟨rfl, rfl, fun h => h, rfl⟩
      · exact doReviseOrder_framed mq s a market _ lots now _
  | reviseBatch a mid ids lots now =>
    show (reviseOrderBatch mq s a market ids lots now _).Framed s market
    obtain ⟨hs, hid, -⟩ := reviseReserveLoop_meta s a lots now ids market
      (Response.empty.setMarket market.id)
    unfold reviseOrderBatch
    simp only []
    split
    · refine ⟨?_, ?_, ?_, hid⟩
      · show (reviseReserveLoop s a lots now ids market _).serv.markets = _
        rw [hs]
      · show (reviseReserveLoop s a lots now ids market _).serv.maxExecs = _
        rw [hs]
      · show _ → (reviseReserveLoop s a lots now ids market _).serv.matches_ = _
        rw [hs]; exact fun h => h
    · split
      · obtain ⟨i1, i2, i3, i4⟩ := reviseCommitLoop_framed a lots now
          (reviseReserveLoop s a lots now ids market
            (Response.empty.setMarket market.id)).resp.execs
          { s with journ := s.journ ++ [(reviseReserveLoop s a lots now ids market
            (Response.empty.setMarket market.id)).resp.execs] }
          (reviseReserveLoop s a lots now ids market (Response.empty.setMarket market.id)).market
          (reviseReserveLoop s a lots now ids market (Response.empty.setMarket market.id)).resp
        exact ⟨i1, i2, i3, i4.trans hid⟩
      · refine ⟨?_, ?_, ?_, hid⟩
        · show (reviseReserveLoop s a lots now ids market _).serv.markets = _
          rw [hs]
        · show (reviseReserveLoop s a lots now ids market _).serv.maxExecs = _
          rw [hs]
        · show _ → (reviseReserveLoop s a lots now ids market _).serv.matches_ = _
          rw [hs]; exact fun h => h
  | cancel a mid order now =>
    show (cancelOrder mq s a market order now _).Framed s market
    unfold cancelOrder
    split
    · exact ⟨rfl, rfl, fun h => h, rfl⟩
    · exact doCancelOrder_framed mq s a market order now _
  | cancelById a mid id now =>
    show (cancelOrderById mq s a market id now _).Framed s market
    unfold cancelOrderById
    split
    · exact ⟨rfl, rfl, fun h => h, rfl⟩
    · split
      · exact ⟨rfl, rfl, fun h => h, rfl⟩
      · exact doCancelOrder_framed mq s a market _ now _
  | cancelByRef a mid ref now =>
    show (cancelOrderByRef mq s a market ref now _).Framed s market
    unfold cancelOrderByRef
    split
    · exact ⟨rfl, rfl, fun h => h, rfl⟩
    · split
      · exact ⟨rfl, rfl, fun h => h, rfl⟩
      · exact doCancelOrder_framed mq s a market _ now _
  | cancelBatch a mid ids now =>
    show (cancelOrderBatch mq s a market ids now _).Framed s market
    obtain ⟨hs, hid, -⟩ := cancelReserveLoop_meta s a now ids market
      (Response.empty.setMarket market.id)
    unfold cancelOrderBatch
    simp only []
    split
    · refine ⟨?_, ?_, ?_, hid⟩
      · show (cancelReserveLoop s a now ids market _).serv.markets = _
        rw [hs]
      · show (cancelReserveLoop s a now ids market _).serv.maxExecs = _
        rw [hs]
      · show _ → (cancelReserveLoop s a now ids market _).serv.matches_ = _
        rw [hs]; exact fun h => h
    · split
      · obtain ⟨i1, i2, i3, i4⟩ := cancelCommitLoop_framed a now
          (cancelReserveLoop s a now ids market
            (Response.empty.setMarket market.id)).resp.execs
          { s with journ := s.journ ++ [(cancelReserveLoop s a now ids market
            (Response.empty.setMarket market.id)).resp.execs] }
          (cancelReserveLoop s a now ids market (Response.empty.setMarket market.id)).market
          (cancelReserveLoop s a now ids market (Response.empty.setMarket market.id)).resp
        exact ⟨i1, i2, i3, i4.trans hid⟩
      · refine ⟨?_, ?_, ?_, hid⟩
        · show (cancelReserveLoop s a now ids market _).serv.markets = _
          rw [hs]
        · show (cancelReserveLoop s a now ids market _).serv.maxExecs = _
          rw [hs]
        · show _ → (cancelReserveLoop s a now ids market _).serv.matches_ = _
          rw [hs]; exact fun h => h

theorem Serv.RefInv_write (s : Serv) (sym : Symbol) (f : Accnt → Accnt)
    (hf : Accnt.Neutral f) (h : s.RefInv) : (s.writeAccnt sym f).RefInv := by
  obtain ⟨h1, h2⟩ := h
  refine ⟨?_, ?_⟩
  · have hsym : (s.writeAccnt sym f).accnts.map (fun a => a.symbol)
        = s.accnts.map (fun a => a.symbol) := by
      show (s.accnts.map (fun a => if a.symbol = sym then f a else a)).map _ = _
      rw [List.map_map]
      apply List.map_congr_left
      intro a _
      show (if a.symbol = sym then f a else a).symbol = a.symbol
      split
      · exact (hf a).1
      · rfl
    rw [hsym]
    exact h1
  · intro a ha
    obtain ⟨b, hb, hba⟩ := List.mem_map.mp ha
    subst hba
    show (if b.symbol = sym then f b else b).Good (Order.Allocated s.markets)
    split
    · exact (hf b).2 _ (KeyPred.allocated s.markets) (h2 b hb)
    · exact h2 b hb

theorem createTrade_refInv (mq : MsgQueue) (s : Serv) (accnt : Symbol) (market : Market)
    (ref : String) (side : Side) (lots : Lots) (ticks : Ticks) (liqInd : LiqInd)
    (cpty : Symbol) (created : Time) (h : s.RefInv) :
    (createTrade mq s accnt market ref side lots ticks liqInd cpty created).serv.RefInv
    ∧ (createTrade mq s accnt market ref side lots ticks liqInd cpty created).serv.markets
        = s.markets
    ∧ (createTrade mq s accnt market ref side lots ticks liqInd cpty created).serv.matches_
        = s.matches_
    ∧ ∃ n, (createTrade mq s accnt market ref side lots ticks liqInd cpty created).market
        = { market with execSeq := market.execSeq + n } := by
  have h1 : (s.writeAccnt accnt
      (fun a => a.posn market.id market.instr market.settlDay)).RefInv :=
    Serv.RefInv_write _ _ _ (neutral_posn _ _ _) h
  have h2 : (((s.writeAccnt accnt
      (fun a => a.posn market.id market.instr market.settlDay)).accnt cpty).writeAccnt cpty
      (fun a => a.posn market.id market.instr market.settlDay)).RefInv :=
    Serv.RefInv_write _ _ _ (neutral_posn _ _ _) (Serv.RefInv.accnt _ _ h1).1
  unfold createTrade
  simp only []
  split
  · split
    · refine ⟨?_, rfl, rfl, 2, rfl⟩
      apply Serv.RefInv_write _ _ _ (neutral_addTrade _ _ _ _ _ _)
      apply Serv.RefInv_write _ _ _ (neutral_push_insertTrade _ _)
      apply Serv.RefInv_write _ _ _ (neutral_addTrade _ _ _ _ _ _)
      apply Serv.RefInv_write _ _ _ (neutral_push_insertTrade _ _)
      exact h2
    · exact ⟨h2, rfl, rfl, 2, rfl⟩
  · split
    · refine ⟨?_, rfl, rfl, 1, rfl⟩
      apply Serv.RefInv_write _ _ _ (neutral_addTrade _ _ _ _ _ _)
      apply Serv.RefInv_write _ _ _ (neutral_push_insertTrade _ _)
      exact h1
    · exact ⟨h1, rfl, rfl, 1, rfl⟩

theorem Serv.market_id (s : Serv) (id : Id64) (m : Market)
    (h : s.market id = Except.ok m) : m.id = id := by
  unfold Serv.market at h
  cases hf : s.markets.find? (fun m => m.id == id) with
  | none => rw [hf] at h; cases h
  | some x =>
    rw [hf] at h
    have h1 := List.find?_some hf
    cases h
    simpa using h1

/-- Storing a market whose counter has advanced keeps the invariant behind the uniqueness of
refs. -/
theorem Serv.RefInv.store (s t : Serv) (market m2 : Market) (hm : market ∈ s.markets)
    (hid : m2.id = market.id) (hle : market.execSeq ≤ m2.execSeq)
    (hmk : t.markets = s.markets) (h : t.RefInv) : (t.storeMarket m2).RefInv := by
  refine ⟨h.1, ?_⟩
  intro a ha
  refine Accnt.Good.weaken _ _ a ?_ (h.2 a ha)
  intro o ho x hx hxid
  have hx2 : x ∈ t.markets.map (fun y => if y.id = m2.id then m2 else y) := hx
  obtain ⟨y, hy, hyx⟩ := List.mem_map.mp hx2
  by_cases hyi : y.id = m2.id
  · rw [if_pos hyi] at hyx
    subst hyx
    exact le_trans (ho market (by rw [hmk]; exact hm) (by rw [← hid]; exact hxid)) hle
  · rw [if_neg hyi] at hyx
    subst hyx
    exact ho y hy hxid

/-- Every call but `load` keeps the invariant behind the uniqueness of refs. -/
theorem Serv.RefInv_request (mq : MsgQueue) (busDay : Time → JDay) (s : Serv) (r : Request)
    (hv : r.valid s = true) (h : s.RefInv) : (s.request mq busDay r).RefInv := by
  cases r with
  | op o => exact Serv.RefInv.apply mq busDay s o h
  | trade a mid ref side lots ticks liqInd cpty created =>
    show (match s.market mid with
      | Except.error _ => s
      | Except.ok market =>
        (createTrade mq (s.accnt a) a market ref side lots ticks liqInd cpty created).serv.storeMarket
          (createTrade mq (s.accnt a) a market ref side lots ticks liqInd cpty created).market).RefInv
    split
    · exact h
    · rename_i market hmk
      obtain ⟨c1, c2, -, n, c4⟩ := createTrade_refInv mq (s.accnt a) a market ref side lots
        ticks liqInd cpty created (Serv.RefInv.accnt s a h).1
      apply Serv.RefInv.store s _ market _ (Serv.market_mem s mid market hmk) _ _ c2 c1
      · rw [c4]
      · rw [c4]; exact Nat.le_add_right _ _
  | load model now => cases hv

theorem Operating_refInv (busDay : Time → JDay) (s : Serv) (h : Operating busDay s) :
    s.RefInv := by
  induction h with
  | init s hs =>
    obtain ⟨ha, -⟩ := hs
    refine ⟨by rw [ha]; exact List.Pairwise.nil, ?_⟩
    intro a hmem
    rw [ha] at hmem
    cases hmem
  | step s mq r _ hv ih => exact Serv.RefInv_request mq busDay s r hv ih

theorem Serv.RefInv.refSub (s : Serv) (h : s.RefInv) (sym : Symbol) :
    ∀ o ∈ (s.getAccnt sym).refIdx, o ∈ (s.getAccnt sym).orders := by
  unfold Serv.getAccnt Serv.findAccnt
  cases hf : s.accnts.find? (fun a => a.symbol == sym) with
  | none =>
    intro o ho
    simp [Accnt.make] at ho
  | some a =>
    intro o ho
    have ha := List.mem_of_find?_eq_some hf
    have hr := (h.2 a ha).1.1
    have ho2 : o ∈ a.refIdx := ho
    rw [hr] at ho2
    exact (List.mem_filter.mp ho2).1

theorem BookInv_accnt (Q : Order → Prop) (s : Serv) (m : Market) (sym : Symbol)
    (h : BookInv Q [] s.accnts m) : BookInv Q [] (s.accnt sym).accnts m := by
  refine ⟨h.1, ?_⟩
  intro a ha o ho
  rcases accntInsert_mem sym s.maxExecs s.accnts a ha with h1 | h1
  · exact h.2 a h1 o ho
  · subst h1
    simp [Accnt.make] at ho

theorem createTrade_bookInv (Q : Order → Prop) (m : Market) (mq : MsgQueue) (s : Serv)
    (accnt : Symbol) (market : Market) (ref : String) (side : Side) (lots : Lots)
    (ticks : Ticks) (liqInd : LiqInd) (cpty : Symbol) (created : Time)
    (h : BookInv Q [] s.accnts m) :
    BookInv Q []
      (createTrade mq s accnt market ref side lots ticks liqInd cpty created).serv.accnts m := by
  have h1 : BookInv Q [] (s.writeAccnt accnt
      (fun a => a.posn market.id market.instr market.settlDay)).accnts m :=
    BookInv.inertS Q [] _ m _ _ (inert_posn _ _ _) h
  have h2 : BookInv Q [] (((s.writeAccnt accnt
      (fun a => a.posn market.id market.instr market.settlDay)).accnt cpty).writeAccnt cpty
      (fun a => a.posn market.id market.instr market.settlDay)).accnts m :=
    BookInv.inertS Q [] _ m _ _ (inert_posn _ _ _) (BookInv_accnt Q _ m cpty h1)
  unfold createTrade
  simp only []
  split
  · split
    · apply BookInv.inertS Q [] _ m _ _ (inert_addTrade _ _ _ _ _ _)
      apply BookInv.inertS Q [] _ m _ _ (inert_push_insertTrade _ _)
      apply BookInv.inertS Q [] _ m _ _ (inert_addTrade _ _ _ _ _ _)
      apply BookInv.inertS Q [] _ m _ _ (inert_push_insertTrade _ _)
      exact h2
    · exact h2
  · split
    · apply BookInv.inertS Q [] _ m _ _ (inert_addTrade _ _ _ _ _ _)
      apply BookInv.inertS Q [] _ m _ _ (inert_push_insertTrade _ _)
      exact h1
    · exact h1

theorem Serv.BooksOk_apply (mq : MsgQueue) (busDay : Time → JDay) (s : Serv) (op : Op)
    (hr : s.RefInv) (hb : s.BooksOk) (hv : op.valid (s.accnt op.accnt) op.marketId = true) :
    (s.apply mq busDay op).BooksOk := by
  unfold Serv.apply
  split
  · exact hb
  · rename_i market hmk
    have hm := Serv.market_mem s _ market hmk
    have hid := Serv.market_id s _ market hmk
    have hbi0 : BookInv (fun o => ∀ m2 ∈ s.markets, m2.id = o.marketId → o ∈ m2.orders) []
        (s.accnt op.accnt).accnts market := by
      apply BookInv_accnt
      refine ⟨(hb.2 market hm).1, ?_⟩
      intro a ha o ho
      obtain ⟨k1, k2, -⟩ := (hb.2 market hm).2 a ha o ho
      refine ⟨k1, k2, ?_⟩
      intro _ m2 hm2 hid2
      rcases ((hb.2 m2 hm2).2 a ha o ho).2.1 hid2.symm with h | h
      · exact h
      · cases h
    have hbi := Op.run_bookInv _ mq busDay (s.accnt op.accnt) market op hbi0 hb.1
      (Serv.RefInv.refSub _ (Serv.RefInv.accnt s op.accnt hr).1) (by rw [hid]; exact hv)
    obtain ⟨f1, -, f3, f4⟩ := Op.run_framed mq busDay (s.accnt op.accnt) market op
    refine ⟨f3 hb.1, ?_⟩
    intro m hmem
    have hmem2 : m ∈ (op.run mq busDay (s.accnt op.accnt) market).serv.markets.map
        (fun x => if x.id = (op.run mq busDay (s.accnt op.accnt) market).market.id
          then (op.run mq busDay (s.accnt op.accnt) market).market else x) := hmem
    rw [f1] at hmem2
    obtain ⟨x, hx, hxm⟩ := List.mem_map.mp hmem2
    have hx2 : x ∈ s.markets := hx
    by_cases hxi : x.id = (op.run mq busDay (s.accnt op.accnt) market).market.id
    · rw [if_pos hxi] at hxm
      subst hxm
      refine ⟨hbi.1, ?_⟩
      intro a ha o ho
      obtain ⟨k1, k2, -⟩ := hbi.2 a ha o ho
      exact ⟨k1, k2, fun _ => trivial⟩
    · rw [if_neg hxi] at hxm
      subst hxm
      refine ⟨(hb.2 x hx2).1, ?_⟩
      intro a ha o ho
      obtain ⟨k1, -, k3⟩ := hbi.2 a ha o ho
      refine ⟨k1, ?_, fun _ => trivial⟩
      intro ho2
      exact Or.inl (k3 (by rw [ho2]; exact hxi) x hx2 ho2.symm)

theorem Serv.BooksOk_request (mq : MsgQueue) (busDay : Time → JDay) (s : Serv) (r : Request)
    (hv : r.valid s = true) (hr : s.RefInv) (hb : s.BooksOk) :
    (s.request mq busDay r).BooksOk := by
  cases r with
  | op o => exact Serv.BooksOk_apply mq busDay s o hr hb hv
  | trade a mid ref side lots ticks liqInd cpty created =>
    show (match s.market mid with
      | Except.error _ => s
      | Except.ok market =>
        (createTrade mq (s.accnt a) a market ref side lots ticks liqInd cpty created).serv.storeMarket
          (createTrade mq (s.accnt a) a market ref side lots ticks liqInd cpty created).market).BooksOk
    split
    · exact hb
    · rename_i market hmk
      have hm := Serv.market_mem s _ market hmk
      obtain ⟨-, c2, c3, n, c4⟩ := createTrade_refInv mq (s.accnt a) a market ref side lots
        ticks liqInd cpty created (Serv.RefInv.accnt s a hr).1
      have hall : ∀ m ∈ s.markets, BookInv (fun _ => True) []
          (createTrade mq (s.accnt a) a market ref side lots ticks liqInd cpty
            created).serv.accnts m := fun m hmm =>
        createTrade_bookInv _ m mq (s.accnt a) a market ref side lots ticks liqInd cpty created
          (BookInv_accnt _ s m a (hb.2 m hmm))
      refine ⟨c3.trans hb.1, ?_⟩
      intro m hmem
      have hmem2 : m ∈ (createTrade mq (s.accnt a) a market ref side lots ticks liqInd cpty
          created).serv.markets.map
          (fun x => if x.id = (createTrade mq (s.accnt a) a market ref side lots ticks liqInd
            cpty created).market.id
            then (createTrade mq (s.accnt a) a market ref side lots ticks liqInd cpty
              created).market else x) := hmem
      rw [c2] at hmem2
      obtain ⟨x, hx, hxm⟩ := List.mem_map.mp hmem2
      have hx2 : x ∈ s.markets := hx
      split at hxm
      · subst hxm
        rw [c4]
        exact BookInv.grow _ _ market _ (hall market hm) (Market.Ok.bump market n
          (hb.2 market hm).1) rfl (fun _ hy => hy)
      · subst hxm
        exact hall x hx2
  | load model now => cases hv

theorem Serv.Initial_booksOk (s : Serv) (h : s.Initial) : s.BooksOk := by
  obtain ⟨ha, hm, -, -, he⟩ := h
  refine ⟨hm, ?_⟩
  intro m hmem
  obtain ⟨e1, e2⟩ := he m hmem
  refine ⟨?_, ?_⟩
  · have ho : m.orders = [] := by
      unfold Market.orders MarketSide.orders
      rw [e1, e2]
      rfl
    refine ⟨by rw [e1], by rw [e2], ?_, ?_, ?_, ?_⟩
    · rw [e1]
      exact ⟨List.Pairwise.nil, fun l hl => by cases hl⟩
    · rw [e2]
      exact ⟨List.Pairwise.nil, fun l hl => by cases hl⟩
    · intro x hx
      rw [ho] at hx
      cases hx
    · intro x hx
      rw [ho] at hx
      cases hx
  · intro a hmem2
    rw [ha] at hmem2
    cases hmem2

theorem Operating_booksOk (busDay : Time → JDay) (s : Serv) (h : Operating busDay s) :
    s.RefInv ∧ s.BooksOk := by
  induction h with
  | init s hs =>
    exact ⟨Operating_refInv busDay s (ReachBy.init s hs), Serv.Initial_booksOk s hs⟩
  | step s mq r _ hv ih =>
    exact ⟨Serv.RefInv_request mq busDay s r hv ih.1,
      Serv.BooksOk_request mq busDay s r hv ih.1 ih.2⟩

/-- C11 (book-level invariant).  In every state the service reaches from one with empty books
by calls of `createOrder`, `reviseOrder`, `cancelOrder` (all overloads, each naming an order of
the market it is made on) and `createTrade`, whatever the message queue answers, every market's
bid levels are in strictly descending and its offer levels in strictly ascending price order,
and every level of either side is non-empty, has `count` equal to the number of orders queued
and `lots` equal to the sum of their `resdLots`, holds orders of its own price and side only,
and queues them in arrival order, which is the order of their ids. -/
theorem book_level_invariant (busDay : Time → JDay) (s : Serv) (h : Operating busDay s) :
    ∀ m ∈ s.markets,
      m.bidSide.levels.Pairwise (fun a b => b.ticks < a.ticks)
      ∧ m.offerSide.levels.Pairwise (fun a b => a.ticks < b.ticks)
      ∧ ∀ sd : Side, ∀ l ∈ (m.side sd).levels,
          l.queue ≠ [] ∧ l.count = l.queue.length
          ∧ l.lots = (l.queue.map (fun o => o.resdLots)).sum
          ∧ (∀ x ∈ l.queue, x.ticks = l.ticks ∧ x.side = sd)
          ∧ l.queue.Pairwise (fun x y => x.id < y.id) := by
  intro m hm
  obtain ⟨hb, hs, hbo, hso, -, -⟩ := ((Operating_booksOk busDay s h).2.2 m hm).1
  refine ⟨?_, ?_, ?_⟩
  · refine List.Pairwise.imp ?_ hbo.1
    intro a b hab
    rw [hb] at hab
    exact of_decide_eq_true hab
  · refine List.Pairwise.imp ?_ hso.1
    intro a b hab
    rw [hs] at hab
    exact of_decide_eq_true hab
  · intro sd l hl
    cases sd
    · have := hbo.2 l hl
      rw [hb] at this
      exact this
    · have := hso.2 l hl
      rw [hs] at this
      exact this

theorem book_level_invariant_witness :
    Operating exBusDay exCross
    ∧ exCrossMarket ∈ exCross.markets
    ∧ exCrossMarket.bidSide.levels.map (fun l => (l.ticks, l.lots, l.count)) = [(100, 6, 1)]
    ∧ (exCrossMarket.bidSide.levels.Pairwise (fun a b => b.ticks < a.ticks)
      ∧ exCrossMarket.offerSide.levels.Pairwise (fun a b => a.ticks < b.ticks)
      ∧ ∀ sd : Side, ∀ l ∈ (exCrossMarket.side sd).levels,
          l.queue ≠ [] ∧ l.count = l.queue.length
          ∧ l.lots = (l.queue.map (fun o => o.resdLots)).sum
          ∧ (∀ x ∈ l.queue, x.ticks = l.ticks ∧ x.side = sd)
          ∧ l.queue.Pairwise (fun x y => x.id < y.id)) :=
  have h0 : Operating exBusDay exEngine0 :=
    ReachBy.init exEngine0 ⟨rfl, rfl, rfl, rfl, fun m hm => by
      have hm2 : m = exMarket0 := by simpa [exEngine0] using hm
      subst hm2
      exact ⟨rfl, rfl⟩⟩
  have h1 : Operating exBusDay
      (exEngine0.request exMq exBusDay (Request.op (Op.create "B" 7 "" Side.Sell 4 100 0 1))) :=
    ReachBy.step _ exMq _ h0 rfl
  have hr : Operating exBusDay exCross :=
    ReachBy.step _ exMq (Request.op (Op.create "A" 7 "" Side.Buy 10 100 0 2)) h1 rfl
  have hm : exCrossMarket ∈ exCross.markets := by decide
  ⟨hr, hm, by decide, book_level_invariant exBusDay exCross hr exCrossMarket hm⟩

theorem Measure.lots : Measure (fun p => p.netLots) signedLots := by
  refine ⟨?_, fun _ _ _ _ => rfl⟩
  intro p sd l t
  cases sd
  · show p.netLots + l = p.netLots + 1 * l
    rw [Int.one_mul]
  · show p.netLots - l = p.netLots + -1 * l
    rw [Int.neg_mul, Int.one_mul, Int.sub_eq_add_neg]

theorem Measure.cost : Measure (fun p => p.netCost) signedCost := by
  refine ⟨?_, fun _ _ _ _ => rfl⟩
  intro p sd l t
  cases sd
  · show p.netCost + l * t = p.netCost + 1 * (l * t)
    rw [Int.one_mul]
  · show p.netCost - l * t = p.netCost + -1 * (l * t)
    rw [Int.neg_mul, Int.one_mul, Int.sub_eq_add_neg]

theorem Posn_sameKey_iff (p : Posn) (i : Id64) (n : Symbol) (d : JDay) :
    p.sameKey i n d = true ↔ p.marketId = i ∧ p.instr = n ∧ p.settlDay = d := by
  unfold Posn.sameKey
  simp [and_assoc]

theorem Posn.sameKey_addTrade (p : Posn) (sd : Side) (l : Lots) (t : Ticks) (i : Id64)
    (n : Symbol) (d : JDay) : (p.addTrade sd l t).sameKey i n d = p.sameKey i n d := by
  cases sd <;> rfl

theorem tradeSum_nil (W : Side → Lots → Ticks → Int) (sym : Symbol) (i : Id64) (n : Symbol)
    (d : JDay) : tradeSum W [] sym i n d = 0 := rfl

theorem tradeSum_append (W : Side → Lots → Ticks → Int) (es es2 : List Exec) (sym : Symbol)
    (i : Id64) (n : Symbol) (d : JDay) :
    tradeSum W (es ++ es2) sym i n d = tradeSum W es sym i n d + tradeSum W es2 sym i n d := by
  unfold tradeSum
  rw [List.filter_append, List.map_append, List.sum_append]

theorem tradeSum_cons (W : Side → Lots → Ticks → Int) (e : Exec) (es : List Exec)
    (sym : Symbol) (i : Id64) (n : Symbol) (d : JDay) :
    tradeSum W (e :: es) sym i n d = tradeSum W [e] sym i n d + tradeSum W es sym i n d :=
  tradeSum_append W [e] es sym i n d

theorem tradeSum_single (W : Side → Lots → Ticks → Int) (e : Exec) (sym : Symbol) (i : Id64)
    (n : Symbol) (d : JDay) :
    tradeSum W [e] sym i n d
      = if e.isTradeOf sym i n d = true then W e.side e.lastLots e.lastTicks else 0 := by
  unfold tradeSum
  by_cases h : e.isTradeOf sym i n d = true
  · simp [List.filter_cons, h]
  · simp [List.filter_cons, h]

theorem Exec.isTradeOf_iff (e : Exec) (sym : Symbol) (i : Id64) (n : Symbol) (d : JDay) :
    e.isTradeOf sym i n d = true
      ↔ e.state = State.Trade ∧ e.accnt = sym ∧ e.marketId = i ∧ e.instr = n
        ∧ e.settlDay = d := by
  unfold Exec.isTradeOf
  simp [and_assoc]

theorem Accnt.hasPosn_findPosn (a : Accnt) (i : Id64) (n : Symbol) (d : JDay) :
    a.hasPosn i n d = true ↔ ∃ p, a.findPosn i n d = some p := by
  unfold Accnt.hasPosn Accnt.findPosn
  constructor
  · intro h
    obtain ⟨p, hp, hk⟩ := List.any_eq_true.mp h
    cases hf : a.posns.find? (fun p => p.sameKey i n d) with
    | none =>
      have := List.find?_eq_none.mp hf p hp
      exact absurd hk this
    | some q => exact ⟨q, rfl⟩
  · rintro ⟨p, hp⟩
    have hk := List.find?_some hp
    exact List.any_eq_true.mpr ⟨p, List.mem_of_find?_eq_some hp, hk⟩

theorem Accnt.net_addTrade_same (f : Posn → Int) (W : Side → Lots → Ticks → Int)
    (hM : Measure f W) (a : Accnt) (i : Id64) (n : Symbol) (d : JDay) (sd : Side) (l : Lots)
    (t : Ticks) (h : a.hasPosn i n d = true) :
    (a.addTrade i n d sd l t).net f i n d = a.net f i n d + W sd l t := by
  obtain ⟨p, hp⟩ := (Accnt.hasPosn_findPosn a i n d).mp h
  unfold Accnt.net
  rw [Accnt.findPosn_addTrade, hp]
  exact hM.1 p sd l t

theorem Accnt.net_addTrade_other (f : Posn → Int) (a : Accnt) (i : Id64) (n : Symbol)
    (d : JDay) (sd : Side) (l : Lots) (t : Ticks) (i2 : Id64) (n2 : Symbol) (d2 : JDay)
    (h : ¬ (i2 = i ∧ n2 = n ∧ d2 = d)) :
    (a.addTrade i n d sd l t).net f i2 n2 d2 = a.net f i2 n2 d2 := by
  unfold Accnt.net Accnt.findPosn Accnt.addTrade
  simp only []
  rw [List.find?_map]
  have hp : ((fun p : Posn => p.sameKey i2 n2 d2) ∘ fun p : Posn =>
      if p.sameKey i n d = true then p.addTrade sd l t else p)
      = fun p : Posn => p.sameKey i2 n2 d2 := by
    funext p
    show (if p.sameKey i n d = true then p.addTrade sd l t else p).sameKey i2 n2 d2 = _
    split
    · exact Posn.sameKey_addTrade p sd l t i2 n2 d2
    · rfl
  rw [hp]
  cases hc : List.find? (fun p : Posn => p.sameKey i2 n2 d2) a.posns with
  | none => rfl
  | some p =>
    have h0 := List.find?_some hc
    have h1 := (Posn_sameKey_iff p i2 n2 d2).mp h0
    have h2 : ¬ p.sameKey i n d = true := by
      intro hk
      have h3 := (Posn_sameKey_iff p i n d).mp hk
      exact h ⟨h1.1.symm.trans h3.1, h1.2.1.symm.trans h3.2.1, h1.2.2.symm.trans h3.2.2⟩
    show f (if p.sameKey i n d = true then p.addTrade sd l t else p) = f p
    rw [if_neg h2]

theorem Accnt.hasPosn_addTrade (a : Accnt) (i : Id64) (n : Symbol) (d : JDay) (sd : Side)
    (l : Lots) (t : Ticks) (i2 : Id64) (n2 : Symbol) (d2 : JDay) :
    (a.addTrade i n d sd l t).hasPosn i2 n2 d2 = a.hasPosn i2 n2 d2 := by
  unfold Accnt.hasPosn Accnt.addTrade
  simp only [List.any_map]
  congr 1
  funext p
  show (if p.sameKey i n d = true then p.addTrade sd l t else p).sameKey i2 n2 d2 = _
  split
  · exact Posn.sameKey_addTrade p sd l t i2 n2 d2
  · rfl

theorem Accnt.Moved_refl (f : Posn → Int) (W : Side → Lots → Ticks → Int) (a : Accnt) :
    Accnt.Moved f W [] a a :=
  ⟨rfl, fun _ _ _ h => h, fun _ _ _ => (Int.add_zero _).symm⟩

theorem Accnt.Moved_inert (f : Posn → Int) (W : Side → Lots → Ticks → Int) (a b : Accnt)
    (hs : b.symbol = a.symbol) (hp : b.posns = a.posns) : Accnt.Moved f W [] a b := by
  refine ⟨hs, ?_, ?_⟩
  · intro i n d h
    unfold Accnt.hasPosn at *
    rw [hp]; exact h
  · intro i n d
    unfold Accnt.net Accnt.findPosn
    rw [hp]
    exact (Int.add_zero _).symm

theorem Accnt.Moved.trans (f : Posn → Int) (W : Side → Lots → Ticks → Int)
    (es es2 : List Exec) (a b c : Accnt) (h1 : Accnt.Moved f W es a b)
    (h2 : Accnt.Moved f W es2 b c) : Accnt.Moved f W (es ++ es2) a c := by
  refine ⟨h2.1.trans h1.1, fun i n d h => h2.2.1 i n d (h1.2.1 i n d h), ?_⟩
  intro i n d
  rw [h2.2.2 i n d, h1.2.2 i n d, h1.1, tradeSum_append, Int.add_assoc]

theorem Accnt.Moved.congr (f : Posn → Int) (W : Side → Lots → Ticks → Int)
    (es es2 : List Exec) (a b : Accnt)
    (he : ∀ i n d, tradeSum W es a.symbol i n d = tradeSum W es2 a.symbol i n d)
    (h : Accnt.Moved f W es a b) : Accnt.Moved f W es2 a b :=
  ⟨h.1, h.2.1, fun i n d => by rw [h.2.2 i n d, he i n d]⟩

theorem Accnt.Moved.appendZero (f : Posn → Int) (W : Side → Lots → Ticks → Int)
    (hM : Measure f W) (a b : Accnt) (sym : Symbol) (i : Id64) (n : Symbol) (d : JDay)
    (hs : b.symbol = a.symbol) (hp : b.posns = a.posns ++ [zeroPosn sym i n d]) :
    Accnt.Moved f W [] a b ∧ b.hasPosn i n d = true := by
  refine ⟨⟨hs, ?_, ?_⟩, ?_⟩
  · intro i2 n2 d2 h2
    unfold Accnt.hasPosn at *
    rw [hp, List.any_append, h2]
    rfl
  · intro i2 n2 d2
    rw [tradeSum_nil, Int.add_zero]
    unfold Accnt.net Accnt.findPosn
    rw [hp, List.find?_append]
    cases hc : List.find? (fun p : Posn => p.sameKey i2 n2 d2) a.posns with
    | some p => rfl
    | none =>
      by_cases hz : (zeroPosn sym i n d).sameKey i2 n2 d2 = true
      · simp [List.find?_cons, hz, hM.2]
      · simp [List.find?_cons, hz]
  · unfold Accnt.hasPosn
    rw [hp, List.any_append]
    simp [Posn.sameKey, zeroPosn]

theorem Accnt.Moved_posn (f : Posn → Int) (W : Side → Lots → Ticks → Int) (hM : Measure f W)
    (a : Accnt) (i : Id64) (n : Symbol) (d : JDay) :
    Accnt.Moved f W [] a (a.posn i n d) ∧ (a.posn i n d).hasPosn i n d = true := by
  unfold Accnt.posn
  by_cases h : a.posns.any (fun p => p.sameKey i n d) = true
  · rw [if_pos h]
    exact ⟨Accnt.Moved_refl f W a, h⟩
  · rw [if_neg h]
    exact Accnt.Moved.appendZero f W hM a _ a.symbol i n d rfl rfl

theorem Accnt.Moved.ofZero (f : Posn → Int) (W : Side → Lots → Ticks → Int) (hM : Measure f W)
    (i : Id64) (n : Symbol) (d : JDay) (a b : Accnt) (h : SameButZeroPosn i n d a b) :
    Accnt.Moved f W [] a b := by
  obtain ⟨hs, -, -, -, -, -, hp⟩ := h
  rcases hp with hp | ⟨-, hp⟩
  · exact Accnt.Moved_inert f W a b hs hp
  · exact (Accnt.Moved.appendZero f W hM a b a.symbol i n d hs hp).1

/-- Booking the trade `e` of the account on its position under the key of `e`. -/
theorem Accnt.Moved.book (f : Posn → Int) (W : Side → Lots → Ticks → Int) (hM : Measure f W)
    (a : Accnt) (e : Exec) (i : Id64) (n : Symbol) (d : JDay) (hst : e.state = State.Trade)
    (hacc : e.accnt = a.symbol) (hk : e.marketId = i ∧ e.instr = n ∧ e.settlDay = d)
    (hp : a.hasPosn i n d = true) :
    Accnt.Moved f W [e] a (a.addTrade i n d e.side e.lastLots e.lastTicks) := by
  refine ⟨rfl, ?_, ?_⟩
  · intro i2 n2 d2 h
    rw [Accnt.hasPosn_addTrade]
    exact h
  · intro i2 n2 d2
    rw [tradeSum_single]
    by_cases hkk : i2 = i ∧ n2 = n ∧ d2 = d
    · obtain ⟨rfl, rfl, rfl⟩ := hkk
      rw [if_pos ((Exec.isTradeOf_iff e _ _ _ _).mpr ⟨hst, hacc, hk⟩)]
      exact Accnt.net_addTrade_same f W hM a _ _ _ _ _ _ hp
    · rw [if_neg, Int.add_zero]
      · exact Accnt.net_addTrade_other f a i n d _ _ _ i2 n2 d2 hkk
      · intro h
        obtain ⟨-, -, h3, h4, h5⟩ := (Exec.isTradeOf_iff e _ _ _ _).mp h
        exact hkk ⟨h3.symm.trans hk.1, h4.symm.trans hk.2.1, h5.symm.trans hk.2.2⟩

/-- A trade of another account books nothing on this one. -/
theorem Accnt.Moved.skip (f : Posn → Int) (W : Side → Lots → Ticks → Int) (a : Accnt)
    (e : Exec) (hacc : e.accnt ≠ a.symbol) : Accnt.Moved f W [e] a a := by
  refine ⟨rfl, fun _ _ _ h => h, ?_⟩
  intro i n d
  rw [tradeSum_single, if_neg, Int.add_zero]
  intro h
  exact hacc ((Exec.isTradeOf_iff e _ _ _ _).mp h).2.1

theorem forall₂_mem_right {α β : Type} (R : α → β → Prop) :
    ∀ (l : List α) (l2 : List β), List.Forall₂ R l l2 → ∀ b ∈ l2, ∃ a ∈ l, R a b := by
  intro l l2 h
  induction h with
  | nil => intro b hb; cases hb
  | cons hab _ ih =>
    intro b hb
    rcases List.mem_cons.mp hb with rfl | hb
    · exact ⟨_, List.mem_cons_self _ _, hab⟩
    · obtain ⟨a, ha, hr⟩ := ih b hb
      exact ⟨a, List.mem_cons_of_mem _ ha, hr⟩

theorem forall₂_comp_map {α : Type} (R S T : α → α → Prop) (g : α → α) :
    ∀ (l l2 : List α), List.Forall₂ R l l2 →
      (∀ a b, R a b → a ∈ l → S b (g b)) → (∀ a b, R a b → S b (g b) → T a (g b)) →
      List.Forall₂ T l (l2.map g) := by
  intro l l2 h
  induction h with
  | nil => intro _ _; exact List.Forall₂.nil
  | cons hab _ ih =>
    intro h1 h2
    exact List.Forall₂.cons (h2 _ _ hab (h1 _ _ hab (List.mem_cons_self _ _)))
      (ih (fun a b hr ha => h1 a b hr (List.mem_cons_of_mem _ ha)) h2)

/-- A write to the accounts with symbol `sym` after the trades `es` have been booked: what it
books is added. -/
theorem moved_write (f : Posn → Int) (W : Side → Lots → Ticks → Int) (es es2 : List Exec)
    (l : List Accnt) (t : Serv) (sym : Symbol) (g : Accnt → Accnt)
    (h1 : List.Forall₂ (Accnt.Moved f W es) l t.accnts)
    (h2 : ∀ a ∈ l, ∀ x, x.symbol = a.symbol →
      (∀ i n d, a.hasPosn i n d = true → x.hasPosn i n d = true) →
      Accnt.Moved f W es2 x (if x.symbol = sym then g x else x)) :
    List.Forall₂ (Accnt.Moved f W (es ++ es2)) l (t.writeAccnt sym g).accnts := by
  show List.Forall₂ _ l (t.accnts.map (fun x => if x.symbol = sym then g x else x))
  refine forall₂_comp_map (Accnt.Moved f W es) (Accnt.Moved f W es2) _ _ l t.accnts h1 ?_ ?_
  · intro a b hab ha
    exact h2 a ha b hab.1 hab.2.1
  · intro a b hab hs
    exact Accnt.Moved.trans f W es es2 a b _ hab hs

theorem moved_refl (f : Posn → Int) (W : Side → Lots → Ticks → Int) (l : List Accnt) :
    List.Forall₂ (Accnt.Moved f W []) l l :=
  List.forall₂_same.mpr (fun a _ => Accnt.Moved_refl f W a)

theorem moved_congr (f : Posn → Int) (W : Side → Lots → Ticks → Int) (es es2 : List Exec)
    (he : ∀ sym i n d, tradeSum W es sym i n d = tradeSum W es2 sym i n d)
    (l l2 : List Accnt) (h : List.Forall₂ (Accnt.Moved f W es) l l2) :
    List.Forall₂ (Accnt.Moved f W es2) l l2 :=
  List.Forall₂.imp (fun a b hab => Accnt.Moved.congr f W es es2 a b (he a.symbol) hab) h

theorem moved_trans (f : Posn → Int) (W : Side → Lots → Ticks → Int) (es es2 : List Exec) :
    ∀ (l l2 l3 : List Accnt), List.Forall₂ (Accnt.Moved f W es) l l2 →
      List.Forall₂ (Accnt.Moved f W es2) l2 l3 →
      List.Forall₂ (Accnt.Moved f W (es ++ es2)) l l3 := by
  intro l l2 l3 h
  induction h generalizing l3 with
  | nil => intro h2; cases h2; exact List.Forall₂.nil
  | cons hab _ ih =>
    intro h2
    cases h2 with
    | cons hbc h3 =>
      exact List.Forall₂.cons (Accnt.Moved.trans f W es es2 _ _ _ hab hbc) (ih _ h3)

theorem moved_hasP (f : Posn → Int) (W : Side → Lots → Ticks → Int) (es : List Exec)
    (s t : Serv) (sym : Symbol) (i : Id64) (n : Symbol) (d : JDay)
    (h : List.Forall₂ (Accnt.Moved f W es) s.accnts t.accnts) (hp : s.HasP sym i n d) :
    t.HasP sym i n d := by
  intro b hb hs
  obtain ⟨a, ha, hab⟩ := forall₂_mem_right _ _ _ h b hb
  exact hab.2.1 i n d (hp a ha (hab.1.symm.trans hs))

theorem Accnt.Moved.write_inert (f : Posn → Int) (W : Side → Lots → Ticks → Int)
    (sym : Symbol) (g : Accnt → Accnt)
    (hg : ∀ y, (g y).symbol = y.symbol ∧ (g y).posns = y.posns) (x : Accnt) :
    Accnt.Moved f W [] x (if x.symbol = sym then g x else x) := by
  split
  · exact Accnt.Moved_inert f W x _ (hg x).1 (hg x).2
  · exact Accnt.Moved_refl f W x

theorem Accnt.Moved.write_book (f : Posn → Int) (W : Side → Lots → Ticks → Int)
    (hM : Measure f W) (sym : Symbol) (e : Exec) (i : Id64) (n : Symbol) (d : JDay)
    (he : e.TradeOf sym i n d) (x : Accnt) (hx : x.symbol = sym → x.hasPosn i n d = true) :
    Accnt.Moved f W [e] x
      (if x.symbol = sym then x.addTrade i n d e.side e.lastLots e.lastTicks else x) := by
  split
  · rename_i hs
    exact Accnt.Moved.book f W hM x e i n d he.1 (he.2.1.trans hs.symm) he.2.2 (hx hs)
  · rename_i hs
    exact Accnt.Moved.skip f W x e (fun h => hs (h.symm.trans he.2.1))

theorem Exec.TradeOf_posn (e : Exec) (sym : Symbol) (i : Id64) (n : Symbol) (d : JDay)
    (pl : Lots) (pc : Cost) (h : e.TradeOf sym i n d) : (e.posn pl pc).TradeOf sym i n d := h

theorem tradeSum_posn (W : Side → Lots → Ticks → Int) (e e2 : Exec) (pl pl2 : Lots)
    (pc pc2 : Cost) (sym : Symbol) (i : Id64) (n : Symbol) (d : JDay) :
    tradeSum W ((([] ++ []) ++ [e.posn pl pc]) ++ [] ++ [] ++ [e2.posn pl2 pc2] ++ []) sym i n d
      = tradeSum W [e, e2] sym i n d := by
  show tradeSum W [e.posn pl pc, e2.posn pl2 pc2] sym i n d = _
  rw [tradeSum_cons, tradeSum_cons W e, tradeSum_single, tradeSum_single, tradeSum_single,
    tradeSum_single]
  rfl

/-- One iteration of `commitMatches` books the two trades of the match on the positions of the
accounts they belong to. -/
theorem commitMatch_moved (f : Posn → Int) (W : Side → Lots → Ticks → Int) (hM : Measure f W)
    (takerAccnt : Symbol) (now : Time) (m : Match) (c : Committed) (i : Id64) (n : Symbol)
    (d : JDay) (hK : c.market.id = i ∧ c.market.instr = n ∧ c.market.settlDay = d)
    (hmt : m.makerTrade.TradeOf m.makerOrder.accnt i n d)
    (htt : m.takerTrade.TradeOf takerAccnt i n d)
    (hpm : c.serv.HasP m.makerOrder.accnt i n d) (hpt : c.serv.HasP takerAccnt i n d) :
    List.Forall₂ (Accnt.Moved f W [m.makerTrade, m.takerTrade]) c.serv.accnts
      (commitMatch takerAccnt now m c).serv.accnts := by
  obtain ⟨k1, k2, k3⟩ := Market.takeOrder_key c.market m.makerOrder m.lots now
  unfold commitMatch
  simp only []
  rw [k1, k2, k3, hK.1, hK.2.1, hK.2.2]
  generalize Serv.posnLots _ m.makerOrder.accnt _ = pl
  generalize Serv.posnCost _ m.makerOrder.accnt _ = pc
  by_cases hd : (m.makerOrder.trade m.lots (cost m.lots m.makerOrder.ticks) m.lots
      m.makerOrder.ticks now).done = true
  · simp only [hd, if_true]
    generalize Serv.posnLots _ takerAccnt _ = pl2
    generalize Serv.posnCost _ takerAccnt _ = pc2
    refine moved_congr f W _ _ (tradeSum_posn W m.makerTrade m.takerTrade pl pl2 pc pc2) _ _ ?_
    refine moved_write f W _ [] _ _ _ _ ?_ ?_
    rotate_left
    · intro a _ x _ _
      apply Accnt.Moved.write_inert
      intro y
      exact ⟨rfl, rfl⟩
    refine moved_write f W _ [m.takerTrade.posn pl2 pc2] _ _ _ _ ?_ ?_
    rotate_left
    · intro a ha x hs hp
      exact Accnt.Moved.write_book f W hM _ (m.takerTrade.posn pl2 pc2) i n d htt x
        (fun hx => hp i n d (hpt a ha (hs.symm.trans hx)))
    refine moved_write f W _ [] _ _ _ _ ?_ ?_
    rotate_left
    · intro a _ x _ _
      apply Accnt.Moved.write_inert
      intro y
      exact ⟨rfl, rfl⟩
    refine moved_write f W _ [] _ _ _ _ ?_ ?_
    rotate_left
    · intro a _ x _ _
      apply Accnt.Moved.write_inert
      intro y
      exact ⟨rfl, rfl⟩
    refine moved_write f W _ [m.makerTrade.posn pl pc] _ _ _ _ ?_ ?_
    rotate_left
    · intro a ha x hs hp
      exact Accnt.Moved.write_book f W hM _ (m.makerTrade.posn pl pc) i n d hmt x
        (fun hx => hp i n d (hpm a ha (hs.symm.trans hx)))
    refine moved_write f W [] [] _ _ _ _ (moved_refl f W _) ?_
    intro a _ x _ _
    apply Accnt.Moved.write_inert
    intro y
    exact ⟨rfl, rfl⟩
  · simp only [hd, Bool.false_eq_true, if_false]
    generalize Serv.posnLots _ takerAccnt _ = pl2
    generalize Serv.posnCost _ takerAccnt _ = pc2
    refine moved_congr f W _ _ (tradeSum_posn W m.makerTrade m.takerTrade pl pl2 pc pc2) _ _ ?_
    refine moved_write f W _ [] _ _ _ _ ?_ ?_
    rotate_left
    · intro a _ x _ _
      apply Accnt.Moved.write_inert
      intro y
      exact ⟨rfl, rfl⟩
    refine moved_write f W _ [m.takerTrade.posn pl2 pc2] _ _ _ _ ?_ ?_
    rotate_left
    · intro a ha x hs hp
      exact Accnt.Moved.write_book f W hM _ (m.takerTrade.posn pl2 pc2) i n d htt x
        (fun hx => hp i n d (hpt a ha (hs.symm.trans hx)))
    rw [show ((([] : List Exec) ++ []) ++ [m.makerTrade.posn pl pc]) ++ [] ++ []
      = (([] ++ []) ++ [m.makerTrade.posn pl pc]) ++ [] from rfl]
    refine moved_write f W _ [] _ _ _ _ ?_ ?_
    rotate_left
    · intro a _ x _ _
      apply Accnt.Moved.write_inert
      intro y
      exact ⟨rfl, rfl⟩
    refine moved_write f W _ [m.makerTrade.posn pl pc] _ _ _ _ ?_ ?_
    rotate_left
    · intro a ha x hs hp
      exact Accnt.Moved.write_book f W hM _ (m.makerTrade.posn pl pc) i n d hmt x
        (fun hx => hp i n d (hpm a ha (hs.symm.trans hx)))
    refine moved_write f W [] [] _ _ _ _ (moved_refl f W _) ?_
    intro a _ x _ _
    apply Accnt.Moved.write_inert
    intro y
    exact ⟨rfl, rfl⟩

theorem commitMatch_key (takerAccnt : Symbol) (now : Time) (m : Match) (c : Committed) :
    (commitMatch takerAccnt now m c).market.id = c.market.id
    ∧ (commitMatch takerAccnt now m c).market.instr = c.market.instr
    ∧ (commitMatch takerAccnt now m c).market.settlDay = c.market.settlDay :=
  Market.takeOrder_key c.market m.makerOrder m.lots now

/-- `commitMatches` books the trades of all its matches on the positions of the accounts they
belong to. -/
theorem commitMatches_moved (f : Posn → Int) (W : Side → Lots → Ticks → Int)
    (hM : Measure f W) (takerAccnt : Symbol) (now : Time) (i : Id64) (n : Symbol) (d : JDay) :
    ∀ (ms : List Match) (c : Committed),
      (c.market.id = i ∧ c.market.instr = n ∧ c.market.settlDay = d) →
      (∀ m ∈ ms, m.makerTrade.TradeOf m.makerOrder.accnt i n d
        ∧ m.takerTrade.TradeOf takerAccnt i n d ∧ c.serv.HasP m.makerOrder.accnt i n d) →
      c.serv.HasP takerAccnt i n d →
      List.Forall₂ (Accnt.Moved f W (ms.flatMap (fun m => [m.makerTrade, m.takerTrade])))
        c.serv.accnts (commitMatches takerAccnt now ms c).serv.accnts := by
  intro ms
  induction ms with
  | nil =>
    intro c _ _ _
    exact moved_refl f W _
  | cons m ms ih =>
    intro c hK hms hpt
    obtain ⟨h1, h2, h3⟩ := hms m (List.mem_cons_self _ _)
    have hstep := commitMatch_moved f W hM takerAccnt now m c i n d hK h1 h2 h3 hpt
    obtain ⟨k1, k2, k3⟩ := commitMatch_key takerAccnt now m c
    have hrest := ih (commitMatch takerAccnt now m c)
      ⟨k1.trans hK.1, k2.trans hK.2.1, k3.trans hK.2.2⟩
      (fun m2 hm2 => by
        obtain ⟨g1, g2, g3⟩ := hms m2 (List.mem_cons_of_mem _ hm2)
        exact ⟨g1, g2, moved_hasP f W _ _ _ _ i n d hstep g3⟩)
      (moved_hasP f W _ _ _ _ i n d hstep hpt)
    rw [commitMatches, List.flatMap_cons]
    exact moved_trans f W _ _ _ _ _ hstep hrest

theorem SameButZeroPosn.hasPosn (i : Id64) (n : Symbol) (d : JDay) (a b : Accnt)
    (h : SameButZeroPosn i n d a b) :
    b.symbol = a.symbol ∧ ∀ i2 n2 d2, a.hasPosn i2 n2 d2 = true → b.hasPosn i2 n2 d2 = true :=
  ⟨h.1, (Accnt.Moved.ofZero _ _ Measure.lots i n d a b h).2.1⟩

theorem hasP_of_zero (i : Id64) (n : Symbol) (d : JDay) (s t : Serv) (sym : Symbol) (i2 : Id64)
    (n2 : Symbol) (d2 : JDay)
    (h : List.Forall₂ (SameButZeroPosn i n d) s.accnts t.accnts) (hp : s.HasP sym i2 n2 d2) :
    t.HasP sym i2 n2 d2 := by
  intro b hb hs
  obtain ⟨a, ha, hab⟩ := forall₂_mem_right _ _ _ h b hb
  obtain ⟨q1, q2⟩ := SameButZeroPosn.hasPosn i n d a b hab
  exact q2 i2 n2 d2 (hp a ha (q1.symm.trans hs))

theorem matchStep_hasP (takerAccnt : Symbol) (takerOrder : Order) (now : Time) (mk : Order)
    (st : MatchLoop) :
    (matchStep takerAccnt takerOrder now mk st).serv.HasP mk.accnt st.market.id st.market.instr
      st.market.settlDay := by
  intro b hb hs
  rw [matchStep_accnts] at hb
  obtain ⟨a, ha, hab⟩ := List.mem_map.mp hb
  subst hab
  by_cases hsym : a.symbol = mk.accnt
  · rw [if_pos hsym]
    exact (Accnt.Moved_posn _ _ Measure.lots a _ _ _).2
  · rw [if_neg hsym] at hs
    exact absurd hs hsym

/-- Every match the loop of `matchOrders` makes has the position of its maker in place. -/
theorem matchLoop_hasP (takerAccnt : Symbol) (takerOrder : Order) (direct : Direct)
    (now : Time) :
    ∀ (makers : List Order) (st : MatchLoop),
      ∀ m ∈ (matchLoop takerAccnt takerOrder direct now makers st).serv.matches_,
        m ∈ st.serv.matches_
        ∨ (matchLoop takerAccnt takerOrder direct now makers st).serv.HasP m.makerOrder.accnt
            st.market.id st.market.instr st.market.settlDay := by
  intro makers
  induction makers with
  | nil => intro st m hm; exact Or.inl hm
  | cons mk rest ih =>
    intro st m hm
    rw [matchLoop] at hm ⊢
    split at hm
    · rename_i h1
      rw [if_pos h1]
      exact Or.inl hm
    · rename_i h1
      rw [if_neg h1]
      split at hm
      · rename_i h2
        rw [if_pos h2]
        exact Or.inl hm
      · rename_i h2
        rw [if_neg h2]
        rcases ih (matchStep takerAccnt takerOrder now mk st) m hm with h | h
        · rw [matchStep_matches] at h
          rcases List.mem_append.mp h with h | h
          · exact Or.inl h
          · right
            rw [List.mem_singleton] at h
            have hmk : m.makerOrder = mk := by rw [h]; rfl
            rw [hmk]
            have h0 := matchLoop_accnts takerAccnt takerOrder direct now rest
              (matchStep takerAccnt takerOrder now mk st)
              (matchStep takerAccnt takerOrder now mk st).serv.accnts
              (forall₂_sameButZeroPosn_refl _ _ _ _)
            exact hasP_of_zero _ _ _ (matchStep takerAccnt takerOrder now mk st).serv _ _ _ _ _
              h0 (matchStep_hasP takerAccnt takerOrder now mk st)
        · right
          exact h

theorem matchOrders_hasP (s : Serv) (takerAccnt : Symbol) (market : Market)
    (takerOrder : Order) (now : Time) (resp : Response) :
    ∀ m ∈ (matchOrders s takerAccnt market takerOrder now resp).serv.matches_,
      m ∈ s.matches_
      ∨ (matchOrders s takerAccnt market takerOrder now resp).serv.HasP m.makerOrder.accnt
          market.id market.instr market.settlDay := by
  unfold matchOrders matchOrdersSide
  by_cases h : takerOrder.side = Side.Buy
  · simp only [h, if_true]
    exact matchLoop_hasP takerAccnt takerOrder _ now _
      { serv := s, market := market, resp := resp, sumLots := 0, sumCost := 0, lastLots := 0,
        lastTicks := 0 }
  · simp only [h, if_false]
    exact matchLoop_hasP takerAccnt takerOrder _ now _
      { serv := s, market := market, resp := resp, sumLots := 0, sumCost := 0, lastLots := 0,
        lastTicks := 0 }

theorem Market.insertOrder_key (m : Market) (o : Order) :
    (m.insertOrder o).id = m.id ∧ (m.insertOrder o).instr = m.instr
    ∧ (m.insertOrder o).settlDay = m.settlDay := by
  unfold Market.insertOrder
  split <;> exact ⟨rfl, rfl, rfl⟩

theorem Market.removeOrder_key (m : Market) (o : Order) :
    (m.removeOrder o).id = m.id ∧ (m.removeOrder o).instr = m.instr
    ∧ (m.removeOrder o).settlDay = m.settlDay := by
  unfold Market.removeOrder
  split <;> exact ⟨rfl, rfl, rfl⟩

theorem Serv.HasP_write (s : Serv) (sym sym2 : Symbol) (g : Accnt → Accnt) (i : Id64)
    (n : Symbol) (d : JDay)
    (hg : ∀ a, (g a).symbol = a.symbol ∧ (a.hasPosn i n d = true → (g a).hasPosn i n d = true))
    (h : s.HasP sym i n d) : (s.writeAccnt sym2 g).HasP sym i n d := by
  intro b hb hs
  obtain ⟨a, ha, hab⟩ := List.mem_map.mp hb
  subst hab
  by_cases h2 : a.symbol = sym2
  · rw [if_pos h2] at hs ⊢
    exact (hg a).2 (h a ha ((hg a).1.symm.trans hs))
  · rw [if_neg h2] at hs ⊢
    exact h a ha hs

theorem Serv.HasP_posn (s : Serv) (sym : Symbol) (i : Id64) (n : Symbol) (d : JDay) :
    (s.writeAccnt sym (fun a => a.posn i n d)).HasP sym i n d := by
  intro b hb hs
  obtain ⟨a, ha, hab⟩ := List.mem_map.mp hb
  subst hab
  by_cases h2 : a.symbol = sym
  · rw [if_pos h2]
    exact (Accnt.Moved_posn _ _ Measure.lots a i n d).2
  · rw [if_neg h2] at hs
    exact absurd hs h2

theorem posn_keeps (i : Id64) (n : Symbol) (d : JDay) (i2 : Id64) (n2 : Symbol) (d2 : JDay)
    (a : Accnt) :
    (a.posn i n d).symbol = a.symbol
    ∧ (a.hasPosn i2 n2 d2 = true → (a.posn i n d).hasPosn i2 n2 d2 = true) :=
  ⟨Accnt.posn_symbol a i n d, (Accnt.Moved_posn _ _ Measure.lots a i n d).1.2.1 i2 n2 d2⟩

theorem mkMatch_tradeOf (seq : Id64) (takerOrder mk : Order) (lots sl : Lots) (sc : Cost)
    (now : Time) :
    (mkMatch seq takerOrder mk lots sl sc now).makerOrder = mk
    ∧ (mkMatch seq takerOrder mk lots sl sc now).makerTrade.TradeOf mk.accnt mk.marketId
        mk.instr mk.settlDay
    ∧ (mkMatch seq takerOrder mk lots sl sc now).takerTrade.TradeOf takerOrder.accnt
        takerOrder.marketId takerOrder.instr takerOrder.settlDay :=
  ⟨rfl, ⟨rfl, rfl, rfl, rfl, rfl⟩, ⟨rfl, rfl, rfl, rfl, rfl⟩⟩

/-- What the reserve phase of `createOrder` leaves for the commit phase: the market keeps its
key, the batch for the journal is the `New` exec followed by the trades of the matches, every
match has its maker resting in the book and its two trades under the market's key, and the
positions the commit phase writes to are in place. -/
theorem createOrderReserve_book (s : Serv) (accnt : Symbol) (market : Market) (ref : String)
    (side : Side) (lots : Lots) (ticks : Ticks) (minLots : Lots) (now : Time)
    (resp : Response) (hm : market.Ok) (hm0 : s.matches_ = []) (he0 : s.execs_ = []) :
    ((createOrderReserve s accnt market ref side lots ticks minLots now resp).market.id
        = market.id
      ∧ (createOrderReserve s accnt market ref side lots ticks minLots now resp).market.instr
        = market.instr
      ∧ (createOrderReserve s accnt market ref side lots ticks minLots now resp).market.settlDay
        = market.settlDay)
    ∧ (∃ e0 : Exec, e0.state = State.New
        ∧ (createOrderReserve s accnt market ref side lots ticks minLots now resp).serv.execs_
          = e0 :: (createOrderReserve s accnt market ref side lots ticks minLots now
              resp).serv.matches_.flatMap (fun m => [m.makerTrade, m.takerTrade]))
    ∧ (∀ m ∈ (createOrderReserve s accnt market ref side lots ticks minLots now
          resp).serv.matches_,
        m.makerOrder ∈ market.orders
        ∧ m.makerTrade.TradeOf m.makerOrder.accnt market.id market.instr market.settlDay
        ∧ m.takerTrade.TradeOf accnt market.id market.instr market.settlDay
        ∧ (createOrderReserve s accnt market ref side lots ticks minLots now resp).serv.HasP
            m.makerOrder.accnt market.id market.instr market.settlDay)
    ∧ ((createOrderReserve s accnt market ref side lots ticks minLots now
          resp).serv.matches_ ≠ [] →
        (createOrderReserve s accnt market ref side lots ticks minLots now resp).serv.HasP
          accnt market.id market.instr market.settlDay) := by
  obtain ⟨-, ⟨n, f2⟩, -, -, -⟩ := createOrderReserve_footprint s accnt market ref side lots
    ticks minLots now resp
  have hex := createOrderReserve_execs s accnt market ref side lots ticks minLots now resp
  have hma := createOrderReserve_matches s accnt market ref side lots ticks minLots now resp
  rw [he0, List.nil_append] at hex
  rw [hm0, List.nil_append] at hma
  -- the state `matchOrders` leaves
  obtain ⟨mo, hmo, hrs⟩ : ∃ mo : Matched,
      mo = matchOrders
        { s with execs_ := s.execs_ ++ [newExec (Order.make accnt market.id market.instr
            market.settlDay (market.execSeq + 1) ref side lots ticks minLots now)
            (market.execSeq + 1) now] } accnt
        ({ market with execSeq := market.execSeq + 1 } : Market)
        (Order.make accnt market.id market.instr market.settlDay (market.execSeq + 1) ref side
          lots ticks minLots now) now
        ((resp.insertOrder (Order.make accnt market.id market.instr market.settlDay
            (market.execSeq + 1) ref side lots ticks minLots now)).insertExec
          (newExec (Order.make accnt market.id market.instr market.settlDay
            (market.execSeq + 1) ref side lots ticks minLots now) (market.execSeq + 1) now))
      ∧ (createOrderReserve s accnt market ref side lots ticks minLots now resp).serv
        = (if (!mo.serv.matches_.isEmpty) = true then
            mo.serv.writeAccnt accnt
              (fun a => a.posn mo.market.id mo.market.instr mo.market.settlDay)
          else mo.serv) := ⟨_, rfl, rfl⟩
  obtain ⟨n2, hmk⟩ := matchOrders_market
    { s with execs_ := s.execs_ ++ [newExec (Order.make accnt market.id market.instr
        market.settlDay (market.execSeq + 1) ref side lots ticks minLots now)
        (market.execSeq + 1) now] } accnt
    ({ market with execSeq := market.execSeq + 1 } : Market)
    (Order.make accnt market.id market.instr market.settlDay (market.execSeq + 1) ref side
      lots ticks minLots now) now
    ((resp.insertOrder (Order.make accnt market.id market.instr market.settlDay
        (market.execSeq + 1) ref side lots ticks minLots now)).insertExec
      (newExec (Order.make accnt market.id market.instr market.settlDay
        (market.execSeq + 1) ref side lots ticks minLots now) (market.execSeq + 1) now))
  rw [← hmo] at hmk
  have hmokey : mo.market.id = market.id ∧ mo.market.instr = market.instr
      ∧ mo.market.settlDay = market.settlDay := by
    rw [hmk]; exact ⟨rfl, rfl, rfl⟩
  have hmoP := matchOrders_hasP
    { s with execs_ := s.execs_ ++ [newExec (Order.make accnt market.id market.instr
        market.settlDay (market.execSeq + 1) ref side lots ticks minLots now)
        (market.execSeq + 1) now] } accnt
    ({ market with execSeq := market.execSeq + 1 } : Market)
    (Order.make accnt market.id market.instr market.settlDay (market.execSeq + 1) ref side
      lots ticks minLots now) now
    ((resp.insertOrder (Order.make accnt market.id market.instr market.settlDay
        (market.execSeq + 1) ref side lots ticks minLots now)).insertExec
      (newExec (Order.make accnt market.id market.instr market.settlDay
        (market.execSeq + 1) ref side lots ticks minLots now) (market.execSeq + 1) now))
  rw [← hmo] at hmoP
  have hrm : (createOrderReserve s accnt market ref side lots ticks minLots now
      resp).serv.matches_ = mo.serv.matches_ := by
    rw [hrs]; split <;> rfl
  refine ⟨?_, ⟨_, rfl, hex.trans (by rw [hma])⟩, ?_, ?_⟩
  · rw [f2]
    split
    · obtain ⟨k1, k2, k3⟩ := Market.insertOrder_key
        ({ market with execSeq := market.execSeq + 1 + n } : Market)
        (createOrderReserve s accnt market ref side lots ticks minLots now resp).order
      exact ⟨k1, k2, k3⟩
    · exact ⟨rfl, rfl, rfl⟩
  · intro m hmem
    have hmem2 := hmem
    rw [hma] at hmem2
    obtain ⟨seq2, mk, l2, sl, sc, hmk2, hmeq⟩ := matchList_mem _ _ _ _ _ _ _ m hmem2
    obtain ⟨t1, t2, t3⟩ := mkMatch_tradeOf seq2
      (Order.make accnt market.id market.instr market.settlDay (market.execSeq + 1) ref side
        lots ticks minLots now) mk l2 sl sc now
    have hmkin : mk ∈ market.orders := by
      unfold Market.orders
      split at hmk2
      · exact List.mem_append_right _ hmk2
      · exact List.mem_append_left _ hmk2
    obtain ⟨-, q1, q2, q3⟩ := hm.2.2.2.2.2 mk hmkin
    rw [← hmeq] at t1 t2 t3
    rw [t1]
    refine ⟨hmkin, ?_, t3, ?_⟩
    · rw [q1, q2, q3] at t2
      exact t2
    · rw [hrm] at hmem
      rcases hmoP m hmem with h | h
      · exact absurd h (by rw [hm0]; exact List.not_mem_nil _)
      · rw [t1] at h
        rw [hrs]
        split
        · exact Serv.HasP_write _ _ _ _ _ _ _ (posn_keeps _ _ _ _ _ _) h
        · exact h
  · intro hne
    rw [hrs]
    rw [hrm] at hne
    have : (!mo.serv.matches_.isEmpty) = true := by
      cases hc : mo.serv.matches_ with
      | nil => exact absurd hc hne
      | cons _ _ => rfl
    rw [if_pos this, hmokey.1, hmokey.2.1, hmokey.2.2]
    exact Serv.HasP_posn _ _ _ _ _

theorem tradeSum_new (W : Side → Lots → Ticks → Int) (e0 : Exec) (es : List Exec)
    (h : e0.state = State.New) (sym : Symbol) (i : Id64) (n : Symbol) (d : JDay) :
    tradeSum W es sym i n d = tradeSum W (e0 :: es) sym i n d := by
  rw [tradeSum_cons W e0, tradeSum_single, if_neg, Int.zero_add]
  intro hc
  have := ((Exec.isTradeOf_iff e0 sym i n d).mp hc).1
  rw [h] at this
  cases this

/-- The commit phase of `createOrder` books the trades of the matches on the positions of the
accounts they belong to. -/
theorem createOrderCommit_moved (f : Posn → Int) (W : Side → Lots → Ticks → Int)
    (hM : Measure f W) (accnt : Symbol) (now : Time) (r : Reserved) (i : Id64) (n : Symbol)
    (d : JDay) (hK : r.market.id = i ∧ r.market.instr = n ∧ r.market.settlDay = d)
    (hms : ∀ m ∈ r.serv.matches_, m.makerTrade.TradeOf m.makerOrder.accnt i n d
      ∧ m.takerTrade.TradeOf accnt i n d ∧ r.serv.HasP m.makerOrder.accnt i n d)
    (hpt : r.serv.matches_ ≠ [] → r.serv.HasP accnt i n d) :
    List.Forall₂
      (Accnt.Moved f W (r.serv.matches_.flatMap (fun m => [m.makerTrade, m.takerTrade])))
      r.serv.accnts (createOrderCommit accnt now r).serv.accnts := by
  have h5 : List.Forall₂ (Accnt.Moved f W ([] ++ [] ++ [])) r.serv.accnts
      ((if (!r.order.done) = true then
          ({ r.serv with journ := r.serv.journ ++ [r.serv.execs_] } : Serv).writeAccnt accnt
            (fun a => a.insertOrder r.order)
        else ({ r.serv with journ := r.serv.journ ++ [r.serv.execs_] } : Serv)).writeAccnt accnt
        (fun a => a.pushExecFront r.exec)).accnts := by
    refine moved_write f W _ [] _ _ _ _ ?_ ?_
    · split
      · refine moved_write f W [] [] _
          ({ r.serv with journ := r.serv.journ ++ [r.serv.execs_] } : Serv) _ _
          (moved_refl f W _) ?_
        intro a _ x _ _
        apply Accnt.Moved.write_inert
        intro y
        exact ⟨rfl, rfl⟩
      · exact moved_refl f W _
    · intro a _ x _ _
      apply Accnt.Moved.write_inert
      intro y
      exact ⟨rfl, rfl⟩
  unfold createOrderCommit
  simp only []
  by_cases hne : (!r.serv.matches_.isEmpty) = true
  · rw [if_pos hne]
    have hne2 : r.serv.matches_ ≠ [] := by
      intro hc
      rw [hc] at hne
      exact Bool.false_ne_true hne
    have hms5 : ((if (!r.order.done) = true then
          ({ r.serv with journ := r.serv.journ ++ [r.serv.execs_] } : Serv).writeAccnt accnt
            (fun a => a.insertOrder r.order)
        else ({ r.serv with journ := r.serv.journ ++ [r.serv.execs_] } : Serv)).writeAccnt accnt
        (fun a => a.pushExecFront r.exec)).matches_ = r.serv.matches_ := by
      split <;> rfl
    rw [hms5]
    have hc := commitMatches_moved f W hM accnt now i n d r.serv.matches_
      { serv := ((if (!r.order.done) = true then
          ({ r.serv with journ := r.serv.journ ++ [r.serv.execs_] } : Serv).writeAccnt accnt
            (fun a => a.insertOrder r.order)
        else ({ r.serv with journ := r.serv.journ ++ [r.serv.execs_] } : Serv)).writeAccnt accnt
        (fun a => a.pushExecFront r.exec)), market := r.market, resp := r.resp } hK
      (fun m hm => ⟨(hms m hm).1, (hms m hm).2.1,
        moved_hasP f W _ r.serv _ _ i n d h5 (hms m hm).2.2⟩)
      (moved_hasP f W _ r.serv _ _ i n d h5 (hpt hne2))
    exact moved_trans f W _ _ _ _ _ h5 hc
  · rw [if_neg hne]
    have he : r.serv.matches_ = [] := by
      cases hc : r.serv.matches_ with
      | nil => rfl
      | cons _ _ => rw [hc] at hne; exact absurd rfl hne
    have hfl : r.serv.matches_.flatMap (fun m => [m.makerTrade, m.takerTrade]) = [] := by
      rw [he]; rfl
    rw [hfl]
    exact h5

/-- What `createOrder` does to the journal and to the positions: the batch the journal
accepted, if any, is booked on the positions of the accounts its trades belong to, and each of
these trades belongs to the account of the request or to the account of a resting order. -/
theorem createOrder_moved (f : Posn → Int) (W : Side → Lots → Ticks → Int) (hM : Measure f W)
    (mq : MsgQueue) (busDay : Time → JDay) (s : Serv) (accnt : Symbol) (market : Market)
    (ref : String) (side : Side) (lots : Lots) (ticks : Ticks) (minLots : Lots) (now : Time)
    (resp : Response) (hm : market.Ok) (hm0 : s.matches_ = []) (he0 : s.execs_ = []) :
    ∃ jd : List Exec,
      (createOrder mq busDay s accnt market ref side lots ticks minLots now
          resp).serv.journ.flatten = s.journ.flatten ++ jd
      ∧ List.Forall₂ (Accnt.Moved f W jd) s.accnts
          (createOrder mq busDay s accnt market ref side lots ticks minLots now
            resp).serv.accnts
      ∧ (∀ e ∈ jd, e.state = State.Trade →
          e.accnt = accnt ∨ ∃ o ∈ market.orders, o.accnt = e.accnt)
      ∧ (createOrder mq busDay s accnt market ref side lots ticks minLots now
          resp).serv.execs_ = [] := by
  obtain ⟨hK, ⟨e0, hnew, hex⟩, hms, hpt⟩ := createOrderReserve_book s accnt market ref side
    lots ticks minLots now resp hm hm0 he0
  obtain ⟨-, -, hz, -, -⟩ := createOrderReserve_footprint s accnt market ref side lots
    ticks minLots now resp
  have hz2 : List.Forall₂ (Accnt.Moved f W []) s.accnts
      (createOrderReserve s accnt market ref side lots ticks minLots now resp).serv.accnts :=
    List.Forall₂.imp (fun a b hab => Accnt.Moved.ofZero f W hM _ _ _ a b hab) hz
  have hnil : ∃ jd : List Exec, s.journ.flatten = s.journ.flatten ++ jd
      ∧ List.Forall₂ (Accnt.Moved f W jd) s.accnts s.accnts
      ∧ (∀ e ∈ jd, e.state = State.Trade →
          e.accnt = accnt ∨ ∃ o ∈ market.orders, o.accnt = e.accnt)
      ∧ s.execs_ = [] :=
    ⟨[], (List.append_nil _).symm, moved_refl f W _, (fun e he => by cases he), he0⟩
  unfold createOrder
  split
  · exact hnil
  · split
    · exact hnil
    · split
      · exact hnil
      · simp only []
        split
        · refine ⟨(createOrderReserve s accnt market ref side lots ticks minLots now
            resp).serv.execs_, ?_, ?_, ?_, rfl⟩
          · show (createOrderCommit accnt now _).serv.journ.flatten = _
            rw [createOrderCommit_journ, createOrderReserve_journ, List.flatten_append]
            simp
          · show List.Forall₂ _ s.accnts (createOrderCommit accnt now _).serv.accnts
            have hc := createOrderCommit_moved f W hM accnt now
              (createOrderReserve s accnt market ref side lots ticks minLots now resp)
              market.id market.instr market.settlDay hK
              (fun m hmm => ⟨(hms m hmm).2.1, (hms m hmm).2.2.1, (hms m hmm).2.2.2⟩) hpt
            have := moved_trans f W _ _ _ _ _ hz2 hc
            refine moved_congr f W _ _ ?_ _ _ this
            intro sym i n d
            rw [hex, List.nil_append]
            exact tradeSum_new W e0 _ hnew sym i n d
          · intro e he hst
            rw [hex] at he
            rcases List.mem_cons.mp he with rfl | he
            · rw [hnew] at hst
              cases hst
            · obtain ⟨m, hmm, hem⟩ := List.mem_flatMap.mp he
              obtain ⟨g1, g2, g3, -⟩ := hms m hmm
              rcases List.mem_cons.mp hem with rfl | hem
              · exact Or.inr ⟨m.makerOrder, g1, g2.2.1.symm⟩
              · rw [List.mem_singleton] at hem
                subst hem
                exact Or.inl g3.2.1
        · refine ⟨[], ?_, hz2, (fun e he => by cases he), rfl⟩
          show (createOrderReserve s accnt market ref side lots ticks minLots now
            resp).serv.journ.flatten = s.journ.flatten ++ []
          rw [createOrderReserve_journ, List.append_nil]

theorem forall₂_mem_left {α β : Type} (R : α → β → Prop) :
    ∀ (l : List α) (l2 : List β), List.Forall₂ R l l2 → ∀ a ∈ l, ∃ b ∈ l2, R a b := by
  intro l l2 h
  induction h with
  | nil => intro a ha; cases ha
  | cons hab _ ih =>
    intro a ha
    rcases List.mem_cons.mp ha with rfl | ha
    · exact ⟨_, List.mem_cons_self _ _, hab⟩
    · obtain ⟨b, hb, hr⟩ := ih a ha
      exact ⟨b, List.mem_cons_of_mem _ hb, hr⟩

theorem tradeSum_eq_zero (W : Side → Lots → Ticks → Int) (es : List Exec) (sym : Symbol)
    (h : ∀ e ∈ es, e.state = State.Trade → e.accnt ≠ sym) (i : Id64) (n : Symbol) (d : JDay) :
    tradeSum W es sym i n d = 0 := by
  unfold tradeSum
  have : es.filter (fun e => e.isTradeOf sym i n d) = [] := by
    rw [List.filter_eq_nil_iff]
    intro e he hc
    obtain ⟨h1, h2, -⟩ := (Exec.isTradeOf_iff e sym i n d).mp hc
    exact h e he h1 h2
  rw [this]
  rfl

/-- Booking a batch the journal accepted keeps the positions equal to the running sums. -/
theorem Serv.Booked.moved (f : Posn → Int) (W : Side → Lots → Ticks → Int) (s t : Serv)
    (jd : List Exec) (h : s.Booked f W)
    (hmv : List.Forall₂ (Accnt.Moved f W jd) s.accnts t.accnts)
    (hj : t.journ.flatten = s.journ.flatten ++ jd)
    (hacc : ∀ e ∈ jd, e.state = State.Trade → ∃ a ∈ s.accnts, a.symbol = e.accnt) :
    t.Booked f W := by
  refine ⟨?_, ?_⟩
  · intro b hb i n d
    obtain ⟨a, ha, hab⟩ := forall₂_mem_right _ _ _ hmv b hb
    rw [hab.2.2 i n d, h.1 a ha i n d, hj, tradeSum_append, hab.1]
  · intro e he hst
    rw [hj] at he
    have hex : ∃ a ∈ s.accnts, a.symbol = e.accnt := by
      rcases List.mem_append.mp he with he | he
      · exact h.2 e he hst
      · exact hacc e he hst
    obtain ⟨a, ha, hae⟩ := hex
    obtain ⟨b, hb, hab⟩ := forall₂_mem_left _ _ _ hmv a ha
    exact ⟨b, hb, hab.1.trans hae⟩

theorem accntInsert_of_mem (sym : Symbol) (n : Nat) (l : List Accnt) (a : Accnt)
    (h : a ∈ l) : a ∈ Serv.accntInsert sym n l := by
  induction l with
  | nil => cases h
  | cons b l ih =>
    unfold Serv.accntInsert
    split
    · rcases List.mem_cons.mp h with rfl | h
      · exact List.mem_cons_self _ _
      · exact List.mem_cons_of_mem _ (ih h)
    · split
      · exact List.mem_cons_of_mem _ h
      · exact h

theorem accntInsert_has (sym : Symbol) (n : Nat) (l : List Accnt) :
    ∃ a ∈ Serv.accntInsert sym n l, a.symbol = sym := by
  induction l with
  | nil => exact ⟨Accnt.make sym n, List.mem_cons_self _ _, rfl⟩
  | cons b l ih =>
    unfold Serv.accntInsert
    split
    · obtain ⟨a, ha, hs⟩ := ih
      exact ⟨a, List.mem_cons_of_mem _ ha, hs⟩
    · split
      · exact ⟨Accnt.make sym n, List.mem_cons_self _ _, rfl⟩
      · rename_i h1 h2
        refine ⟨b, List.mem_cons_self _ _, ?_⟩
        exact symbolLess_total b.symbol sym (by simpa using h1) (by simpa using h2)

/-- In a set kept in symbol order, `accnt(symbol)` links a new account only when no account has
the symbol. -/
theorem accntInsert_fresh (sym : Symbol) (n : Nat) :
    ∀ (l : List Accnt), (l.map (fun a => a.symbol)).Pairwise (fun a b => symbolLess a b = true) →
      ∀ a ∈ Serv.accntInsert sym n l, a ∈ l ∨ (a = Accnt.make sym n ∧ ∀ b ∈ l, b.symbol ≠ sym) := by
  intro l
  induction l with
  | nil =>
    intro _ a ha
    right
    exact ⟨by simpa [Serv.accntInsert] using ha, fun b hb => by cases hb⟩
  | cons c l ih =>
    intro hp a ha
    rw [List.map_cons, List.pairwise_cons] at hp
    unfold Serv.accntInsert at ha
    split at ha
    · rename_i h1
      rcases List.mem_cons.mp ha with rfl | ha
      · exact Or.inl (List.mem_cons_self _ _)
      · rcases ih hp.2 a ha with h | ⟨h, hf⟩
        · exact Or.inl (List.mem_cons_of_mem _ h)
        · right
          refine ⟨h, ?_⟩
          intro b hb
          rcases List.mem_cons.mp hb with rfl | hb
          · intro he
            rw [he, symbolLess_irrefl] at h1
            exact Bool.false_ne_true h1
          · exact hf b hb
    · split at ha
      · rename_i h1 h2
        rcases List.mem_cons.mp ha with rfl | ha
        · right
          refine ⟨rfl, ?_⟩
          intro b hb he
          rcases List.mem_cons.mp hb with rfl | hb
          · rw [he, symbolLess_irrefl] at h2
            exact Bool.false_ne_true h2
          · have h3 := hp.1 b.symbol (List.mem_map.mpr ⟨b, hb, rfl⟩)
            have h4 := symbolLess_trans _ _ _ h2 h3
            rw [he, symbolLess_irrefl] at h4
            exact Bool.false_ne_true h4
        · exact Or.inl ha
      · exact Or.inl ha

/-- Obtaining an account, created empty when missing, keeps the positions equal to the running
sums. -/
theorem Serv.Booked_accnt (f : Posn → Int) (W : Side → Lots → Ticks → Int) (s : Serv)
    (sym : Symbol)
    (hs : (s.accnts.map (fun a => a.symbol)).Pairwise (fun a b => symbolLess a b = true))
    (h : s.Booked f W) : (s.accnt sym).Booked f W := by
  refine ⟨?_, ?_⟩
  · intro a ha i n d
    rcases accntInsert_fresh sym s.maxExecs s.accnts hs a ha with h1 | ⟨h1, h2⟩
    · exact h.1 a h1 i n d
    · subst h1
      show (0 : Int) = tradeSum W s.journ.flatten sym i n d
      rw [tradeSum_eq_zero]
      intro e he hst hacc
      obtain ⟨b, hb, hbe⟩ := h.2 e he hst
      exact h2 b hb (hbe.trans hacc)
  · intro e he hst
    obtain ⟨b, hb, hbe⟩ := h.2 e he hst
    exact ⟨b, accntInsert_of_mem sym s.maxExecs s.accnts b hb, hbe⟩

theorem accntInsert_same (sym : Symbol) (n : Nat) (l : List Accnt)
    (hs : (l.map (fun a => a.symbol)).Pairwise (fun a b => symbolLess a b = true))
    (hex : ∃ a ∈ l, a.symbol = sym) (b : Accnt) (hb : b ∈ Serv.accntInsert sym n l) : b ∈ l := by
  rcases accntInsert_fresh sym n l hs b hb with h | ⟨-, h⟩
  · exact h
  · obtain ⟨a, ha, has⟩ := hex
    exact absurd has (h a ha)

theorem Serv.Booked_posn (f : Posn → Int) (W : Side → Lots → Ticks → Int) (hM : Measure f W)
    (s : Serv) (sym : Symbol) (i : Id64) (n : Symbol) (d : JDay) (h : s.Booked f W) :
    (s.writeAccnt sym (fun a => a.posn i n d)).Booked f W := by
  refine Serv.Booked.moved f W s _ [] h ?_ (List.append_nil _).symm (fun e he => by cases he)
  refine moved_write f W [] [] _ s _ _ (moved_refl f W _) ?_
  intro a _ x _ _
  split
  · exact (Accnt.Moved_posn f W hM x i n d).1
  · exact Accnt.Moved_refl f W x

theorem Serv.HasP_accnt (s : Serv) (sym sym2 : Symbol) (i : Id64) (n : Symbol) (d : JDay)
    (hs : (s.accnts.map (fun a => a.symbol)).Pairwise (fun a b => symbolLess a b = true))
    (hex : ∃ a ∈ s.accnts, a.symbol = sym) (h : s.HasP sym i n d) :
    (s.accnt sym2).HasP sym i n d := by
  intro b hb hbs
  rcases accntInsert_fresh sym2 s.maxExecs s.accnts hs b hb with h1 | ⟨h1, h2⟩
  · exact h b h1 hbs
  · subst h1
    obtain ⟨a, ha, has⟩ := hex
    exact absurd (has.trans hbs.symm) (h2 a ha)

theorem tradeSum_swap (W : Side → Lots → Ticks → Int) (e e2 : Exec) (sym : Symbol) (i : Id64)
    (n : Symbol) (d : JDay) :
    tradeSum W ((([] ++ []) ++ [e2]) ++ [] ++ [e]) sym i n d = tradeSum W [e, e2] sym i n d := by
  show tradeSum W [e2, e] sym i n d = _
  rw [tradeSum_cons W e2 [e], tradeSum_cons W e [e2], Int.add_comm]

/-- `createTrade` keeps the positions equal to the running sums of the committed trades. -/
theorem createTrade_booked (f : Posn → Int) (W : Side → Lots → Ticks → Int) (hM : Measure f W)
    (mq : MsgQueue) (s : Serv) (accnt : Symbol) (market : Market) (ref : String) (side : Side)
    (lots : Lots) (ticks : Ticks) (liqInd : LiqInd) (cpty : Symbol) (created : Time)
    (hr : s.RefInv) (hex : ∃ a ∈ s.accnts, a.symbol = accnt) (h : s.Booked f W) :
    (createTrade mq s accnt market ref side lots ticks liqInd cpty created).serv.Booked f W
    ∧ (createTrade mq s accnt market ref side lots ticks liqInd cpty created).serv.execs_
        = s.execs_
    ∧ ∀ a ∈ s.accnts, ∃ b ∈ (createTrade mq s accnt market ref side lots ticks liqInd cpty
        created).serv.accnts, b.symbol = a.symbol := by
  have hb1 := Serv.Booked_posn f W hM s accnt market.id market.instr market.settlDay h
  have hp1 : (s.writeAccnt accnt
      (fun a => a.posn market.id market.instr market.settlDay)).HasP accnt market.id
        market.instr market.settlDay := Serv.HasP_posn s accnt _ _ _
  have hr1 : (s.writeAccnt accnt
      (fun a => a.posn market.id market.instr market.settlDay)).RefInv :=
    Serv.RefInv_write _ _ _ (neutral_posn _ _ _) hr
  have hex1 : ∃ a ∈ (s.writeAccnt accnt
      (fun a => a.posn market.id market.instr market.settlDay)).accnts, a.symbol = accnt :=
    Serv.writeAccnt_has s accnt _ accnt (fun a => Accnt.posn_symbol a _ _ _) hex
  have hsub1 : ∀ a ∈ s.accnts, ∃ b ∈ (s.writeAccnt accnt
      (fun a => a.posn market.id market.instr market.settlDay)).accnts, b.symbol = a.symbol :=
    fun a ha => Serv.writeAccnt_has s accnt _ a.symbol (fun a => Accnt.posn_symbol a _ _ _)
      ⟨a, ha, rfl⟩
  have hb2 : (((s.writeAccnt accnt
      (fun a => a.posn market.id market.instr market.settlDay)).accnt cpty).writeAccnt cpty
      (fun a => a.posn market.id market.instr market.settlDay)).Booked f W :=
    Serv.Booked_posn f W hM _ cpty _ _ _ (Serv.Booked_accnt f W _ cpty hr1.1 hb1)
  have hp2 : (((s.writeAccnt accnt
      (fun a => a.posn market.id market.instr market.settlDay)).accnt cpty).writeAccnt cpty
      (fun a => a.posn market.id market.instr market.settlDay)).HasP accnt market.id
        market.instr market.settlDay :=
    Serv.HasP_write _ _ _ _ _ _ _ (posn_keeps _ _ _ _ _ _)
      (Serv.HasP_accnt _ accnt cpty _ _ _ hr1.1 hex1 hp1)
  have hp2c : (((s.writeAccnt accnt
      (fun a => a.posn market.id market.instr market.settlDay)).accnt cpty).writeAccnt cpty
      (fun a => a.posn market.id market.instr market.settlDay)).HasP cpty market.id
        market.instr market.settlDay := Serv.HasP_posn _ cpty _ _ _
  have hex2 : ∀ sym, (∃ a ∈ (s.writeAccnt accnt
      (fun a => a.posn market.id market.instr market.settlDay)).accnts, a.symbol = sym) →
      ∃ a ∈ (((s.writeAccnt accnt
      (fun a => a.posn market.id market.instr market.settlDay)).accnt cpty).writeAccnt cpty
      (fun a => a.posn market.id market.instr market.settlDay)).accnts, a.symbol = sym := by
    rintro sym ⟨a, ha, has⟩
    exact Serv.writeAccnt_has _ cpty _ sym (fun a => Accnt.posn_symbol a _ _ _)
      ⟨a, accntInsert_of_mem cpty _ _ a ha, has⟩
  have hex2c : ∃ a ∈ (((s.writeAccnt accnt
      (fun a => a.posn market.id market.instr market.settlDay)).accnt cpty).writeAccnt cpty
      (fun a => a.posn market.id market.instr market.settlDay)).accnts, a.symbol = cpty :=
    Serv.writeAccnt_has _ cpty _ cpty (fun a => Accnt.posn_symbol a _ _ _)
      (accntInsert_has cpty _ _)
  unfold createTrade
  simp only [Market.allocId]
  generalize Serv.posnLots _ accnt market = pl
  generalize Serv.posnCost _ accnt market = pc
  obtain ⟨tr, htr⟩ : ∃ tr, tr = newManual market.id market.instr market.settlDay
    (market.execSeq + 1) accnt ref side lots ticks pl pc liqInd cpty created := ⟨_, rfl⟩
  rw [← htr]
  have ht1 : tr.TradeOf accnt market.id market.instr market.settlDay := by
    rw [htr]; exact ⟨rfl, rfl, rfl, rfl, rfl⟩
  have ht2 : ∀ id, (tr.opposite id).TradeOf cpty market.id market.instr market.settlDay := by
    intro id
    rw [htr]; exact ⟨rfl, rfl, rfl, rfl, rfl⟩
  split
  · split
    · refine ⟨?_, rfl, ?_⟩
      · refine Serv.Booked.moved f W _ _ [tr, tr.opposite (market.execSeq + 1 + 1)] hb2 ?_ ?_ ?_
        · refine moved_congr f W _ _ (tradeSum_swap W tr (tr.opposite (market.execSeq + 1 + 1)))
            _ _ ?_
          refine moved_write f W _ [tr] _ _ _ _ ?_ ?_
          rotate_left
          · intro a ha x hs hp
            exact Accnt.Moved.write_book f W hM _ tr _ _ _ ht1 x
              (fun hx => hp _ _ _ (hp2 a ha (hs.symm.trans hx)))
          refine moved_write f W _ [] _ _ _ _ ?_ ?_
          rotate_left
          · intro a _ x _ _
            apply Accnt.Moved.write_inert
            intro y
            exact ⟨rfl, rfl⟩
          refine moved_write f W _ [tr.opposite (market.execSeq + 1 + 1)] _ _ _ _ ?_ ?_
          rotate_left
          · intro a ha x hs hp
            exact Accnt.Moved.write_book f W hM _ (tr.opposite (market.execSeq + 1 + 1)) _ _ _
              (ht2 _) x (fun hx => hp _ _ _ (hp2c a ha (hs.symm.trans hx)))
          refine moved_write f W [] [] _ _ _ _ (moved_refl f W _) ?_
          intro a _ x _ _
          apply Accnt.Moved.write_inert
          intro y
          exact ⟨rfl, rfl⟩
        · show (_ ++ [[tr, tr.opposite (market.execSeq + 1 + 1)]]).flatten = _
          rw [List.flatten_append]
          simp
        · intro e he _
          rcases List.mem_cons.mp he with rfl | he
          · rw [ht1.2.1]; exact hex2 accnt hex1
          · rw [List.mem_singleton] at he
            subst he
            rw [(ht2 _).2.1]; exact hex2c
      · intro a ha
        obtain ⟨b, hb, hbs⟩ := hex2 a.symbol (hsub1 a ha)
        refine Serv.writeAccnt_has _ _ _ _ (fun _ => rfl) ?_
        refine Serv.writeAccnt_has _ _ _ _ (fun _ => rfl) ?_
        refine Serv.writeAccnt_has _ _ _ _ (fun _ => rfl) ?_
        refine Serv.writeAccnt_has _ _ _ _ (fun _ => rfl) ?_
        exact ⟨b, hb, hbs⟩
    · exact ⟨hb2, rfl, fun a ha => hex2 a.symbol (hsub1 a ha)⟩
  · split
    · refine ⟨?_, rfl, ?_⟩
      · refine Serv.Booked.moved f W _ _ [tr] hb1 ?_ ?_ ?_
        · refine moved_write f W ([] ++ []) [tr] _ _ _ _ ?_ ?_
          rotate_left
          · intro a ha x hs hp
            exact Accnt.Moved.write_book f W hM _ tr _ _ _ ht1 x
              (fun hx => hp _ _ _ (hp1 a ha (hs.symm.trans hx)))
          refine moved_write f W [] [] _ _ _ _ (moved_refl f W _) ?_
          intro a _ x _ _
          apply Accnt.Moved.write_inert
          intro y
          exact ⟨rfl, rfl⟩
        · show (_ ++ [[tr]]).flatten = _
          rw [List.flatten_append]
          simp
        · intro e he _
          rw [List.mem_singleton] at he
          subst he
          rw [ht1.2.1]; exact hex1
      · intro a ha
        refine Serv.writeAccnt_has _ _ _ _ (fun _ => rfl) ?_
        refine Serv.writeAccnt_has _ _ _ _ (fun _ => rfl) ?_
        exact hsub1 a ha
    · exact ⟨hb1, rfl, hsub1⟩

theorem takeLevels_pres (P : Order → Prop)
    (hP : ∀ (x : Order) (l : Lots) (c : Cost) (ll : Lots) (lt : Ticks) (nw : Time),
      P x → P (x.trade l c ll lt nw)) (o : Order) (lots : Lots) (now : Time) :
    ∀ ls : List Level, (∀ y ∈ ls.flatMap (fun l => l.queue), P y) →
      ∀ y ∈ (MarketSide.takeLevels o lots now ls).flatMap (fun l => l.queue), P y := by
  intro ls
  induction ls with
  | nil => intro _ y hy; simp [MarketSide.takeLevels] at hy
  | cons l ls ih =>
    intro h y hy
    have hl : ∀ y ∈ l.queue, P y := fun y hy => h y (by
      rw [List.flatMap_cons]; exact List.mem_append_left _ hy)
    have hls : ∀ y ∈ ls.flatMap (fun l => l.queue), P y := fun y hy => h y (by
      rw [List.flatMap_cons]; exact List.mem_append_right _ hy)
    rw [MarketSide.takeLevels] at hy
    split at hy
    · split at hy
      · split at hy
        · split at hy
          · exact hls y hy
          · rw [List.flatMap_cons] at hy
            rcases List.mem_append.mp hy with hy | hy
            · exact hl y (List.mem_filter.mp hy).1
            · exact hls y hy
        · rw [List.flatMap_cons] at hy
          rcases List.mem_append.mp hy with hy | hy
          · have hy2 : y ∈ l.queue.map (fun x => if x.id = o.id
                then x.trade lots (cost lots x.ticks) lots x.ticks now else x) := hy
            obtain ⟨x, hx, hxy⟩ := List.mem_map.mp hy2
            subst hxy
            split
            · exact hP x _ _ _ _ _ (hl x hx)
            · exact hl x hx
          · exact hls y hy
      · exact h y hy
    · rw [List.flatMap_cons] at hy
      rcases List.mem_append.mp hy with hy | hy
      · exact hl y hy
      · exact ih hls y hy

theorem removeLevels_pres (P : Order → Prop) (o : Order) :
    ∀ ls : List Level, (∀ y ∈ ls.flatMap (fun l => l.queue), P y) →
      ∀ y ∈ (MarketSide.removeLevels o ls).flatMap (fun l => l.queue), P y := by
  intro ls
  induction ls with
  | nil => intro _ y hy; simp [MarketSide.removeLevels] at hy
  | cons l ls ih =>
    intro h y hy
    have hl : ∀ y ∈ l.queue, P y := fun y hy => h y (by
      rw [List.flatMap_cons]; exact List.mem_append_left _ hy)
    have hls : ∀ y ∈ ls.flatMap (fun l => l.queue), P y := fun y hy => h y (by
      rw [List.flatMap_cons]; exact List.mem_append_right _ hy)
    rw [MarketSide.removeLevels] at hy
    split at hy
    · split at hy
      · split at hy
        · exact hls y hy
        · rw [List.flatMap_cons] at hy
          rcases List.mem_append.mp hy with hy | hy
          · exact hl y (List.mem_filter.mp hy).1
          · exact hls y hy
      · exact h y hy
    · rw [List.flatMap_cons] at hy
      rcases List.mem_append.mp hy with hy | hy
      · exact hl y hy
      · exact ih hls y hy

theorem insertLevels_pres (P : Order → Prop) (side : Side) (o : Order) (ho : P o) :
    ∀ ls : List Level, (∀ y ∈ ls.flatMap (fun l => l.queue), P y) →
      ∀ y ∈ (MarketSide.insertLevels side o ls).flatMap (fun l => l.queue), P y := by
  intro ls
  induction ls with
  | nil =>
    intro _ y hy
    simp [MarketSide.insertLevels] at hy
    rw [hy]; exact ho
  | cons l ls ih =>
    intro h y hy
    have hl : ∀ y ∈ l.queue, P y := fun y hy => h y (by
      rw [List.flatMap_cons]; exact List.mem_append_left _ hy)
    have hls : ∀ y ∈ ls.flatMap (fun l => l.queue), P y := fun y hy => h y (by
      rw [List.flatMap_cons]; exact List.mem_append_right _ hy)
    rw [MarketSide.insertLevels] at hy
    split at hy
    · rw [List.flatMap_cons] at hy
      rcases List.mem_append.mp hy with hy | hy
      · rcases List.mem_append.mp hy with hy | hy
        · exact hl y hy
        · rw [List.mem_singleton] at hy
          rw [hy]; exact ho
      · exact hls y hy
    · split at hy
      · rw [List.flatMap_cons] at hy
        rcases List.mem_append.mp hy with hy | hy
        · rw [List.mem_singleton] at hy
          rw [hy]; exact ho
        · exact h y hy
      · rw [List.flatMap_cons] at hy
        rcases List.mem_append.mp hy with hy | hy
        · exact hl y hy
        · exact ih hls y hy

/-- A rewrite of one side that keeps a property of the resting orders keeps it for the
market. -/
theorem Market.mapSide_pres (P : Order → Prop) (m : Market) (side : Side)
    (G : List Level → List Level)
    (hG : ∀ ls : List Level, (∀ y ∈ ls.flatMap (fun l => l.queue), P y) →
      ∀ y ∈ (G ls).flatMap (fun l => l.queue), P y)
    (h : ∀ y ∈ m.orders, P y) : ∀ y ∈ (m.mapSide side G).orders, P y := by
  intro y hy
  unfold Market.mapSide at hy
  cases side
  · rcases List.mem_append.mp hy with hy | hy
    · exact hG m.bidSide.levels (fun z hz => h z (List.mem_append_left _ hz)) y hy
    · exact h y (List.mem_append_right _ hy)
  · rcases List.mem_append.mp hy with hy | hy
    · exact h y (List.mem_append_left _ hy)
    · exact hG m.offerSide.levels (fun z hz => h z (List.mem_append_right _ hz)) y hy

theorem Market.insertOrder_pres (P : Order → Prop) (m : Market) (o : Order) (ho : P o)
    (h : ∀ y ∈ m.orders, P y) : ∀ y ∈ (m.insertOrder o).orders, P y := by
  intro y hy
  unfold Market.insertOrder at hy
  split at hy
  · rcases List.mem_append.mp hy with hy | hy
    · exact insertLevels_pres P _ o ho m.bidSide.levels
        (fun z hz => h z (List.mem_append_left _ hz)) y hy
    · exact h y (List.mem_append_right _ hy)
  · rcases List.mem_append.mp hy with hy | hy
    · exact h y (List.mem_append_left _ hy)
    · exact insertLevels_pres P _ o ho m.offerSide.levels
        (fun z hz => h z (List.mem_append_right _ hz)) y hy

theorem commitMatches_pres (P : Order → Prop)
    (hP : ∀ (x : Order) (l : Lots) (c : Cost) (ll : Lots) (lt : Ticks) (nw : Time),
      P x → P (x.trade l c ll lt nw)) (takerAccnt : Symbol) (now : Time) :
    ∀ (ms : List Match) (c : Committed), (∀ y ∈ c.market.orders, P y) →
      ∀ y ∈ (commitMatches takerAccnt now ms c).market.orders, P y := by
  intro ms
  induction ms with
  | nil => intro c h; exact h
  | cons m ms ih =>
    intro c h
    rw [commitMatches]
    apply ih
    show ∀ y ∈ (c.market.takeOrder m.makerOrder m.lots now).orders, P y
    rw [Market.takeOrder_eq_mapSide]
    exact Market.mapSide_pres P c.market _ _ (takeLevels_pres P hP _ _ _) h

/-- A property of the resting orders that the order of the request has, and that fills keep, is
kept by `createOrder`. -/
theorem createOrder_pres (P : Order → Prop)
    (hP : ∀ (x : Order) (l : Lots) (c : Cost) (ll : Lots) (lt : Ticks) (nw : Time),
      P x → P (x.trade l c ll lt nw))
    (mq : MsgQueue) (busDay : Time → JDay) (s : Serv) (accnt : Symbol) (market : Market)
    (ref : String) (side : Side) (lots : Lots) (ticks : Ticks) (minLots : Lots) (now : Time)
    (resp : Response)
    (ho : P (createOrderReserve s accnt market ref side lots ticks minLots now resp).order)
    (h : ∀ y ∈ market.orders, P y) :
    ∀ y ∈ (createOrder mq busDay s accnt market ref side lots ticks minLots now
      resp).market.orders, P y := by
  obtain ⟨-, ⟨n, f2⟩, -, -, -⟩ := createOrderReserve_footprint s accnt market ref side lots
    ticks minLots now resp
  have hr : ∀ y ∈ (createOrderReserve s accnt market ref side lots ticks minLots now
      resp).market.orders, P y := by
    rw [f2]
    split
    · exact Market.insertOrder_pres P _ _ ho h
    · exact h
  unfold createOrder
  split
  · exact h
  · split
    · exact h
    · split
      · exact h
      · simp only []
        split
        · show ∀ y ∈ (createOrderCommit accnt now _).market.orders, P y
          unfold createOrderCommit
          simp only []
          split
          · exact commitMatches_pres P hP accnt now _ _ hr
          · exact hr
        · simp only []
          split
          · rw [Market.removeOrder_eq_mapSide]
            exact Market.mapSide_pres P _ _ _ (removeLevels_pres P _) hr
          · exact hr

theorem ReachBy.mono (busDay : Time → JDay) (I : Serv → Prop) (V V2 : Serv → Request → Prop)
    (hV : ∀ t r, V t r → V2 t r) (s : Serv) (h : ReachBy busDay I V s) :
    ReachBy busDay I V2 s := by
  induction h with
  | init s hs => exact ReachBy.init s hs
  | step s mq r _ hv ih => exact ReachBy.step s mq r ih (hV s r hv)

theorem Request.valid_of_createOrTrade (s : Serv) (r : Request)
    (h : r.isCreateOrTrade = true) : r.valid s = true := by
  cases r with
  | op o =>
    cases o with
    | create a mid ref side lots ticks minLots now => rfl
    | _ => cases h
  | trade a mid ref side lots ticks liqInd cpty created => rfl
  | load model now => cases h

theorem Trading.operating (busDay : Time → JDay) (s : Serv) (h : Trading busDay s) :
    Operating busDay s :=
  ReachBy.mono busDay _ _ _ (fun t r hr => Request.valid_of_createOrTrade t r hr) s h

theorem Serv.TradesOk_request (f : Posn → Int) (W : Side → Lots → Ticks → Int)
    (hM : Measure f W) (mq : MsgQueue) (busDay : Time → JDay) (s : Serv) (r : Request)
    (hv : r.isCreateOrTrade = true) (hr : s.RefInv) (hb : s.BooksOk) (h : s.TradesOk f W) :
    (s.request mq busDay r).TradesOk f W := by
  obtain ⟨he0, hba, hbk⟩ := h
  cases r with
  | load model now => cases hv
  | op o =>
    cases o with
    | create a mid ref side lots ticks minLots now =>
      show (match s.market mid with
        | Except.error _ => s
        | Except.ok market =>
          (createOrder mq busDay (s.accnt a) a market ref side lots ticks minLots now
            Response.empty).serv.storeMarket
            (createOrder mq busDay (s.accnt a) a market ref side lots ticks minLots now
              Response.empty).market).TradesOk f W
      split
      · exact ⟨he0, hba, hbk⟩
      · rename_i market hmk
        have hmem := Serv.market_mem s _ market hmk
        have hbk0 := Serv.Booked_accnt f W s a hr.1 hbk
        obtain ⟨jd, hj, hmv, hacc, hex⟩ := createOrder_moved f W hM mq busDay (s.accnt a) a
          market ref side lots ticks minLots now Response.empty (hb.2 market hmem).1 hb.1 he0
        obtain ⟨f1, -, -, f4⟩ := createOrder_framed mq busDay (s.accnt a) a market ref side
          lots ticks minLots now Response.empty
        have hup : ∀ x ∈ s.accnts, ∃ b ∈ (createOrder mq busDay (s.accnt a) a market ref side
            lots ticks minLots now Response.empty).serv.accnts, b.symbol = x.symbol := by
          intro x hx
          obtain ⟨b, hb2, hxb⟩ := forall₂_mem_left _ _ _ hmv x
            (accntInsert_of_mem a s.maxExecs s.accnts x hx)
          exact ⟨b, hb2, hxb.1⟩
        have hupa : ∃ b ∈ (createOrder mq busDay (s.accnt a) a market ref side
            lots ticks minLots now Response.empty).serv.accnts, b.symbol = a := by
          obtain ⟨x, hx, hxa⟩ := accntInsert_has a s.maxExecs s.accnts
          obtain ⟨b, hb2, hxb⟩ := forall₂_mem_left _ _ _ hmv x hx
          exact ⟨b, hb2, hxb.1.trans hxa⟩
        have hbk1 := Serv.Booked.moved f W (s.accnt a) _ jd hbk0 hmv hj (by
          intro e he hst
          rcases hacc e he hst with h1 | ⟨o, ho, hoe⟩
          · rw [h1]; exact accntInsert_has a s.maxExecs s.accnts
          · obtain ⟨x, hx, hxo⟩ := hba market hmem o ho
            exact ⟨x, accntInsert_of_mem a s.maxExecs s.accnts x hx, hxo.trans hoe⟩)
        refine ⟨hex, ?_, hbk1⟩
        intro m hm o ho
        have hm2 : m ∈ (createOrder mq busDay (s.accnt a) a market ref side lots ticks minLots
            now Response.empty).serv.markets.map
            (fun x => if x.id = (createOrder mq busDay (s.accnt a) a market ref side lots ticks
              minLots now Response.empty).market.id
              then (createOrder mq busDay (s.accnt a) a market ref side lots ticks minLots now
                Response.empty).market else x) := hm
        rw [f1] at hm2
        obtain ⟨x, hx, hxm⟩ := List.mem_map.mp hm2
        have hx2 : x ∈ s.markets := hx
        split at hxm
        · subst hxm
          refine createOrder_pres
            (fun o => ∃ b ∈ (createOrder mq busDay (s.accnt a) a market ref side lots ticks
              minLots now Response.empty).serv.accnts, b.symbol = o.accnt)
            (fun _ _ _ _ _ _ hx => hx) mq busDay (s.accnt a) a market ref side lots ticks
            minLots now Response.empty ?_ ?_ o ho
          · beta_reduce
            rw [(createOrderReserve_order (s.accnt a) a market ref side lots ticks minLots now
              Response.empty).1]
            exact hupa
          · intro y hy
            obtain ⟨z, hz, hzy⟩ := hba market hmem y hy
            obtain ⟨b, hb2, hbz⟩ := hup z hz
            exact ⟨b, hb2, hbz.trans hzy⟩
        · subst hxm
          obtain ⟨z, hz, hzy⟩ := hba x hx2 o ho
          obtain ⟨b, hb2, hbz⟩ := hup z hz
          exact ⟨b, hb2, hbz.trans hzy⟩
    | _ => cases hv
  | trade a mid ref side lots ticks liqInd cpty created =>
    show (match s.market mid with
      | Except.error _ => s
      | Except.ok market =>
        (createTrade mq (s.accnt a) a market ref side lots ticks liqInd cpty created).serv.storeMarket
          (createTrade mq (s.accnt a) a market ref side lots ticks liqInd cpty
            created).market).TradesOk f W
    split
    · exact ⟨he0, hba, hbk⟩
    · rename_i market hmk
      have hmem := Serv.market_mem s _ market hmk
      obtain ⟨-, c2, -, n, c4⟩ := createTrade_refInv mq (s.accnt a) a market ref side lots
        ticks liqInd cpty created (Serv.RefInv.accnt s a hr).1
      obtain ⟨t1, t2, t3⟩ := createTrade_booked f W hM mq (s.accnt a) a market ref side lots
        ticks liqInd cpty created (Serv.RefInv.accnt s a hr).1
        (accntInsert_has a s.maxExecs s.accnts) (Serv.Booked_accnt f W s a hr.1 hbk)
      have hup : ∀ x ∈ s.accnts, ∃ b ∈ (createTrade mq (s.accnt a) a market ref side lots
          ticks liqInd cpty created).serv.accnts, b.symbol = x.symbol :=
        fun x hx => t3 x (accntInsert_of_mem a s.maxExecs s.accnts x hx)
      refine ⟨t2.trans he0, ?_, t1⟩
      intro m hm o ho
      have hm2 : m ∈ (createTrade mq (s.accnt a) a market ref side lots ticks liqInd cpty
          created).serv.markets.map
          (fun x => if x.id = (createTrade mq (s.accnt a) a market ref side lots ticks liqInd
            cpty created).market.id
            then (createTrade mq (s.accnt a) a market ref side lots ticks liqInd cpty
              created).market else x) := hm
      rw [c2] at hm2
      obtain ⟨x, hx, hxm⟩ := List.mem_map.mp hm2
      have hx2 : x ∈ s.markets := hx
      split at hxm
      · subst hxm
        rw [c4] at ho
        obtain ⟨z, hz, hzy⟩ := hba market hmem o ho
        obtain ⟨b, hb2, hbz⟩ := hup z hz
        exact ⟨b, hb2, hbz.trans hzy⟩
      · subst hxm
        obtain ⟨z, hz, hzy⟩ := hba x hx2 o ho
        obtain ⟨b, hb2, hbz⟩ := hup z hz
        exact ⟨b, hb2, hbz.trans hzy⟩

theorem Trading.tradesOk (f : Posn → Int) (W : Side → Lots → Ticks → Int) (hM : Measure f W)
    (busDay : Time → JDay) (s : Serv) (h : Trading busDay s) : s.TradesOk f W := by
  induction h with
  | init s hs =>
    obtain ⟨ha, -, he, hj, hemp⟩ := hs
    refine ⟨he, ?_, ?_, ?_⟩
    · intro m hm o ho
      obtain ⟨e1, e2⟩ := hemp m hm
      unfold Market.orders MarketSide.orders at ho
      rw [e1, e2] at ho
      cases ho
    · intro a hmem
      rw [ha] at hmem
      cases hmem
    · intro e hmem
      rw [hj] at hmem
      cases hmem
  | step s mq r hreach hv ih =>
    obtain ⟨h1, h2⟩ := Operating_booksOk busDay s (Trading.operating busDay s hreach)
    exact Serv.TradesOk_request f W hM mq busDay s r hv h1 h2 ih

theorem Accnt.PosnKeys_stable : Accnt.Stable Accnt.PosnKeys := by
  have happ : ∀ (a : Accnt) (z : Posn), a.PosnKeys →
      a.posns.any (fun p => p.sameKey z.marketId z.instr z.settlDay) = false →
      (a.posns ++ [z]).Pairwise
        (fun p q => ¬ (q.sameKey p.marketId p.instr p.settlDay = true)) := by
    intro a z h hany
    rw [List.pairwise_append]
    refine ⟨h, List.pairwise_singleton _ _, ?_⟩
    intro p hp q hq
    rw [List.mem_singleton] at hq
    subst hq
    intro hc
    have h1 := (Posn_sameKey_iff q p.marketId p.instr p.settlDay).mp hc
    have h2 : p.sameKey q.marketId q.instr q.settlDay = true :=
      (Posn_sameKey_iff p _ _ _).mpr ⟨h1.1.symm, h1.2.1.symm, h1.2.2.symm⟩
    have h3 := List.any_eq_false.mp hany p hp
    exact h3 h2
  refine ⟨fun sym n => List.Pairwise.nil, fun a h => ⟨?_, ?_, ?_, ?_, ?_, ?_, ?_, ?_, ?_⟩⟩
  · intro i n d
    unfold Accnt.posn
    split
    · exact h
    · rename_i hc
      exact happ a _ h (by simpa using hc)
  · intro i n d sd l t
    show (a.posns.map _).Pairwise _
    rw [List.pairwise_map]
    refine List.Pairwise.imp ?_ h
    intro p q hpq hc
    apply hpq
    have e1 : ∀ x : Posn, (if x.sameKey i n d = true then x.addTrade sd l t else x).marketId
        = x.marketId ∧ (if x.sameKey i n d = true then x.addTrade sd l t else x).instr = x.instr
        ∧ (if x.sameKey i n d = true then x.addTrade sd l t else x).settlDay = x.settlDay := by
      intro x
      split
      · cases sd <;> exact ⟨rfl, rfl, rfl⟩
      · exact ⟨rfl, rfl, rfl⟩
    have h1 := (Posn_sameKey_iff _ _ _ _).mp hc
    rw [(e1 q).1, (e1 q).2.1, (e1 q).2.2, (e1 p).1, (e1 p).2.1, (e1 p).2.2] at h1
    exact (Posn_sameKey_iff _ _ _ _).mpr h1
  · intro e; exact h
  · intro e; exact h
  · intro e; exact h
  · intro p
    show (if (a.posns.any fun x => x.sameKey p.marketId p.instr p.settlDay) = true
      then a.posns else a.posns ++ [p]).Pairwise _
    split
    · exact h
    · rename_i hc
      exact happ a _ h (by simpa using hc)
  · intro o
    show (a.insertOrder o).posns.Pairwise _
    exact h
  · intro o; exact h
  · intro i j g; exact h

theorem Accnt.PosnKeys.find (a : Accnt) (h : a.PosnKeys) (p : Posn) (hp : p ∈ a.posns) :
    a.findPosn p.marketId p.instr p.settlDay = some p := by
  unfold Accnt.findPosn
  unfold Accnt.PosnKeys at h
  revert h hp
  generalize a.posns = l
  intro h hp
  induction l with
  | nil => cases hp
  | cons q l ih =>
    rw [List.pairwise_cons] at h
    rw [List.find?_cons]
    rcases List.mem_cons.mp hp with rfl | hp
    · have : p.sameKey p.marketId p.instr p.settlDay = true :=
        (Posn_sameKey_iff p _ _ _).mpr ⟨rfl, rfl, rfl⟩
      rw [this]
    · have hq : q.sameKey p.marketId p.instr p.settlDay = false := by
        cases hc : q.sameKey p.marketId p.instr p.settlDay with
        | false => rfl
        | true =>
          exfalso
          have h1 := (Posn_sameKey_iff q _ _ _).mp hc
          exact h.1 p hp ((Posn_sameKey_iff p _ _ _).mpr ⟨h1.1.symm, h1.2.1.symm, h1.2.2.symm⟩)
      rw [hq]
      exact ih h.2 hp

/-- C12 (position invariant).  In every state the service reaches from one without accounts,
with empty books and an empty journal, by calls of `createOrder` and `createTrade`, whatever
the message queue answers: for every account and every key `(marketId, instr, settlDay)`, the
net lots of the account's position under the key (`0` when it has none) are the sum of
`sign(side) * lastLots`, and its net cost the sum of `sign(side) * lastLots * lastTicks`, over
the account's trade execs under the key among the execs the journal accepted, with sign `+1`
for a Buy and `-1` for a Sell; and this holds of every position the account holds, its key
being the position's own. -/
theorem position_invariant (busDay : Time → JDay) (s : Serv) (h : Trading busDay s) :
    ∀ a ∈ s.accnts,
      (∀ i n d,
        a.net (fun p => p.netLots) i n d = tradeSum signedLots s.journ.flatten a.symbol i n d
        ∧ a.net (fun p => p.netCost) i n d
            = tradeSum signedCost s.journ.flatten a.symbol i n d)
      ∧ ∀ p ∈ a.posns,
          p.netLots
            = tradeSum signedLots s.journ.flatten a.symbol p.marketId p.instr p.settlDay
          ∧ p.netCost
            = tradeSum signedCost s.journ.flatten a.symbol p.marketId p.instr p.settlDay := by
  intro a ha
  have hl := (Trading.tradesOk _ _ Measure.lots busDay s h).2.2.1 a ha
  have hc := (Trading.tradesOk _ _ Measure.cost busDay s h).2.2.1 a ha
  have hk : a.PosnKeys := ReachBy.all Accnt.PosnKeys Accnt.PosnKeys_stable busDay _ _
    (fun t ht b hb => by rw [ht.1] at hb; cases hb) s h a ha
  refine ⟨fun i n d => ⟨hl i n d, hc i n d⟩, ?_⟩
  intro p hp
  have hf := Accnt.PosnKeys.find a hk p hp
  have h1 := hl p.marketId p.instr p.settlDay
  have h2 := hc p.marketId p.instr p.settlDay
  unfold Accnt.net at h1 h2
  rw [hf] at h1 h2
  exact ⟨h1, h2⟩

theorem position_invariant_witness :
    Trading exBusDay exCross
    ∧ ((exCross.getAccnt "A").posns.map (fun p => (p.marketId, p.netLots, p.netCost))
        = [(7, 4, 400)]
      ∧ (exCross.getAccnt "B").posns.map (fun p => (p.marketId, p.netLots, p.netCost))
        = [(7, -4, -400)])
    ∧ ∀ a ∈ exCross.accnts,
      (∀ i n d,
        a.net (fun p => p.netLots) i n d
          = tradeSum signedLots exCross.journ.flatten a.symbol i n d
        ∧ a.net (fun p => p.netCost) i n d
            = tradeSum signedCost exCross.journ.flatten a.symbol i n d)
      ∧ ∀ p ∈ a.posns,
          p.netLots
            = tradeSum signedLots exCross.journ.flatten a.symbol p.marketId p.instr p.settlDay
          ∧ p.netCost
            = tradeSum signedCost exCross.journ.flatten a.symbol p.marketId p.instr
                p.settlDay :=
  have h0 : Trading exBusDay exEngine0 :=
    ReachBy.init exEngine0 ⟨rfl, rfl, rfl, rfl, fun m hm => by
      have hm2 : m = exMarket0 := by simpa [exEngine0] using hm
      subst hm2
      exact ⟨rfl, rfl⟩⟩
  have h1 : Trading exBusDay
      (exEngine0.request exMq exBusDay (Request.op (Op.create "B" 7 "" Side.Sell 4 100 0 1))) :=
    ReachBy.step _ exMq _ h0 rfl
  have hr : Trading exBusDay exCross :=
    ReachBy.step _ exMq (Request.op (Op.create "A" 7 "" Side.Buy 10 100 0 2)) h1 rfl
  ⟨hr, ⟨by decide, by decide⟩, position_invariant exBusDay exCross hr⟩

/-! ## The replay window of `load` -/

/-- In a set kept in symbol order, looking an account up after `accnt(symbol)` gives what the
lookup gave before, a missing account reading as the empty one. -/
theorem accntInsert_find (sym sym2 : Symbol) (n : Nat) :
    ∀ (l : List Accnt), (l.map (fun a => a.symbol)).Pairwise (fun a b => symbolLess a b = true) →
      ((Serv.accntInsert sym n l).find? (fun a => a.symbol == sym2)).getD (Accnt.make sym2 n)
        = (l.find? (fun a => a.symbol == sym2)).getD (Accnt.make sym2 n) := by
  intro l
  induction l with
  | nil =>
    intro _
    by_cases h : sym = sym2
    · subst h; simp [Serv.accntInsert, Accnt.make]
    · simp [Serv.accntInsert, Accnt.make, h]
  | cons a l ih =>
    intro hs
    rw [List.map_cons, List.pairwise_cons] at hs
    unfold Serv.accntInsert
    split
    · by_cases h : a.symbol = sym2
      · simp [List.find?_cons, h]
      · rw [List.find?_cons_of_neg _ (by simpa using h),
          List.find?_cons_of_neg _ (by simpa using h)]
        exact ih hs.2
    · split
      · rename_i h1 h2
        by_cases h : sym = sym2
        · subst h
          have hnone : (a :: l).find? (fun b => b.symbol == sym) = none := by
            rw [List.find?_eq_none]
            intro b hb hbs
            have hbs2 : b.symbol = sym := by simpa using hbs
            rcases List.mem_cons.mp hb with rfl | hb
            · rw [hbs2, symbolLess_irrefl] at h2
              exact Bool.false_ne_true h2
            · have h3 := hs.1 b.symbol (List.mem_map.mpr ⟨b, hb, rfl⟩)
              have h4 := symbolLess_trans _ _ _ h2 h3
              rw [hbs2, symbolLess_irrefl] at h4
              exact Bool.false_ne_true h4
          rw [hnone]
          simp [List.find?_cons, Accnt.make]
        · have h5 : ¬ (Accnt.make sym n).symbol = sym2 := h
          rw [List.find?_cons_of_neg _ (by simpa using h5)]
      · rfl

theorem Serv.getAccnt_accnt (s : Serv) (sym sym2 : Symbol)
    (hs : (s.accnts.map (fun a => a.symbol)).Pairwise (fun a b => symbolLess a b = true)) :
    (s.accnt sym).getAccnt sym2 = s.getAccnt sym2 :=
  accntInsert_find sym sym2 s.maxExecs s.accnts hs

theorem Serv.writeAccnt_symbols (s : Serv) (sym : Symbol) (f : Accnt → Accnt)
    (hf : ∀ a, (f a).symbol = a.symbol) :
    (s.writeAccnt sym f).accnts.map (fun a => a.symbol) = s.accnts.map (fun a => a.symbol) := by
  show (s.accnts.map (fun a => if a.symbol = sym then f a else a)).map (fun a => a.symbol) = _
  rw [List.map_map]
  apply List.map_congr_left
  intro a _
  show (if a.symbol = sym then f a else a).symbol = a.symbol
  split
  · exact hf a
  · rfl

/-- Obtaining an account and writing to it, as the callbacks of `load` do: the set stays in
symbol order, and an account read back through its symbol shows the write exactly when the
symbol is the one written to. -/
theorem Serv.getAccnt_step (s : Serv) (sym : Symbol) (f : Accnt → Accnt)
    (hf : ∀ a, (f a).symbol = a.symbol)
    (hs : (s.accnts.map (fun a => a.symbol)).Pairwise (fun a b => symbolLess a b = true)) :
    (((s.accnt sym).writeAccnt sym f).accnts.map (fun a => a.symbol)).Pairwise
        (fun a b => symbolLess a b = true)
    ∧ ∀ sym2, ((s.accnt sym).writeAccnt sym f).getAccnt sym2
        = if sym2 = sym then f (s.getAccnt sym2) else s.getAccnt sym2 := by
  refine ⟨?_, ?_⟩
  · rw [Serv.writeAccnt_symbols _ _ _ hf]
    exact (accntInsert_sorted sym s.maxExecs s.accnts hs).1
  · intro sym2
    split
    · rename_i h
      subst h
      rw [Serv.getAccnt_write _ _ _ hf (accntInsert_has sym2 s.maxExecs s.accnts),
        Serv.getAccnt_accnt _ _ _ hs]
    · rename_i h
      rw [(Serv.getAccnt_writeAccnt _ sym f hf).1 sym2 h, Serv.getAccnt_accnt _ _ _ hs]

/-- A sequence of callbacks, each obtaining the account `k x` and applying `g x` to it: an
account read back afterwards has received, in order, the writes of the items that name it. -/
theorem foldl_getAccnt (α : Type) (k : α → Symbol) (g : α → Accnt → Accnt)
    (hg : ∀ x a, (g x a).symbol = a.symbol) (sym : Symbol) :
    ∀ (xs : List α) (s : Serv),
      (s.accnts.map (fun a => a.symbol)).Pairwise (fun a b => symbolLess a b = true) →
      ((xs.foldl (fun t x => (t.accnt (k x)).writeAccnt (k x) (g x)) s).accnts.map
          (fun a => a.symbol)).Pairwise (fun a b => symbolLess a b = true)
      ∧ (xs.foldl (fun t x => (t.accnt (k x)).writeAccnt (k x) (g x)) s).getAccnt sym
          = (xs.filter (fun x => k x == sym)).foldl (fun a x => g x a) (s.getAccnt sym) := by
  intro xs
  induction xs with
  | nil => intro s hs; exact ⟨hs, rfl⟩
  | cons x xs ih =>
    intro s hs
    obtain ⟨h1, h2⟩ := Serv.getAccnt_step s (k x) (g x) (hg x) hs
    obtain ⟨i1, i2⟩ := ih _ h1
    refine ⟨i1, ?_⟩
    rw [List.foldl_cons, i2, h2 sym]
    by_cases h : k x = sym
    · rw [List.filter_cons_of_pos (by simpa using h), List.foldl_cons, if_pos h.symm]
    · rw [List.filter_cons_of_neg (by simpa using h), if_neg (fun e => h e.symm)]

/-- The exec ring of an account: its capacity and its content. -/
theorem pushExecBack_foldl_ring (es : List Exec) :
    ∀ (a b : Accnt), a.execs = b.execs → a.maxExecs = b.maxExecs →
      (es.foldl Accnt.pushExecBack a).execs = (es.foldl Accnt.pushExecBack b).execs := by
  induction es with
  | nil => intro a b h _; exact h
  | cons e es ih =>
    intro a b h1 h2
    rw [List.foldl_cons, List.foldl_cons]
    apply ih
    · show (a.execs ++ [e]).drop _ = (b.execs ++ [e]).drop _
      rw [h1, h2]
    · exact h2

theorem foldl_keeps_ring (α : Type) (g : α → Accnt → Accnt)
    (hg : ∀ x a, (g x a).execs = a.execs ∧ (g x a).maxExecs = a.maxExecs) :
    ∀ (xs : List α) (a : Accnt),
      (xs.foldl (fun a x => g x a) a).execs = a.execs
      ∧ (xs.foldl (fun a x => g x a) a).maxExecs = a.maxExecs := by
  intro xs
  induction xs with
  | nil => intro a; exact ⟨rfl, rfl⟩
  | cons x xs ih =>
    intro a
    rw [List.foldl_cons]
    exact ⟨(ih _).1.trans (hg x a).1, (ih _).2.trans (hg x a).2⟩

/-- The callbacks of `readOrder` keep the accounts in symbol order and leave every exec ring as
it is. -/
theorem loadOrders_ring :
    ∀ (os : List Order) (s : Serv),
      (s.accnts.map (fun a => a.symbol)).Pairwise (fun a b => symbolLess a b = true) →
      ((loadOrders os s).1.accnts.map (fun a => a.symbol)).Pairwise
          (fun a b => symbolLess a b = true)
      ∧ ∀ sym, ((loadOrders os s).1.getAccnt sym).execs = (s.getAccnt sym).execs
          ∧ ((loadOrders os s).1.getAccnt sym).maxExecs = (s.getAccnt sym).maxExecs := by
  intro os
  induction os with
  | nil => intro s hs; exact ⟨hs, fun _ => ⟨rfl, rfl⟩⟩
  | cons o os ih =>
    intro s hs
    obtain ⟨h1, h2⟩ := Serv.getAccnt_step s o.accnt (fun a => a.insertOrder o) (fun _ => rfl) hs
    have h3 : ∀ sym, (((s.accnt o.accnt).writeAccnt o.accnt
        (fun a => a.insertOrder o)).getAccnt sym).execs = (s.getAccnt sym).execs
        ∧ (((s.accnt o.accnt).writeAccnt o.accnt
        (fun a => a.insertOrder o)).getAccnt sym).maxExecs = (s.getAccnt sym).maxExecs := by
      intro sym
      rw [h2 sym]
      split
      · exact ⟨rfl, rfl⟩
      · exact ⟨rfl, rfl⟩
    rw [loadOrders]
    unfold loadOrder
    simp only []
    split
    · rename_i s1 heq
      split at heq
      · cases heq
      · rename_i m hm
        simp only [Prod.mk.injEq] at heq
        obtain ⟨heq1, -⟩ := heq
        subst heq1
        obtain ⟨i1, i2⟩ := ih (((s.accnt o.accnt).writeAccnt o.accnt
          (fun a => a.insertOrder o)).storeMarket (m.insertOrder o)) h1
        refine ⟨i1, fun sym => ?_⟩
        have i3 := i2 sym
        exact ⟨i3.1.trans (h3 sym).1, i3.2.trans (h3 sym).2⟩
    · rename_i s1 e heq
      split at heq
      · simp only [Prod.mk.injEq] at heq
        rw [← heq.1]
        exact ⟨h1, h3⟩
      · cases heq

/-- C23 (as amended): `load(model, now)` asks the model for the execs since `now` minus 7×24h,
which is `now - 604800000` ms, and replays exactly these into the exec rings: when `load`
completes on accounts kept in symbol order, the ring of every account is what pushing onto the
back of its former ring, in the model's order, the execs of that window belonging to the account
gives (a missing account reading as the empty one). -/
theorem load_exec_window (busDay : Time → JDay) (model : Model) (now : Time) (s : Serv)
    (hs : (s.accnts.map (fun a => a.symbol)).Pairwise (fun a b => symbolLess a b = true))
    (hl : (load busDay model now s).2 = none) (sym : Symbol) :
    ((load busDay model now s).1.getAccnt sym).execs
      = (((model.readExec (now - 7 * 24 * 60 * 60 * 1000)).filter
          (fun e => e.accnt == sym)).foldl Accnt.pushExecBack (s.getAccnt sym)).execs := by
  have hnum : now - 7 * 24 * 60 * 60 * 1000 = now - 604800000 := by norm_num
  rw [hnum]
  have h2 := loadOrders_ring model.readOrder
    { s with markets := model.readMarket.foldl (fun l m => marketInsert m l) s.markets } hs
  unfold load at hl ⊢
  simp only [] at hl ⊢
  split at hl
  · cases hl
  · rename_i s2 heq
    rw [heq] at h2
    obtain ⟨h3, h4⟩ := h2
    obtain ⟨e1, e2⟩ := foldl_getAccnt Exec (fun e => e.accnt) (fun e a => a.pushExecBack e)
      (fun _ _ => rfl) sym (model.readExec (now - 604800000)) s2 h3
    obtain ⟨t1, t2⟩ := foldl_getAccnt Exec (fun e => e.accnt) (fun e a => a.insertTrade e)
      (fun _ _ => rfl) sym model.readTrade _ e1
    obtain ⟨-, p2⟩ := foldl_getAccnt Posn (fun p => p.accnt) (fun p a => a.insertPosn p)
      (fun _ _ => rfl) sym (model.readPosn (busDay now)) _ t1
    rw [p2, (foldl_keeps_ring Posn (fun p a => a.insertPosn p) (fun _ _ => ⟨rfl, rfl⟩) _ _).1,
      t2, (foldl_keeps_ring Exec (fun e a => a.insertTrade e) (fun _ _ => ⟨rfl, rfl⟩) _ _).1,
      e2]
    exact pushExecBack_foldl_ring _ _ _ (h4 sym).1 (h4 sym).2

/-- The amended C23 applies: loading `exWeekModel` at time 2000 into an engine without accounts
completes, and the ring of `A` holds the exec of the window. -/
theorem load_exec_window_witness :
    (load exBusDay exWeekModel 2000 exEngine0).2 = none
    ∧ ((load exBusDay exWeekModel 2000 exEngine0).1.getAccnt "A").execs = [exOldExec] :=
  ⟨by decide,
   (load_exec_window exBusDay exWeekModel 2000 exEngine0 List.Pairwise.nil (by decide)
      "A").trans (by decide)⟩

/-- C23 as stated fails: an exec created 606000000 ms before `now` lies within 608400000 ms, so
the model hands it out for `now - 608400000`, yet `load` does not replay it: the ring of `A` is
not the one the execs since `now - 608400000` give. -/
theorem load_window_counterexample :
    exWeekModel.readExec (exWeekNow - 608400000) = [exOldExec]
    ∧ ((load exBusDay exWeekModel exWeekNow exEngine0).1.getAccnt "A").execs
      ≠ (((exWeekModel.readExec (exWeekNow - 608400000)).filter
          (fun e => e.accnt == "A")).foldl Accnt.pushExecBack (exEngine0.getAccnt "A")).execs := by
  decide

/-! ## The position snapshot of a trade exec -/

theorem Serv.getAccnt_write_ne (s : Serv) (sym : Symbol) (f : Accnt → Accnt)
    (hf : ∀ a, (f a).symbol = a.symbol) (sym2 : Symbol) (h : sym2 ≠ sym) :
    (s.writeAccnt sym f).getAccnt sym2 = s.getAccnt sym2 :=
  (Serv.getAccnt_writeAccnt s sym f hf).1 sym2 h

/-- Creating the position lazily does not change what is read through the pointer. -/
theorem Accnt.net_posn (f : Posn → Int) (W : Side → Lots → Ticks → Int) (hM : Measure f W)
    (a : Accnt) (i : Id64) (n : Symbol) (d : JDay) (i2 : Id64) (n2 : Symbol) (d2 : JDay) :
    (a.posn i n d).net f i2 n2 d2 = a.net f i2 n2 d2 := by
  have h := (Accnt.Moved_posn f W hM a i n d).1.2.2 i2 n2 d2
  rw [tradeSum_nil, Int.add_zero] at h
  exact h

theorem Serv.posnLots_eq_net (s : Serv) (sym : Symbol) (market : Market) :
    s.posnLots sym market
      = (s.getAccnt sym).net (fun p => p.netLots) market.id market.instr market.settlDay := rfl

theorem Serv.posnCost_eq_net (s : Serv) (sym : Symbol) (market : Market) :
    s.posnCost sym market
      = (s.getAccnt sym).net (fun p => p.netCost) market.id market.instr market.settlDay := rfl

/-- What `createTrade` reads through `posn` for the snapshot is the account's position before
the call. -/
theorem Serv.posn_read (s : Serv) (accnt : Symbol) (market : Market)
    (hex : ∃ a ∈ s.accnts, a.symbol = accnt) :
    (s.writeAccnt accnt (fun a => a.posn market.id market.instr market.settlDay)).posnLots
        accnt market = s.posnLots accnt market
    ∧ (s.writeAccnt accnt (fun a => a.posn market.id market.instr market.settlDay)).posnCost
        accnt market = s.posnCost accnt market := by
  rw [Serv.posnLots_eq_net, Serv.posnCost_eq_net, Serv.posnLots_eq_net, Serv.posnCost_eq_net,
    Serv.getAccnt_write _ _ _ (fun a => Accnt.posn_symbol a _ _ _) hex]
  exact ⟨Accnt.net_posn _ _ Measure.lots _ _ _ _ _ _ _,
    Accnt.net_posn _ _ Measure.cost _ _ _ _ _ _ _⟩

theorem createTrade_trade (mq : MsgQueue) (s : Serv) (accnt : Symbol) (market : Market)
    (ref : String) (side : Side) (lots : Lots) (ticks : Ticks) (liqInd : LiqInd)
    (cpty : Symbol) (created : Time) :
    (createTrade mq s accnt market ref side lots ticks liqInd cpty created).trade
      = newManual market.id market.instr market.settlDay (market.execSeq + 1) accnt ref side
          lots ticks
          ((s.writeAccnt accnt
            (fun a => a.posn market.id market.instr market.settlDay)).posnLots accnt market)
          ((s.writeAccnt accnt
            (fun a => a.posn market.id market.instr market.settlDay)).posnCost accnt market)
          liqInd cpty created := by
  unfold createTrade
  simp only []
  split <;> split <;> rfl

theorem Serv.getAccnt_journ (s : Serv) (j : List (List Exec)) (sym : Symbol) :
    ({ s with journ := j } : Serv).getAccnt sym = s.getAccnt sym := rfl

theorem Serv.accnt_has (s : Serv) (sym sym2 : Symbol) (h : ∃ a ∈ s.accnts, a.symbol = sym2) :
    ∃ a ∈ (s.accnt sym).accnts, a.symbol = sym2 := by
  obtain ⟨a, ha, has⟩ := h
  exact ⟨a, accntInsert_of_mem sym s.maxExecs s.accnts a ha, has⟩

/-- The account of the caller after a `createTrade` that the journal accepted, when the
counter-party is another account or absent: its position has been created if missing, the trade
pushed on its ring and recorded, and then booked on the position. -/
theorem createTrade_accnt (mq : MsgQueue) (s : Serv) (accnt : Symbol) (market : Market)
    (ref : String) (side : Side) (lots : Lots) (ticks : Ticks) (liqInd : LiqInd)
    (cpty : Symbol) (created : Time)
    (hs : (s.accnts.map (fun a => a.symbol)).Pairwise (fun a b => symbolLess a b = true))
    (hex : ∃ a ∈ s.accnts, a.symbol = accnt) (hcp : cpty ≠ accnt)
    (hok : (createTrade mq s accnt market ref side lots ticks liqInd cpty created).thrown
      = none) :
    (createTrade mq s accnt market ref side lots ticks liqInd cpty created).serv.getAccnt accnt
      = (((((s.getAccnt accnt).posn market.id market.instr market.settlDay).pushExecFront
          (createTrade mq s accnt market ref side lots ticks liqInd cpty created).trade).insertTrade
          (createTrade mq s accnt market ref side lots ticks liqInd cpty created).trade).addTrade
          market.id market.instr market.settlDay side lots ticks)
    ∧ (createTrade mq s accnt market ref side lots ticks liqInd cpty created).market.id
        = market.id
    ∧ (createTrade mq s accnt market ref side lots ticks liqInd cpty created).market.instr
        = market.instr
    ∧ (createTrade mq s accnt market ref side lots ticks liqInd cpty created).market.settlDay
        = market.settlDay := by
  have hex1 : ∃ a ∈ (s.writeAccnt accnt
      (fun a => a.posn market.id market.instr market.settlDay)).accnts, a.symbol = accnt :=
    Serv.writeAccnt_has s accnt _ accnt (fun a => Accnt.posn_symbol a _ _ _) hex
  have hs1 : ((s.writeAccnt accnt
      (fun a => a.posn market.id market.instr market.settlDay)).accnts.map
        (fun a => a.symbol)).Pairwise (fun a b => symbolLess a b = true) := by
    rw [Serv.writeAccnt_symbols _ _ _ (fun a => Accnt.posn_symbol a _ _ _)]
    exact hs
  have hne : accnt ≠ cpty := fun e => hcp e.symm
  rw [createTrade_trade]
  unfold createTrade at hok ⊢
  simp only [] at hok ⊢
  split
  · rename_i hc
    simp only [hc, if_true] at hok
    split
    · refine ⟨?_, rfl, rfl, rfl⟩
      rw [Serv.getAccnt_write _ _ _ ?_ ?_,
        Serv.getAccnt_write _ _ _ ?_ ?_,
        Serv.getAccnt_write_ne _ _ _ ?_ _ hne,
        Serv.getAccnt_write_ne _ _ _ ?_ _ hne,
        Serv.getAccnt_journ,
        Serv.getAccnt_write_ne _ _ _ ?_ _ hne,
        Serv.getAccnt_accnt _ _ _ hs1,
        Serv.getAccnt_write _ _ _ ?_ hex]
      · rfl
      all_goals
        repeat (first
          | exact Serv.accnt_has _ _ _ hex1
          | exact (fun _ => rfl)
          | exact (fun a => Accnt.posn_symbol a _ _ _)
          | apply Serv.writeAccnt_has)
    · rename_i hm
      simp only [hm, Bool.false_eq_true, if_false] at hok
      cases hok
  · rename_i hc
    simp only [hc, Bool.false_eq_true, if_false] at hok
    split
    · refine ⟨?_, rfl, rfl, rfl⟩
      rw [Serv.getAccnt_write _ _ _ ?_ ?_,
        Serv.getAccnt_write _ _ _ ?_ ?_,
        Serv.getAccnt_journ,
        Serv.getAccnt_write _ _ _ ?_ hex]
      · rfl
      all_goals
        repeat (first
          | exact hex1
          | exact (fun _ => rfl)
          | exact (fun a => Accnt.posn_symbol a _ _ _)
          | apply Serv.writeAccnt_has)
    · rename_i hm
      simp only [hm, Bool.false_eq_true, if_false] at hok
      cases hok

theorem Serv.posn_key (s : Serv) (sym : Symbol) (m1 m2 : Market) (h1 : m2.id = m1.id)
    (h2 : m2.instr = m1.instr) (h3 : m2.settlDay = m1.settlDay) :
    s.posnLots sym m2 = s.posnLots sym m1 ∧ s.posnCost sym m2 = s.posnCost sym m1 := by
  unfold Serv.posnLots Serv.posnCost
  rw [h1, h2, h3]
  exact ⟨rfl, rfl⟩

theorem Serv.posn_write_ne (s : Serv) (sym : Symbol) (f : Accnt → Accnt)
    (hf : ∀ a, (f a).symbol = a.symbol) (sym2 : Symbol) (h : sym2 ≠ sym) (m : Market) :
    (s.writeAccnt sym f).posnLots sym2 m = s.posnLots sym2 m
    ∧ (s.writeAccnt sym f).posnCost sym2 m = s.posnCost sym2 m := by
  unfold Serv.posnLots Serv.posnCost
  rw [Serv.getAccnt_write_ne s sym f hf sym2 h]
  exact ⟨rfl, rfl⟩

theorem Serv.posn_write_inert (s : Serv) (sym : Symbol) (f : Accnt → Accnt)
    (hf : ∀ a, (f a).symbol = a.symbol) (hp : ∀ a, (f a).posns = a.posns)
    (hex : ∃ a ∈ s.accnts, a.symbol = sym) (m : Market) :
    (s.writeAccnt sym f).posnLots sym m = s.posnLots sym m
    ∧ (s.writeAccnt sym f).posnCost sym m = s.posnCost sym m := by
  unfold Serv.posnLots Serv.posnCost Accnt.findPosn
  rw [Serv.getAccnt_write s sym f hf hex, hp]
  exact ⟨rfl, rfl⟩

/-- What one step of the commit loop does to the accounts of the maker and of the taker, when
they are two accounts: each trade exec is stamped with the position its account has when the
step starts, pushed on the ring, and booked on the position. -/
theorem commitMatch_accnts (takerAccnt : Symbol) (now : Time) (m : Match) (c : Committed)
    (hne : m.makerOrder.accnt ≠ takerAccnt)
    (hexm : ∃ a ∈ c.serv.accnts, a.symbol = m.makerOrder.accnt)
    (hext : ∃ a ∈ c.serv.accnts, a.symbol = takerAccnt) :
    ((commitMatch takerAccnt now m c).serv.getAccnt m.makerOrder.accnt).execs
      = (m.makerTrade.posn (c.serv.posnLots m.makerOrder.accnt c.market)
          (c.serv.posnCost m.makerOrder.accnt c.market)
          :: (c.serv.getAccnt m.makerOrder.accnt).execs).take
            (c.serv.getAccnt m.makerOrder.accnt).maxExecs
    ∧ ((commitMatch takerAccnt now m c).serv.getAccnt m.makerOrder.accnt).posns
      = ((c.serv.getAccnt m.makerOrder.accnt).addTrade c.market.id c.market.instr
          c.market.settlDay m.makerTrade.side m.makerTrade.lastLots
          m.makerTrade.lastTicks).posns
    ∧ ((commitMatch takerAccnt now m c).serv.getAccnt takerAccnt).execs
      = (m.takerTrade.posn (c.serv.posnLots takerAccnt c.market)
          (c.serv.posnCost takerAccnt c.market)
          :: (c.serv.getAccnt takerAccnt).execs).take (c.serv.getAccnt takerAccnt).maxExecs
    ∧ ((commitMatch takerAccnt now m c).serv.getAccnt takerAccnt).posns
      = ((c.serv.getAccnt takerAccnt).addTrade c.market.id c.market.instr
          c.market.settlDay m.takerTrade.side m.takerTrade.lastLots
          m.takerTrade.lastTicks).posns := by
  obtain ⟨k1, k2, k3⟩ := Market.takeOrder_key c.market m.makerOrder m.lots now
  have hne2 : takerAccnt ≠ m.makerOrder.accnt := fun e => hne e.symm
  have hk := fun (s : Serv) (sym : Symbol) =>
    Serv.posn_key s sym c.market (c.market.takeOrder m.makerOrder m.lots now) k1 k2 k3
  have hm1 := Serv.posn_write_inert c.serv m.makerOrder.accnt
    (fun a => a.writeOrder m.makerOrder.marketId m.makerOrder.id
      (fun x => x.trade m.lots (cost m.lots x.ticks) m.lots x.ticks now))
    (fun _ => rfl) (fun _ => rfl) hexm c.market
  unfold commitMatch
  simp only []
  rw [k1, k2, k3, (hk _ _).1, (hk _ _).2, hm1.1, hm1.2]
  by_cases hd : (m.makerOrder.trade m.lots (cost m.lots m.makerOrder.ticks) m.lots
      m.makerOrder.ticks now).done = true
  · simp only [hd, if_true]
    rw [(hk _ _).1, (hk _ _).2,
      (Serv.posn_write_ne _ _ _ ?_ _ hne2 _).1, (Serv.posn_write_ne _ _ _ ?_ _ hne2 _).2,
      (Serv.posn_write_ne _ _ _ ?_ _ hne2 _).1, (Serv.posn_write_ne _ _ _ ?_ _ hne2 _).2,
      (Serv.posn_write_ne _ _ _ ?_ _ hne2 _).1, (Serv.posn_write_ne _ _ _ ?_ _ hne2 _).2,
      (Serv.posn_write_ne _ _ _ ?_ _ hne2 _).1, (Serv.posn_write_ne _ _ _ ?_ _ hne2 _).2]
    · refine ⟨?_, ?_, ?_, ?_⟩
      · rw [Serv.getAccnt_write_ne _ _ _ ?_ _ hne,
          Serv.getAccnt_write_ne _ _ _ ?_ _ hne,
          Serv.getAccnt_write _ _ _ ?_ ?_,
          Serv.getAccnt_write _ _ _ ?_ ?_,
          Serv.getAccnt_write _ _ _ ?_ ?_,
          Serv.getAccnt_write _ _ _ ?_ ?_]
        · rfl
        all_goals repeat (first | exact hexm | exact hext | exact (fun _ => rfl) | apply Serv.writeAccnt_has)
      · rw [Serv.getAccnt_write_ne _ _ _ ?_ _ hne,
          Serv.getAccnt_write_ne _ _ _ ?_ _ hne,
          Serv.getAccnt_write _ _ _ ?_ ?_,
          Serv.getAccnt_write _ _ _ ?_ ?_,
          Serv.getAccnt_write _ _ _ ?_ ?_,
          Serv.getAccnt_write _ _ _ ?_ ?_]
        · rfl
        all_goals repeat (first | exact hexm | exact hext | exact (fun _ => rfl) | apply Serv.writeAccnt_has)
      · rw [Serv.getAccnt_write _ _ _ ?_ ?_,
          Serv.getAccnt_write _ _ _ ?_ ?_,
          Serv.getAccnt_write_ne _ _ _ ?_ _ hne2,
          Serv.getAccnt_write_ne _ _ _ ?_ _ hne2,
          Serv.getAccnt_write_ne _ _ _ ?_ _ hne2,
          Serv.getAccnt_write_ne _ _ _ ?_ _ hne2]
        · rfl
        all_goals repeat (first | exact hexm | exact hext | exact (fun _ => rfl) | apply Serv.writeAccnt_has)
      · rw [Serv.getAccnt_write _ _ _ ?_ ?_,
          Serv.getAccnt_write _ _ _ ?_ ?_,
          Serv.getAccnt_write_ne _ _ _ ?_ _ hne2,
          Serv.getAccnt_write_ne _ _ _ ?_ _ hne2,
          Serv.getAccnt_write_ne _ _ _ ?_ _ hne2,
          Serv.getAccnt_write_ne _ _ _ ?_ _ hne2]
        · rfl
        all_goals repeat (first | exact hexm | exact hext | exact (fun _ => rfl) | apply Serv.writeAccnt_has)
    all_goals exact (fun _ => rfl)
  · simp only [hd, Bool.false_eq_true, if_false]
    rw [(hk _ _).1, (hk _ _).2,
      (Serv.posn_write_ne _ _ _ ?_ _ hne2 _).1, (Serv.posn_write_ne _ _ _ ?_ _ hne2 _).2,
      (Serv.posn_write_ne _ _ _ ?_ _ hne2 _).1, (Serv.posn_write_ne _ _ _ ?_ _ hne2 _).2,
      (Serv.posn_write_ne _ _ _ ?_ _ hne2 _).1, (Serv.posn_write_ne _ _ _ ?_ _ hne2 _).2]
    · refine ⟨?_, ?_, ?_, ?_⟩
      · rw [Serv.getAccnt_write_ne _ _ _ ?_ _ hne,
          Serv.getAccnt_write_ne _ _ _ ?_ _ hne,
          Serv.getAccnt_write _ _ _ ?_ ?_,
          Serv.getAccnt_write _ _ _ ?_ ?_,
          Serv.getAccnt_write _ _ _ ?_ ?_]
        · rfl
        all_goals repeat (first | exact hexm | exact hext | exact (fun _ => rfl) | apply Serv.writeAccnt_has)
      · rw [Serv.getAccnt_write_ne _ _ _ ?_ _ hne,
          Serv.getAccnt_write_ne _ _ _ ?_ _ hne,
          Serv.getAccnt_write _ _ _ ?_ ?_,
          Serv.getAccnt_write _ _ _ ?_ ?_,
          Serv.getAccnt_write _ _ _ ?_ ?_]
        · rfl
        all_goals repeat (first | exact hexm | exact hext | exact (fun _ => rfl) | apply Serv.writeAccnt_has)
      · rw [Serv.getAccnt_write _ _ _ ?_ ?_,
          Serv.getAccnt_write _ _ _ ?_ ?_,
          Serv.getAccnt_write_ne _ _ _ ?_ _ hne2,
          Serv.getAccnt_write_ne _ _ _ ?_ _ hne2,
          Serv.getAccnt_write_ne _ _ _ ?_ _ hne2]
        · rfl
        all_goals repeat (first | exact hexm | exact hext | exact (fun _ => rfl) | apply Serv.writeAccnt_has)
      · rw [Serv.getAccnt_write _ _ _ ?_ ?_,
          Serv.getAccnt_write _ _ _ ?_ ?_,
          Serv.getAccnt_write_ne _ _ _ ?_ _ hne2,
          Serv.getAccnt_write_ne _ _ _ ?_ _ hne2,
          Serv.getAccnt_write_ne _ _ _ ?_ _ hne2]
        · rfl
        all_goals repeat (first | exact hexm | exact hext | exact (fun _ => rfl) | apply Serv.writeAccnt_has)
    all_goals exact (fun _ => rfl)
theorem Accnt.net_congr (f : Posn → Int) (a b : Accnt) (h : a.posns = b.posns) (i : Id64)
    (n : Symbol) (d : JDay) : a.net f i n d = b.net f i n d := by
  unfold Accnt.net Accnt.findPosn
  rw [h]

theorem Accnt.hasPosn_congr (a b : Accnt) (h : a.posns = b.posns) (i : Id64)
    (n : Symbol) (d : JDay) : a.hasPosn i n d = b.hasPosn i n d := by
  unfold Accnt.hasPosn
  rw [h]

/-- Booking a trade on the position of account `sym` moves what is read through the position
pointer by the signed lots and the signed cost of the trade. -/
theorem Serv.posn_write_addTrade (s : Serv) (sym : Symbol) (m : Market) (sd : Side) (l : Lots)
    (t : Ticks) (hex : ∃ a ∈ s.accnts, a.symbol = sym)
    (hp : (s.getAccnt sym).hasPosn m.id m.instr m.settlDay = true) :
    (s.writeAccnt sym (fun a => a.addTrade m.id m.instr m.settlDay sd l t)).posnLots sym m
      = s.posnLots sym m + sd.sign * l
    ∧ (s.writeAccnt sym (fun a => a.addTrade m.id m.instr m.settlDay sd l t)).posnCost sym m
      = s.posnCost sym m + sd.sign * (l * t) := by
  rw [Serv.posnLots_eq_net, Serv.posnCost_eq_net,
    Serv.getAccnt_write s sym (fun a => a.addTrade m.id m.instr m.settlDay sd l t)
      (fun _ => rfl) hex,
    Accnt.net_addTrade_same _ _ Measure.lots _ _ _ _ _ _ _ hp,
    Accnt.net_addTrade_same _ _ Measure.cost _ _ _ _ _ _ _ hp]
  exact ⟨rfl, rfl⟩

/-- What is read through the position pointer of account `sym` after a write that keeps the
positions, a trade booked on the position, and another write that keeps the positions. -/
theorem Serv.posn_write_chain (s : Serv) (sym : Symbol) (m : Market) (g1 g3 : Accnt → Accnt)
    (sd : Side) (l : Lots) (t : Ticks)
    (h1s : ∀ a, (g1 a).symbol = a.symbol) (h1p : ∀ a, (g1 a).posns = a.posns)
    (h3s : ∀ a, (g3 a).symbol = a.symbol) (h3p : ∀ a, (g3 a).posns = a.posns)
    (hex : ∃ a ∈ s.accnts, a.symbol = sym)
    (hp : (s.getAccnt sym).hasPosn m.id m.instr m.settlDay = true) :
    (((s.writeAccnt sym g1).writeAccnt sym
        (fun a => a.addTrade m.id m.instr m.settlDay sd l t)).writeAccnt sym g3).posnLots sym m
      = s.posnLots sym m + sd.sign * l
    ∧ (((s.writeAccnt sym g1).writeAccnt sym
        (fun a => a.addTrade m.id m.instr m.settlDay sd l t)).writeAccnt sym g3).posnCost sym m
      = s.posnCost sym m + sd.sign * (l * t) := by
  have hex1 := Serv.writeAccnt_has s sym g1 sym h1s hex
  have hex2 := Serv.writeAccnt_has (s.writeAccnt sym g1) sym
    (fun a => a.addTrade m.id m.instr m.settlDay sd l t) sym (fun _ => rfl) hex1
  have hp1 : ((s.writeAccnt sym g1).getAccnt sym).hasPosn m.id m.instr m.settlDay = true := by
    rw [Serv.getAccnt_write s sym g1 h1s hex, Accnt.hasPosn_congr _ _ (h1p _)]
    exact hp
  have e3 := Serv.posn_write_inert _ sym g3 h3s h3p hex2 m
  have e2 := Serv.posn_write_addTrade (s.writeAccnt sym g1) sym m sd l t hex1 hp1
  have e1 := Serv.posn_write_inert s sym g1 h1s h1p hex m
  rw [e3.1, e3.2, e2.1, e2.2, e1.1, e1.2]
  exact ⟨rfl, rfl⟩

/-- What one step of the commit loop does to the ring of the taker's account when the maker is
an order of the same account: the maker's trade exec is stamped with the position the account
has when the step starts, the taker's with the position after the maker's trade has been booked
on it, and both are pushed on the ring, the taker's in front. -/
theorem commitMatch_self_snap (takerAccnt : Symbol) (now : Time) (m : Match) (c : Committed)
    (hself : m.makerOrder.accnt = takerAccnt)
    (hex : ∃ a ∈ c.serv.accnts, a.symbol = takerAccnt)
    (hp : (c.serv.getAccnt takerAccnt).hasPosn c.market.id c.market.instr c.market.settlDay
      = true) :
    ((commitMatch takerAccnt now m c).serv.getAccnt takerAccnt).execs
      = (m.takerTrade.posn
            (c.serv.posnLots takerAccnt c.market + m.makerTrade.side.sign * m.makerTrade.lastLots)
            (c.serv.posnCost takerAccnt c.market
              + m.makerTrade.side.sign * (m.makerTrade.lastLots * m.makerTrade.lastTicks))
          :: ((m.makerTrade.posn (c.serv.posnLots takerAccnt c.market)
                (c.serv.posnCost takerAccnt c.market)
              :: (c.serv.getAccnt takerAccnt).execs).take
              (c.serv.getAccnt takerAccnt).maxExecs)).take
          (c.serv.getAccnt takerAccnt).maxExecs := by
  subst hself
  obtain ⟨k1, k2, k3⟩ := Market.takeOrder_key c.market m.makerOrder m.lots now
  have hk := fun (s : Serv) (sym : Symbol) =>
    Serv.posn_key s sym c.market (c.market.takeOrder m.makerOrder m.lots now) k1 k2 k3
  have hm1 := Serv.posn_write_inert c.serv m.makerOrder.accnt
    (fun a => a.writeOrder m.makerOrder.marketId m.makerOrder.id
      (fun x => x.trade m.lots (cost m.lots x.ticks) m.lots x.ticks now))
    (fun _ => rfl) (fun _ => rfl) hex c.market
  have hch := Serv.posn_write_chain c.serv m.makerOrder.accnt c.market
    (fun a => a.writeOrder m.makerOrder.marketId m.makerOrder.id
      (fun x => x.trade m.lots (cost m.lots x.ticks) m.lots x.ticks now))
    (fun a => (a.pushExecFront (m.makerTrade.posn (c.serv.posnLots m.makerOrder.accnt c.market)
        (c.serv.posnCost m.makerOrder.accnt c.market))).insertTrade
      (m.makerTrade.posn (c.serv.posnLots m.makerOrder.accnt c.market)
        (c.serv.posnCost m.makerOrder.accnt c.market)))
    (m.makerTrade.posn (c.serv.posnLots m.makerOrder.accnt c.market)
      (c.serv.posnCost m.makerOrder.accnt c.market)).side
    (m.makerTrade.posn (c.serv.posnLots m.makerOrder.accnt c.market)
      (c.serv.posnCost m.makerOrder.accnt c.market)).lastLots
    (m.makerTrade.posn (c.serv.posnLots m.makerOrder.accnt c.market)
      (c.serv.posnCost m.makerOrder.accnt c.market)).lastTicks
    (fun _ => rfl) (fun _ => rfl) (fun _ => rfl) (fun _ => rfl) hex hp
  have hex3 : ∃ a ∈ (((c.serv.writeAccnt m.makerOrder.accnt
      (fun a => a.writeOrder m.makerOrder.marketId m.makerOrder.id
        (fun x => x.trade m.lots (cost m.lots x.ticks) m.lots x.ticks now))).writeAccnt
      m.makerOrder.accnt
      (fun a => a.addTrade c.market.id c.market.instr c.market.settlDay
        (m.makerTrade.posn (c.serv.posnLots m.makerOrder.accnt c.market)
          (c.serv.posnCost m.makerOrder.accnt c.market)).side
        (m.makerTrade.posn (c.serv.posnLots m.makerOrder.accnt c.market)
          (c.serv.posnCost m.makerOrder.accnt c.market)).lastLots
        (m.makerTrade.posn (c.serv.posnLots m.makerOrder.accnt c.market)
          (c.serv.posnCost m.makerOrder.accnt c.market)).lastTicks)).writeAccnt
      m.makerOrder.accnt
      (fun a => (a.pushExecFront (m.makerTrade.posn (c.serv.posnLots m.makerOrder.accnt c.market)
          (c.serv.posnCost m.makerOrder.accnt c.market))).insertTrade
        (m.makerTrade.posn (c.serv.posnLots m.makerOrder.accnt c.market)
          (c.serv.posnCost m.makerOrder.accnt c.market)))).accnts,
      a.symbol = m.makerOrder.accnt := by
    repeat (first | exact hex | exact (fun _ => rfl) | apply Serv.writeAccnt_has)
  unfold commitMatch
  simp only []
  rw [k1, k2, k3, (hk _ _).1, (hk _ _).2, hm1.1, hm1.2]
  by_cases hd : (m.makerOrder.trade m.lots (cost m.lots m.makerOrder.ticks) m.lots
      m.makerOrder.ticks now).done = true
  · simp only [hd, if_true]
    have hrm := Serv.posn_write_inert _ m.makerOrder.accnt
      (fun a => a.removeOrder (m.makerOrder.trade m.lots (cost m.lots m.makerOrder.ticks)
        m.lots m.makerOrder.ticks now)) (fun _ => rfl) (fun _ => rfl) hex3 c.market
    rw [(hk _ _).1, (hk _ _).2, hrm.1, hrm.2, hch.1, hch.2]
    rw [Serv.getAccnt_write _ _ _ ?_ ?_,
      Serv.getAccnt_write _ _ _ ?_ ?_,
      Serv.getAccnt_write _ _ _ ?_ ?_,
      Serv.getAccnt_write _ _ _ ?_ ?_,
      Serv.getAccnt_write _ _ _ ?_ ?_,
      Serv.getAccnt_write _ _ _ ?_ ?_]
    · rfl
    all_goals repeat (first | exact hex | exact (fun _ => rfl) | apply Serv.writeAccnt_has)
  · simp only [hd, Bool.false_eq_true, if_false]
    rw [(hk _ _).1, (hk _ _).2, hch.1, hch.2]
    rw [Serv.getAccnt_write _ _ _ ?_ ?_,
      Serv.getAccnt_write _ _ _ ?_ ?_,
      Serv.getAccnt_write _ _ _ ?_ ?_,
      Serv.getAccnt_write _ _ _ ?_ ?_,
      Serv.getAccnt_write _ _ _ ?_ ?_]
    · rfl
    all_goals repeat (first | exact hex | exact (fun _ => rfl) | apply Serv.writeAccnt_has)

theorem Side.sign_opposite (sd : Side) : sd.opposite.sign = - sd.sign := by
  cases sd <;> rfl

/-- The account of the caller after a `createTrade` that the journal accepted, when the caller
names itself as counter-party: the opposite trade is pushed, recorded and booked on the
position first, then the caller's trade. -/
theorem createTrade_self_accnt (mq : MsgQueue) (s : Serv) (accnt : Symbol) (market : Market)
    (ref : String) (side : Side) (lots : Lots) (ticks : Ticks) (liqInd : LiqInd)
    (created : Time)
    (hs : (s.accnts.map (fun a => a.symbol)).Pairwise (fun a b => symbolLess a b = true))
    (hex : ∃ a ∈ s.accnts, a.symbol = accnt) (hc : accnt.isEmpty = false)
    (hok : (createTrade mq s accnt market ref side lots ticks liqInd accnt created).thrown
      = none) :
    (createTrade mq s accnt market ref side lots ticks liqInd accnt created).serv.getAccnt accnt
      = (((((((((s.getAccnt accnt).posn market.id market.instr market.settlDay).posn
          market.id market.instr market.settlDay).pushExecFront
          ((createTrade mq s accnt market ref side lots ticks liqInd accnt
            created).trade.opposite (market.execSeq + 2))).insertTrade
          ((createTrade mq s accnt market ref side lots ticks liqInd accnt
            created).trade.opposite (market.execSeq + 2))).addTrade market.id market.instr
          market.settlDay side.opposite lots ticks).pushExecFront
          (createTrade mq s accnt market ref side lots ticks liqInd accnt
            created).trade).insertTrade
          (createTrade mq s accnt market ref side lots ticks liqInd accnt created).trade).addTrade
          market.id market.instr market.settlDay side lots ticks)
    ∧ (createTrade mq s accnt market ref side lots ticks liqInd accnt created).market.id
        = market.id
    ∧ (createTrade mq s accnt market ref side lots ticks liqInd accnt created).market.instr
        = market.instr
    ∧ (createTrade mq s accnt market ref side lots ticks liqInd accnt created).market.settlDay
        = market.settlDay := by
  have hex1 : ∃ a ∈ (s.writeAccnt accnt
      (fun a => a.posn market.id market.instr market.settlDay)).accnts, a.symbol = accnt :=
    Serv.writeAccnt_has s accnt _ accnt (fun a => Accnt.posn_symbol a _ _ _) hex
  have hs1 : ((s.writeAccnt accnt
      (fun a => a.posn market.id market.instr market.settlDay)).accnts.map
        (fun a => a.symbol)).Pairwise (fun a b => symbolLess a b = true) := by
    rw [Serv.writeAccnt_symbols _ _ _ (fun a => Accnt.posn_symbol a _ _ _)]
    exact hs
  rw [createTrade_trade]
  unfold createTrade at hok ⊢
  simp only [hc, Bool.not_false, if_true] at hok ⊢
  split
  · refine ⟨?_, rfl, rfl, rfl⟩
    rw [Serv.getAccnt_write _ _ _ ?_ ?_,
      Serv.getAccnt_write _ _ _ ?_ ?_,
      Serv.getAccnt_write _ _ _ ?_ ?_,
      Serv.getAccnt_write _ _ _ ?_ ?_,
      Serv.getAccnt_journ,
      Serv.getAccnt_write _ _ _ ?_ ?_,
      Serv.getAccnt_accnt _ _ _ hs1,
      Serv.getAccnt_write _ _ _ ?_ hex]
    · rfl
    all_goals
      repeat (first
        | exact Serv.accnt_has _ _ _ hex1
        | exact (fun _ => rfl)
        | exact (fun a => Accnt.posn_symbol a _ _ _)
        | apply Serv.writeAccnt_has)
  · rename_i hm
    simp only [hm, Bool.false_eq_true, if_false] at hok
    cases hok

/-- The net value of a position after a trade and its opposite have been booked on it, with a
ring push and a trade record around each, is the value before. -/
theorem Accnt.net_back_to_back (f : Posn → Int) (W : Side → Lots → Ticks → Int)
    (hM : Measure f W) (hW : ∀ sd l t, W (Side.opposite sd) l t = - W sd l t)
    (a : Accnt) (i : Id64) (n : Symbol) (d : JDay) (e1 e2 : Exec) (sd : Side) (l : Lots)
    (t : Ticks) :
    Accnt.net f ((((((((a.posn i n d).posn i n d).pushExecFront e1).insertTrade e1).addTrade
        i n d sd.opposite l t).pushExecFront e2).insertTrade e2).addTrade i n d sd l t) i n d
      = a.net f i n d := by
  have hp1 : Accnt.hasPosn ((((a.posn i n d).posn i n d).pushExecFront e1).insertTrade e1)
      i n d = true := (Accnt.Moved_posn f W hM (a.posn i n d) i n d).2
  have hp2 : Accnt.hasPosn (((((((a.posn i n d).posn i n d).pushExecFront e1).insertTrade
      e1).addTrade i n d sd.opposite l t).pushExecFront e2).insertTrade e2) i n d = true := by
    have h := Accnt.hasPosn_addTrade ((((a.posn i n d).posn i n d).pushExecFront
      e1).insertTrade e1) i n d sd.opposite l t i n d
    rw [hp1] at h
    exact h
  have hn1 : Accnt.net f (((((((a.posn i n d).posn i n d).pushExecFront e1).insertTrade
      e1).addTrade i n d sd.opposite l t).pushExecFront e2).insertTrade e2) i n d
      = Accnt.net f (((((a.posn i n d).posn i n d).pushExecFront e1).insertTrade e1).addTrade
          i n d sd.opposite l t) i n d := rfl
  have hn0 : Accnt.net f ((((a.posn i n d).posn i n d).pushExecFront e1).insertTrade e1) i n d
      = Accnt.net f ((a.posn i n d).posn i n d) i n d := rfl
  rw [Accnt.net_addTrade_same f W hM _ i n d sd l t hp2, hn1,
    Accnt.net_addTrade_same f W hM _ i n d sd.opposite l t hp1, hn0,
    Accnt.net_posn f W hM, Accnt.net_posn f W hM, hW]
  ring

/-- A `createTrade` that names the caller as counter-party leaves the caller's position where
it was: the trade and its opposite are both booked on it. -/
theorem createTrade_self_posn (mq : MsgQueue) (s : Serv) (accnt : Symbol) (market : Market)
    (ref : String) (side : Side) (lots : Lots) (ticks : Ticks) (liqInd : LiqInd)
    (created : Time)
    (hs : (s.accnts.map (fun a => a.symbol)).Pairwise (fun a b => symbolLess a b = true))
    (hex : ∃ a ∈ s.accnts, a.symbol = accnt) (hc : accnt.isEmpty = false)
    (hok : (createTrade mq s accnt market ref side lots ticks liqInd accnt created).thrown
      = none) :
    (createTrade mq s accnt market ref side lots ticks liqInd accnt created).serv.posnLots accnt
        (createTrade mq s accnt market ref side lots ticks liqInd accnt created).market
      = s.posnLots accnt market
    ∧ (createTrade mq s accnt market ref side lots ticks liqInd accnt created).serv.posnCost
        accnt (createTrade mq s accnt market ref side lots ticks liqInd accnt created).market
      = s.posnCost accnt market := by
  obtain ⟨a1, a2, a3, a4⟩ :=
    createTrade_self_accnt mq s accnt market ref side lots ticks liqInd created hs hex hc hok
  refine ⟨?_, ?_⟩
  · rw [Serv.posnLots_eq_net, a2, a3, a4, a1]
    exact Accnt.net_back_to_back _ _ Measure.lots
      (fun sd l t => by
        show sd.opposite.sign * l = - (sd.sign * l)
        rw [Side.sign_opposite]; ring) _ _ _ _ _ _ _ _ _
  · rw [Serv.posnCost_eq_net, a2, a3, a4, a1]
    exact Accnt.net_back_to_back _ _ Measure.cost
      (fun sd l t => by
        show sd.opposite.sign * (l * t) = - (sd.sign * (l * t))
        rw [Side.sign_opposite]; ring) _ _ _ _ _ _ _ _ _

/-- C25 (as amended): the position stamped on a trade exec is a snapshot taken before the trade
is booked, not after it.  For `createTrade`: the `posnLots` and `posnCost` of the caller's trade
are the net lots and net cost the caller has under the market's key when the call starts (zero
without a position); once the journal has accepted, the caller's position is the snapshot plus
the signed lots and the signed cost of the trade when the counter-party is absent or another
account, and is the snapshot itself when the caller names itself as counter-party, the trade
and its opposite being both booked on it.  For every step of the commit loop of `createOrder`:
the maker's trade exec carries the maker's position as it is when the step starts; the taker's
trade exec carries the taker's position as it is when the step starts if the maker belongs to
another account, and the position after the maker's trade has been booked if the maker belongs
to the taker's own account; both execs are pushed on the ring of their account, and after the
step each position is its snapshot plus the signed lots and the signed cost of the trade. -/
theorem posn_snapshot_pre_trade (mq : MsgQueue) (s : Serv) (accnt : Symbol)
    (market : Market)
    (ref : String) (side : Side) (lots : Lots) (ticks : Ticks) (liqInd : LiqInd)
    (cpty : Symbol) (created : Time) (takerAccnt : Symbol) (now : Time) (m : Match)
    (c : Committed) :
    ((∃ a ∈ s.accnts, a.symbol = accnt) →
      (createTrade mq s accnt market ref side lots ticks liqInd cpty created).trade.posnLots
        = s.posnLots accnt market
      ∧ (createTrade mq s accnt market ref side lots ticks liqInd cpty created).trade.posnCost
        = s.posnCost accnt market)
    ∧ ((s.accnts.map (fun a => a.symbol)).Pairwise (fun a b => symbolLess a b = true) →
      (∃ a ∈ s.accnts, a.symbol = accnt) → cpty ≠ accnt →
      (createTrade mq s accnt market ref side lots ticks liqInd cpty created).thrown = none →
      (createTrade mq s accnt market ref side lots ticks liqInd cpty created).serv.posnLots
          accnt (createTrade mq s accnt market ref side lots ticks liqInd cpty created).market
        = s.posnLots accnt market + side.sign * lots
      ∧ (createTrade mq s accnt market ref side lots ticks liqInd cpty created).serv.posnCost
          accnt (createTrade mq s accnt market ref side lots ticks liqInd cpty created).market
        = s.posnCost accnt market + side.sign * (lots * ticks))
    ∧ ((s.accnts.map (fun a => a.symbol)).Pairwise (fun a b => symbolLess a b = true) →
      (∃ a ∈ s.accnts, a.symbol = accnt) → cpty = accnt → cpty.isEmpty = false →
      (createTrade mq s accnt market ref side lots ticks liqInd cpty created).thrown = none →
      (createTrade mq s accnt market ref side lots ticks liqInd cpty created).serv.posnLots
          accnt (createTrade mq s accnt market ref side lots ticks liqInd cpty created).market
        = s.posnLots accnt market
      ∧ (createTrade mq s accnt market ref side lots ticks liqInd cpty created).serv.posnCost
          accnt (createTrade mq s accnt market ref side lots ticks liqInd cpty created).market
        = s.posnCost accnt market)
    ∧ (m.makerOrder.accnt ≠ takerAccnt →
      (∃ a ∈ c.serv.accnts, a.symbol = m.makerOrder.accnt) →
      (∃ a ∈ c.serv.accnts, a.symbol = takerAccnt) →
      0 < (c.serv.getAccnt m.makerOrder.accnt).maxExecs →
      0 < (c.serv.getAccnt takerAccnt).maxExecs →
      (c.serv.getAccnt m.makerOrder.accnt).hasPosn c.market.id c.market.instr
        c.market.settlDay = true →
      (c.serv.getAccnt takerAccnt).hasPosn c.market.id c.market.instr c.market.settlDay
        = true →
      ((commitMatch takerAccnt now m c).serv.getAccnt m.makerOrder.accnt).execs.head?
        = some (m.makerTrade.posn (c.serv.posnLots m.makerOrder.accnt c.market)
            (c.serv.posnCost m.makerOrder.accnt c.market))
      ∧ (commitMatch takerAccnt now m c).serv.posnLots m.makerOrder.accnt
          (commitMatch takerAccnt now m c).market
        = c.serv.posnLots m.makerOrder.accnt c.market
          + m.makerTrade.side.sign * m.makerTrade.lastLots
      ∧ (commitMatch takerAccnt now m c).serv.posnCost m.makerOrder.accnt
          (commitMatch takerAccnt now m c).market
        = c.serv.posnCost m.makerOrder.accnt c.market
          + m.makerTrade.side.sign * (m.makerTrade.lastLots * m.makerTrade.lastTicks)
      ∧ ((commitMatch takerAccnt now m c).serv.getAccnt takerAccnt).execs.head?
        = some (m.takerTrade.posn (c.serv.posnLots takerAccnt c.market)
            (c.serv.posnCost takerAccnt c.market))
      ∧ (commitMatch takerAccnt now m c).serv.posnLots takerAccnt
          (commitMatch takerAccnt now m c).market
        = c.serv.posnLots takerAccnt c.market
          + m.takerTrade.side.sign * m.takerTrade.lastLots
      ∧ (commitMatch takerAccnt now m c).serv.posnCost takerAccnt
          (commitMatch takerAccnt now m c).market
        = c.serv.posnCost takerAccnt c.market
          + m.takerTrade.side.sign * (m.takerTrade.lastLots * m.takerTrade.lastTicks))
    ∧ (m.makerOrder.accnt = takerAccnt →
      (∃ a ∈ c.serv.accnts, a.symbol = takerAccnt) →
      1 < (c.serv.getAccnt takerAccnt).maxExecs →
      (c.serv.getAccnt takerAccnt).hasPosn c.market.id c.market.instr c.market.settlDay
        = true →
      ((commitMatch takerAccnt now m c).serv.getAccnt takerAccnt).execs.take 2
        = [m.takerTrade.posn
            (c.serv.posnLots takerAccnt c.market
              + m.makerTrade.side.sign * m.makerTrade.lastLots)
            (c.serv.posnCost takerAccnt c.market
              + m.makerTrade.side.sign * (m.makerTrade.lastLots * m.makerTrade.lastTicks)),
           m.makerTrade.posn (c.serv.posnLots takerAccnt c.market)
            (c.serv.posnCost takerAccnt c.market)]
      ∧ (commitMatch takerAccnt now m c).serv.posnLots takerAccnt
          (commitMatch takerAccnt now m c).market
        = c.serv.posnLots takerAccnt c.market
          + m.makerTrade.side.sign * m.makerTrade.lastLots
          + m.takerTrade.side.sign * m.takerTrade.lastLots
      ∧ (commitMatch takerAccnt now m c).serv.posnCost takerAccnt
          (commitMatch takerAccnt now m c).market
        = c.serv.posnCost takerAccnt c.market
          + m.makerTrade.side.sign * (m.makerTrade.lastLots * m.makerTrade.lastTicks)
          + m.takerTrade.side.sign * (m.takerTrade.lastLots * m.takerTrade.lastTicks)) := by
  obtain ⟨k1, k2, k3⟩ := Market.takeOrder_key c.market m.makerOrder m.lots now
  have hmkt : (commitMatch takerAccnt now m c).market
      = c.market.takeOrder m.makerOrder m.lots now := rfl
  have hk := fun (sym : Symbol) =>
    Serv.posn_key (commitMatch takerAccnt now m c).serv sym c.market
      (commitMatch takerAccnt now m c).market (hmkt ▸ k1) (hmkt ▸ k2) (hmkt ▸ k3)
  refine ⟨?_, ?_, ?_, ?_, ?_⟩
  · intro hex
    obtain ⟨r1, r2⟩ := Serv.posn_read s accnt market hex
    refine ⟨?_, ?_⟩
    · rw [createTrade_trade]; exact r1
    · rw [createTrade_trade]; exact r2
  · intro hs hex hcp hok
    obtain ⟨a1, a2, a3, a4⟩ := createTrade_accnt mq s accnt market ref side lots ticks liqInd
      cpty created hs hex hcp hok
    have hp : ((((s.getAccnt accnt).posn market.id market.instr market.settlDay).pushExecFront
        (createTrade mq s accnt market ref side lots ticks liqInd cpty created).trade).insertTrade
        (createTrade mq s accnt market ref side lots ticks liqInd cpty created).trade).hasPosn
        market.id market.instr market.settlDay = true :=
      (Accnt.Moved_posn _ _ Measure.lots (s.getAccnt accnt) market.id market.instr
        market.settlDay).2
    refine ⟨?_, ?_⟩
    · rw [Serv.posnLots_eq_net, a1, a2, a3, a4,
        Accnt.net_addTrade_same _ _ Measure.lots _ _ _ _ _ _ _ hp]
      exact congrArg (fun x => x + side.sign * lots)
        (Accnt.net_posn _ _ Measure.lots (s.getAccnt accnt) _ _ _ _ _ _)
    · rw [Serv.posnCost_eq_net, a1, a2, a3, a4,
        Accnt.net_addTrade_same _ _ Measure.cost _ _ _ _ _ _ _ hp]
      exact congrArg (fun x => x + side.sign * (lots * ticks))
        (Accnt.net_posn _ _ Measure.cost (s.getAccnt accnt) _ _ _ _ _ _)
  · intro hs hex hcp hc hok
    subst hcp
    exact createTrade_self_posn mq s cpty market ref side lots ticks liqInd created hs hex hc
      hok
  · intro hne hexm hext hcm hct hpm hpt
    obtain ⟨e1, p1, e2, p2⟩ := commitMatch_accnts takerAccnt now m c hne hexm hext
    refine ⟨?_, ?_, ?_, ?_, ?_, ?_⟩
    · rw [e1]
      cases hn : (c.serv.getAccnt m.makerOrder.accnt).maxExecs with
      | zero => rw [hn] at hcm; cases hcm
      | succ k => rfl
    · rw [(hk _).1, Serv.posnLots_eq_net, Accnt.net_congr _ _ _ p1,
        Accnt.net_addTrade_same _ _ Measure.lots _ _ _ _ _ _ _ hpm]
      rfl
    · rw [(hk _).2, Serv.posnCost_eq_net, Accnt.net_congr _ _ _ p1,
        Accnt.net_addTrade_same _ _ Measure.cost _ _ _ _ _ _ _ hpm]
      rfl
    · rw [e2]
      cases hn : (c.serv.getAccnt takerAccnt).maxExecs with
      | zero => rw [hn] at hct; cases hct
      | succ k => rfl
    · rw [(hk _).1, Serv.posnLots_eq_net, Accnt.net_congr _ _ _ p2,
        Accnt.net_addTrade_same _ _ Measure.lots _ _ _ _ _ _ _ hpt]
      rfl
    · rw [(hk _).2, Serv.posnCost_eq_net, Accnt.net_congr _ _ _ p2,
        Accnt.net_addTrade_same _ _ Measure.cost _ _ _ _ _ _ _ hpt]
      rfl
  · intro hself hext hct hpt
    have hsnap := commitMatch_self_snap takerAccnt now m c hself hext hpt
    obtain ⟨pl, pl2, pc, pc2, hposns, -⟩ := commitMatch_self takerAccnt now m c hself hext
    have hp2 : ((c.serv.getAccnt takerAccnt).addTrade c.market.id c.market.instr
        c.market.settlDay m.makerTrade.side m.makerTrade.lastLots
        m.makerTrade.lastTicks).hasPosn c.market.id c.market.instr c.market.settlDay
        = true := by
      rw [Accnt.hasPosn_addTrade]
      exact hpt
    refine ⟨?_, ?_, ?_⟩
    · rw [hsnap]
      cases hn : (c.serv.getAccnt takerAccnt).maxExecs with
      | zero => rw [hn] at hct; cases hct
      | succ k =>
        cases k with
        | zero => rw [hn] at hct; exact absurd hct (by decide)
        | succ j => rfl
    · rw [(hk _).1, Serv.posnLots_eq_net, Accnt.net_congr _ _ _ hposns,
        Accnt.net_addTrade_same _ _ Measure.lots _ _ _ _ _ _ _ hp2,
        Accnt.net_addTrade_same _ _ Measure.lots _ _ _ _ _ _ _ hpt]
      rfl
    · rw [(hk _).2, Serv.posnCost_eq_net, Accnt.net_congr _ _ _ hposns,
        Accnt.net_addTrade_same _ _ Measure.cost _ _ _ _ _ _ _ hp2,
        Accnt.net_addTrade_same _ _ Measure.cost _ _ _ _ _ _ _ hpt]
      rfl

/-- The amended C25 applies: the manual trades Buy 5 @ 100 of `A` with the counter-party `B` and
with `A` itself as counter-party, the commit step of scenario 1 (`B` buys 10 from the resting
order of `A`), and the commit step in which `A` buys 3 from its own resting order. -/
theorem posn_snapshot_pre_trade_witness :
    exManualCpty.trade.posnLots = exServ0.posnLots "A" exMarket0
    ∧ exManualCpty.serv.posnLots "A" exManualCpty.market
        = exServ0.posnLots "A" exMarket0 + Side.Buy.sign * 5
    ∧ exManualSelf.serv.posnLots "A" exManualSelf.market = exServ0.posnLots "A" exMarket0
    ∧ (commitMatch "B" 2 exFillMatch exFillCommit).serv.posnLots "B"
          (commitMatch "B" 2 exFillMatch exFillCommit).market
        = exFillCommit.serv.posnLots "B" exFillCommit.market
          + exFillMatch.takerTrade.side.sign * exFillMatch.takerTrade.lastLots
    ∧ ((commitMatch "A" 2 exSelfMatch exSelfStart).serv.getAccnt "A").execs.take 2
        = [exSelfMatch.takerTrade.posn
            (exSelfStart.serv.posnLots "A" exSelfStart.market
              + exSelfMatch.makerTrade.side.sign * exSelfMatch.makerTrade.lastLots)
            (exSelfStart.serv.posnCost "A" exSelfStart.market
              + exSelfMatch.makerTrade.side.sign
                * (exSelfMatch.makerTrade.lastLots * exSelfMatch.makerTrade.lastTicks)),
           exSelfMatch.makerTrade.posn (exSelfStart.serv.posnLots "A" exSelfStart.market)
            (exSelfStart.serv.posnCost "A" exSelfStart.market)]
    ∧ (((commitMatch "A" 2 exSelfMatch exSelfStart).serv.getAccnt "A").execs.take 2).map
        (fun e => (e.side, e.lastLots, e.posnLots, e.posnCost))
        = [(Side.Buy, 3, -3, -300), (Side.Sell, 3, 0, 0)] := by
  have h := posn_snapshot_pre_trade exMq exServ0 "A" exMarket0 "" Side.Buy 5 100 LiqInd.None
    "B" 1 "B" 2 exFillMatch exFillCommit
  have h2 := posn_snapshot_pre_trade exMq exServ0 "A" exMarket0 "" Side.Buy 5 100
    LiqInd.None "A" 1 "A" 2 exSelfMatch exSelfStart
  exact ⟨(h.1 (by decide)).1,
    (h.2.1 (by decide) (by decide) (by decide) (by decide)).1,
    (h2.2.2.1 (by decide) (by decide) rfl (by decide) (by decide)).1,
    (h.2.2.2.1 (by decide) (by decide) (by decide) (by decide) (by decide) (by decide)
      (by decide)).2.2.2.2.1,
    (h2.2.2.2.2 (by decide) (by decide) (by decide) (by decide)).1,
    by decide⟩

/-- C25 as stated fails.  The manual trade Buy 5 @ 100 of `A`, booked on an empty position,
carries the snapshot `(0, 0)` while the position after the trade is `(5, 500)`; in scenario 1 the
trade execs of `B` (taker, buys 10 @ 12345) and of `A` (maker) carry the snapshot `(0, 0)` while
their positions after the trade are `(10, 123450)` and `(-10, -123450)`. -/
theorem posn_snapshot_counterexample :
    (exManual.thrown = none
      ∧ (exManual.trade.posnLots, exManual.trade.posnCost) = (0, 0)
      ∧ (exManual.serv.posnLots "A" exManual.market,
          exManual.serv.posnCost "A" exManual.market) = (5, 500))
    ∧ (exFill2.thrown = none
      ∧ (exFill2.serv.getAccnt "B").execs.map (fun e => (e.state, e.posnLots, e.posnCost))
          = [(State.Trade, 0, 0), (State.New, 0, 0)]
      ∧ (exFill2.serv.posnLots "B" exFill2.market, exFill2.serv.posnCost "B" exFill2.market)
          = (10, 123450)
      ∧ (exFill2.serv.getAccnt "A").execs.map (fun e => (e.state, e.posnLots, e.posnCost))
          = [(State.Trade, 0, 0), (State.New, 0, 0)]
      ∧ (exFill2.serv.posnLots "A" exFill2.market, exFill2.serv.posnCost "A" exFill2.market)
          = (-10, -123450)) := by
  refine ⟨⟨by decide, by decide, by decide⟩, by decide, by decide, by decide, by decide,
    by decide⟩

/-! ## Manual trades -/

/-- The account of the counter-party after a `createTrade` that the journal accepted, when it is
another account than the caller's: obtained (created empty when missing), its position created if
missing, the opposite trade pushed on its ring and recorded, and then booked on the position. -/
theorem createTrade_cpty (mq : MsgQueue) (s : Serv) (accnt : Symbol) (market : Market)
    (ref : String) (side : Side) (lots : Lots) (ticks : Ticks) (liqInd : LiqInd)
    (cpty : Symbol) (created : Time)
    (hs : (s.accnts.map (fun a => a.symbol)).Pairwise (fun a b => symbolLess a b = true))
    (hcp : cpty ≠ accnt) (hc : cpty.isEmpty = false)
    (hok : (createTrade mq s accnt market ref side lots ticks liqInd cpty created).thrown
      = none) :
    (createTrade mq s accnt market ref side lots ticks liqInd cpty created).cptyTrade
      = some ((createTrade mq s accnt market ref side lots ticks liqInd cpty
          created).trade.opposite (market.execSeq + 2))
    ∧ (createTrade mq s accnt market ref side lots ticks liqInd cpty created).serv.journ
      = s.journ ++ [[(createTrade mq s accnt market ref side lots ticks liqInd cpty
          created).trade,
        (createTrade mq s accnt market ref side lots ticks liqInd cpty
          created).trade.opposite (market.execSeq + 2)]]
    ∧ (createTrade mq s accnt market ref side lots ticks liqInd cpty created).market
      = { market with execSeq := market.execSeq + 2 }
    ∧ (createTrade mq s accnt market ref side lots ticks liqInd cpty created).serv.getAccnt cpty
      = (((((s.getAccnt cpty).posn market.id market.instr market.settlDay).pushExecFront
          ((createTrade mq s accnt market ref side lots ticks liqInd cpty
            created).trade.opposite (market.execSeq + 2))).insertTrade
          ((createTrade mq s accnt market ref side lots ticks liqInd cpty
            created).trade.opposite (market.execSeq + 2))).addTrade
          market.id market.instr market.settlDay side.opposite lots ticks)
    ∧ ∀ sym, sym ≠ accnt → sym ≠ cpty →
        (createTrade mq s accnt market ref side lots ticks liqInd cpty created).serv.getAccnt sym
          = s.getAccnt sym := by
  have hs1 : ((s.writeAccnt accnt
      (fun a => a.posn market.id market.instr market.settlDay)).accnts.map
        (fun a => a.symbol)).Pairwise (fun a b => symbolLess a b = true) := by
    rw [Serv.writeAccnt_symbols _ _ _ (fun a => Accnt.posn_symbol a _ _ _)]
    exact hs
  rw [createTrade_trade]
  unfold createTrade at hok ⊢
  simp only [hc, Bool.not_false, if_true] at hok ⊢
  split
  · refine ⟨rfl, rfl, rfl, ?_, ?_⟩
    · rw [Serv.getAccnt_write_ne _ _ _ ?_ _ hcp,
        Serv.getAccnt_write_ne _ _ _ ?_ _ hcp,
        Serv.getAccnt_write _ _ _ ?_ ?_,
        Serv.getAccnt_write _ _ _ ?_ ?_,
        Serv.getAccnt_journ,
        Serv.getAccnt_write _ _ _ ?_ ?_,
        Serv.getAccnt_accnt _ _ _ hs1,
        Serv.getAccnt_write_ne _ _ _ ?_ _ hcp]
      · rfl
      all_goals
        repeat (first
          | exact accntInsert_has _ _ _
          | exact (fun _ => rfl)
          | exact (fun a => Accnt.posn_symbol a _ _ _)
          | apply Serv.writeAccnt_has)
    · intro sym h1 h2
      rw [Serv.getAccnt_write_ne _ _ _ ?_ _ h1,
        Serv.getAccnt_write_ne _ _ _ ?_ _ h1,
        Serv.getAccnt_write_ne _ _ _ ?_ _ h2,
        Serv.getAccnt_write_ne _ _ _ ?_ _ h2,
        Serv.getAccnt_journ,
        Serv.getAccnt_write_ne _ _ _ ?_ _ h2,
        Serv.getAccnt_accnt _ _ _ hs1,
        Serv.getAccnt_write_ne _ _ _ ?_ _ h1]
      all_goals
        first
          | exact (fun _ => rfl)
          | exact (fun a => Accnt.posn_symbol a _ _ _)
  · rename_i hm
    simp only [hm, Bool.false_eq_true, if_false] at hok
    cases hok

/-- What `createTrade` does without a counter-party once the journal has accepted: one exec is
journalled, one id is allocated, and no account but the caller's is written. -/
theorem createTrade_alone (mq : MsgQueue) (s : Serv) (accnt : Symbol) (market : Market)
    (ref : String) (side : Side) (lots : Lots) (ticks : Ticks) (liqInd : LiqInd)
    (cpty : Symbol) (created : Time) (hc : cpty.isEmpty = true)
    (hok : (createTrade mq s accnt market ref side lots ticks liqInd cpty created).thrown
      = none) :
    (createTrade mq s accnt market ref side lots ticks liqInd cpty created).cptyTrade = none
    ∧ (createTrade mq s accnt market ref side lots ticks liqInd cpty created).serv.journ
      = s.journ ++ [[(createTrade mq s accnt market ref side lots ticks liqInd cpty
          created).trade]]
    ∧ (createTrade mq s accnt market ref side lots ticks liqInd cpty created).market
      = { market with execSeq := market.execSeq + 1 }
    ∧ ∀ sym, sym ≠ accnt →
        (createTrade mq s accnt market ref side lots ticks liqInd cpty created).serv.getAccnt sym
          = s.getAccnt sym := by
  rw [createTrade_trade]
  unfold createTrade at hok ⊢
  simp only [hc, Bool.not_true, Bool.false_eq_true, if_false] at hok ⊢
  split
  · refine ⟨rfl, rfl, rfl, ?_⟩
    intro sym h1
    rw [Serv.getAccnt_write_ne _ _ _ ?_ _ h1,
      Serv.getAccnt_write_ne _ _ _ ?_ _ h1,
      Serv.getAccnt_journ,
      Serv.getAccnt_write_ne _ _ _ ?_ _ h1]
    all_goals
      first
        | exact (fun _ => rfl)
        | exact (fun a => Accnt.posn_symbol a _ _ _)
  · rename_i hm
    simp only [hm, Bool.false_eq_true, if_false] at hok
    cases hok

/-- C21 (manual trades).  Let `createTrade` be called for an existing account, the accounts being
in symbol order, with a counter-party that is absent or another account, and let the journal
accept.  The caller's trade has the exec id allocated first, `orderId = 0`, state `Trade`,
`resd = 0`, `exec = lots` and `minLots = 1`; it is recorded in the caller's trade index and the
caller's net lots and net cost move by the signed lots and the signed cost.  With a non-empty
counter-party exactly one batch of exactly two execs is journalled, the caller's trade and the
counter-party's: the opposite side, the same lots and ticks, the next exec id (so a different
one), and the same manual-trade fields; it is recorded in the counter-party's trade index, the
counter-party's net lots and net cost move by the opposite amounts, and no other account
changes.  With an empty counter-party exactly one batch of exactly one exec is journalled, there
is no counter-party trade, and no account but the caller's changes. -/
theorem createTrade_manual (mq : MsgQueue) (s : Serv) (accnt : Symbol) (market : Market)
    (ref : String) (side : Side) (lots : Lots) (ticks : Ticks) (liqInd : LiqInd)
    (cpty : Symbol) (created : Time) (out : TradeOutcome)
    (hs : (s.accnts.map (fun a => a.symbol)).Pairwise (fun a b => symbolLess a b = true))
    (hex : ∃ a ∈ s.accnts, a.symbol = accnt) (hcp : cpty ≠ accnt)
    (hout : createTrade mq s accnt market ref side lots ticks liqInd cpty created = out)
    (hok : out.thrown = none) :
    (out.trade.accnt = accnt ∧ out.trade.id = market.execSeq + 1 ∧ out.trade.side = side
      ∧ out.trade.lots = lots ∧ out.trade.ticks = ticks ∧ out.trade.orderId = 0
      ∧ out.trade.state = State.Trade ∧ out.trade.resdLots = 0 ∧ out.trade.execLots = lots
      ∧ out.trade.minLots = 1)
    ∧ (out.serv.posnLots accnt out.market = s.posnLots accnt market + side.sign * lots
      ∧ out.serv.posnCost accnt out.market
          = s.posnCost accnt market + side.sign * (lots * ticks)
      ∧ (out.serv.getAccnt accnt).trades = ((s.getAccnt accnt).insertTrade out.trade).trades)
    ∧ (cpty.isEmpty = false → ∃ ct, out.cptyTrade = some ct
        ∧ out.serv.journ = s.journ ++ [[out.trade, ct]]
        ∧ out.market.execSeq = market.execSeq + 2
        ∧ (ct.accnt = cpty ∧ ct.id = market.execSeq + 2 ∧ ct.id ≠ out.trade.id
          ∧ ct.side = side.opposite ∧ ct.lots = lots ∧ ct.ticks = ticks ∧ ct.orderId = 0
          ∧ ct.state = State.Trade ∧ ct.resdLots = 0 ∧ ct.execLots = lots ∧ ct.minLots = 1)
        ∧ out.serv.posnLots cpty out.market = s.posnLots cpty market - side.sign * lots
        ∧ out.serv.posnCost cpty out.market
            = s.posnCost cpty market - side.sign * (lots * ticks)
        ∧ (out.serv.getAccnt cpty).trades = ((s.getAccnt cpty).insertTrade ct).trades
        ∧ ∀ sym, sym ≠ accnt → sym ≠ cpty → out.serv.getAccnt sym = s.getAccnt sym)
    ∧ (cpty.isEmpty = true → out.cptyTrade = none
        ∧ out.serv.journ = s.journ ++ [[out.trade]]
        ∧ out.market.execSeq = market.execSeq + 1
        ∧ ∀ sym, sym ≠ accnt → out.serv.getAccnt sym = s.getAccnt sym) := by
  subst hout
  have ht := createTrade_trade mq s accnt market ref side lots ticks liqInd cpty created
  obtain ⟨a1, a2, a3, a4⟩ := createTrade_accnt mq s accnt market ref side lots ticks liqInd
    cpty created hs hex hcp hok
  have hp : ∀ (a : Accnt) (e : Exec),
      (((a.posn market.id market.instr market.settlDay).pushExecFront e).insertTrade e).hasPosn
        market.id market.instr market.settlDay = true :=
    fun a _ => (Accnt.Moved_posn _ _ Measure.lots a market.id market.instr market.settlDay).2
  refine ⟨?_, ⟨?_, ?_, ?_⟩, ?_, ?_⟩
  · rw [ht]
    exact ⟨rfl, rfl, rfl, rfl, rfl, rfl, rfl, rfl, rfl, rfl⟩
  · rw [Serv.posnLots_eq_net, a1, a2, a3, a4,
      Accnt.net_addTrade_same _ _ Measure.lots _ _ _ _ _ _ _ (hp _ _)]
    exact congrArg (fun x => x + side.sign * lots)
      (Accnt.net_posn _ _ Measure.lots (s.getAccnt accnt) _ _ _ _ _ _)
  · rw [Serv.posnCost_eq_net, a1, a2, a3, a4,
      Accnt.net_addTrade_same _ _ Measure.cost _ _ _ _ _ _ _ (hp _ _)]
    exact congrArg (fun x => x + side.sign * (lots * ticks))
      (Accnt.net_posn _ _ Measure.cost (s.getAccnt accnt) _ _ _ _ _ _)
  · rw [a1]
    unfold Accnt.posn
    split <;> rfl
  · intro hc
    obtain ⟨c1, c2, c3, c4, c5⟩ := createTrade_cpty mq s accnt market ref side lots ticks
      liqInd cpty created hs hcp hc hok
    refine ⟨_, c1, c2, ?_, ?_, ?_, ?_, ?_, c5⟩
    · rw [c3]
    · rw [ht]
      refine ⟨rfl, rfl, ?_, rfl, rfl, rfl, rfl, rfl, rfl, rfl, rfl⟩
      show market.execSeq + 2 ≠ market.execSeq + 1
      intro h
      exact absurd (Nat.add_left_cancel h) (by decide)
    · rw [Serv.posnLots_eq_net, c4, c3,
        Accnt.net_addTrade_same _ _ Measure.lots _ _ _ _ _ _ _ (hp _ _)]
      show Accnt.net _ _ _ _ _ + side.opposite.sign * lots = _
      rw [Side.sign_opposite, Int.neg_mul, ← Int.sub_eq_add_neg]
      exact congrArg (fun x => x - side.sign * lots)
        (Accnt.net_posn _ _ Measure.lots (s.getAccnt cpty) _ _ _ _ _ _)
    · rw [Serv.posnCost_eq_net, c4, c3,
        Accnt.net_addTrade_same _ _ Measure.cost _ _ _ _ _ _ _ (hp _ _)]
      show Accnt.net _ _ _ _ _ + side.opposite.sign * (lots * ticks) = _
      rw [Side.sign_opposite, Int.neg_mul, ← Int.sub_eq_add_neg]
      exact congrArg (fun x => x - side.sign * (lots * ticks))
        (Accnt.net_posn _ _ Measure.cost (s.getAccnt cpty) _ _ _ _ _ _)
    · rw [c4]
      unfold Accnt.posn
      split <;> rfl
  · intro hc
    obtain ⟨c1, c2, c3, c4⟩ := createTrade_alone mq s accnt market ref side lots ticks
      liqInd cpty created hc hok
    exact ⟨c1, c2, by rw [c3], c4⟩

/-- C21 applies: in `exServ0` the account `A` books Buy 5 @ 100 against the counter-party `B`;
two execs with the ids 1 and 2 are journalled in one batch. -/
theorem createTrade_manual_witness :
    exManualCpty.thrown = none
    ∧ exManualCpty.serv.journ.map (fun b => b.map (fun e => (e.accnt, e.id, e.side, e.lots)))
        = [[("A", 1, Side.Buy, 5), ("B", 2, Side.Sell, 5)]]
    ∧ exManualCpty.serv.posnLots "B" exManualCpty.market
        = exServ0.posnLots "B" exMarket0 - Side.Buy.sign * 5 :=
  ⟨by decide, by decide, by
    obtain ⟨ct, -, -, -, -, h5, -⟩ :=
      (createTrade_manual exMq exServ0 "A" exMarket0 "" Side.Buy 5 100 LiqInd.None "B" 1
        exManualCpty (by decide) (by decide) (by decide) rfl (by decide)).2.2.1 (by decide)
    exact h5⟩

/-! ## Batch cancel with a repeated id -/

/-- A live order found under an id: its account exists in the service. -/
theorem Serv.order_has (s : Serv) (accnt : Symbol) (marketId id : Id64) (o : Order)
    (h : (s.getAccnt accnt).order marketId id = Except.ok o) :
    ∃ a ∈ s.accnts, a.symbol = accnt := by
  unfold Serv.getAccnt Serv.findAccnt at h
  cases hf : s.accnts.find? (fun a => a.symbol == accnt) with
  | none =>
    rw [hf] at h
    cases h
  | some a =>
    have h1 := List.find?_some hf
    exact ⟨a, List.mem_of_find?_eq_some hf, by simpa using h1⟩

/-- Once the commit loop has removed an order from the account, the lookup under its key
misses. -/
theorem find_after_remove (s : Serv) (accnt : Symbol) (order : Order) (e : Exec)
    (hex : ∃ a ∈ s.accnts, a.symbol = accnt) (mid id : Id64) (h1 : order.marketId = mid)
    (h2 : order.id = id) :
    (((s.writeAccnt accnt (fun a => a.removeOrder order)).writeAccnt accnt
      (fun a => a.pushExecFront e)).getAccnt accnt).orders.find?
        (fun o => o.sameKey mid id) = none := by
  rw [Serv.getAccnt_write _ _ _ ?_ ?_, Serv.getAccnt_write _ _ _ ?_ ?_]
  · show ((s.getAccnt accnt).orders.filter
      (fun x => !(x.sameKey order.marketId order.id))).find?
        (fun o => o.sameKey mid id) = none
    rw [h1, h2, List.find?_eq_none]
    intro x hx
    have := (List.mem_filter.mp hx).2
    simpa using this
  all_goals
    repeat (first | exact hex | exact (fun _ => rfl) | apply Serv.writeAccnt_has)

/-- Batch `cancelOrder` with the same id twice: both iterations of the reserve loop find the
live order and build a `Cancel` exec for it, the journal is given two execs for the one order,
and the second iteration of the commit loop does not find the order, which the first one has
removed from the account: the `assert` fails. -/
theorem cancelOrderBatch_repeat (mq : MsgQueue) (s : Serv) (accnt : Symbol) (market : Market)
    (id : Id64) (now : Time) (resp : Response) (order : Order)
    (hfind : (s.getAccnt accnt).order market.id id = Except.ok order)
    (hlive : order.done = false) (hmq : ∀ b, mq b = true) (hresp : resp.execs = []) :
    (cancelOrderBatch mq s accnt market [id, id] now resp).thrown = some Thrown.assertFailed
    ∧ (cancelOrderBatch mq s accnt market [id, id] now resp).serv.journ
        = s.journ ++ [[(newExec order (market.execSeq + 1) now).cancel,
            (newExec order (market.execSeq + 2) now).cancel]] := by
  obtain ⟨hmem, hk1, hk2⟩ := Accnt.order_ok _ _ _ _ hfind
  have hex := Serv.order_has s accnt market.id id order hfind
  have hf0 := hfind
  unfold Accnt.order at hf0
  have hf1 : (s.getAccnt accnt).orders.find? (fun o => o.sameKey market.id id) = some order := by
    cases hf : (s.getAccnt accnt).orders.find? (fun o => o.sameKey market.id id) with
    | none => rw [hf] at hf0; cases hf0
    | some x => rw [hf] at hf0; cases hf0; rfl
  have hr : cancelReserveLoop s accnt now [id, id] market (resp.setMarket market.id)
      = { serv := s, market := { market with execSeq := market.execSeq + 2 },
          resp := ((((resp.setMarket market.id).insertOrder order).insertExec
            (newExec order (market.execSeq + 1) now).cancel).insertOrder order).insertExec
            (newExec order (market.execSeq + 2) now).cancel,
          thrown := none } := by
    rw [cancelReserveLoop]
    simp only [hfind, hlive, Bool.false_eq_true, if_false]
    rw [cancelReserveLoop]
    simp only [Market.allocId, hfind, hlive, Bool.false_eq_true, if_false]
    rw [cancelReserveLoop]
  have hexecs : (((((resp.setMarket market.id).insertOrder order).insertExec
      (newExec order (market.execSeq + 1) now).cancel).insertOrder order).insertExec
      (newExec order (market.execSeq + 2) now).cancel).execs
      = [(newExec order (market.execSeq + 1) now).cancel,
          (newExec order (market.execSeq + 2) now).cancel] := by
    show (resp.execs ++ [_]) ++ [_] = _
    rw [hresp]
    rfl
  unfold cancelOrderBatch
  simp only [hr, hexecs, hmq, if_true]
  rw [cancelCommitLoop]
  have hfa : (({ s with journ := s.journ ++ [[(newExec order (market.execSeq + 1) now).cancel,
      (newExec order (market.execSeq + 2) now).cancel]] } : Serv).getAccnt accnt).orders.find?
      (fun o => o.sameKey market.id (newExec order (market.execSeq + 1) now).cancel.orderId)
      = some order := by
    rw [Serv.getAccnt_journ]
    show (s.getAccnt accnt).orders.find? (fun o => o.sameKey market.id order.id) = some order
    rw [hk2]
    exact hf1
  simp only [hfa]
  rw [cancelCommitLoop]
  have hfb := find_after_remove
    ({ s with journ := s.journ ++ [[(newExec order (market.execSeq + 1) now).cancel,
      (newExec order (market.execSeq + 2) now).cancel]] } : Serv) accnt order
    (newExec order (market.execSeq + 1) now).cancel hex
    (({ market with execSeq := market.execSeq + 2 } : Market).cancelOrder order now).id
    (newExec order (market.execSeq + 2) now).cancel.orderId
    (by rw [(Market.cancelOrder_meta _ _ _).1]; exact hk1) rfl
  rw [hfb]
  exact ⟨rfl, rfl⟩

/-- C30: batch `cancelOrder` with a repeated id.  Order 1 of `A` is live and rests in the book;
`cancelOrder(A, market, [1])` cancels it, but `cancelOrder(A, market, [1, 1])`, with the journal
accepting, journals two `Cancel` execs for order 1 and then fails the `assert` of the commit
loop: the lookup of the second exec misses, because the first iteration has removed the order
from the account. -/
theorem cancelOrderBatch_repeated_id :
    (exOut1.serv.getAccnt "A").order exOut1.market.id 1 = Except.ok exMaker
    ∧ exMaker.done = false
    ∧ exCancelOnce.thrown = none
    ∧ (exCancelOnce.serv.getAccnt "A").orders = []
    ∧ exCancelOnce.market.orders = []
    ∧ exCancelTwice.thrown = some Thrown.assertFailed
    ∧ exCancelTwice.serv.journ.getLast?.map
        (fun b => b.map (fun e => (e.orderId, e.state, e.id)))
        = some [(1, State.Cancel, 2), (1, State.Cancel, 3)] := by
  have h := cancelOrderBatch_repeat exMq exOut1.serv "A" exOut1.market 1 2 Response.empty
    exMaker rfl (by decide) (fun _ => rfl) rfl
  exact ⟨rfl, by decide, by decide, by decide, by decide, h.1, by decide⟩

/-! ## `Order::toJson` and `Order::toDsv` -/

theorem render_mergeCons (r : Item → String) (x : Item) (acc : List Item) :
    render r (mergeCons x acc) = x.text r ++ render r acc := by
  unfold mergeCons
  split
  · show (_ ++ _) ++ _ = _ ++ (_ ++ _)
    rw [String.append_assoc]
    rfl
  · rfl

/-- Writing adjacent literals as one literal does not change the text of a stream. -/
theorem render_mergeLits (r : Item → String) (l : List Item) :
    render r (mergeLits l) = render r l := by
  induction l with
  | nil => rfl
  | cons x l ih =>
    show render r (mergeCons x (mergeLits l)) = x.text r ++ render r l
    rw [render_mergeCons, ih]

theorem Order.toJson_merge (o : Order) :
    mergeLits o.toJson = mergeLits (jsonItems o.jsonSpec) := by
  have he : (!o.ref.isEmpty) = true ↔ ¬ o.ref = "" := by
    rw [Bool.not_eq_true', ← Bool.not_eq_true, String.isEmpty_iff]
  unfold Order.toJson Order.jsonSpec
  simp only [he]
  by_cases h1 : o.settlDay = 0 <;> by_cases h2 : o.ref = "" <;>
    by_cases h3 : o.lastLots = 0 <;> by_cases h4 : o.minLots = 0 <;>
    simp only [h1, h2, h3, h4, ne_eq, not_true_eq_false, not_false_eq_true, if_true,
      if_false] <;> rfl

theorem Order.dsvFields_spec (o : Order) :
    o.dsvFields = o.jsonSpec.map (fun kv => kv.2.field) := by
  have he : (!o.ref.isEmpty) = true ↔ ¬ o.ref = "" := by
    rw [Bool.not_eq_true', ← Bool.not_eq_true, String.isEmpty_iff]
  unfold Order.dsvFields Order.jsonSpec
  simp only [he]
  by_cases h1 : o.settlDay = 0 <;> by_cases h2 : o.ref = "" <;>
    by_cases h3 : o.lastLots = 0 <;> by_cases h4 : o.minLots = 0 <;>
    simp only [h1, h2, h3, h4, ne_eq, not_true_eq_false, not_false_eq_true, if_true,
      if_false] <;> rfl

/-- C24 (JSON and delimited form of an order).  For every printing `r` of the values, the text
`Order::toJson` writes is the JSON object with the eighteen members `accnt`, `market_id`,
`instr`, `settl_date`, `id`, `ref`, `state`, `side`, `lots`, `ticks`, `resd_lots`, `exec_lots`,
`exec_cost`, `last_lots`, `last_ticks`, `min_lots`, `created`, `modified` in this order, whose
value is `null` exactly for `settl_date` when the settlement day is 0, for `ref` when it is
empty, for `last_lots` and `last_ticks` when `lastLots = 0`, and for `min_lots` when it is 0.
`Order::toDsv` hands the joiner eighteen fields, position by position the values of the JSON
members with the empty field for `null`; with non-empty account and instrument symbols a field
prints no character exactly where the JSON value is `null`. -/
theorem order_toJson_toDsv (r : Item → String) (o : Order) (delim : Char)
    (ha : o.accnt ≠ "") (hi : o.instr ≠ "") :
    render r o.toJson = render r (jsonItems o.jsonSpec)
    ∧ o.jsonSpec.map Prod.fst
        = ["accnt", "market_id", "instr", "settl_date", "id", "ref", "state", "side", "lots",
            "ticks", "resd_lots", "exec_lots", "exec_cost", "last_lots", "last_ticks",
            "min_lots", "created", "modified"]
    ∧ o.jsonSpec.map (fun kv => decide (kv.2 = JsonValue.null))
        = [false, false, false, decide (o.settlDay = 0), false, decide (o.ref = ""), false,
            false, false, false, false, false, false, decide (o.lastLots = 0),
            decide (o.lastLots = 0), decide (o.minLots = 0), false, false]
    ∧ o.toDsv delim = OStreamJoiner delim (o.jsonSpec.map (fun kv => kv.2.field))
    ∧ (o.jsonSpec.map (fun kv => kv.2.field)).length = 18
    ∧ o.jsonSpec.map (fun kv => kv.2.field.blank)
        = o.jsonSpec.map (fun kv => decide (kv.2 = JsonValue.null)) := by
  refine ⟨?_, rfl, ?_, ?_, rfl, ?_⟩
  · rw [← render_mergeLits r o.toJson, Order.toJson_merge, render_mergeLits]
  · unfold Order.jsonSpec
    by_cases h1 : o.settlDay = 0 <;> by_cases h2 : o.ref = "" <;>
      by_cases h3 : o.lastLots = 0 <;> by_cases h4 : o.minLots = 0 <;>
      simp [h1, h2, h3, h4]
  · unfold Order.toDsv
    rw [Order.dsvFields_spec]
  · unfold Order.jsonSpec
    by_cases h1 : o.settlDay = 0 <;> by_cases h2 : o.ref = "" <;>
      by_cases h3 : o.lastLots = 0 <;> by_cases h4 : o.minLots = 0 <;>
      simp [h1, h2, h3, h4, ha, hi, JsonValue.field, Item.blank]

/-- C24 applies to an order without settlement day, ref, last fill and minimum lots: the fields
4, 6, 14, 15 and 16 of the delimited form are empty and the others are not, and the JSON values
are `null` at the same places. -/
theorem order_toJson_toDsv_witness :
    exOrderBare.dsvFields.map Item.blank
      = [false, false, false, true, false, true, false, false, false, false, false, false,
          false, true, true, true, false, false]
    ∧ exOrderBare.jsonSpec.map (fun kv => kv.2.field.blank)
      = exOrderBare.jsonSpec.map (fun kv => decide (kv.2 = JsonValue.null))
    ∧ exOrderFull.dsvFields.map Item.blank = List.replicate 18 false
    ∧ exOrderFull.jsonSpec.map (fun kv => kv.2.field.blank)
      = exOrderFull.jsonSpec.map (fun kv => decide (kv.2 = JsonValue.null)) :=
  ⟨by decide,
   (order_toJson_toDsv (fun _ => "") exOrderBare ',' (by decide) (by decide)).2.2.2.2.2,
   by decide,
   (order_toJson_toDsv (fun _ => "") exOrderFull ',' (by decide) (by decide)).2.2.2.2.2⟩

/-! ## createMarket -/

/-- In a set kept in id order, `findHint` finds exactly the ids that are present. -/
theorem findHint_found (id : Id64) (l : List Market)
    (hs : l.Pairwise (fun a b => a.id < b.id)) :
    (findHint id l).2 = true ↔ ∃ m ∈ l, m.id = id := by
  induction l with
  | nil => simp [findHint]
  | cons x l ih =>
    rw [List.pairwise_cons] at hs
    by_cases hx : x.id < id
    · have h1 : (findHint id (x :: l)).2 = (findHint id l).2 := by
        simp [findHint, List.dropWhile_cons, hx]
      rw [h1, ih hs.2]
      constructor
      · rintro ⟨m, hm, hmi⟩
        exact ⟨m, List.mem_cons_of_mem _ hm, hmi⟩
      · rintro ⟨m, hm, hmi⟩
        rcases List.mem_cons.mp hm with rfl | hm
        · rw [hmi] at hx
          exact absurd hx (lt_irrefl _)
        · exact ⟨m, hm, hmi⟩
    · have h1 : (findHint id (x :: l)).2 = !decide (id < x.id) := by
        simp [findHint, List.dropWhile_cons, hx]
      rw [h1]
      constructor
      · intro h
        have h2 : ¬ id < x.id := by simpa using h
        exact ⟨x, List.mem_cons_self _ _, le_antisymm (not_lt.mp h2) (not_lt.mp hx)⟩
      · rintro ⟨m, hm, hmi⟩
        rcases List.mem_cons.mp hm with rfl | hm
        · rw [hmi]
          simp
        · have h3 := hs.1 m hm
          rw [hmi] at h3
          have h4 : ¬ id < x.id := fun h => absurd (lt_trans h h3) (lt_irrefl _)
          simpa using h4

/-- The hint of `findHint` splits the set, and a market with an id that is not present, linked
at the hint, keeps the set in id order. -/
theorem insertHint_sorted (id : Id64) (l : List Market) (m : Market) (hm : m.id = id)
    (hs : l.Pairwise (fun a b => a.id < b.id)) (hnf : (findHint id l).2 = false) :
    (findHint id l).1.before ++ (findHint id l).1.after = l
    ∧ (insertHint (findHint id l).1 m).Pairwise (fun a b => a.id < b.id) := by
  induction l with
  | nil =>
    refine ⟨rfl, ?_⟩
    simp [insertHint, findHint]
  | cons x l ih =>
    rw [List.pairwise_cons] at hs
    by_cases hx : x.id < id
    · have h1 : (findHint id (x :: l)).2 = (findHint id l).2 := by
        simp [findHint, List.dropWhile_cons, hx]
      have h2 : (findHint id (x :: l)).1.before = x :: (findHint id l).1.before := by
        simp [findHint, List.takeWhile_cons, hx]
      have h3 : (findHint id (x :: l)).1.after = (findHint id l).1.after := by
        simp [findHint, List.dropWhile_cons, hx]
      rw [h1] at hnf
      obtain ⟨i1, i2⟩ := ih hs.2 hnf
      unfold insertHint at i2 ⊢
      rw [h2, h3]
      refine ⟨by rw [List.cons_append, i1], ?_⟩
      rw [List.cons_append, List.pairwise_cons]
      refine ⟨?_, i2⟩
      intro b hb
      rcases List.mem_append.mp hb with hb | hb
      · exact hs.1 b (by rw [← i1]; exact List.mem_append_left _ hb)
      · rcases List.mem_cons.mp hb with rfl | hb
        · rw [hm]; exact hx
        · exact hs.1 b (by rw [← i1]; exact List.mem_append_right _ hb)
    · have h1 : (findHint id (x :: l)).2 = !decide (id < x.id) := by
        simp [findHint, List.dropWhile_cons, hx]
      have h2 : (findHint id (x :: l)).1.before = [] := by
        simp [findHint, List.takeWhile_cons, hx]
      have h3 : (findHint id (x :: l)).1.after = x :: l := by
        simp [findHint, List.dropWhile_cons, hx]
      rw [h1] at hnf
      have h4 : id < x.id := by simpa using hnf
      unfold insertHint
      rw [h2, h3]
      refine ⟨rfl, ?_⟩
      rw [List.nil_append, List.pairwise_cons]
      refine ⟨?_, List.pairwise_cons.mpr hs⟩
      intro b hb
      rcases List.mem_cons.mp hb with rfl | hb
      · rw [hm]; exact h4
      · rw [hm]; exact lt_trans h4 (hs.1 b hb)

/-- C26 (market creation).  With the set of markets in id order, once the settlement-day check
has passed `createMarket` throws `AlreadyExists` exactly when a market with the id
`toMarketId(instr.id, settlDay)` is present.  When it succeeds, the message queue has accepted
the `CreateMarket` record of that id, instrument symbol, settlement day and state, and the set
of markets is the former one with exactly the new, empty market of that id, symbol, day and
state linked in it: no market had the id, every former market is there unchanged, the set is
still in id order, and no other member of the service is written.  When it throws, whatever the
exception, nothing is journalled by it and the service is as before; in particular when the
message queue rejects the record the exception is the journal's and the set of markets is
unchanged, the insertion coming after the journal call. -/
theorem createMarket_collision (mq : CreateMarket → Bool) (busDay : Time → JDay) (s : Serv)
    (instr : Instr) (settlDay : JDay) (state : Nat) (now : Time) (out : MarketOutcome)
    (hs : s.markets.Pairwise (fun a b => a.id < b.id))
    (hout : createMarket mq busDay s instr settlDay state now = out) :
    (¬ (settlDay ≠ 0 ∧ settlDay < busDay now) →
      (out.thrown = some (Thrown.value ErrKind.AlreadyExists)
        ↔ ∃ m ∈ s.markets, m.id = toMarketId instr.id settlDay))
    ∧ (out.thrown = none →
        mq (CreateMarket.mk (toMarketId instr.id settlDay) instr.symbol settlDay state) = true
        ∧ out.journalled = some (CreateMarket.mk (toMarketId instr.id settlDay) instr.symbol
            settlDay state)
        ∧ out.market
            = some (Market.make (toMarketId instr.id settlDay) instr.symbol settlDay state)
        ∧ (∀ m ∈ s.markets, m.id ≠ toMarketId instr.id settlDay)
        ∧ (∃ l1 l2, s.markets = l1 ++ l2
            ∧ out.serv.markets
              = l1 ++ Market.make (toMarketId instr.id settlDay) instr.symbol settlDay state
                  :: l2)
        ∧ out.serv.markets.Pairwise (fun a b => a.id < b.id)
        ∧ out.serv = { s with markets := out.serv.markets })
    ∧ (out.thrown ≠ none → out.serv = s ∧ out.journalled = none ∧ out.market = none)
    ∧ (¬ (settlDay ≠ 0 ∧ settlDay < busDay now) →
        (∀ m ∈ s.markets, m.id ≠ toMarketId instr.id settlDay) →
        mq (CreateMarket.mk (toMarketId instr.id settlDay) instr.symbol settlDay state)
          = false →
        out.thrown = some (Thrown.value ErrKind.Journal) ∧ out.serv.markets = s.markets) := by
  subst hout
  have hf := findHint_found (toMarketId instr.id settlDay) s.markets hs
  have hnot : (∀ m ∈ s.markets, m.id ≠ toMarketId instr.id settlDay)
      ↔ (findHint (toMarketId instr.id settlDay) s.markets).2 = false := by
    rw [← Bool.not_eq_true, hf]
    constructor
    · rintro h ⟨m, hm, hmi⟩
      exact h m hm hmi
    · intro h m hm hmi
      exact h ⟨m, hm, hmi⟩
  unfold createMarket
  simp only []
  refine ⟨?_, ?_, ?_, ?_⟩
  · intro hsd
    rw [if_neg hsd, ← hf]
    split
    · rename_i h
      simp [h]
    · rename_i h
      split <;> simp [h]
  · intro hok
    split at hok
    · cases hok
    · rename_i hsd
      split at hok
      · cases hok
      · rename_i hnf
        have hnf2 : (findHint (toMarketId instr.id settlDay) s.markets).2 = false := by
          simpa using hnf
        split at hok
        · rename_i hmq
          obtain ⟨i1, i2⟩ := insertHint_sorted (toMarketId instr.id settlDay) s.markets
            (Market.make (toMarketId instr.id settlDay) instr.symbol settlDay state) rfl hs
            hnf2
          rw [if_neg hsd, if_neg hnf, if_pos hmq]
          exact ⟨hmq, rfl, rfl, hnot.mpr hnf2, ⟨_, _, i1.symm, rfl⟩, i2, rfl⟩
        · cases hok
  · intro hth
    split
    · exact ⟨rfl, rfl, rfl⟩
    · split
      · exact ⟨rfl, rfl, rfl⟩
      · split
        · rename_i hsd hnf hmq
          rw [if_neg hsd, if_neg hnf, if_pos hmq] at hth
          exact absurd rfl hth
        · exact ⟨rfl, rfl, rfl⟩
  · intro hsd hfresh hmq
    have hnf := hnot.mp hfresh
    rw [if_neg hsd, hnf, hmq]
    exact ⟨rfl, rfl⟩

/-- C26 applies: the spot market of `EURUSD` is created in an engine without markets; creating
it again throws `AlreadyExists`, and with a rejecting message queue nothing is linked. -/
theorem createMarket_collision_witness :
    exCreated.thrown = none
    ∧ exCreated.serv.markets = [Market.make (toMarketId 1 0) "EURUSD" 0 0]
    ∧ (createMarket exMqMarket exBusDay exCreated.serv exInstr 0 0 2).thrown
        = some (Thrown.value ErrKind.AlreadyExists)
    ∧ (createMarket exMqMarketFail exBusDay exEngineEmpty exInstr 0 0 1).serv.markets = []
    ∧ (exCreated.thrown = some (Thrown.value ErrKind.AlreadyExists)
        ↔ ∃ m ∈ exEngineEmpty.markets, m.id = toMarketId exInstr.id 0) :=
  ⟨by decide, by decide, by decide, by decide,
   (createMarket_collision exMqMarket exBusDay exEngineEmpty exInstr 0 0 1 exCreated
      List.Pairwise.nil rfl).1 (by decide)⟩

/-! ## archiveTrade -/

theorem Serv.writeAccnt_comp (s : Serv) (sym : Symbol) (f g : Accnt → Accnt)
    (hf : ∀ a, (f a).symbol = a.symbol) :
    (s.writeAccnt sym f).writeAccnt sym g = s.writeAccnt sym (fun a => g (f a)) := by
  unfold Serv.writeAccnt
  simp only [List.map_map, Serv.mk.injEq, true_and, and_true]
  apply List.map_congr_left
  intro a _
  show (if (if a.symbol = sym then f a else a).symbol = sym
    then g (if a.symbol = sym then f a else a) else (if a.symbol = sym then f a else a)) = _
  by_cases h : a.symbol = sym
  · simp only [h, if_true, hf]
  · simp only [h, if_false]

theorem Serv.writeAccnt_congr (s : Serv) (sym : Symbol) (f g : Accnt → Accnt)
    (h : ∀ a, f a = g a) : s.writeAccnt sym f = s.writeAccnt sym g := by
  have : f = g := funext h
  rw [this]

theorem Serv.writeAccnt_id (s : Serv) (sym : Symbol) (f : Accnt → Accnt)
    (h : ∀ a, f a = a) : s.writeAccnt sym f = s := by
  unfold Serv.writeAccnt
  have : s.accnts.map (fun a => if a.symbol = sym then f a else a) = s.accnts := by
    conv_rhs => rw [← List.map_id s.accnts]
    apply List.map_congr_left
    intro a _
    simp [h]
  rw [this]

/-- The validation loop passes exactly when every id names a trade of the account. -/
theorem archiveValidate_none (a : Accnt) (marketId : Id64) (ids : List Id64) :
    archiveValidate a marketId ids = none
      ↔ ∀ id ∈ ids, ∃ t ∈ a.trades, t.marketId = marketId ∧ t.id = id := by
  induction ids with
  | nil => simp [archiveValidate]
  | cons id ids ih =>
    rw [archiveValidate]
    unfold Accnt.trade
    cases hf : a.trades.find? (fun x => x.marketId == marketId && x.id == id) with
    | none =>
      simp only [List.mem_cons, forall_eq_or_imp]
      constructor
      · intro h
        cases h
      · rintro ⟨⟨t, ht, h1, h2⟩, -⟩
        have := List.find?_eq_none.mp hf t ht
        simp [h1, h2] at this
    | some t =>
      simp only [List.mem_cons, forall_eq_or_imp]
      rw [ih]
      have h1 := List.find?_some hf
      simp only [Bool.and_eq_true, beq_iff_eq] at h1
      exact ⟨fun h => ⟨⟨t, List.mem_of_find?_eq_some hf, h1⟩, h⟩, fun h => h.2⟩

/-- A failed validation raises `TradeNotFound`. -/
theorem archiveValidate_some (a : Accnt) (marketId : Id64) (ids : List Id64) (e : Thrown)
    (h : archiveValidate a marketId ids = some e) :
    e = Thrown.value ErrKind.TradeNotFound := by
  induction ids with
  | nil => simp [archiveValidate] at h
  | cons id ids ih =>
    rw [archiveValidate] at h
    unfold Accnt.trade at h
    cases hf : a.trades.find? (fun x => x.marketId == marketId && x.id == id) with
    | none =>
      rw [hf] at h
      simp only [Option.some.injEq] at h
      exact h.symm
    | some t =>
      rw [hf] at h
      exact ih h

/-- The commit loop on ids without repetition that all name a trade of the account: no lookup
misses, and what is left is the service with the named trades out of the account's index. -/
theorem archiveCommitLoop_ok (accnt : Symbol) (marketId : Id64) :
    ∀ (ids : List Id64) (s : Serv), ids.Nodup → (∃ a ∈ s.accnts, a.symbol = accnt) →
      (∀ id ∈ ids, ∃ t ∈ (s.getAccnt accnt).trades, t.marketId = marketId ∧ t.id = id) →
      archiveCommitLoop accnt marketId ids s
        = (s.writeAccnt accnt (Accnt.archived marketId ids), none) := by
  intro ids
  induction ids with
  | nil =>
    intro s _ _ _
    rw [archiveCommitLoop, Serv.writeAccnt_id]
    intro a
    unfold Accnt.archived
    simp
  | cons id ids ih =>
    intro s hnd hex hall
    rw [List.nodup_cons] at hnd
    obtain ⟨t0, ht0, hk0⟩ := hall id (List.mem_cons_self _ _)
    rw [archiveCommitLoop]
    cases hf : (s.getAccnt accnt).trades.find?
        (fun x => x.marketId == marketId && x.id == id) with
    | none =>
      have := List.find?_eq_none.mp hf t0 ht0
      simp [hk0.1, hk0.2] at this
    | some t =>
      have h1 := List.find?_some hf
      simp only [Bool.and_eq_true, beq_iff_eq] at h1
      simp only []
      rw [ih (s.writeAccnt accnt (fun a => a.removeTrade t)) hnd.2
          (Serv.writeAccnt_has s accnt (fun a => a.removeTrade t) accnt (fun _ => rfl) hex),
        Serv.writeAccnt_comp s accnt (fun a => a.removeTrade t) _ (fun _ => rfl)]
      · congr 1
        apply Serv.writeAccnt_congr
        intro a
        unfold Accnt.archived Accnt.removeTrade
        simp only [List.filter_filter, h1.1, h1.2, Accnt.mk.injEq, true_and, and_true]
        apply List.filter_congr
        intro x _
        by_cases hx1 : x.marketId = marketId <;> by_cases hx2 : x.id = id <;>
          simp [hx1, hx2]
      · intro id2 hid2
        obtain ⟨t2, ht2, hk2⟩ := hall id2 (List.mem_cons_of_mem _ hid2)
        rw [Serv.getAccnt_write s accnt (fun a => a.removeTrade t) (fun _ => rfl) hex]
        refine ⟨t2, ?_, hk2⟩
        show t2 ∈ (s.getAccnt accnt).trades.filter _
        rw [List.mem_filter]
        refine ⟨ht2, ?_⟩
        have hne : t2.id ≠ t.id := by
          rw [hk2.2, h1.2]
          intro e
          exact hnd.1 (e ▸ hid2)
        simp [hne]

/-- Batch `archiveTrade` on an existing account with ids that do not repeat is
all-or-nothing.  If some id names no trade of the account in the market, the call throws
`TradeNotFound`, nothing is journalled and the service is as before.  If every id names a trade
and the message queue accepts, the call does not throw, the batch is journalled, and the
service is the former one with exactly the trades of the market named by `ids` out of the
account's trade index: the account's orders, ref index, exec ring and positions, every other
account, the markets and the exec journal are unchanged.  If the message queue rejects, the
journal's exception is raised and the service is as before. -/
theorem archiveTrade_all_or_nothing (mq : ArchiveTrade → Bool) (s : Serv) (accnt : Symbol)
    (marketId : Id64) (ids : List Id64) (now : Time) (out : ArchiveOutcome)
    (hnd : ids.Nodup) (hex : ∃ a ∈ s.accnts, a.symbol = accnt)
    (hout : archiveTradeBatch mq s accnt marketId ids now = out) :
    ((∃ id ∈ ids, ∀ t ∈ (s.getAccnt accnt).trades, ¬ (t.marketId = marketId ∧ t.id = id)) →
      out.thrown = some (Thrown.value ErrKind.TradeNotFound) ∧ out.journalled = none
      ∧ out.serv = s)
    ∧ ((∀ id ∈ ids, ∃ t ∈ (s.getAccnt accnt).trades, t.marketId = marketId ∧ t.id = id) →
        mq (ArchiveTrade.mk marketId ids now) = true →
        out.thrown = none ∧ out.journalled = some (ArchiveTrade.mk marketId ids now)
        ∧ out.serv = s.writeAccnt accnt (Accnt.archived marketId ids)
        ∧ (out.serv.getAccnt accnt).trades
            = (s.getAccnt accnt).trades.filter
                (fun x => !(x.marketId == marketId && ids.contains x.id))
        ∧ (out.serv.getAccnt accnt).orders = (s.getAccnt accnt).orders
        ∧ (out.serv.getAccnt accnt).refIdx = (s.getAccnt accnt).refIdx
        ∧ (out.serv.getAccnt accnt).execs = (s.getAccnt accnt).execs
        ∧ (out.serv.getAccnt accnt).posns = (s.getAccnt accnt).posns
        ∧ (∀ sym, sym ≠ accnt → out.serv.getAccnt sym = s.getAccnt sym)
        ∧ out.serv.markets = s.markets ∧ out.serv.journ = s.journ)
    ∧ ((∀ id ∈ ids, ∃ t ∈ (s.getAccnt accnt).trades, t.marketId = marketId ∧ t.id = id) →
        mq (ArchiveTrade.mk marketId ids now) = false →
        out.thrown = some (Thrown.value ErrKind.Journal) ∧ out.journalled = none
        ∧ out.serv = s) := by
  subst hout
  unfold archiveTradeBatch
  refine ⟨?_, ?_, ?_⟩
  · rintro ⟨id, hid, hno⟩
    cases hv : archiveValidate (s.getAccnt accnt) marketId ids with
    | none =>
      obtain ⟨t, ht, hk⟩ := (archiveValidate_none _ _ _).mp hv id hid
      exact absurd hk (hno t ht)
    | some e =>
      rw [archiveValidate_some _ _ _ _ hv]
      exact ⟨rfl, rfl, rfl⟩
  · intro hall hmq
    have hv := (archiveValidate_none _ _ _).mpr hall
    have hl := archiveCommitLoop_ok accnt marketId ids s hnd hex hall
    have hg := Serv.getAccnt_write s accnt (Accnt.archived marketId ids) (fun _ => rfl) hex
    rw [hv]
    simp only [hmq, if_true, hl]
    refine ⟨trivial, trivial, trivial,
      ?_, ?_, ?_, ?_, ?_, ?_, rfl, rfl⟩
    · rw [hg]; rfl
    · rw [hg]; rfl
    · rw [hg]; rfl
    · rw [hg]; rfl
    · rw [hg]; rfl
    · intro sym hne
      exact Serv.getAccnt_write_ne s accnt (Accnt.archived marketId ids) (fun _ => rfl) sym
        hne
  · intro hall hmq
    have hv := (archiveValidate_none _ _ _).mpr hall
    rw [hv]
    simp only [hmq, Bool.false_eq_true, if_false]
    exact ⟨trivial, trivial, trivial⟩

/-- An instance: `A` holds the trades 1 and 2 of market 7 and archives `[2, 1]`; both leave
the index. -/
theorem archiveTrade_all_or_nothing_witness :
    (exTwoTrades.serv.getAccnt "A").trades.map (fun e => (e.marketId, e.id)) = [(7, 1), (7, 2)]
    ∧ (archiveTradeBatch exMqArchive exTwoTrades.serv "A" 7 [2, 1] 3).thrown = none
    ∧ ((archiveTradeBatch exMqArchive exTwoTrades.serv "A" 7 [2, 1] 3).serv.getAccnt "A").trades
        = (exTwoTrades.serv.getAccnt "A").trades.filter
            (fun x => !(x.marketId == 7 && [2, 1].contains x.id)) := by
  have h := (archiveTrade_all_or_nothing exMqArchive exTwoTrades.serv "A" 7 [2, 1] 3 _
    (by decide) (by decide) rfl).2.1 (by decide) rfl
  exact ⟨by decide, h.1, h.2.2.2.1⟩

/-- The commit loop fails its assertion when an id still to come names no trade of the
account: no later step adds a trade. -/
theorem archiveCommitLoop_miss (accnt : Symbol) (marketId : Id64) :
    ∀ (ids : List Id64) (s : Serv), (∃ a ∈ s.accnts, a.symbol = accnt) →
      (∃ id ∈ ids, ∀ t ∈ (s.getAccnt accnt).trades, ¬ (t.marketId = marketId ∧ t.id = id)) →
      (archiveCommitLoop accnt marketId ids s).2 = some Thrown.assertFailed := by
  intro ids
  induction ids with
  | nil =>
    rintro s - ⟨id, hid, -⟩
    cases hid
  | cons i ids ih =>
    rintro s hex ⟨id, hid, hno⟩
    rw [archiveCommitLoop]
    cases hf : (s.getAccnt accnt).trades.find?
        (fun x => x.marketId == marketId && x.id == i) with
    | none => rfl
    | some t =>
      have h1 := List.find?_some hf
      simp only [Bool.and_eq_true, beq_iff_eq] at h1
      have ht := List.mem_of_find?_eq_some hf
      simp only []
      apply ih _ (Serv.writeAccnt_has s accnt (fun a => a.removeTrade t) accnt (fun _ => rfl)
        hex)
      rcases List.mem_cons.mp hid with e | e
      · rw [e] at hno
        exact absurd h1 (hno t ht)
      · refine ⟨id, e, ?_⟩
        intro t2 ht2
        rw [Serv.getAccnt_write s accnt (fun a => a.removeTrade t) (fun _ => rfl) hex] at ht2
        exact hno t2 (List.mem_of_mem_filter ht2)

/-- The commit loop of the batch `archiveTrade` on ids that repeat an id fails its assertion:
the first occurrence removes the trade, so a later lookup of the same id misses. -/
theorem archiveCommitLoop_repeat (accnt : Symbol) (marketId : Id64) :
    ∀ (ids : List Id64) (s : Serv), (∃ a ∈ s.accnts, a.symbol = accnt) → ¬ ids.Nodup →
      (archiveCommitLoop accnt marketId ids s).2 = some Thrown.assertFailed := by
  intro ids
  induction ids with
  | nil => intro s _ h; exact absurd List.nodup_nil h
  | cons i ids ih =>
    intro s hex hrep
    rw [archiveCommitLoop]
    cases hf : (s.getAccnt accnt).trades.find?
        (fun x => x.marketId == marketId && x.id == i) with
    | none => rfl
    | some t =>
      have h1 := List.find?_some hf
      simp only [Bool.and_eq_true, beq_iff_eq] at h1
      have hex2 := Serv.writeAccnt_has s accnt (fun a => a.removeTrade t) accnt (fun _ => rfl)
        hex
      simp only []
      by_cases hi : i ∈ ids
      · apply archiveCommitLoop_miss accnt marketId ids _ hex2
        refine ⟨i, hi, ?_⟩
        intro t2 ht2 hk
        rw [Serv.getAccnt_write s accnt (fun a => a.removeTrade t) (fun _ => rfl) hex] at ht2
        have hf2 := (List.mem_filter.mp ht2).2
        simp [h1.1, h1.2, hk.1, hk.2] at hf2
      · apply ih _ hex2
        intro hnd
        exact hrep (List.nodup_cons.mpr ⟨hi, hnd⟩)

/-- Batch `archiveTrade` with ids that all name a trade of the account but repeat one: the
validation passes, the batch is journalled, and the commit loop fails its assertion. -/
theorem archiveTradeBatch_repeat (mq : ArchiveTrade → Bool) (s : Serv) (accnt : Symbol)
    (marketId : Id64) (ids : List Id64) (now : Time)
    (hex : ∃ a ∈ s.accnts, a.symbol = accnt)
    (hall : ∀ id ∈ ids, ∃ t ∈ (s.getAccnt accnt).trades, t.marketId = marketId ∧ t.id = id)
    (hmq : mq (ArchiveTrade.mk marketId ids now) = true) (hrep : ¬ ids.Nodup) :
    (archiveTradeBatch mq s accnt marketId ids now).journalled
      = some (ArchiveTrade.mk marketId ids now)
    ∧ (archiveTradeBatch mq s accnt marketId ids now).thrown = some Thrown.assertFailed := by
  have hv := (archiveValidate_none _ _ _).mpr hall
  have hl := archiveCommitLoop_repeat accnt marketId ids s hex hrep
  unfold archiveTradeBatch
  rw [hv]
  simp only [hmq, if_true]
  exact ⟨trivial, hl⟩

/-- C22: batch `archiveTrade` with a repeated id.  `A` holds the trades 1 and 2 of market 7.
`archiveTrade(A, 7, [1, 2])` removes both.  Every id of `[1, 1, 2]` names a trade of `A`, so
the validation passes and, the message queue accepting, the batch is journalled; the commit
loop removes trade 1 and then its lookup of the repeated id misses: the `assert` fails, and
trade 2, although named and journalled as archived, is still in the index. -/
theorem archiveTrade_repeated_id :
    (exTwoTrades.serv.getAccnt "A").trades.map (fun e => (e.marketId, e.id)) = [(7, 1), (7, 2)]
    ∧ (archiveTradeBatch exMqArchive exTwoTrades.serv "A" 7 [1, 2] 3).thrown = none
    ∧ ((archiveTradeBatch exMqArchive exTwoTrades.serv "A" 7 [1, 2] 3).serv.getAccnt
        "A").trades = []
    ∧ (∀ id ∈ [1, 1, 2], ∃ t ∈ (exTwoTrades.serv.getAccnt "A").trades,
        t.marketId = 7 ∧ t.id = id)
    ∧ (archiveTradeBatch exMqArchive exTwoTrades.serv "A" 7 [1, 1, 2] 3).journalled
        = some (ArchiveTrade.mk 7 [1, 1, 2] 3)
    ∧ (archiveTradeBatch exMqArchive exTwoTrades.serv "A" 7 [1, 1, 2] 3).thrown
        = some Thrown.assertFailed
    ∧ ((archiveTradeBatch exMqArchive exTwoTrades.serv "A" 7 [1, 1, 2] 3).serv.getAccnt
        "A").trades.map (fun e => (e.marketId, e.id)) = [(7, 2)] := by
  have h := archiveTradeBatch_repeat exMqArchive exTwoTrades.serv "A" 7 [1, 1, 2] 3
    (by decide) (by decide) rfl (by decide)
  exact ⟨by decide, by decide, by decide, by decide, h.1, h.2, by decide⟩

/-! ## Maximal fill -/

theorem min_fill_step (R S r T : Int) (hT : 0 ≤ T) :
    min R (S + min (R - S) r + T) = min R (S + (r + T)) := by
  rcases le_total (R - S) r with h | h
  · rw [min_eq_left h]
    have e1 : S + (R - S) + T = R + T := by ring
    rw [e1, min_eq_left (by linarith), min_eq_left (by linarith)]
  · rw [min_eq_right h]
    have e1 : S + r + T = S + (r + T) := by ring
    rw [e1]

/-- The lots the matching loop fills in all: the taker's residual, or the residuals of the
makers it visits before a price that does not cross, whichever is less. -/
theorem matchList_total (takerOrder : Order) (direct : Direct) (now : Time) :
    ∀ (makers : List Order) (seq : Id64) (sumLots : Lots) (sumCost : Cost),
      sumLots ≤ takerOrder.resdLots → (∀ o ∈ makers, 0 < o.resdLots) →
      sumLots + ((matchList takerOrder direct now makers seq sumLots sumCost).map
          (fun m => m.lots)).sum
        = min takerOrder.resdLots
            (sumLots + ((makers.takeWhile
              (fun o => decide (spread takerOrder o direct ≤ 0))).map
                (fun o => o.resdLots)).sum)
      ∧ ∀ m ∈ matchList takerOrder direct now makers seq sumLots sumCost, 0 < m.lots := by
  intro makers
  induction makers with
  | nil =>
    intro seq S C hS _
    refine ⟨?_, fun m hm => by simp [matchList] at hm⟩
    show S + 0 = min takerOrder.resdLots (S + 0)
    rw [Int.add_zero, min_eq_right hS]
  | cons mk rest ih =>
    intro seq S C hS hpos
    have hposT : ∀ (l : List Order), (∀ o ∈ l, 0 < o.resdLots) →
        (0 : Int) ≤ (l.map (fun o => o.resdLots)).sum := by
      intro l hl
      apply List.sum_nonneg
      intro x hx
      obtain ⟨o, ho, rfl⟩ := List.mem_map.mp hx
      exact le_of_lt (hl o ho)
    have hpr : ∀ o ∈ rest, 0 < o.resdLots := fun o ho => hpos o (List.mem_cons_of_mem _ ho)
    have hT := hposT ((mk :: rest).takeWhile
      (fun o => decide (spread takerOrder o direct ≤ 0)))
      (fun o ho => hpos o ((List.takeWhile_sublist _).subset ho))
    unfold matchList
    by_cases h1 : S = takerOrder.resdLots
    · rw [if_pos h1]
      refine ⟨?_, fun m hm => by cases hm⟩
      show S + 0 = _
      rw [Int.add_zero, h1, min_eq_left]
      exact le_add_of_nonneg_right hT
    · rw [if_neg h1]
      have hlt : S < takerOrder.resdLots := lt_of_le_of_ne hS h1
      by_cases h2 : spread takerOrder mk direct > 0
      · rw [if_pos h2]
        refine ⟨?_, fun m hm => by cases hm⟩
        rw [List.takeWhile_cons_of_neg (by simpa using h2)]
        show S + 0 = min takerOrder.resdLots (S + 0)
        rw [Int.add_zero, min_eq_right hS]
      · rw [if_neg h2]
        have hmk := hpos mk (List.mem_cons_self _ _)
        have hl : 0 < min (takerOrder.resdLots - S) mk.resdLots :=
          lt_min (sub_pos.mpr hlt) hmk
        have hS2 : S + min (takerOrder.resdLots - S) mk.resdLots ≤ takerOrder.resdLots := by
          have := min_le_left (takerOrder.resdLots - S) mk.resdLots
          linarith
        obtain ⟨i1, i2⟩ := ih (seq + 2) (S + min (takerOrder.resdLots - S) mk.resdLots)
          (C + cost (min (takerOrder.resdLots - S) mk.resdLots) mk.ticks) hS2 hpr
        refine ⟨?_, ?_⟩
        · rw [List.takeWhile_cons_of_pos (by simpa using h2)]
          simp only [List.map_cons, List.sum_cons]
          have hm : (mkMatch seq takerOrder mk (min (takerOrder.resdLots - S) mk.resdLots)
              (S + min (takerOrder.resdLots - S) mk.resdLots)
              (C + cost (min (takerOrder.resdLots - S) mk.resdLots) mk.ticks) now).lots
              = min (takerOrder.resdLots - S) mk.resdLots := rfl
          rw [hm, ← Int.add_assoc, i1]
          exact min_fill_step _ _ _ _
            (hposT _ (fun o ho => hpr o ((List.takeWhile_sublist _).subset ho)))
        · intro m hm
          rcases List.mem_cons.mp hm with rfl | hm
          · exact hl
          · exact i2 m hm

/-- On a list in which a crossing price is never behind a price that does not cross, the makers
visited before the first price that does not cross are all the makers that cross. -/
theorem takeWhile_eq_filter_of_sorted (p : Order → Bool) :
    ∀ (l : List Order), l.Pairwise (fun a b => p b = true → p a = true) →
      l.takeWhile p = l.filter p := by
  intro l
  induction l with
  | nil => intro _; rfl
  | cons x l ih =>
    intro h
    rw [List.pairwise_cons] at h
    by_cases hx : p x = true
    · rw [List.takeWhile_cons_of_pos hx, List.filter_cons_of_pos hx, ih h.2]
    · rw [List.takeWhile_cons_of_neg hx, List.filter_cons_of_neg hx]
      symm
      rw [List.filter_eq_nil_iff]
      intro y hy hpy
      exact hx (h.1 y hy hpy)

/-- The orders of a well-formed side are in price priority. -/
theorem MarketSide.Ok.sorted (s : MarketSide) (h : s.Ok) :
    s.orders.Pairwise (fun a b => priceBefore s.side b.ticks a.ticks = false) := by
  unfold MarketSide.orders
  rw [List.pairwise_flatMap]
  refine ⟨?_, ?_⟩
  · intro l hl
    obtain ⟨-, -, -, h4, h5⟩ := h.2 l hl
    apply List.Pairwise.imp_of_mem _ h5
    intro a b ha hb _
    rw [(h4 a ha).1, (h4 b hb).1]
    exact priceBefore_irrefl _ _
  · apply List.Pairwise.imp_of_mem _ h.1
    intro l1 l2 hl1 hl2 hlt a ha b hb
    rw [((h.2 l1 hl1).2.2.2.1 a ha).1, ((h.2 l2 hl2).2.2.2.1 b hb).1]
    cases hs : s.side with
    | Buy =>
      rw [hs] at hlt
      simp only [priceBefore, decide_eq_true_eq, decide_eq_false_iff_not, not_lt] at hlt ⊢
      exact le_of_lt hlt
    | Sell =>
      rw [hs] at hlt
      simp only [priceBefore, decide_eq_true_eq, decide_eq_false_iff_not, not_lt] at hlt ⊢
      exact le_of_lt hlt

theorem matchLoop_sum (takerAccnt : Symbol) (takerOrder : Order) (direct : Direct)
    (now : Time) (makers : List Order) (st : MatchLoop) :
    (matchLoop takerAccnt takerOrder direct now makers st).sumLots
      = st.sumLots
        + ((matchList takerOrder direct now makers st.market.execSeq st.sumLots
            st.sumCost).map (fun m => m.lots)).sum := by
  induction makers generalizing st with
  | nil => simp [matchLoop, matchList]
  | cons mk rest ih =>
    unfold matchLoop matchList
    by_cases h1 : st.sumLots = takerOrder.resdLots
    · simp [h1]
    · by_cases h2 : spread takerOrder mk direct > 0
      · simp [h1, h2]
      · simp only [h1, h2, if_false]
        rw [ih]
        simp only [matchStep_market, matchStep_sumLots, matchStep_sumCost, List.map_cons,
          List.sum_cons]
        rw [Int.add_assoc]
        rfl

/-- The taker order as `matchOrders` leaves it: the lots of the matches are booked on it. -/
theorem matchOrders_fill (s : Serv) (takerAccnt : Symbol) (market : Market)
    (takerOrder : Order) (now : Time) (resp : Response) (hm0 : s.matches_ = []) :
    (matchOrders s takerAccnt market takerOrder now resp).takerOrder.execLots
      = takerOrder.execLots
        + (((matchOrders s takerAccnt market takerOrder now resp).serv.matches_).map
            (fun m => m.lots)).sum
    ∧ (matchOrders s takerAccnt market takerOrder now resp).takerOrder.resdLots
      = takerOrder.resdLots
        - (((matchOrders s takerAccnt market takerOrder now resp).serv.matches_).map
            (fun m => m.lots)).sum := by
  have key : ∀ (side : MarketSide) (direct : Direct),
      (matchOrdersSide s takerAccnt market takerOrder side direct now resp).takerOrder.execLots
        = takerOrder.execLots
          + (((matchOrdersSide s takerAccnt market takerOrder side direct now
              resp).serv.matches_).map (fun m => m.lots)).sum
      ∧ (matchOrdersSide s takerAccnt market takerOrder side direct now
          resp).takerOrder.resdLots
        = takerOrder.resdLots
          - (((matchOrdersSide s takerAccnt market takerOrder side direct now
              resp).serv.matches_).map (fun m => m.lots)).sum := by
    intro side direct
    unfold matchOrdersSide
    simp only []
    have h1 := matchLoop_matches takerAccnt takerOrder direct now side.orders
      { serv := s, market := market, resp := resp, sumLots := 0, sumCost := 0, lastLots := 0,
        lastTicks := 0 }
    have h2 := matchLoop_sum takerAccnt takerOrder direct now side.orders
      { serv := s, market := market, resp := resp, sumLots := 0, sumCost := 0, lastLots := 0,
        lastTicks := 0 }
    simp only [hm0, List.nil_append, Int.zero_add] at h1 h2
    rw [h1]
    by_cases he : (matchList takerOrder direct now side.orders market.execSeq 0 0) = []
    · rw [he] at h2 ⊢
      simp only [List.isEmpty_nil, Bool.not_true, Bool.false_eq_true, if_false, List.map_nil,
        List.sum_nil, Int.add_zero, Int.sub_zero, and_self]
    · have hne : (!(matchList takerOrder direct now side.orders market.execSeq 0 0).isEmpty)
          = true := by
        cases hl : matchList takerOrder direct now side.orders market.execSeq 0 0 with
        | nil => exact absurd hl he
        | cons a l => rfl
      rw [if_pos hne, ← h2]
      exact ⟨rfl, rfl⟩
  unfold matchOrders
  split
  · exact key _ _
  · exact key _ _

/-- The order the reserve phase of `createOrder` builds, once matched: the lots of the matches
are booked on it. -/
theorem createOrderReserve_fill (s : Serv) (accnt : Symbol) (market : Market) (ref : String)
    (side : Side) (lots : Lots) (ticks : Ticks) (minLots : Lots) (now : Time)
    (resp : Response) (hm0 : s.matches_ = []) :
    (createOrderReserve s accnt market ref side lots ticks minLots now resp).order.execLots
      = (((createOrderReserve s accnt market ref side lots ticks minLots now
          resp).serv.matches_).map (fun m => m.lots)).sum
    ∧ (createOrderReserve s accnt market ref side lots ticks minLots now resp).order.resdLots
      = lots - (((createOrderReserve s accnt market ref side lots ticks minLots now
          resp).serv.matches_).map (fun m => m.lots)).sum := by
  have hmat : (createOrderReserve s accnt market ref side lots ticks minLots now
      resp).serv.matches_
      = (matchOrders { s with execs_ := s.execs_ ++ [newExec (Order.make accnt
            market.allocId.2.id market.allocId.2.instr market.allocId.2.settlDay
            market.allocId.1 ref side lots ticks minLots now) market.allocId.1 now] }
          accnt market.allocId.2
          (Order.make accnt market.allocId.2.id market.allocId.2.instr
            market.allocId.2.settlDay market.allocId.1 ref side lots ticks minLots now) now
          ((resp.insertOrder (Order.make accnt market.allocId.2.id market.allocId.2.instr
            market.allocId.2.settlDay market.allocId.1 ref side lots ticks minLots
            now)).insertExec (newExec (Order.make accnt market.allocId.2.id
            market.allocId.2.instr market.allocId.2.settlDay market.allocId.1 ref side lots
            ticks minLots now) market.allocId.1 now))).serv.matches_ := by
    unfold createOrderReserve
    simp only []
    split <;> rfl
  rw [hmat]
  obtain ⟨h1, h2⟩ := matchOrders_fill { s with execs_ := s.execs_ ++ [newExec (Order.make accnt
      market.allocId.2.id market.allocId.2.instr market.allocId.2.settlDay
      market.allocId.1 ref side lots ticks minLots now) market.allocId.1 now] }
    accnt market.allocId.2
    (Order.make accnt market.allocId.2.id market.allocId.2.instr
      market.allocId.2.settlDay market.allocId.1 ref side lots ticks minLots now) now
    ((resp.insertOrder (Order.make accnt market.allocId.2.id market.allocId.2.instr
      market.allocId.2.settlDay market.allocId.1 ref side lots ticks minLots
      now)).insertExec (newExec (Order.make accnt market.allocId.2.id
      market.allocId.2.instr market.allocId.2.settlDay market.allocId.1 ref side lots
      ticks minLots now) market.allocId.1 now)) hm0
  refine ⟨?_, ?_⟩
  · show (matchOrders _ _ _ _ _ _).takerOrder.execLots = _
    rw [h1]
    show (0 : Int) + _ = _
    rw [Int.zero_add]
  · show (matchOrders _ _ _ _ _ _).takerOrder.resdLots = _
    rw [h2]
    rfl

theorem commitMatches_market (takerAccnt : Symbol) (now : Time) (ms : List Match)
    (c : Committed) :
    (commitMatches takerAccnt now ms c).market
      = ms.foldl (fun mk m => mk.takeOrder m.makerOrder m.lots now) c.market := by
  induction ms generalizing c with
  | nil => rfl
  | cons m ms ih =>
    rw [commitMatches, ih, List.foldl_cons]
    rfl

/-- Taking fills from makers that rest in the book, each once, leaves every order with another
id where it is: in the book, or out of it. -/
theorem takeFold_mem (now : Time) (y : Order) :
    ∀ (ms : List Match) (market : Market), market.Ok →
      (∀ m ∈ ms, m.makerOrder ∈ market.orders) →
      (ms.map (fun m => m.makerOrder)).Nodup →
      (∀ m ∈ ms, y.id ≠ m.makerOrder.id) →
      (y ∈ (ms.foldl (fun mk m => mk.takeOrder m.makerOrder m.lots now) market).orders
        ↔ y ∈ market.orders) := by
  intro ms
  induction ms with
  | nil => intro market _ _ _ _; rfl
  | cons m ms ih =>
    intro market hok hx hnd hy
    rw [List.map_cons, List.nodup_cons] at hnd
    obtain ⟨h1, h2⟩ := Market.Ok.takeOrder market m.makerOrder m.lots now hok
      (hx m (List.mem_cons_self _ _))
    rw [List.foldl_cons, ih _ h1 ?_ hnd.2 (fun m2 hm2 => hy m2 (List.mem_cons_of_mem _ hm2)),
      h2 y]
    · have hne := hy m (List.mem_cons_self _ _)
      constructor
      · rintro (⟨h, -⟩ | ⟨-, h⟩)
        · exact h
        · rw [h] at hne
          exact absurd rfl hne
      · intro h
        exact Or.inl ⟨h, fun e => hne (by rw [e])⟩
    · intro m2 hm2
      rw [h2]
      refine Or.inl ⟨hx m2 (List.mem_cons_of_mem _ hm2), ?_⟩
      intro e
      exact hnd.1 (List.mem_map.mpr ⟨m2, hm2, e⟩)

theorem createOrderCommit_market (accnt : Symbol) (now : Time) (r : Reserved) :
    (createOrderCommit accnt now r).market
      = r.serv.matches_.foldl (fun mk m => mk.takeOrder m.makerOrder m.lots now) r.market := by
  have hms : (Serv.writeAccnt (if (!r.order.done) = true then
        ({ r.serv with journ := r.serv.journ ++ [r.serv.execs_] } : Serv).writeAccnt accnt
          (fun a => a.insertOrder r.order)
      else { r.serv with journ := r.serv.journ ++ [r.serv.execs_] }) accnt
        (fun a => a.pushExecFront r.exec)).matches_ = r.serv.matches_ := by
    split <;> rfl
  unfold createOrderCommit
  simp only []
  split
  · rw [commitMatches_market, hms]
  · rename_i h
    cases hl : r.serv.matches_ with
    | nil => rfl
    | cons a l => rw [hl] at h; exact absurd rfl h

theorem crosses_spread (accnt : Symbol) (i : Id64) (n : Symbol) (d : JDay) (id : Id64)
    (ref : String) (side : Side) (lots : Lots) (ticks : Ticks) (minLots : Lots) (now : Time)
    (o : Order) :
    decide (spread (Order.make accnt i n d id ref side lots ticks minLots now) o
      (if side = Side.Buy then Direct.Paid else Direct.Given) ≤ 0) = crosses side ticks o := by
  cases side
  · simp [spread, crosses, Order.make]
  · simp [spread, crosses, Order.make]

/-- C28 (maximal fill).  Let `createOrder` with `lots > 0` commit on a market whose book is well
formed and whose resting orders on the opposite side all have `resdLots > 0`.  The lots of the
matches it makes add up to the lesser of `lots` and the sum of the residuals of all
opposite-side orders whose price crosses the limit; the order it leaves has `execLots` equal to
that total and `resdLots = lots` minus that total; every match has `lots > 0`; and the order
rests in the book after the call exactly when its `resdLots > 0`. -/
theorem maximal_fill (mq : MsgQueue) (busDay : Time → JDay) (s : Serv) (accnt : Symbol)
    (market : Market) (ref : String) (side : Side) (lots : Lots) (ticks : Ticks)
    (minLots : Lots) (now : Time) (resp : Response)
    (hm : market.Ok) (hm0 : s.matches_ = []) (hlots : 0 < lots)
    (hresd : ∀ o ∈ (market.opposite side).orders, 0 < o.resdLots)
    (hok : (createOrder mq busDay s accnt market ref side lots ticks minLots now resp).thrown
      = none) :
    (((createOrderReserve s accnt market ref side lots ticks minLots now
        resp).serv.matches_).map (fun m => m.lots)).sum
      = min lots
          ((((market.opposite side).orders.filter (crosses side ticks)).map
            (fun o => o.resdLots)).sum)
    ∧ (createOrderReserve s accnt market ref side lots ticks minLots now resp).order.execLots
      = (((createOrderReserve s accnt market ref side lots ticks minLots now
          resp).serv.matches_).map (fun m => m.lots)).sum
    ∧ (createOrderReserve s accnt market ref side lots ticks minLots now resp).order.resdLots
      = lots - (((createOrderReserve s accnt market ref side lots ticks minLots now
          resp).serv.matches_).map (fun m => m.lots)).sum
    ∧ (∀ m ∈ (createOrderReserve s accnt market ref side lots ticks minLots now
          resp).serv.matches_, 0 < m.lots)
    ∧ ((createOrderReserve s accnt market ref side lots ticks minLots now resp).order
        ∈ (createOrder mq busDay s accnt market ref side lots ticks minLots now
            resp).market.orders
      ↔ 0 < (createOrderReserve s accnt market ref side lots ticks minLots now
          resp).order.resdLots) := by
  have hmat := createOrderReserve_matches s accnt market ref side lots ticks minLots now resp
  rw [hm0, List.nil_append] at hmat
  obtain ⟨f1, f2⟩ := createOrderReserve_fill s accnt market ref side lots ticks minLots now
    resp hm0
  obtain ⟨hid, ⟨n, hmk⟩, -, -, -⟩ :=
    createOrderReserve_footprint s accnt market ref side lots ticks minLots now resp
  obtain ⟨-, hmid, hin, hsd, -, -⟩ :=
    createOrderReserve_order s accnt market ref side lots ticks minLots now resp
  have hout := (createOrder_ok mq busDay s accnt market ref side lots ticks minLots now resp
    hok).2.2.2.2
  have hmarket : (createOrder mq busDay s accnt market ref side lots ticks minLots now
      resp).market = (createOrderCommit accnt now (createOrderReserve s accnt market ref side
        lots ticks minLots now resp)).market := by
    rw [hout]
  rw [hmarket, createOrderCommit_market]
  -- the opposite side is in price priority, so the makers visited are all that cross
  have hopp : (if side = Side.Buy then market.offerSide else market.bidSide)
      = market.opposite side := rfl
  rw [hopp] at hmat
  obtain ⟨t1, t2⟩ := matchList_total
    (Order.make accnt market.id market.instr market.settlDay (market.execSeq + 1) ref side
      lots ticks minLots now)
    (if side = Side.Buy then Direct.Paid else Direct.Given) now
    (market.opposite side).orders (market.execSeq + 1) 0 0 (le_of_lt hlots) hresd
  have hsorted : (market.opposite side).orders.Pairwise
      (fun a b => crosses side ticks b = true → crosses side ticks a = true) := by
    unfold Market.opposite
    cases side
    · simp only [if_true]
      have h := MarketSide.Ok.sorted _ hm.2.2.2.1
      rw [hm.2.1] at h
      apply List.Pairwise.imp _ h
      intro a b hab hb
      simp only [priceBefore, decide_eq_false_iff_not, not_lt] at hab
      simp only [crosses, decide_eq_true_eq] at hb ⊢
      exact le_trans hab hb
    · simp only [reduceCtorEq, if_false]
      have h := MarketSide.Ok.sorted _ hm.2.2.1
      rw [hm.1] at h
      apply List.Pairwise.imp _ h
      intro a b hab hb
      simp only [priceBefore, decide_eq_false_iff_not, not_lt] at hab
      simp only [crosses, decide_eq_true_eq] at hb ⊢
      exact le_trans hb hab
  have hfun : (fun o => decide (spread (Order.make accnt market.id market.instr
      market.settlDay (market.execSeq + 1) ref side lots ticks minLots now) o
      (if side = Side.Buy then Direct.Paid else Direct.Given) ≤ 0)) = crosses side ticks :=
    funext (fun o => crosses_spread _ _ _ _ _ _ _ _ _ _ _ o)
  rw [hfun, takeWhile_eq_filter_of_sorted _ _ hsorted, Int.zero_add, Int.zero_add] at t1
  have htotal : (((createOrderReserve s accnt market ref side lots ticks minLots now
      resp).serv.matches_).map (fun m => m.lots)).sum
      = min lots ((((market.opposite side).orders.filter (crosses side ticks)).map
          (fun o => o.resdLots)).sum) := by
    rw [hmat]
    exact t1
  refine ⟨htotal, f1, f2, fun m hm2 => t2 m (hmat ▸ hm2), ?_⟩
  -- the book
  have hfld := hm.2.2.2.2.2
  have hb : ({ market with execSeq := market.execSeq + 1 + n } : Market).Ok :=
    Market.Ok.bump _ n (Market.Ok.bump market 1 hm)
  have hdone : (createOrderReserve s accnt market ref side lots ticks minLots now
      resp).order.done = true
      ↔ ¬ 0 < (createOrderReserve s accnt market ref side lots ticks minLots now
          resp).order.resdLots := by
    have hle : (0 : Int) ≤ (createOrderReserve s accnt market ref side lots ticks minLots now
        resp).order.resdLots := by
      rw [f2, htotal]
      exact sub_nonneg.mpr (min_le_left _ _)
    unfold Order.done
    rw [beq_iff_eq]
    constructor
    · intro h
      rw [h]
      exact lt_irrefl _
    · intro h
      exact le_antisymm (not_lt.mp h) hle
  generalize createOrderReserve s accnt market ref side lots ticks minLots now resp = r at *
  have hnew : ∀ x ∈ market.orders, x.id < r.order.id := by
    intro x hx
    rw [hid]
    exact Nat.lt_succ_of_le (hfld x hx).1
  have hrm : r.market.Ok ∧ (∀ y ∈ market.orders, y ∈ r.market.orders)
      ∧ (r.order ∈ r.market.orders ↔ ¬ r.order.done = true) := by
    rw [hmk]
    by_cases hd : r.order.done = true
    · rw [if_neg (by simp [hd])]
      refine ⟨hb, fun y hy => hy, ?_⟩
      constructor
      · intro hmem
        exact absurd (hnew r.order hmem) (lt_irrefl _)
      · intro h
        exact absurd hd h
    · rw [if_pos (by simp [hd])]
      obtain ⟨hok2, hmem⟩ := Market.Ok_insertOrder
        ({ market with execSeq := market.execSeq + 1 + n } : Market) r.order hb hnew
        (by rw [hid]; exact Nat.le_add_right _ _) ⟨hmid, hin, hsd⟩
      exact ⟨hok2, fun y hy => (hmem y).mpr (Or.inr hy),
        ⟨fun _ => hd, fun _ => (hmem _).mpr (Or.inl rfl)⟩⟩
  obtain ⟨hr1, hr2, hr3⟩ := hrm
  have hmakers : ∀ m ∈ r.serv.matches_, m.makerOrder ∈ market.orders := by
    intro m hm2
    rw [hmat] at hm2
    obtain ⟨seq2, mk, l2, sl, sc, hmk2, rfl⟩ := matchList_mem _ _ _ _ _ _ _ m hm2
    show mk ∈ market.orders
    unfold Market.opposite at hmk2
    by_cases hsb : side = Side.Buy
    · simp only [hsb, if_true] at hmk2
      exact List.mem_append_right _ hmk2
    · simp only [hsb, if_false] at hmk2
      exact List.mem_append_left _ hmk2
  have hnd : (r.serv.matches_.map (fun m => m.makerOrder)).Nodup := by
    rw [hmat]
    obtain ⟨rest, hrest, -⟩ := matchList_prefix
      (Order.make accnt market.id market.instr market.settlDay (market.execSeq + 1) ref
        side lots ticks minLots now)
      (if side = Side.Buy then Direct.Paid else Direct.Given) now
      (market.opposite side).orders (market.execSeq + 1) 0 0
    have hnd2 : (market.opposite side).orders.Nodup := by
      unfold Market.opposite
      by_cases hsb : side = Side.Buy
      · simp only [hsb, if_true]
        exact MarketSide.Ok.nodup _ hm.2.2.2.1
      · simp only [hsb, if_false]
        exact MarketSide.Ok.nodup _ hm.2.2.1
    rw [hrest] at hnd2
    exact List.Nodup.of_append_left hnd2
  rw [takeFold_mem now r.order r.serv.matches_ r.market hr1
    (fun m hm2 => hr2 _ (hmakers m hm2)) hnd
    (fun m hm2 => Nat.ne_of_gt (hnew _ (hmakers m hm2))), hr3, hdone, not_not]

/-- C28 applies: in the market of `exOut2` account `A` offers 5 @ 100 and 5 @ 120; `B` buys 10 @
110, which crosses the first offer only: 5 lots are matched and 5 rest. -/
theorem maximal_fill_witness :
    exOut3.thrown = none
    ∧ (exOut2.market.opposite Side.Buy).orders.map (fun o => (o.ticks, o.resdLots))
        = [(100, 5), (120, 5)]
    ∧ ((createOrderReserve exOut2.serv "B" exOut2.market "r1" Side.Buy 10 110 0 3
          Response.empty).serv.matches_).map (fun m => m.lots) = [5]
    ∧ (((createOrderReserve exOut2.serv "B" exOut2.market "r1" Side.Buy 10 110 0 3
          Response.empty).serv.matches_).map (fun m => m.lots)).sum
        = min 10 ((((exOut2.market.opposite Side.Buy).orders.filter
            (crosses Side.Buy 110)).map (fun o => o.resdLots)).sum) :=
  ⟨by decide, by decide, by decide,
   (maximal_fill exMq exBusDay exOut2.serv "B" exOut2.market "r1" Side.Buy 10 110 0 3
      Response.empty (by unfold Market.Ok MarketSide.Ok Level.Ok; decide) (by decide)
      (by decide) (by decide) (by decide)).1⟩

/-! ## A book that is not crossed -/

theorem reviseLevels_pres (P : Order → Prop)
    (hP : ∀ (x : Order) (l : Lots) (nw : Time), P x → P (x.revise l nw)) (o : Order)
    (lots : Lots) (now : Time) :
    ∀ ls : List Level, (∀ y ∈ ls.flatMap (fun l => l.queue), P y) →
      ∀ y ∈ (MarketSide.reviseLevels o lots now ls).flatMap (fun l => l.queue), P y := by
  intro ls
  induction ls with
  | nil => intro _ y hy; simp [MarketSide.reviseLevels] at hy
  | cons l ls ih =>
    intro h y hy
    have hl : ∀ y ∈ l.queue, P y := fun y hy => h y (by
      rw [List.flatMap_cons]; exact List.mem_append_left _ hy)
    have hls : ∀ y ∈ ls.flatMap (fun l => l.queue), P y := fun y hy => h y (by
      rw [List.flatMap_cons]; exact List.mem_append_right _ hy)
    rw [MarketSide.reviseLevels] at hy
    split at hy
    · split at hy
      · rw [List.flatMap_cons] at hy
        rcases List.mem_append.mp hy with hy | hy
        · have hy2 : y ∈ l.queue.map (fun x => if x.id = o.id
              then x.revise lots now else x) := hy
          obtain ⟨x, hx, hxy⟩ := List.mem_map.mp hy2
          subst hxy
          split
          · exact hP x _ _ (hl x hx)
          · exact hl x hx
        · exact hls y hy
      · exact h y hy
    · rw [List.flatMap_cons] at hy
      rcases List.mem_append.mp hy with hy | hy
      · exact hl y hy
      · exact ih hls y hy

theorem MarketSide.within_refl (s : MarketSide) : s.Within s :=
  ⟨fun y hy => ⟨y, hy, rfl⟩, List.Sublist.refl _⟩

theorem MarketSide.within_trans (s3 s2 s : MarketSide) (h1 : s3.Within s2) (h2 : s2.Within s) :
    s3.Within s := by
  refine ⟨?_, h1.2.trans h2.2⟩
  intro y hy
  obtain ⟨x, hx, hxy⟩ := h1.1 y hy
  obtain ⟨z, hz, hzx⟩ := h2.1 x hx
  exact ⟨z, hz, hzx.trans hxy⟩

theorem Market.book_within_refl (m : Market) : m.Within m :=
  ⟨MarketSide.within_refl _, MarketSide.within_refl _⟩

theorem Market.book_within_trans (m3 m2 m : Market) (h1 : m3.Within m2) (h2 : m2.Within m) :
    m3.Within m :=
  ⟨MarketSide.within_trans _ _ _ h1.1 h2.1, MarketSide.within_trans _ _ _ h1.2 h2.2⟩

/-- A book whose prices all rest in a book that is not crossed is not crossed. -/
theorem Market.Uncrossed.of_within (m2 m : Market) (h : m2.Within m) (hu : m.Uncrossed) :
    m2.Uncrossed := by
  intro b hb o ho
  obtain ⟨x, hx, hxb⟩ := h.1.1 b hb
  obtain ⟨y, hy, hyo⟩ := h.2.1 o ho
  rw [← hxb, ← hyo]
  exact hu x hx y hy

/-- The first level of a side within a well-formed side is priced no better than the first
level of that side. -/
theorem MarketSide.Within.head (t s : MarketSide) (h : t.Within s) (hs : s.Ok) (l : Level)
    (tl : List Level) (ht : t.levels = l :: tl) :
    ∃ k kt, s.levels = k :: kt
      ∧ (l.ticks = k.ticks ∨ priceBefore s.side k.ticks l.ticks = true) := by
  have hsub := h.2
  rw [ht, List.map_cons] at hsub
  have hmem : l.ticks ∈ s.levels.map (fun l => l.ticks) :=
    hsub.subset (List.mem_cons_self _ _)
  obtain ⟨k2, hk2, hk2t⟩ := List.mem_map.mp hmem
  cases hls : s.levels with
  | nil => rw [hls] at hk2; cases hk2
  | cons k kt =>
    refine ⟨k, kt, rfl, ?_⟩
    rw [hls] at hk2
    rcases List.mem_cons.mp hk2 with e | e
    · left; rw [← hk2t, e]
    · right
      have hp := hs.1
      rw [hls, List.pairwise_cons] at hp
      rw [← hk2t]
      exact hp.1 k2 e

/-- A book within a well-formed book whose best bid is below its best offer has its best bid
below its best offer, or a side empty. -/
theorem Market.BestUncrossed.within (m2 m : Market) (h : m2.Within m) (hm : m.Ok)
    (hb : m.BestUncrossed) : m2.BestUncrossed := by
  obtain ⟨hbs, hss, hbo, hso, -, -⟩ := hm
  unfold Market.BestUncrossed Market.bestBid Market.bestOffer
  cases hbl : m2.bidSide.levels with
  | nil => simp
  | cons l t =>
    cases hol : m2.offerSide.levels with
    | nil => simp
    | cons l2 t2 =>
      obtain ⟨k, kt, hk, hkl⟩ := MarketSide.Within.head _ _ h.1 hbo l t hbl
      obtain ⟨k2, kt2, hk2, hkl2⟩ := MarketSide.Within.head _ _ h.2 hso l2 t2 hol
      unfold Market.BestUncrossed Market.bestBid Market.bestOffer at hb
      rw [hk, hk2] at hb
      simp only [List.head?_cons, Option.map_some'] at hb ⊢
      rw [hbs] at hkl
      rw [hss] at hkl2
      simp only [priceBefore, decide_eq_true_eq] at hkl hkl2
      have h1 : l.ticks ≤ k.ticks := by
        rcases hkl with e | e
        · exact le_of_eq e
        · exact le_of_lt e
      have h2 : k2.ticks ≤ l2.ticks := by
        rcases hkl2 with e | e
        · exact le_of_eq e.symm
        · exact le_of_lt e
      exact lt_of_le_of_lt h1 (lt_of_lt_of_le hb h2)

/-- The walk of a side that drops or rewrites one level, keeping its price, keeps the level
prices, in their order. -/
theorem walkLevels_sublist (o : Order) (f : Level → Option Level)
    (hf : ∀ l l2, f l = some l2 → l2.ticks = l.ticks) :
    ∀ ls : List Level, ((MarketSide.walkLevels o f ls).map (fun l => l.ticks)).Sublist
      (ls.map (fun l => l.ticks)) := by
  intro ls
  induction ls with
  | nil => exact List.Sublist.refl _
  | cons l ls ih =>
    rw [MarketSide.walkLevels]
    split
    · split
      · cases hfl : f l with
        | none => exact List.sublist_cons_self _ _
        | some l2 =>
          simp only [List.map_cons]
          rw [hf l l2 hfl]
      · exact List.Sublist.refl _
    · simp only [List.map_cons]
      exact List.Sublist.cons₂ _ ih

theorem removeLevels_sublist (o : Order) (ls : List Level) :
    ((MarketSide.removeLevels o ls).map (fun l => l.ticks)).Sublist
      (ls.map (fun l => l.ticks)) := by
  rw [removeLevels_eq_walk]
  apply walkLevels_sublist
  intro l l2 h
  unfold MarketSide.dropLevel at h
  split at h
  · cases h
  · cases h; rfl

theorem takeLevels_sublist (o : Order) (lots : Lots) (now : Time) (ls : List Level) :
    ((MarketSide.takeLevels o lots now ls).map (fun l => l.ticks)).Sublist
      (ls.map (fun l => l.ticks)) := by
  rw [takeLevels_eq_walk]
  apply walkLevels_sublist
  intro l l2 h
  unfold MarketSide.takeLevel at h
  split at h
  · split at h
    · cases h
    · cases h; rfl
  · cases h; rfl

theorem reviseLevels_sublist (o : Order) (lots : Lots) (now : Time) (ls : List Level) :
    ((MarketSide.reviseLevels o lots now ls).map (fun l => l.ticks)).Sublist
      (ls.map (fun l => l.ticks)) := by
  rw [reviseLevels_eq_walk]
  apply walkLevels_sublist
  intro l l2 h
  unfold MarketSide.reviseLevel at h
  cases h; rfl

/-- A rewrite of the levels of one side that brings in no new price. -/
theorem Market.mapSide_within (m : Market) (side : Side) (G : List Level → List Level)
    (hG : ∀ (P : Order → Prop), (∀ (x : Order) (l : Lots) (c : Cost) (ll : Lots) (lt : Ticks)
        (nw : Time), P x → P (x.trade l c ll lt nw)) →
      (∀ (x : Order) (l : Lots) (nw : Time), P x → P (x.revise l nw)) →
      ∀ ls : List Level, (∀ y ∈ ls.flatMap (fun l => l.queue), P y) →
        ∀ y ∈ (G ls).flatMap (fun l => l.queue), P y)
    (hS : ∀ ls : List Level, ((G ls).map (fun l => l.ticks)).Sublist
      (ls.map (fun l => l.ticks))) :
    (m.mapSide side G).Within m := by
  unfold Market.mapSide
  cases side
  · refine ⟨⟨?_, hS _⟩, MarketSide.within_refl _⟩
    exact hG (fun y => ∃ x ∈ m.bidSide.orders, x.ticks = y.ticks)
      (fun x _ _ _ _ _ hx => hx) (fun x _ _ hx => hx) m.bidSide.levels
      (fun y hy => ⟨y, hy, rfl⟩)
  · refine ⟨MarketSide.within_refl _, ⟨?_, hS _⟩⟩
    exact hG (fun y => ∃ x ∈ m.offerSide.orders, x.ticks = y.ticks)
      (fun x _ _ _ _ _ hx => hx) (fun x _ _ hx => hx) m.offerSide.levels
      (fun y hy => ⟨y, hy, rfl⟩)

theorem Market.removeOrder_within (m : Market) (o : Order) : (m.removeOrder o).Within m := by
  rw [Market.removeOrder_eq_mapSide]
  exact Market.mapSide_within m o.side _ (fun P _ _ => removeLevels_pres P o)
    (removeLevels_sublist o)

theorem Market.cancel_within (m : Market) (o : Order) (now : Time) :
    (m.cancelOrder o now).Within m := by
  rw [Market.cancelOrder_eq_mapSide]
  exact Market.mapSide_within m o.side _ (fun P _ _ => removeLevels_pres P o)
    (removeLevels_sublist o)

theorem Market.takeOrder_within (m : Market) (o : Order) (lots : Lots) (now : Time) :
    (m.takeOrder o lots now).Within m := by
  rw [Market.takeOrder_eq_mapSide]
  exact Market.mapSide_within m o.side _ (fun P hP _ => takeLevels_pres P hP o lots now)
    (takeLevels_sublist o lots now)

theorem Market.revise_within (m : Market) (o : Order) (lots : Lots) (now : Time) :
    (m.reviseOrder o lots now).Within m := by
  rw [Market.reviseOrder_eq_mapSide]
  exact Market.mapSide_within m o.side _ (fun P _ hP => reviseLevels_pres P hP o lots now)
    (reviseLevels_sublist o lots now)


theorem doReviseOrder_within (mq : MsgQueue) (s : Serv) (accnt : Symbol) (market : Market)
    (order : Order) (lots : Lots) (now : Time) (resp : Response) :
    (doReviseOrder mq s accnt market order lots now resp).market.Within market := by
  unfold doReviseOrder
  split
  · exact Market.book_within_refl market
  · simp only []
    split
    · exact Market.revise_within _ _ _ _
    · exact Market.book_within_refl market

theorem doCancelOrder_within (mq : MsgQueue) (s : Serv) (accnt : Symbol) (market : Market)
    (order : Order) (now : Time) (resp : Response) :
    (doCancelOrder mq s accnt market order now resp).market.Within market := by
  unfold doCancelOrder
  simp only []
  split
  · exact Market.cancel_within _ _ _
  · exact Market.book_within_refl market

theorem reviseReserveLoop_within (s : Serv) (accnt : Symbol) (lots : Lots) (now : Time) :
    ∀ (ids : List Id64) (market : Market) (resp : Response),
      (reviseReserveLoop s accnt lots now ids market resp).market.Within market := by
  intro ids
  induction ids with
  | nil => intro market resp; exact Market.book_within_refl market
  | cons id ids ih =>
    intro market resp
    rw [reviseReserveLoop]
    split
    · exact Market.book_within_refl market
    · split
      · exact Market.book_within_refl market
      · split
        · exact Market.book_within_refl market
        · exact ih _ _

theorem cancelReserveLoop_within (s : Serv) (accnt : Symbol) (now : Time) :
    ∀ (ids : List Id64) (market : Market) (resp : Response),
      (cancelReserveLoop s accnt now ids market resp).market.Within market := by
  intro ids
  induction ids with
  | nil => intro market resp; exact Market.book_within_refl market
  | cons id ids ih =>
    intro market resp
    rw [cancelReserveLoop]
    split
    · exact Market.book_within_refl market
    · split
      · exact Market.book_within_refl market
      · exact ih _ _

theorem reviseCommitLoop_within (accnt : Symbol) (lots : Lots) (now : Time) :
    ∀ (execs : List Exec) (s : Serv) (market : Market) (resp : Response),
      (reviseCommitLoop accnt lots now execs s market resp).market.Within market := by
  intro execs
  induction execs with
  | nil => intro s market resp; exact Market.book_within_refl market
  | cons e execs ih =>
    intro s market resp
    rw [reviseCommitLoop]
    split
    · exact Market.book_within_refl market
    · exact Market.book_within_trans _ _ _ (ih _ _ _) (Market.revise_within _ _ _ _)

theorem cancelCommitLoop_within (accnt : Symbol) (now : Time) :
    ∀ (execs : List Exec) (s : Serv) (market : Market) (resp : Response),
      (cancelCommitLoop accnt now execs s market resp).market.Within market := by
  intro execs
  induction execs with
  | nil => intro s market resp; exact Market.book_within_refl market
  | cons e execs ih =>
    intro s market resp
    rw [cancelCommitLoop]
    split
    · exact Market.book_within_refl market
    · exact Market.book_within_trans _ _ _ (ih _ _ _) (Market.cancel_within _ _ _)

theorem reviseOrderBatch_within (mq : MsgQueue) (s : Serv) (accnt : Symbol) (market : Market)
    (ids : List Id64) (lots : Lots) (now : Time) (resp : Response) :
    (reviseOrderBatch mq s accnt market ids lots now resp).market.Within market := by
  have h := reviseReserveLoop_within s accnt lots now ids market (resp.setMarket market.id)
  unfold reviseOrderBatch
  simp only []
  split
  · exact h
  · split
    · exact Market.book_within_trans _ _ _ (reviseCommitLoop_within _ _ _ _ _ _ _) h
    · exact h

theorem cancelOrderBatch_within (mq : MsgQueue) (s : Serv) (accnt : Symbol) (market : Market)
    (ids : List Id64) (now : Time) (resp : Response) :
    (cancelOrderBatch mq s accnt market ids now resp).market.Within market := by
  have h := cancelReserveLoop_within s accnt now ids market (resp.setMarket market.id)
  unfold cancelOrderBatch
  simp only []
  split
  · exact h
  · split
    · exact Market.book_within_trans _ _ _ (cancelCommitLoop_within _ _ _ _ _ _) h
    · exact h

theorem reviseOrder_within (mq : MsgQueue) (s : Serv) (accnt : Symbol) (market : Market)
    (order : Order) (lots : Lots) (now : Time) (resp : Response) :
    (reviseOrder mq s accnt market order lots now resp).market.Within market := by
  unfold reviseOrder
  split
  · exact Market.book_within_refl market
  · exact doReviseOrder_within _ _ _ _ _ _ _ _

theorem reviseOrderById_within (mq : MsgQueue) (s : Serv) (accnt : Symbol) (market : Market)
    (id : Id64) (lots : Lots) (now : Time) (resp : Response) :
    (reviseOrderById mq s accnt market id lots now resp).market.Within market := by
  unfold reviseOrderById
  split
  · exact Market.book_within_refl market
  · split
    · exact Market.book_within_refl market
    · exact doReviseOrder_within _ _ _ _ _ _ _ _

theorem reviseOrderByRef_within (mq : MsgQueue) (s : Serv) (accnt : Symbol) (market : Market)
    (ref : String) (lots : Lots) (now : Time) (resp : Response) :
    (reviseOrderByRef mq s accnt market ref lots now resp).market.Within market := by
  unfold reviseOrderByRef
  split
  · exact Market.book_within_refl market
  · split
    · exact Market.book_within_refl market
    · exact doReviseOrder_within _ _ _ _ _ _ _ _

theorem cancelOrder_within (mq : MsgQueue) (s : Serv) (accnt : Symbol) (market : Market)
    (order : Order) (now : Time) (resp : Response) :
    (cancelOrder mq s accnt market order now resp).market.Within market := by
  unfold cancelOrder
  split
  · exact Market.book_within_refl market
  · exact doCancelOrder_within _ _ _ _ _ _ _

theorem cancelOrderById_within (mq : MsgQueue) (s : Serv) (accnt : Symbol) (market : Market)
    (id : Id64) (now : Time) (resp : Response) :
    (cancelOrderById mq s accnt market id now resp).market.Within market := by
  unfold cancelOrderById
  split
  · exact Market.book_within_refl market
  · split
    · exact Market.book_within_refl market
    · exact doCancelOrder_within _ _ _ _ _ _ _

theorem cancelOrderByRef_within (mq : MsgQueue) (s : Serv) (accnt : Symbol) (market : Market)
    (ref : String) (now : Time) (resp : Response) :
    (cancelOrderByRef mq s accnt market ref now resp).market.Within market := by
  unfold cancelOrderByRef
  split
  · exact Market.book_within_refl market
  · split
    · exact Market.book_within_refl market
    · exact doCancelOrder_within _ _ _ _ _ _ _

/-! ### The matches of an order that is left resting -/

theorem matchList_filled (takerOrder : Order) (direct : Direct) (now : Time)
    (makers : List Order) (seq : Id64) (sumLots : Lots) (sumCost : Cost)
    (h : sumLots = takerOrder.resdLots) :
    matchList takerOrder direct now makers seq sumLots sumCost = [] := by
  cases makers with
  | nil => rfl
  | cons mk rest => unfold matchList; rw [if_pos h]

/-- The loop of `matchOrders` either fills the taker, or fills every maker it matches and stops
at the end of the side or at a maker whose price does not cross. -/
theorem matchList_full_or_filled (takerOrder : Order) (direct : Direct) (now : Time) :
    ∀ (makers : List Order) (seq : Id64) (sumLots : Lots) (sumCost : Cost),
      sumLots + ((matchList takerOrder direct now makers seq sumLots sumCost).map
          (fun m => m.lots)).sum = takerOrder.resdLots
      ∨ ((∀ m ∈ matchList takerOrder direct now makers seq sumLots sumCost,
            m.lots = m.makerOrder.resdLots)
         ∧ ∃ rest, makers = (matchList takerOrder direct now makers seq sumLots sumCost).map
              (fun m => m.makerOrder) ++ rest
            ∧ (rest = [] ∨ ∃ mk tl, rest = mk :: tl ∧ spread takerOrder mk direct > 0)) := by
  intro makers
  induction makers with
  | nil =>
    intro seq sumLots sumCost
    exact Or.inr ⟨by simp [matchList], [], by simp [matchList], Or.inl rfl⟩
  | cons mk rest ih =>
    intro seq sumLots sumCost
    by_cases h1 : sumLots = takerOrder.resdLots
    · left
      rw [matchList_filled _ _ _ _ _ _ _ h1]
      simpa using h1
    · by_cases h2 : spread takerOrder mk direct > 0
      · right
        unfold matchList
        simp only [h1, h2, if_true, if_false]
        exact ⟨by simp, mk :: rest, by simp, Or.inr ⟨mk, rest, rfl, h2⟩⟩
      · by_cases hmin : min (takerOrder.resdLots - sumLots) mk.resdLots = mk.resdLots
        · unfold matchList
          simp only [h1, h2, if_false]
          rcases ih (seq + 2) (sumLots + min (takerOrder.resdLots - sumLots) mk.resdLots)
            (sumCost + cost (min (takerOrder.resdLots - sumLots) mk.resdLots) mk.ticks)
            with h | ⟨hfull, r, hr, hstop⟩
          · left
            simp only [List.map_cons, List.sum_cons, mkMatch]
            rw [← add_assoc]
            exact h
          · right
            refine ⟨?_, r, ?_, hstop⟩
            · intro m hm
              rcases List.mem_cons.mp hm with h | h
              · rw [h]
                exact hmin
              · exact hfull m h
            · simp only [List.map_cons, List.cons_append, mkMatch]
              rw [← hr]
        · left
          have hrem : min (takerOrder.resdLots - sumLots) mk.resdLots
              = takerOrder.resdLots - sumLots := by
            rcases min_choice (takerOrder.resdLots - sumLots) mk.resdLots with hc | hc
            · exact hc
            · exact absurd hc hmin
          unfold matchList
          simp only [h1, h2, if_false]
          rw [matchList_filled _ _ _ _ _ _ _ (by rw [hrem]; ring)]
          simp only [List.map_cons, List.sum_cons, mkMatch, List.map_nil, List.sum_nil]
          rw [hrem]
          ring

theorem takeFold_within (now : Time) :
    ∀ (ms : List Match) (market : Market),
      (ms.foldl (fun mk m => mk.takeOrder m.makerOrder m.lots now) market).Within market := by
  intro ms
  induction ms with
  | nil => intro market; exact Market.book_within_refl market
  | cons m ms ih =>
    intro market
    rw [List.foldl_cons]
    exact Market.book_within_trans _ _ _ (ih _) (Market.takeOrder_within _ _ _ _)

/-- Taking fills from makers that rest in the book, each once, keeps the book well formed. -/
theorem takeFold_ok (now : Time) :
    ∀ (ms : List Match) (market : Market), market.Ok →
      (∀ m ∈ ms, m.makerOrder ∈ market.orders) →
      (ms.map (fun m => m.makerOrder)).Nodup →
      (ms.foldl (fun mk m => mk.takeOrder m.makerOrder m.lots now) market).Ok := by
  intro ms
  induction ms with
  | nil => intro market hok _ _; exact hok
  | cons m ms ih =>
    intro market hok hx hnd
    rw [List.map_cons, List.nodup_cons] at hnd
    obtain ⟨h1, h2⟩ := Market.Ok.takeOrder market m.makerOrder m.lots now hok
      (hx m (List.mem_cons_self _ _))
    rw [List.foldl_cons]
    apply ih _ h1 _ hnd.2
    intro m2 hm2
    rw [h2]
    refine Or.inl ⟨hx m2 (List.mem_cons_of_mem _ hm2), ?_⟩
    intro e
    exact hnd.1 (List.mem_map.mpr ⟨m2, hm2, e⟩)

/-- Taking from makers that rest in the book, each once, a fill that completes them leaves in
the book the orders that were not matched. -/
theorem takeFold_full (now : Time) :
    ∀ (ms : List Match) (market : Market), market.Ok →
      (∀ m ∈ ms, m.makerOrder ∈ market.orders) →
      (ms.map (fun m => m.makerOrder)).Nodup →
      (∀ m ∈ ms, m.lots = m.makerOrder.resdLots) →
      ∀ y, y ∈ (ms.foldl (fun mk m => mk.takeOrder m.makerOrder m.lots now) market).orders
        ↔ (y ∈ market.orders ∧ ∀ m ∈ ms, y ≠ m.makerOrder) := by
  intro ms
  induction ms with
  | nil => intro market _ _ _ _ y; simp
  | cons m ms ih =>
    intro market hok hx hnd hfull y
    rw [List.map_cons, List.nodup_cons] at hnd
    obtain ⟨h1, h2⟩ := Market.Ok.takeOrder market m.makerOrder m.lots now hok
      (hx m (List.mem_cons_self _ _))
    have hz : m.makerOrder.resdLots - m.lots = 0 := by
      rw [hfull m (List.mem_cons_self _ _)]
      exact sub_self _
    have h3 : ∀ y, y ∈ (market.takeOrder m.makerOrder m.lots now).orders
        ↔ (y ∈ market.orders ∧ y ≠ m.makerOrder) := by
      intro y
      rw [h2 y]
      constructor
      · rintro (h | ⟨h, -⟩)
        · exact h
        · exact absurd hz h
      · intro h
        exact Or.inl h
    rw [List.foldl_cons, ih _ h1 ?_ hnd.2 (fun m2 hm2 => hfull m2 (List.mem_cons_of_mem _ hm2)),
      h3 y]
    · constructor
      · rintro ⟨⟨ha, hb⟩, hc⟩
        refine ⟨ha, ?_⟩
        intro m2 hm2
        rcases List.mem_cons.mp hm2 with h | h
        · rw [h]; exact hb
        · exact hc m2 h
      · rintro ⟨ha, hb⟩
        exact ⟨⟨ha, hb m (List.mem_cons_self _ _)⟩,
          fun m2 hm2 => hb m2 (List.mem_cons_of_mem _ hm2)⟩
    · intro m2 hm2
      rw [h3]
      refine ⟨hx m2 (List.mem_cons_of_mem _ hm2), ?_⟩
      intro e
      exact hnd.1 (List.mem_map.mpr ⟨m2, hm2, e⟩)

theorem createOrderReserve_ticks (s : Serv) (accnt : Symbol) (market : Market)
    (ref : String) (side : Side) (lots : Lots) (ticks : Ticks) (minLots : Lots) (now : Time)
    (resp : Response) :
    (createOrderReserve s accnt market ref side lots ticks minLots now resp).order.ticks
      = ticks := by
  unfold createOrderReserve matchOrders matchOrdersSide
  simp only []
  split <;> split <;> rfl

/-! ### Best prices -/

/-- The first level of a well-formed side is not empty. -/
theorem MarketSide.Ok.head_mem (s : MarketSide) (h : s.Ok) (l : Level) (t : List Level)
    (hl : s.levels = l :: t) : ∃ x ∈ s.orders, x.ticks = l.ticks := by
  have hlm : l ∈ s.levels := by rw [hl]; exact List.mem_cons_self _ _
  obtain ⟨h1, -, -, h4, -⟩ := h.2 l hlm
  obtain ⟨x, hx⟩ := List.exists_mem_of_ne_nil _ h1
  exact ⟨x, List.mem_flatMap.mpr ⟨l, hlm, hx⟩, (h4 x hx).1⟩

/-- No order of a well-formed side is priced better than its first level. -/
theorem MarketSide.Ok.head_best (s : MarketSide) (h : s.Ok) (y : Order) (hy : y ∈ s.orders) :
    ∃ l t, s.levels = l :: t
      ∧ (y.ticks = l.ticks ∨ priceBefore s.side l.ticks y.ticks = true) := by
  obtain ⟨k, hk, hyk⟩ := List.mem_flatMap.mp hy
  have hyt := ((h.2 k hk).2.2.2.1 y hyk).1
  cases hls : s.levels with
  | nil => rw [hls] at hk; cases hk
  | cons l t =>
    refine ⟨l, t, rfl, ?_⟩
    rw [hls] at hk
    rcases List.mem_cons.mp hk with e | e
    · left; rw [hyt, e]
    · right
      have hp := h.1
      rw [hls, List.pairwise_cons] at hp
      rw [hyt]
      exact hp.1 k e

/-- In a well-formed book, every bid is priced below every offer exactly when the best bid is
below the best offer or a side is empty. -/
theorem Market.Ok.uncrossed_iff (m : Market) (hm : m.Ok) : m.Uncrossed ↔ m.BestUncrossed := by
  obtain ⟨hb, hs, hbo, hso, -, -⟩ := hm
  constructor
  · intro hu
    unfold Market.BestUncrossed Market.bestBid Market.bestOffer
    cases hbl : m.bidSide.levels with
    | nil => simp
    | cons l t =>
      cases hol : m.offerSide.levels with
      | nil => simp
      | cons l2 t2 =>
        obtain ⟨x, hx, hxt⟩ := MarketSide.Ok.head_mem _ hbo l t hbl
        obtain ⟨y, hy, hyt⟩ := MarketSide.Ok.head_mem _ hso l2 t2 hol
        simp only [List.head?_cons, Option.map_some']
        rw [← hxt, ← hyt]
        exact hu x hx y hy
  · intro hbest b hbm o hom
    obtain ⟨l, t, hl, hlb⟩ := MarketSide.Ok.head_best _ hbo b hbm
    obtain ⟨l2, t2, hl2, hlo⟩ := MarketSide.Ok.head_best _ hso o hom
    unfold Market.BestUncrossed Market.bestBid Market.bestOffer at hbest
    rw [hl, hl2] at hbest
    simp only [List.head?_cons, Option.map_some'] at hbest
    rw [hb] at hlb
    rw [hs] at hlo
    simp only [priceBefore, decide_eq_true_eq] at hlb hlo
    have h1 : b.ticks ≤ l.ticks := by
      rcases hlb with e | e
      · exact le_of_eq e
      · exact le_of_lt e
    have h2 : l2.ticks ≤ o.ticks := by
      rcases hlo with e | e
      · exact le_of_eq e.symm
      · exact le_of_lt e
    exact lt_of_le_of_lt h1 (lt_of_lt_of_le hbest h2)

/-- A `createOrder` that commits on a well-formed book that is not crossed leaves a well-formed
book that is not crossed: an order that is left resting has matched every maker whose price
crosses its limit, and each of them completely. -/
theorem createOrder_uncrossed (mq : MsgQueue) (busDay : Time → JDay) (s : Serv) (accnt : Symbol)
    (market : Market) (ref : String) (side : Side) (lots : Lots) (ticks : Ticks)
    (minLots : Lots) (now : Time) (resp : Response)
    (hm : market.Ok) (hm0 : s.matches_ = []) (hu : market.Uncrossed)
    (hok : (createOrder mq busDay s accnt market ref side lots ticks minLots now resp).thrown
      = none) :
    (createOrder mq busDay s accnt market ref side lots ticks minLots now resp).market.Ok
    ∧ (createOrder mq busDay s accnt market ref side lots ticks minLots now
        resp).market.Uncrossed := by
  have hmat := createOrderReserve_matches s accnt market ref side lots ticks minLots now resp
  rw [hm0, List.nil_append] at hmat
  obtain ⟨-, f2⟩ := createOrderReserve_fill s accnt market ref side lots ticks minLots now
    resp hm0
  obtain ⟨hid, ⟨n, hmk⟩, -, -, -⟩ :=
    createOrderReserve_footprint s accnt market ref side lots ticks minLots now resp
  obtain ⟨-, hmid, hin, hsd, -, hside⟩ :=
    createOrderReserve_order s accnt market ref side lots ticks minLots now resp
  have hticks := createOrderReserve_ticks s accnt market ref side lots ticks minLots now resp
  have hout := (createOrder_ok mq busDay s accnt market ref side lots ticks minLots now resp
    hok).2.2.2.2
  have hmarket : (createOrder mq busDay s accnt market ref side lots ticks minLots now
      resp).market = (createOrderCommit accnt now (createOrderReserve s accnt market ref side
        lots ticks minLots now resp)).market := by
    rw [hout]
  rw [hmarket, createOrderCommit_market]
  have hopp : (if side = Side.Buy then market.offerSide else market.bidSide)
      = market.opposite side := rfl
  rw [hopp] at hmat
  have hsorted : (market.opposite side).orders.Pairwise
      (fun a b => crosses side ticks b = true → crosses side ticks a = true) := by
    unfold Market.opposite
    cases side
    · simp only [if_true]
      have h := MarketSide.Ok.sorted _ hm.2.2.2.1
      rw [hm.2.1] at h
      apply List.Pairwise.imp _ h
      intro a b hab hb
      simp only [priceBefore, decide_eq_false_iff_not, not_lt] at hab
      simp only [crosses, decide_eq_true_eq] at hb ⊢
      exact le_trans hab hb
    · simp only [reduceCtorEq, if_false]
      have h := MarketSide.Ok.sorted _ hm.2.2.1
      rw [hm.1] at h
      apply List.Pairwise.imp _ h
      intro a b hab hb
      simp only [priceBefore, decide_eq_false_iff_not, not_lt] at hab
      simp only [crosses, decide_eq_true_eq] at hb ⊢
      exact le_trans hb hab
  have hfull := matchList_full_or_filled
    (Order.make accnt market.id market.instr market.settlDay (market.execSeq + 1) ref side
      lots ticks minLots now)
    (if side = Side.Buy then Direct.Paid else Direct.Given) now
    (market.opposite side).orders (market.execSeq + 1) 0 0
  rw [← hmat] at hfull
  have hspread : ∀ mk : Order, spread (Order.make accnt market.id market.instr market.settlDay
      (market.execSeq + 1) ref side lots ticks minLots now) mk
      (if side = Side.Buy then Direct.Paid else Direct.Given) > 0 →
      crosses side ticks mk = false := by
    intro mk h
    rw [← crosses_spread accnt market.id market.instr market.settlDay (market.execSeq + 1) ref
      side lots ticks minLots now mk]
    exact decide_eq_false (not_le.mpr h)
  have hresd0 : (Order.make accnt market.id market.instr market.settlDay (market.execSeq + 1)
      ref side lots ticks minLots now).resdLots = lots := rfl
  rw [hresd0] at hfull
  have hfld := hm.2.2.2.2.2
  have hb : ({ market with execSeq := market.execSeq + 1 + n } : Market).Ok :=
    Market.Ok.bump _ n (Market.Ok.bump market 1 hm)
  have hmakers0 : ∀ m ∈ (createOrderReserve s accnt market ref side lots ticks minLots now
      resp).serv.matches_, m.makerOrder ∈ (market.opposite side).orders := by
    intro m hm2
    rw [hmat] at hm2
    obtain ⟨seq2, mk, l2, sl, sc, hmk2, rfl⟩ := matchList_mem _ _ _ _ _ _ _ m hm2
    exact hmk2
  have hoppmem : ∀ y ∈ (market.opposite side).orders, y ∈ market.orders := by
    intro y hy
    unfold Market.opposite at hy
    by_cases hsb : side = Side.Buy
    · simp only [hsb, if_true] at hy
      exact List.mem_append_right _ hy
    · simp only [hsb, if_false] at hy
      exact List.mem_append_left _ hy
  have hnd : ((createOrderReserve s accnt market ref side lots ticks minLots now
      resp).serv.matches_.map (fun m => m.makerOrder)).Nodup := by
    rw [hmat]
    obtain ⟨rest, hrest, -⟩ := matchList_prefix
      (Order.make accnt market.id market.instr market.settlDay (market.execSeq + 1) ref
        side lots ticks minLots now)
      (if side = Side.Buy then Direct.Paid else Direct.Given) now
      (market.opposite side).orders (market.execSeq + 1) 0 0
    have hnd2 : (market.opposite side).orders.Nodup := by
      unfold Market.opposite
      by_cases hsb : side = Side.Buy
      · simp only [hsb, if_true]
        exact MarketSide.Ok.nodup _ hm.2.2.2.1
      · simp only [hsb, if_false]
        exact MarketSide.Ok.nodup _ hm.2.2.1
    rw [hrest] at hnd2
    exact List.Nodup.of_append_left hnd2
  clear hmat hout hmarket hok
  generalize createOrderReserve s accnt market ref side lots ticks minLots now resp = r at *
  have hnew : ∀ x ∈ market.orders, x.id < r.order.id := by
    intro x hx
    rw [hid]
    exact Nat.lt_succ_of_le (hfld x hx).1
  have hmakers : ∀ m ∈ r.serv.matches_, m.makerOrder ∈ market.orders :=
    fun m hm2 => hoppmem _ (hmakers0 m hm2)
  by_cases hd : r.order.done = true
  · -- the order is filled: nothing is added to the book
    rw [if_neg (by simp [hd])] at hmk
    have hr1 : r.market.Ok := by rw [hmk]; exact hb
    have hru : r.market.Uncrossed := by rw [hmk]; exact hu
    refine ⟨takeFold_ok now r.serv.matches_ r.market hr1 ?_ hnd,
      Market.Uncrossed.of_within _ _ (takeFold_within now r.serv.matches_ r.market) hru⟩
    intro m hm2
    rw [hmk]
    exact hmakers m hm2
  · -- the order rests: every maker that crosses was matched, and completely
    rw [if_pos (by simp [hd])] at hmk
    obtain ⟨hok2, hmem⟩ := Market.Ok_insertOrder
      ({ market with execSeq := market.execSeq + 1 + n } : Market) r.order hb hnew
      (by rw [hid]; exact Nat.le_add_right _ _) ⟨hmid, hin, hsd⟩
    rw [← hmk] at hok2 hmem
    have hmk3 : ∀ m ∈ r.serv.matches_, m.makerOrder ∈ r.market.orders :=
      fun m hm2 => (hmem _).mpr (Or.inr (hmakers m hm2))
    have hFok := takeFold_ok now r.serv.matches_ r.market hok2 hmk3 hnd
    refine ⟨hFok, ?_⟩
    rcases hfull with hfil | ⟨hfl, rest, hrest, hstop⟩
    · exfalso
      apply hd
      unfold Order.done
      rw [beq_iff_eq, f2]
      rw [Int.zero_add] at hfil
      rw [hfil]
      exact sub_self _
    · have hFmem := takeFold_full now r.serv.matches_ r.market hok2 hmk3 hnd hfl
      -- an opposite order that was not matched does not cross
      have hnc : ∀ y ∈ (market.opposite side).orders,
          (∀ m ∈ r.serv.matches_, y ≠ m.makerOrder) → crosses side ticks y = false := by
        intro y hy hne
        rw [hrest] at hsorted hy
        rcases List.mem_append.mp hy with h | h
        · obtain ⟨m, hm2, e⟩ := List.mem_map.mp h
          exact absurd e.symm (hne m hm2)
        · rcases hstop with e | ⟨mk, tl, e, hsp⟩
          · rw [e] at h; cases h
          · have hmknc := hspread mk hsp
            rw [e] at h hsorted
            rcases List.mem_cons.mp h with e2 | e2
            · rw [e2]; exact hmknc
            · have hp := (List.pairwise_append.mp hsorted).2.1
              rw [List.pairwise_cons] at hp
              cases hc : crosses side ticks y with
              | false => rfl
              | true =>
                have := hp.1 y e2 hc
                rw [hmknc] at this
                cases this
      -- where an order of the final book comes from
      have hfrom : ∀ y, y ∈ (r.serv.matches_.foldl
          (fun mk m => mk.takeOrder m.makerOrder m.lots now) r.market).orders →
          y = r.order ∨ (y ∈ market.orders ∧ ∀ m ∈ r.serv.matches_, y ≠ m.makerOrder) := by
        intro y hy
        obtain ⟨h1, h2⟩ := (hFmem y).mp hy
        rcases (hmem y).mp h1 with e | e
        · exact Or.inl e
        · exact Or.inr ⟨e, h2⟩
      intro b hbm a ham
      have hbs := (Market.Ok.side_of_mem _ b hFok).1 hbm
      have has := (Market.Ok.side_of_mem _ a hFok).2 ham
      have holdb : b ∈ market.orders → b ∈ market.bidSide.orders := by
        intro h
        rcases Market.Ok.mem_side market b hm h with ⟨-, h2⟩ | ⟨h1, -⟩
        · exact h2
        · rw [hbs] at h1; cases h1
      have holda : a ∈ market.orders → a ∈ market.offerSide.orders := by
        intro h
        rcases Market.Ok.mem_side market a hm h with ⟨h1, -⟩ | ⟨-, h2⟩
        · rw [has] at h1; cases h1
        · exact h2
      rcases hfrom b (List.mem_append_left _ hbm) with eb | ⟨hb1, hb2⟩
      · rcases hfrom a (List.mem_append_right _ ham) with ea | ⟨ha1, ha2⟩
        · rw [eb] at hbs
          rw [ea, hbs] at has
          cases has
        · have hs : side = Side.Buy := by rw [← hside, ← eb]; exact hbs
          have h := hnc a (by rw [hs]; exact holda ha1) ha2
          rw [hs] at h
          simp only [crosses, decide_eq_false_iff_not, not_le] at h
          rw [eb, hticks]
          exact h
      · rcases hfrom a (List.mem_append_right _ ham) with ea | ⟨ha1, ha2⟩
        · have hs : side = Side.Sell := by rw [← hside, ← ea]; exact has
          have h := hnc b (by rw [hs]; exact holdb hb1) hb2
          rw [hs] at h
          simp only [crosses, decide_eq_false_iff_not, not_le] at h
          rw [ea, hticks]
          exact h
        · exact hu b (holdb hb1) a (holda ha1)

/-- What the book of a call that brings in no new price keeps: best bid below best offer, and
every bid below every offer. -/
theorem Market.Within.uncrossed (m2 m : Market) (h : m2.Within m) (hm : m.Ok)
    (hb : m.BestUncrossed) : m2.BestUncrossed ∧ m2.Uncrossed :=
  ⟨Market.BestUncrossed.within m2 m h hm hb,
    Market.Uncrossed.of_within m2 m h ((Market.Ok.uncrossed_iff m hm).mpr hb)⟩

/-- C29 (the book is never left crossed).  Let the book of the market be well formed and let
its best bid price be strictly below its best offer price, or a side be empty.  After a
`createOrder` call that commits (entered with the scratch list `matches_` clear, as every call
leaves it) the same holds of the best prices, and every resting bid is priced strictly below
every resting offer: whenever both sides are non-empty the highest bid ticks is strictly less
than the lowest offer ticks.  After `reviseOrder` and `cancelOrder`, in each of their overloads
(by order, by id, by ref, batch of ids) and whether they commit or throw, the same holds of the
book they leave. -/
theorem book_never_crossed (mq : MsgQueue) (busDay : Time → JDay) (s : Serv) (accnt : Symbol)
    (market : Market) (ref : String) (side : Side) (lots : Lots) (ticks : Ticks)
    (minLots : Lots) (now : Time) (resp : Response)
    (hm : market.Ok) (hm0 : s.matches_ = []) (hbest : market.BestUncrossed) :
    ((createOrder mq busDay s accnt market ref side lots ticks minLots now resp).thrown = none →
      (createOrder mq busDay s accnt market ref side lots ticks minLots now
          resp).market.BestUncrossed
      ∧ (createOrder mq busDay s accnt market ref side lots ticks minLots now
          resp).market.Uncrossed)
    ∧ (∀ (order : Order) (l : Lots),
        (reviseOrder mq s accnt market order l now resp).market.BestUncrossed
        ∧ (reviseOrder mq s accnt market order l now resp).market.Uncrossed)
    ∧ (∀ (id : Id64) (l : Lots),
        (reviseOrderById mq s accnt market id l now resp).market.BestUncrossed
        ∧ (reviseOrderById mq s accnt market id l now resp).market.Uncrossed)
    ∧ (∀ (r : String) (l : Lots),
        (reviseOrderByRef mq s accnt market r l now resp).market.BestUncrossed
        ∧ (reviseOrderByRef mq s accnt market r l now resp).market.Uncrossed)
    ∧ (∀ (ids : List Id64) (l : Lots),
        (reviseOrderBatch mq s accnt market ids l now resp).market.BestUncrossed
        ∧ (reviseOrderBatch mq s accnt market ids l now resp).market.Uncrossed)
    ∧ (∀ (order : Order),
        (cancelOrder mq s accnt market order now resp).market.BestUncrossed
        ∧ (cancelOrder mq s accnt market order now resp).market.Uncrossed)
    ∧ (∀ (id : Id64),
        (cancelOrderById mq s accnt market id now resp).market.BestUncrossed
        ∧ (cancelOrderById mq s accnt market id now resp).market.Uncrossed)
    ∧ (∀ (r : String),
        (cancelOrderByRef mq s accnt market r now resp).market.BestUncrossed
        ∧ (cancelOrderByRef mq s accnt market r now resp).market.Uncrossed)
    ∧ (∀ (ids : List Id64),
        (cancelOrderBatch mq s accnt market ids now resp).market.BestUncrossed
        ∧ (cancelOrderBatch mq s accnt market ids now resp).market.Uncrossed) := by
  refine ⟨?_, ?_, ?_, ?_, ?_, ?_, ?_, ?_, ?_⟩
  · intro hok
    obtain ⟨h1, h2⟩ := createOrder_uncrossed mq busDay s accnt market ref side lots ticks
      minLots now resp hm hm0 ((Market.Ok.uncrossed_iff market hm).mpr hbest) hok
    exact ⟨(Market.Ok.uncrossed_iff _ h1).mp h2, h2⟩
  · intro order l
    exact Market.Within.uncrossed _ _ (reviseOrder_within mq s accnt market order l now resp)
      hm hbest
  · intro id l
    exact Market.Within.uncrossed _ _ (reviseOrderById_within mq s accnt market id l now resp)
      hm hbest
  · intro r l
    exact Market.Within.uncrossed _ _ (reviseOrderByRef_within mq s accnt market r l now resp)
      hm hbest
  · intro ids l
    exact Market.Within.uncrossed _ _ (reviseOrderBatch_within mq s accnt market ids l now resp)
      hm hbest
  · intro order
    exact Market.Within.uncrossed _ _ (cancelOrder_within mq s accnt market order now resp)
      hm hbest
  · intro id
    exact Market.Within.uncrossed _ _ (cancelOrderById_within mq s accnt market id now resp)
      hm hbest
  · intro r
    exact Market.Within.uncrossed _ _ (cancelOrderByRef_within mq s accnt market r now resp)
      hm hbest
  · intro ids
    exact Market.Within.uncrossed _ _ (cancelOrderBatch_within mq s accnt market ids now resp)
      hm hbest

/-- C29 applies: in the market of `exOutSpread` the best bid is 90 and the best offer 100; `B`
buys 8 @ 110, which lifts the offer at 100 and rests for 3 lots at 110: the best bid is then
110 and the best offer 120. -/
theorem book_never_crossed_witness :
    exOutSpread.market.bestBid = some 90 ∧ exOutSpread.market.bestOffer = some 100
    ∧ exOutLift.thrown = none
    ∧ exOutLift.market.bestBid = some 110 ∧ exOutLift.market.bestOffer = some 120
    ∧ exOutLift.market.BestUncrossed ∧ exOutLift.market.Uncrossed :=
  ⟨by decide, by decide, by decide, by decide, by decide,
   (book_never_crossed exMq exBusDay exOutSpread.serv "B" exOutSpread.market "" Side.Buy 8 110
      0 4 Response.empty (by unfold Market.Ok MarketSide.Ok Level.Ok; decide) (by decide)
      (by
        unfold Market.BestUncrossed
        rw [show exOutSpread.market.bestBid = some 90 from by decide,
          show exOutSpread.market.bestOffer = some 100 from by decide]
        show (90 : Ticks) < 100
        decide)).1 (by decide)⟩

end Swirly
